import Mathlib

/-!
# kilo: the row-oriented document model

A shallow embedding of the document part of `kilo.c` (rows, tab rendering,
syntax highlight arrays, row and character splicing, serialisation), of the
editing functions at the cursor (`editorInsertNewline`, `editorDelChar`,
`editorInsertChar`, `editorDeleteCurrentLine`, `editorMoveCursor`), of the
undo stack (`pushUndoOp`, `executeUndo`), of find mode (`editorFind`), of the
marking of the word at the cursor (`editorHighlightWordUnderCursor`), of key
decoding and dispatch (`editorReadKey`, `editorProcessKeypress`) and of the
cursor column and the row text of the frame (`editorRefreshScreen`), followed
by theorems about it.

Conventions of the embedding.

* A byte is a `Nat` below 256.  A C buffer is the `List Nat` of its bytes.
  `erow.chars` is the whole allocated buffer, terminator included, and
  `erow.size` is kept beside it exactly as in the C struct: the raw content of
  a row is `chars.take size`.
* `erow.render` holds the `rsize` rendered bytes; the terminator stored at
  `render[rsize]` is what `List.getD _ _ 0` reads there.
* `erow.hl` is the highlight array; the null pointer is the empty list.
* `editorConfig.row` is the allocated row array.  `editorDelRow` does not
  shrink it, so it can be longer than `numrows`; the rows of the document are
  `row.take numrows`.
* Row pointers `erow *` into `E.row` are positions in that list.
* The slot that `editorDelRow` leaves behind at `row[numrows]` is a copy of
  the last row of its own here; in C it shares the buffers of that row.  The
  evaluations of concrete documents below never read such a slot.
* The cursor fields `cx`, `cy`, `rowoff`, `coloff` are C `int`s and are `Int`
  here; a negative `rowoff + cy` or `coloff + cx` that the C code would use as
  an array offset gives `none`.
* Positions and lengths are C `int`s that the claims take non-negative; they
  are `Nat` here, without wrap-around except where the source mixes widths
  (`editorUpdateRow`, the `memset` length of the line comment).
* The scan of `editorUpdateSyntax` can leave the row: a store outside the
  highlight array, a scan position past the terminator of `render` and a read
  of `E.row[idx - 1]` outside the row array are not normal returns, the
  function gives `none` there.  The load of `render[rsize]` reads the
  terminator, 0.
* The string functions `strstr` and `strlen` read a buffer up to its first
  NUL byte (`cstr`).  The character classes `isspace`, `isdigit`, `isprint`,
  `isalnum` are those of the C locale, in which the editor runs.
* The keys that `editorFind` reads with `editorReadKey` are a list given in
  advance.  Of `editorRefreshScreen` only its effect on the editor state is
  kept, the call of `editorHighlightWordUnderCursor`; of
  `editorSetStatusMessage` the message, not its time stamp.
* The terminal is the list of the results of the calls of `read`; the frame
  is the list of the arguments of the calls of `abAppend`.  What
  `editorProcessKeypress` takes from outside the editor state (later keys, the
  time, the outcome of saving) is the parameter `keypressEnv`.
* A function returns `none` when the C call does not return normally
  (`exit(1)` in `editorUpdateRow`), when it is handed a position that is not
  a slot of the row array, when it reads or writes outside the arrays as
  described above, or when the bounded recursion that stands for the C
  recursion runs out of fuel.
-/

namespace Kilo

/-! ## Constants -/

abbrev HL_NORMAL : Nat := 0
abbrev HL_NONPRINT : Nat := 1
abbrev HL_COMMENT : Nat := 2
abbrev HL_MLCOMMENT : Nat := 3
abbrev HL_KEYWORD1 : Nat := 4
abbrev HL_KEYWORD2 : Nat := 5
abbrev HL_STRING : Nat := 6
abbrev HL_NUMBER : Nat := 7
abbrev HL_MATCH : Nat := 8
abbrev HL_UNDERLINE : Nat := 9

/-- The key code `TAB = 9` of `enum KEY_ACTION`, which is also the tab byte. -/
abbrev TAB : Nat := 9

/-- The macro `TAB_SIZE` of the header. -/
abbrev TAB_SIZE : Nat := 4

abbrev UINT32_MAX : Nat := 4294967295

/-! ## Data model -/

/-- The C `struct editorSyntax`; strings are byte lists without terminator. -/
structure editorSyntax where
  filematch : List (List Nat)
  keywords : List (List Nat)
  singleline_comment_start : List Nat
  multiline_comment_start : List Nat
  multiline_comment_end : List Nat
  flags : Nat
  deriving DecidableEq, Repr

/-- The C `struct erow`. -/
structure erow where
  idx : Nat
  size : Nat
  rsize : Nat
  chars : List Nat
  render : List Nat
  hl : List Nat
  hl_oc : Nat
  deriving DecidableEq, Repr, Inhabited

/-- The C `enum undo_type`. -/
inductive undo_type where
  | UNDO_DELETE_LINE
  | UNDO_DELETE_CHAR
  | UNDO_INSERT_CHAR
  | UNDO_INSERT_LINE
  deriving DecidableEq, Repr

/-- The C `struct undo_op` without its `next` pointer: the undo stack is the
list of its nodes, top first.  `data` is `none` for the null pointer. -/
structure undo_op where
  type : undo_type
  row : Int
  col : Int
  data : Option (List Nat)
  data_len : Int
  deriving DecidableEq, Repr

/-- The macro `MAX_UNDO_STACK`. -/
abbrev MAX_UNDO_STACK : Int := 100

/-- The fields of the C `struct editorConfig` that the document model uses.
`esyntax` is the field `syntax` of the source. -/
structure editorConfig where
  cx : Int := 0
  cy : Int := 0
  rowoff : Int := 0
  coloff : Int := 0
  screenrows : Int := 0
  screencols : Int := 0
  numrows : Nat := 0
  row : List erow := []
  dirty : Nat := 0
  esyntax : Option editorSyntax := none
  undo_stack : List undo_op := []
  undo_count : Int := 0
  statusmsg : List Nat := []
  deriving DecidableEq, Repr

/-- The raw content of a row: the first `size` bytes of its buffer. -/
def erow.raw (r : erow) : List Nat := r.chars.take r.size

/-- The rows of the document: the first `numrows` slots of the row array. -/
def editorConfig.rows (E : editorConfig) : List erow := E.row.take E.numrows

/-- Store a row into slot `r` of the row array. -/
def setRow (E : editorConfig) (r : Nat) (row : erow) : editorConfig :=
  { E with row := E.row.set r row }

/-! ## The C library -/

/-- The call `realloc(buf, n)`: the first `n` elements are kept; the elements
it adds are indeterminate in C and are `fill` here. -/
def realloc {α : Type} (fill : α) (buf : List α) (n : Nat) : List α :=
  (buf ++ List.replicate (n - buf.length) fill).take n

/-- The call `memmove(buf + dst, buf + src, n)`, for ranges inside `buf`. -/
def memmove {α : Type} (buf : List α) (dst src n : Nat) : List α :=
  buf.take dst ++ ((buf.drop src).take n ++ buf.drop (dst + n))

/-- The call `memcpy(buf + dst, s, n)`, for ranges inside `buf` and `s`. -/
def memcpy (buf : List Nat) (dst : Nat) (s : List Nat) (n : Nat) : List Nat :=
  buf.take dst ++ (s.take n ++ buf.drop (dst + n))

/-- The call `memset(buf + dst, v, n)` for a range inside `buf`.  For a range
that leaves `buf` nothing is stored and the buffer comes back as it is: a
caller whose range can leave the buffer tests the range and does not return
normally then (`scanLoop`). -/
def memset (buf : List Nat) (dst v n : Nat) : List Nat :=
  if dst + n ≤ buf.length then buf.take dst ++ (List.replicate n v ++ buf.drop (dst + n))
  else buf

/-- The function `isspace` in the C locale: space and `\t \n \v \f \r`. -/
def isspace (c : Nat) : Bool := c == 32 || (9 ≤ c && c ≤ 13)

/-- The function `isprint` in the C locale. -/
def isprint (c : Nat) : Bool := 32 ≤ c && c ≤ 126

/-- The function `isdigit`. -/
def isdigit (c : Nat) : Bool := 48 ≤ c && c ≤ 57

/-! ## Syntax highlighting -/

/-- The function `is_separator`: NUL, white space, or one of the fourteen
punctuation bytes of its `strchr` string (comma, dot, parentheses, plus, minus,
slash, star, equals, tilde, percent, square brackets, semicolon). -/
def is_separator (c : Nat) : Bool :=
  c == 0 || isspace c ||
    [44, 46, 40, 41, 43, 45, 47, 42, 61, 126, 37, 91, 93, 59].contains c

/-- The function `editorRowHasOpenComment`. -/
def editorRowHasOpenComment (row : erow) : Bool :=
  !row.hl.isEmpty && row.rsize != 0 &&
    row.hl.getD (row.rsize - 1) 0 == HL_MLCOMMENT &&
    (decide (row.rsize < 2) ||
      (row.render.getD (row.rsize - 2) 0 != 42 ||
        row.render.getD (row.rsize - 1) 0 != 47))

/-- The state of the scanning loop of `editorUpdateSyntax`; the pointer `p`
is `render + i` throughout. -/
structure scanState where
  i : Nat
  prev_sep : Bool
  in_string : Nat
  in_comment : Bool
  hl : List Nat
  deriving DecidableEq, Repr

/-- The test `!memcmp(p, kw, klen)` with `p = render + i`. -/
def memcmpEq (render : List Nat) (i : Nat) (kw : List Nat) (klen : Nat) : Bool :=
  (List.range klen).all (fun k => render.getD (i + k) 0 == kw.getD k 0)

/-- The keyword loop `for (j = 0; keywords[j]; j++)`: the length and class of
the first keyword of the list that matches at offset `i`, if any. -/
def matchKeyword (render : List Nat) (i : Nat) : List (List Nat) → Option (Nat × Bool)
  | [] => none
  | kw :: rest =>
    let kw2 : Bool := kw.getD (kw.length - 1) 0 == 124
    let klen : Nat := if kw2 then kw.length - 1 else kw.length
    if memcmpEq render i kw klen && is_separator (render.getD (i + klen) 0) then
      some (klen, kw2)
    else matchKeyword render i rest

/-- The length argument of `memset(row->hl + i, HL_COMMENT, row->size - i)`:
an `int` difference converted to `size_t`. -/
def commentLen (size i : Nat) : Nat := (((size : Int) - (i : Int)) % (2 : Int) ^ 64).toNat

/-- How one turn of the loop `while (*p)` of `editorUpdateSyntax` ends, with the
stores to `row->hl` that it makes, each as the first index and the number of
entries: the loop goes on in a new state, or the function leaves the loop
(`returned` for the `return` of the line comment). -/
inductive scanTurn where
  | next (writes : List (Nat × Nat)) (st : scanState)
  | stop (writes : List (Nat × Nat)) (hl : List Nat) (returned : Bool)
  deriving DecidableEq, Repr

/-- One turn of the loop `while (*p)` of `editorUpdateSyntax`, the test of
`*p` included. -/
def scanStep (S : editorSyntax) (row : erow) (st : scanState) : scanTurn :=
  let p := row.render.getD st.i 0
  let p1 := row.render.getD (st.i + 1) 0
  if p == 0 then scanTurn.stop [] st.hl false
  else if st.prev_sep && p == S.singleline_comment_start.getD 0 0 &&
      p1 == S.singleline_comment_start.getD 1 0 then
    scanTurn.stop [(st.i, commentLen row.size st.i)]
      (memset st.hl st.i HL_COMMENT (commentLen row.size st.i)) true
  else if st.in_comment then
    if p == S.multiline_comment_end.getD 0 0 && p1 == S.multiline_comment_end.getD 1 0 then
      scanTurn.next [(st.i, 1), (st.i + 1, 1)]
        { st with hl := (st.hl.set st.i HL_MLCOMMENT).set (st.i + 1) HL_MLCOMMENT,
                  i := st.i + 2, in_comment := false, prev_sep := true }
    else
      scanTurn.next [(st.i, 1)]
        { st with hl := st.hl.set st.i HL_MLCOMMENT, prev_sep := false, i := st.i + 1 }
  else if p == S.multiline_comment_start.getD 0 0 &&
      p1 == S.multiline_comment_start.getD 1 0 then
    scanTurn.next [(st.i, 1), (st.i + 1, 1)]
      { st with hl := (st.hl.set st.i HL_MLCOMMENT).set (st.i + 1) HL_MLCOMMENT,
                i := st.i + 2, in_comment := true, prev_sep := false }
  else if st.in_string != 0 then
    if p == 92 then
      scanTurn.next [(st.i, 1), (st.i + 1, 1)]
        { st with hl := (st.hl.set st.i HL_STRING).set (st.i + 1) HL_STRING,
                  i := st.i + 2, prev_sep := false }
    else
      scanTurn.next [(st.i, 1)]
        { st with hl := st.hl.set st.i HL_STRING,
                  in_string := if p == st.in_string then 0 else st.in_string,
                  i := st.i + 1 }
  else if p == 34 || p == 39 then
    scanTurn.next [(st.i, 1)]
      { st with in_string := p, hl := st.hl.set st.i HL_STRING, i := st.i + 1,
                prev_sep := false }
  else if !isprint p then
    scanTurn.next [(st.i, 1)]
      { st with hl := st.hl.set st.i HL_NONPRINT, i := st.i + 1, prev_sep := false }
  else if (isdigit p && (st.prev_sep || st.hl.getD (st.i - 1) 0 == HL_NUMBER)) ||
      (p == 46 && decide (st.i > 0) && st.hl.getD (st.i - 1) 0 == HL_NUMBER) then
    scanTurn.next [(st.i, 1)]
      { st with hl := st.hl.set st.i HL_NUMBER, i := st.i + 1, prev_sep := false }
  else
    match (if st.prev_sep then matchKeyword row.render st.i S.keywords else none) with
    | some (klen, kw2) =>
      scanTurn.next [(st.i, klen)]
        { st with hl := memset st.hl st.i (if kw2 then HL_KEYWORD2 else HL_KEYWORD1) klen,
                  i := st.i + klen, prev_sep := false }
    | none =>
      scanTurn.next [] { st with prev_sep := is_separator p, i := st.i + 1 }

/-- Whether every store of a turn, given as first index and number of entries,
lies inside an array of `n` entries. -/
def storesInside (w : List (Nat × Nat)) (n : Nat) : Bool :=
  w.all (fun s => decide (s.1 + s.2 ≤ n))

/-- The loop `while (*p)` of `editorUpdateSyntax`, the repetition of its turns.
The result is the highlight array and whether the function left through the
`return` of the line comment.  `none` when the scan position lies past the
terminator of `render`, where the C loop tests a byte that is not the row's,
when a turn stores outside the `st.hl.length` entries of the highlight array,
where the C loop writes memory that is not the row's, and when the fuel runs
out. -/
def scanLoop (S : editorSyntax) (row : erow) : Nat → scanState → Option (List Nat × Bool)
  | 0, _ => none
  | fuel + 1, st =>
    if row.render.length < st.i then none
    else
      match scanStep S row st with
      | scanTurn.stop w hl b => if storesInside w st.hl.length then some (hl, b) else none
      | scanTurn.next w st1 =>
        if storesInside w st.hl.length then scanLoop S row fuel st1 else none

/-- The loop `while (*p && isspace(*p))` that precedes the scan: the offset of
the first byte that is not white space. -/
def skipSpaces (render : List Nat) : Nat :=
  (render.takeWhile (fun c => c != 0 && isspace c)).length

/-- The test `row->idx > 0 && editorRowHasOpenComment(&E.row[row->idx - 1])`
that seeds `in_comment`; `none` when `E.row[idx - 1]` is not a slot of the row
array, where the C code reads memory that is not a row. -/
def seedComment (E : editorConfig) (idx : Nat) : Option Bool :=
  if idx > 0 then (E.row[idx - 1]?).map editorRowHasOpenComment else some false

/-- The function `editorUpdateSyntax(&E.row[r])`.  The recursion on the next
row is bounded by the fuel; `none` when it runs out, when `r` is not a slot,
when the row before `row->idx` is not a slot (`seedComment`) or when the scan
leaves the row (`scanLoop`). -/
def editorUpdateSyntax : Nat → editorConfig → Nat → Option editorConfig
  | 0, _, _ => none
  | fuel + 1, E, r =>
    match E.row[r]? with
    | none => none
    | some row =>
      let row0 : erow := { row with hl := List.replicate row.rsize HL_NORMAL }
      let E0 := setRow E r row0
      match E.esyntax with
      | none => some E0
      | some S =>
        match seedComment E0 row0.idx with
        | none => none
        | some in_comment =>
          match scanLoop S row0 (2 * row0.render.length + 2)
              { i := skipSpaces row0.render, prev_sep := true, in_string := 0,
                in_comment := in_comment, hl := row0.hl } with
          | none => none
          | some (hl, true) => some (setRow E r { row0 with hl := hl })
          | some (hl, false) =>
            let row1 : erow := { row0 with hl := hl }
            let E1 := setRow E r row1
            let oc : Nat := if editorRowHasOpenComment row1 then 1 else 0
            if row1.hl_oc != oc && decide (row1.idx + 1 < E1.numrows) then
              match editorUpdateSyntax fuel E1 (row1.idx + 1) with
              | none => none
              | some E2 => some (setRow E2 r { E2.row.getD r row1 with hl_oc := oc })
            else some (setRow E1 r { row1 with hl_oc := oc })

/-! ## Rows -/

/-- The loop `while ((idx + 1) % 8 != 0) row->render[idx++] = ' '`; `idx` is
the length of the output written so far. -/
def tabFill : Nat → List Nat → List Nat
  | 0, out => out
  | fuel + 1, out => if (out.length + 1) % 8 != 0 then tabFill fuel (out ++ [32]) else out

/-- The rendering loop of `editorUpdateRow` over the raw bytes. -/
def renderLoop : List Nat → List Nat → List Nat
  | [], out => out
  | c :: cs, out =>
    if c == TAB then renderLoop cs (tabFill 8 (out ++ [32]))
    else renderLoop cs (out ++ [c])

/-- The function `editorUpdateRow(&E.row[r])`. -/
def editorUpdateRow (E : editorConfig) (r : Nat) : Option editorConfig :=
  match E.row[r]? with
  | none => none
  | some row =>
    let tabs : Nat := (row.chars.take row.size).count TAB
    let nonprint : Nat := 0
    let allocsize : Nat := row.size + (tabs * 8) % 2 ^ 32 + (nonprint * 9) % 2 ^ 32 + 1
    if allocsize > UINT32_MAX then none
    else
      let malloced : Nat := (row.size + tabs * 8 + nonprint * 9 + 1) % 2 ^ 32
      let render := renderLoop (row.chars.take row.size) []
      if render.length + 1 > malloced then none
      else
        editorUpdateSyntax (E.numrows + 1)
          (setRow E r { row with render := render, rsize := render.length }) r

/-- The loop `for (j = lo; j < hi; j++) E.row[j].idx++`. -/
def idxIncr (rows : List erow) (lo hi : Nat) : List erow :=
  rows.take lo ++
    (((rows.drop lo).take (hi - lo)).map (fun r => { r with idx := r.idx + 1 }) ++
      rows.drop (lo + (hi - lo)))

/-- The function `editorInsertRow(at, s, len)`; `s` is the buffer that the
pointer `s` addresses, of which `len + 1` bytes are copied. -/
def editorInsertRow (E : editorConfig) (at_ : Nat) (s : List Nat) (len : Nat) :
    Option editorConfig :=
  if at_ > E.numrows then some E
  else
    let rows0 := realloc default E.row (E.numrows + 1)
    let rows1 :=
      if at_ != E.numrows then
        idxIncr (memmove rows0 (at_ + 1) at_ (E.numrows - at_)) (at_ + 1) (E.numrows + 1)
      else rows0
    let fresh : erow :=
      { idx := at_, size := len, rsize := 0, chars := memcpy (realloc 0 [] (len + 1)) 0 s (len + 1),
        render := [], hl := [], hl_oc := 0 }
    match editorUpdateRow { E with row := rows1.set at_ fresh } at_ with
    | none => none
    | some E1 => some { E1 with numrows := E1.numrows + 1, dirty := E1.dirty + 1 }

/-- The function `editorDelRow(at)`. -/
def editorDelRow (E : editorConfig) (at_ : Nat) : editorConfig :=
  if at_ >= E.numrows then E
  else
    let rows1 := memmove E.row at_ (at_ + 1) (E.numrows - at_ - 1)
    let rows2 := idxIncr rows1 at_ (E.numrows - 1)
    { E with row := rows2, numrows := E.numrows - 1, dirty := E.dirty + 1 }

/-- The first loop of `editorRowsToString`: `totlen += E.row[j].size + 1`. -/
def rowsTotlen : List erow → Nat → Nat
  | [], totlen => totlen
  | row :: rest, totlen => rowsTotlen rest (totlen + (row.size + 1))

/-- The second loop of `editorRowsToString`: each row is copied to `p` and a
newline is stored after it; `p` is the end of the output written so far. -/
def rowsCopy : List erow → List Nat → List Nat
  | [], out => out
  | row :: rest, out => rowsCopy rest ((out ++ row.chars.take row.size) ++ [10])

/-- The function `editorRowsToString`: the returned buffer, terminator
included, and the value stored in `*buflen`. -/
def editorRowsToString (E : editorConfig) : List Nat × Nat :=
  let totlen := rowsTotlen (E.row.take E.numrows) 0
  (rowsCopy (E.row.take E.numrows) [] ++ [0], totlen)

/-- The function `editorRowInsertChar(row, at, c)`; the null row pointer is
`none`, the pointer `&E.row[r]` is `some r`. -/
def editorRowInsertChar (E : editorConfig) (rowp : Option Nat) (at_ c : Nat) :
    Option editorConfig :=
  match rowp with
  | none => some E
  | some r =>
    match E.row[r]? with
    | none => none
    | some row =>
      let row1 : erow :=
        if at_ > row.size then
          let padlen := at_ - row.size
          let chars1 := realloc 0 row.chars (row.size + padlen + 2)
          let chars2 := memset chars1 row.size 32 padlen
          let chars3 := chars2.set (row.size + padlen + 1) 0
          { row with chars := chars3, size := row.size + (padlen + 1) }
        else
          let chars1 := realloc 0 row.chars (row.size + 2)
          let chars2 := memmove chars1 (at_ + 1) at_ (row.size - at_ + 1)
          { row with chars := chars2, size := row.size + 1 }
      let row2 : erow := { row1 with chars := row1.chars.set at_ (c % 256) }
      match editorUpdateRow (setRow E r row2) r with
      | none => none
      | some E1 => some { E1 with dirty := E1.dirty + 1 }

/-- The function `editorRowAppendString(&E.row[r], s, len)`. -/
def editorRowAppendString (E : editorConfig) (r : Nat) (s : List Nat) (len : Nat) :
    Option editorConfig :=
  match E.row[r]? with
  | none => none
  | some row =>
    let chars1 := realloc 0 row.chars (row.size + len + 1)
    let chars2 := memcpy chars1 row.size s len
    let size2 := row.size + len
    let chars3 := chars2.set size2 0
    match editorUpdateRow (setRow E r { row with chars := chars3, size := size2 }) r with
    | none => none
    | some E1 => some { E1 with dirty := E1.dirty + 1 }

/-- The function `editorRowDelChar(&E.row[r], at)`: the row is rendered
before its size is decremented. -/
def editorRowDelChar (E : editorConfig) (r at_ : Nat) : Option editorConfig :=
  match E.row[r]? with
  | none => none
  | some row =>
    if row.size ≤ at_ then some E
    else
      let chars1 := memmove row.chars at_ (at_ + 1) (row.size - at_)
      match editorUpdateRow (setRow E r { row with chars := chars1 }) r with
      | none => none
      | some E1 =>
        let row1 := E1.row.getD r row
        some { setRow E1 r { row1 with size := row1.size - 1 } with dirty := E1.dirty + 1 }

/-! ## Editing at the cursor -/

/-- The walk of `pushUndoOp` to the node before the last one and the removal
of the last node; a stack of fewer than two nodes is left as it is. -/
def dropOldest : List undo_op → List undo_op
  | [] => []
  | [a] => [a]
  | [a, _] => [a]
  | a :: b :: c :: rest => a :: dropOldest (b :: c :: rest)

/-- The function `pushUndoOp(type, row, col, data, data_len)`; `data` is the
buffer that the pointer addresses, `none` for the null pointer. -/
def pushUndoOp (E : editorConfig) (type : undo_type) (row col : Int) (data : Option (List Nat))
    (data_len : Int) : editorConfig :=
  let E1 : editorConfig :=
    if E.undo_count ≥ MAX_UNDO_STACK then
      if E.undo_stack.length ≥ 2 then
        { E with undo_stack := dropOldest E.undo_stack, undo_count := E.undo_count - 1 }
      else E
    else E
  let op : undo_op :=
    { type := type, row := row, col := col, data_len := data_len,
      data :=
        match data with
        | some d => if data_len > 0 then some (d.take data_len.toNat ++ [0]) else none
        | none => none }
  { E1 with undo_stack := op :: E1.undo_stack, undo_count := E1.undo_count + 1 }

/-- The code after the label `fixcursor` of `editorInsertNewline`. -/
def fixcursor (E : editorConfig) : editorConfig :=
  let E1 : editorConfig :=
    if E.cy = E.screenrows - 1 then { E with rowoff := E.rowoff + 1 }
    else { E with cy := E.cy + 1 }
  { E1 with cx := 0, coloff := 0 }

/-- The function `editorInsertNewline`.  A negative `filerow` or `filecol`
addresses memory before the arrays and is outside the model. -/
def editorInsertNewline (E : editorConfig) : Option editorConfig :=
  let filerow : Int := E.rowoff + E.cy
  let filecol : Int := E.coloff + E.cx
  if filerow < 0 then none
  else if filerow ≥ E.numrows then
    if filerow = E.numrows then
      match editorInsertRow E filerow.toNat [0] 0 with
      | none => none
      | some E1 => some (fixcursor E1)
    else some E
  else
    match E.row[filerow.toNat]? with
    | none => none
    | some row =>
      if filecol < 0 then none
      else
        let filecol1 : Nat := if filecol ≥ row.size then row.size else filecol.toNat
        if filecol1 = 0 then
          match editorInsertRow E filerow.toNat [0] 0 with
          | none => none
          | some E1 => some (fixcursor E1)
        else
          match editorInsertRow E (filerow.toNat + 1) (row.chars.drop filecol1)
              (row.size - filecol1) with
          | none => none
          | some E1 =>
            match E1.row[filerow.toNat]? with
            | none => none
            | some row1 =>
              match editorUpdateRow
                  (setRow E1 filerow.toNat
                    { row1 with chars := row1.chars.set filecol1 0, size := filecol1 })
                  filerow.toNat with
              | none => none
              | some E2 => some (fixcursor E2)

/-- The function `editorDelChar`.  A negative `filerow` or `filecol` addresses
memory before the arrays and is outside the model. -/
def editorDelChar (E : editorConfig) : Option editorConfig :=
  let filerow : Int := E.rowoff + E.cy
  let filecol : Int := E.coloff + E.cx
  if filerow < 0 then none
  else if filerow ≥ E.numrows ∨ (filecol = 0 ∧ filerow = 0) then some E
  else
    match E.row[filerow.toNat]? with
    | none => none
    | some row =>
      if filecol = 0 then
        match E.row[filerow.toNat - 1]? with
        | none => none
        | some prev =>
          let filecol1 : Int := prev.size
          match editorRowAppendString E (filerow.toNat - 1) row.chars row.size with
          | none => none
          | some E1 =>
            let E2 := editorDelRow E1 filerow.toNat
            let E3 : editorConfig :=
              if E2.cy = 0 then { E2 with rowoff := E2.rowoff - 1 }
              else { E2 with cy := E2.cy - 1 }
            let E4 : editorConfig := { E3 with cx := filecol1 }
            let E5 : editorConfig :=
              if E4.cx ≥ E4.screencols then
                let shift : Int := (E4.screencols - E4.cx) + 1
                { E4 with cx := E4.cx - shift, coloff := E4.coloff + shift }
              else E4
            some { E5 with dirty := E5.dirty + 1 }
      else if filecol < 0 then none
      else
        let E1 : editorConfig :=
          if filecol > 0 ∧ filecol ≤ row.size then
            pushUndoOp E undo_type.UNDO_DELETE_CHAR filerow (filecol - 1)
              (some [row.chars.getD (filecol.toNat - 1) 0]) 1
          else E
        match editorRowDelChar E1 filerow.toNat (filecol.toNat - 1) with
        | none => none
        | some E2 =>
          let E3 : editorConfig :=
            if E2.cx = 0 ∧ E2.coloff ≠ 0 then { E2 with coloff := E2.coloff - 1 }
            else { E2 with cx := E2.cx - 1 }
          match editorUpdateRow E3 filerow.toNat with
          | none => none
          | some E4 => some { E4 with dirty := E4.dirty + 1 }

/-- The case `BACKSPACE`, `CTRL_H`, `DEL_KEY` of the switch of
`editorProcessKeypress`: all three keys call `editorDelChar()`.  The reset of
the static `quit_times` after the switch is not part of this state. -/
def editorProcessKeypress_DEL_KEY (E : editorConfig) : Option editorConfig :=
  editorDelChar E

/-- The highlight array that the scan of `editorUpdateSyntax` computes for a
rendered row, started inside a block comment (`seed`) or outside. -/
def scanRow (S : Option editorSyntax) (row : erow) (seed : Bool) : Option (List Nat) :=
  match S with
  | none => some (List.replicate row.rsize HL_NORMAL)
  | some S =>
    match scanLoop S { row with hl := List.replicate row.rsize HL_NORMAL }
        (2 * row.render.length + 2)
        { i := skipSpaces row.render, prev_sep := true, in_string := 0, in_comment := seed,
          hl := List.replicate row.rsize HL_NORMAL } with
    | none => none
    | some (hl, _) => some hl

/-- The function `editorUpdateSyntax` together with the list of the row
positions that it scans, in the order of the calls. -/
def editorUpdateSyntaxTrace : Nat → editorConfig → Nat → Option (editorConfig × List Nat)
  | 0, _, _ => none
  | fuel + 1, E, r =>
    match E.row[r]? with
    | none => none
    | some row =>
      let row0 : erow := { row with hl := List.replicate row.rsize HL_NORMAL }
      let E0 := setRow E r row0
      match E.esyntax with
      | none => some (E0, [r])
      | some S =>
        match seedComment E0 row0.idx with
        | none => none
        | some in_comment =>
          match scanLoop S row0 (2 * row0.render.length + 2)
              { i := skipSpaces row0.render, prev_sep := true, in_string := 0,
                in_comment := in_comment, hl := row0.hl } with
          | none => none
          | some (hl, true) => some (setRow E r { row0 with hl := hl }, [r])
          | some (hl, false) =>
            let row1 : erow := { row0 with hl := hl }
            let E1 := setRow E r row1
            let oc : Nat := if editorRowHasOpenComment row1 then 1 else 0
            if row1.hl_oc != oc && decide (row1.idx + 1 < E1.numrows) then
              match editorUpdateSyntaxTrace fuel E1 (row1.idx + 1) with
              | none => none
              | some (E2, tr) =>
                some (setRow E2 r { E2.row.getD r row1 with hl_oc := oc }, r :: tr)
            else some (setRow E1 r { row1 with hl_oc := oc }, [r])

/-! ## Well-formed states -/

/-- A row without its highlight fields. -/
def erow.strip (r : erow) : erow := { r with hl := [], hl_oc := 0 }

/-- An editor state without its row array. -/
def editorConfig.frame (E : editorConfig) : editorConfig := { E with row := [] }

/-- The highlight array has one entry for each rendered byte. -/
def hlOK (r : erow) : Prop := r.hl.length = r.rsize

/-- The row's rendering does not exceed the line-length limit of
`editorUpdateRow`. -/
def lineFits (w : List Nat) : Prop := w.length + 8 * w.count TAB + 1 ≤ UINT32_MAX

/-- No slot of the row array carries an index below its position, so the
recursion of `editorUpdateSyntax` on `E.row[row->idx + 1]` moves forward. -/
def idxForward (E : editorConfig) : Prop :=
  ∀ j, j < E.row.length → j ≤ (E.row.getD j default).idx

/-- The buffer of a row holds its `size` bytes and a terminator after them. -/
def terminated (x : erow) : Prop := x.size < x.chars.length ∧ x.chars.getD x.size 0 = 0

/-- Every row of the document is a terminated buffer. -/
def rowsTerminated (E : editorConfig) : Prop :=
  ∀ j, j < E.numrows → terminated (E.row.getD j default)

/-- The states the editor works on: the row array holds the `numrows` rows,
row indices do not run behind positions, rows are terminated buffers. -/
def wellFormed (E : editorConfig) : Prop :=
  E.numrows ≤ E.row.length ∧ idxForward E ∧ rowsTerminated E

/-- Every row's `idx` field is its position. -/
def idxDense (E : editorConfig) : Prop :=
  ∀ j, j < E.numrows → (E.row.getD j default).idx = j

/-! ## Auxiliary definitions of the proofs -/

/-- What a call of `editorUpdateSyntax` on slot `r` leaves behind: nothing but
highlight fields changes, slot `r` has a highlight array of the rendered
length, and no other slot loses that property. -/
def synPost (E : editorConfig) (r : Nat) (E' : editorConfig) : Prop :=
  E'.frame = E.frame ∧ E'.row.map erow.strip = E.row.map erow.strip ∧
    hlOK (E'.row.getD r default) ∧
    ∀ j, hlOK (E.row.getD j default) → hlOK (E'.row.getD j default)

/-- The row that `editorUpdateRow` makes of `x`, up to its highlight fields. -/
def rendered (x : erow) : erow :=
  { x with render := renderLoop x.raw [], rsize := (renderLoop x.raw []).length }

/-- What a call of `editorUpdateRow` on slot `r`, which holds `row`, leaves
behind. -/
def rowPost (E : editorConfig) (r : Nat) (row : erow) (E' : editorConfig) : Prop :=
  E'.frame = E.frame ∧
    E'.row.map erow.strip = (E.row.set r (rendered row)).map erow.strip ∧
    hlOK (E'.row.getD r default) ∧
    ∀ j, j ≠ r → hlOK (E.row.getD j default) → hlOK (E'.row.getD j default)

/-- The state `E1` is what `editorUpdateRow` makes of `E` once `x` is stored in
slot `r`: the rendered `x` in slot `r`, every other slot as in `E`, up to
highlight fields, and highlight arrays of the rendered length. -/
def updated (E : editorConfig) (r : Nat) (x : erow) (E1 : editorConfig) : Prop :=
  E1.frame = E.frame ∧
    E1.row.map erow.strip = (E.row.set r (rendered x)).map erow.strip ∧
    hlOK (E1.row.getD r default) ∧
    ∀ j, j ≠ r → hlOK (E.row.getD j default) → hlOK (E1.row.getD j default)

/-- The row that `editorRowInsertChar` hands to `editorUpdateRow`. -/
def insertedRow (row : erow) (col c : Nat) : erow :=
  if row.size < col then
    { row with chars := row.raw ++ List.replicate (col - row.size) 32 ++ [c % 256, 0],
               size := col + 1 }
  else
    { row with chars := row.raw.take col ++ (c % 256) :: row.raw.drop col ++
                 [row.chars.getD row.size 0],
               size := row.size + 1 }

/-- What a row mutator that ends in `editorUpdateRow` and `E.dirty++` leaves
behind when it stores `x` in slot `r`. -/
def mutated (E : editorConfig) (r : Nat) (x : erow) (E' : editorConfig) : Prop :=
  E'.frame = { E.frame with dirty := E.dirty + 1 } ∧
    E'.row.length = E.row.length ∧
    (E'.row.getD r default).strip = (rendered x).strip ∧
    (∀ j, j ≠ r → (E'.row.getD j default).strip = (E.row.getD j default).strip) ∧
    hlOK (E'.row.getD r default) ∧
    (∀ j, j ≠ r → hlOK (E.row.getD j default) → hlOK (E'.row.getD j default)) ∧
    idxForward E'

/-- The row that `editorRowDelChar` hands to `editorUpdateRow`: the bytes are
shifted and the size is still the old one. -/
def shiftedRow (row : erow) (col : Nat) : erow :=
  { row with chars := memmove row.chars col (col + 1) (row.size - col) }

/-- The row that `editorRowAppendString` hands to `editorUpdateRow`. -/
def appendedRow (row : erow) (s : List Nat) (len : Nat) : erow :=
  { row with chars := row.raw ++ s.take len ++ [0], size := row.size + len }

/-- The increment `E.row[j].idx++`. -/
def bumpIdx (r : erow) : erow := { r with idx := r.idx + 1 }

/-- The row that `editorInsertRow` stores before it calls `editorUpdateRow`. -/
def freshRow (at_ : Nat) (s : List Nat) (len : Nat) : erow :=
  { idx := at_, size := len, rsize := 0, chars := s.take (len + 1), render := [], hl := [],
    hl_oc := 0 }

/-- The state in which `editorInsertRow` calls `editorUpdateRow`, with the new
row rendered: the rows from `at` on are moved up with `idx` incremented, the
new row stands in slot `at`, and `numrows` is not yet incremented. -/
def insertedState (E : editorConfig) (at_ : Nat) (s : List Nat) (len : Nat) : editorConfig :=
  { E with row := E.rows.take at_ ++
      rendered (freshRow at_ s len) :: (E.rows.drop at_).map bumpIdx }

/-! ## Definitions used in the statements -/

/-- The raw content that the specification gives for inserting the byte `c`
at column `col` of a row with raw content `w`: padded with spaces when `col`
lies past the end, spliced in place otherwise. -/
def spliceChar (w : List Nat) (col c : Nat) : List Nat :=
  if w.length < col then w ++ List.replicate (col - w.length) 32 ++ [c]
  else w.take col ++ c :: w.drop col

instance (w : List Nat) : Decidable (lineFits w) := by
  unfold lineFits
  infer_instance

instance (E : editorConfig) : Decidable (idxForward E) := by
  unfold idxForward
  infer_instance

instance (x : erow) : Decidable (terminated x) := by
  unfold terminated
  infer_instance

instance (E : editorConfig) : Decidable (rowsTerminated E) := by
  unfold rowsTerminated
  infer_instance

instance (E : editorConfig) : Decidable (wellFormed E) := by
  unfold wellFormed
  infer_instance

instance (E : editorConfig) : Decidable (idxDense E) := by
  unfold idxDense
  infer_instance

instance (r : erow) : Decidable (hlOK r) := by
  unfold hlOK
  infer_instance

/-- The rendered size is the number of rendered bytes. -/
def renderOK (r : erow) : Prop := r.render.length = r.rsize

/-- Every row of the document has one highlight entry for each rendered byte:
the highlight array and the rendered form both have `rsize` elements. -/
def hlInv (E : editorConfig) : Prop :=
  ∀ j, j < E.numrows → hlOK (E.row.getD j default) ∧ renderOK (E.row.getD j default)

instance (r : erow) : Decidable (renderOK r) := by
  unfold renderOK
  infer_instance

instance (E : editorConfig) : Decidable (hlInv E) := by
  unfold hlInv
  infer_instance

/-! ## The highlighting profile of the source and concrete documents -/

/-- The bytes of a string literal of the source. -/
def bytes (s : String) : List Nat := s.toList.map Char.toNat

/-- The array `C_HL_extensions`. -/
def C_HL_extensions : List (List Nat) :=
  [bytes ".c", bytes ".h", bytes ".cpp", bytes ".hpp", bytes ".cc"]

/-- The array `C_HL_keywords`. -/
def C_HL_keywords : List (List Nat) :=
  [bytes "auto", bytes "break", bytes "case", bytes "continue", bytes "default", bytes "do",
   bytes "else", bytes "enum", bytes "extern", bytes "for", bytes "goto", bytes "if",
   bytes "register", bytes "return", bytes "sizeof", bytes "static", bytes "struct",
   bytes "switch", bytes "typedef", bytes "union", bytes "volatile", bytes "while",
   bytes "NULL",
   bytes "alignas", bytes "alignof", bytes "and", bytes "and_eq", bytes "asm", bytes "bitand",
   bytes "bitor", bytes "class", bytes "compl", bytes "constexpr", bytes "const_cast",
   bytes "deltype", bytes "delete", bytes "dynamic_cast", bytes "explicit", bytes "export",
   bytes "false", bytes "friend", bytes "inline", bytes "mutable", bytes "namespace",
   bytes "new", bytes "noexcept", bytes "not", bytes "not_eq", bytes "nullptr",
   bytes "operator", bytes "or", bytes "or_eq", bytes "private", bytes "protected",
   bytes "public", bytes "reinterpret_cast", bytes "static_assert", bytes "static_cast",
   bytes "template", bytes "this", bytes "thread_local", bytes "throw", bytes "true",
   bytes "try", bytes "typeid", bytes "typename", bytes "virtual", bytes "xor",
   bytes "xor_eq",
   bytes "int|", bytes "long|", bytes "double|", bytes "float|", bytes "char|",
   bytes "unsigned|", bytes "signed|", bytes "void|", bytes "short|", bytes "auto|",
   bytes "const|", bytes "bool|"]

/-- The single entry of the table `HLDB`: the C and C++ profile. -/
def HLDB_C : editorSyntax :=
  { filematch := C_HL_extensions, keywords := C_HL_keywords,
    singleline_comment_start := [47, 47], multiline_comment_start := [47, 42],
    multiline_comment_end := [42, 47], flags := 3 }

/-- The document state of `initEditor`: no rows, no highlighting profile. -/
def exEmpty : editorConfig := {}

/-- The two-row document `a`, `b` without highlighting profile. -/
def exDoc : editorConfig :=
  { numrows := 2, dirty := 2,
    row := [{ idx := 0, size := 1, rsize := 1, chars := [97, 0], render := [97], hl := [0],
              hl_oc := 0 },
            { idx := 1, size := 1, rsize := 1, chars := [98, 0], render := [98], hl := [0],
              hl_oc := 0 }] }

/-- The two-row document `a`, `b` under the C profile. -/
def exDocC : editorConfig := { exDoc with esyntax := some HLDB_C }

/-- The one-row document `ab` without highlighting profile. -/
def exAb : editorConfig :=
  { numrows := 1, dirty := 1,
    row := [{ idx := 0, size := 2, rsize := 2, chars := [97, 98, 0], render := [97, 98],
              hl := [0, 0], hl_oc := 0 }] }

/-- The document with one empty row and no highlighting profile. -/
def exBlank : editorConfig :=
  { numrows := 1, dirty := 1,
    row := [{ idx := 0, size := 0, rsize := 0, chars := [0], render := [], hl := [],
              hl_oc := 0 }] }

/-! ## Definitions used in the statements on highlighting and the cursor -/

/-- The loop of `editorOpen` over the lines of the file, each line without its
newline: `editorInsertRow(E.numrows, line, linelen)`. -/
def insertLines : editorConfig → List (List Nat) → Option editorConfig
  | E, [] => some E
  | E, l :: ls =>
    match editorInsertRow E E.numrows (l ++ [0]) l.length with
    | none => none
    | some E1 => insertLines E1 ls

/-- Every row's highlight array is the result of scanning that row seeded
with the open-comment state of the row before it in the document. -/
def hlCorrect (E : editorConfig) : Prop :=
  ∀ j, j < E.numrows →
    scanRow E.esyntax (E.row.getD j default)
        (decide (j > 0) && editorRowHasOpenComment (E.row.getD (j - 1) default))
      = some (E.row.getD j default).hl

instance (E : editorConfig) : Decidable (hlCorrect E) := by
  unfold hlCorrect
  infer_instance

/-- The editor after `initEditor` on a terminal of 24 rows and 80 columns,
without highlighting profile. -/
def exInit : editorConfig := { screenrows := 22, screencols := 80 }

/-- The editor after `initEditor` and `editorSelectSyntaxHighlight` for a C
file on a terminal of 24 rows and 80 columns. -/
def exInitC : editorConfig := { screenrows := 22, screencols := 80, esyntax := some HLDB_C }

/-! ## Cursor movement -/

abbrev ARROW_LEFT : Int := 1000
abbrev ARROW_RIGHT : Int := 1001
abbrev ARROW_UP : Int := 1002
abbrev ARROW_DOWN : Int := 1003

/-- The function `editorMoveCursor(key)`.  A negative `filerow` addresses
memory before the row array and is outside the model, as is a read of a slot
that was never allocated. -/
def editorMoveCursor (E : editorConfig) (key : Int) : Option editorConfig :=
  let filerow : Int := E.rowoff + E.cy
  let filecol : Int := E.coloff + E.cx
  if filerow < 0 then none
  else
    let row : Option erow := if filerow ≥ E.numrows then none else E.row[filerow.toNat]?
    if filerow < E.numrows ∧ row.isNone then none
    else
      let moved : Option editorConfig :=
        if key = ARROW_LEFT then
          if E.cx = 0 then
            if E.coloff ≠ 0 then some { E with coloff := E.coloff - 1 }
            else if filerow > 0 then
              match E.row[filerow.toNat - 1]? with
              | none => none
              | some prev =>
                let E1 : editorConfig := { E with cy := E.cy - 1, cx := prev.size }
                if E1.cx > E1.screencols - 1 then
                  some { E1 with coloff := E1.cx - E1.screencols + 1, cx := E1.screencols - 1 }
                else some E1
            else some E
          else some { E with cx := E.cx - 1 }
        else if key = ARROW_RIGHT then
          match row with
          | none => some E
          | some r =>
            if filecol < r.size then
              if E.cx = E.screencols - 1 then some { E with coloff := E.coloff + 1 }
              else some { E with cx := E.cx + 1 }
            else if filecol = r.size then
              let E1 : editorConfig := { E with cx := 0, coloff := 0 }
              if E1.cy = E1.screenrows - 1 then some { E1 with rowoff := E1.rowoff + 1 }
              else some { E1 with cy := E1.cy + 1 }
            else some E
        else if key = ARROW_UP then
          if E.cy = 0 then
            if E.rowoff ≠ 0 then some { E with rowoff := E.rowoff - 1 } else some E
          else some { E with cy := E.cy - 1 }
        else if key = ARROW_DOWN then
          if filerow < E.numrows then
            if E.cy = E.screenrows - 1 then some { E with rowoff := E.rowoff + 1 }
            else some { E with cy := E.cy + 1 }
          else some E
        else some E
      match moved with
      | none => none
      | some E1 =>
        let filerow1 : Int := E1.rowoff + E1.cy
        let filecol1 : Int := E1.coloff + E1.cx
        if filerow1 < 0 then none
        else
          let row1 : Option erow :=
            if filerow1 ≥ E1.numrows then none else E1.row[filerow1.toNat]?
          if filerow1 < E1.numrows ∧ row1.isNone then none
          else
            let rowlen : Int := match row1 with
              | some r => r.size
              | none => 0
            if filecol1 > rowlen then
              let E2 : editorConfig := { E1 with cx := E1.cx - (filecol1 - rowlen) }
              if E2.cx < 0 then some { E2 with coloff := E2.coloff + E2.cx, cx := 0 }
              else some E2
            else some E1

/-- The state after `n` calls of `f`, each on the state the call before it
left. -/
def repeatCall (f : editorConfig → Option editorConfig) : Nat → editorConfig → Option editorConfig
  | 0, E => some E
  | n + 1, E =>
    match f E with
    | none => none
    | some E1 => repeatCall f n E1

/-- The document `ab` in a window of 22 rows and 80 columns with the cursor at
column 1. -/
def exAbMid : editorConfig := { exAb with cx := 1, screenrows := 22, screencols := 80 }

/-- The state after loading the rows `p`, 82 times `a`, `q` in a window of 22
rows and 80 columns and pressing `ARROW_DOWN` twice, a key that calls
`editorDelChar` once, and `ARROW_LEFT` 82 times. -/
def exJoined : Option editorConfig :=
  (((insertLines exInit [bytes "p", List.replicate 82 97, bytes "q"]).bind
    (repeatCall (fun E => editorMoveCursor E ARROW_DOWN) 2)).bind editorDelChar).bind
    (repeatCall (fun E => editorMoveCursor E ARROW_LEFT) 82)

/-! ## Definitions used in the statement on the comment cascade -/

/-- The close marker `*/` stands at rendered offset `j` of the row. -/
def closeAt (row : erow) (j : Nat) : Prop :=
  row.render.getD j 0 = 42 ∧ row.render.getD (j + 1) 0 = 47

instance (row : erow) (j : Nat) : Decidable (closeAt row j) := by
  unfold closeAt
  infer_instance

/-- The line-comment marker of the profile stands at rendered offset `j`. -/
def lineCommentAt (S : editorSyntax) (row : erow) (j : Nat) : Prop :=
  row.render.getD j 0 = S.singleline_comment_start.getD 0 0 ∧
    row.render.getD (j + 1) 0 = S.singleline_comment_start.getD 1 0

instance (S : editorSyntax) (row : erow) (j : Nat) : Decidable (lineCommentAt S row j) := by
  unfold lineCommentAt
  infer_instance

/-- A row of text: the rendered form has `rsize` bytes, none of them NUL, and
its first byte that is not white space does not start the line-comment
marker. -/
def textRow (S : editorSyntax) (row : erow) : Prop :=
  row.render.length = row.rsize ∧ (∀ j, j < row.rsize → row.render.getD j 0 ≠ 0) ∧
    ¬ lineCommentAt S row (skipSpaces row.render)

instance (S : editorSyntax) (row : erow) : Decidable (textRow S row) := by
  unfold textRow
  infer_instance

/-- The row has a rendered byte that is not white space. -/
def hasText (row : erow) : Prop := skipSpaces row.render < row.rsize

instance (row : erow) : Decidable (hasText row) := by
  unfold hasText
  infer_instance

/-- No close marker starts between rendered offset `s` and offset `e`. -/
def noCloseIn (row : erow) (s e : Nat) : Prop := ∀ j, j < e → s ≤ j → ¬ closeAt row j

instance (row : erow) (s e : Nat) : Decidable (noCloseIn row s e) := by
  unfold noCloseIn
  infer_instance

/-- The rows `/* a`, `  b`, `c */ d` under the C profile in a window of 22 rows
and 80 columns. -/
def exCascade : editorConfig :=
  { screenrows := 22, screencols := 80, esyntax := some HLDB_C, numrows := 3, dirty := 3,
    row := [{ idx := 0, size := 4, rsize := 4, chars := [47, 42, 32, 97, 0],
              render := [47, 42, 32, 97], hl := [3, 3, 3, 3], hl_oc := 1 },
            { idx := 1, size := 3, rsize := 3, chars := [32, 32, 98, 0],
              render := [32, 32, 98], hl := [0, 0, 3], hl_oc := 1 },
            { idx := 2, size := 6, rsize := 6, chars := [99, 32, 42, 47, 32, 100, 0],
              render := [99, 32, 42, 47, 32, 100], hl := [3, 3, 3, 3, 0, 0], hl_oc := 0 }] }


/-! ## Undo -/

/-- The function `editorSetStatusMessage` for a message that is already
formatted: `vsnprintf` stores at most 79 bytes of it.  The time stamp is not
part of the state. -/
def editorSetStatusMessage (E : editorConfig) (msg : List Nat) : editorConfig :=
  { E with statusmsg := msg.take 79 }

/-- The loop `while (E.numrows <= filerow) editorInsertRow(E.numrows, "", 0)`
of `editorInsertChar`. -/
def insertMissingRows : Nat → editorConfig → Int → Option editorConfig
  | 0, E, filerow => if (E.numrows : Int) ≤ filerow then none else some E
  | fuel + 1, E, filerow =>
    if (E.numrows : Int) ≤ filerow then
      match editorInsertRow E E.numrows [0] 0 with
      | none => none
      | some E1 => insertMissingRows fuel E1 filerow
    else some E

/-- The function `editorInsertChar(c)`.  A negative `filerow` or `filecol`
addresses memory before the arrays and is outside the model. -/
def editorInsertChar (E : editorConfig) (c : Int) : Option editorConfig :=
  let filerow : Int := E.rowoff + E.cy
  let filecol : Int := E.coloff + E.cx
  if filerow < 0 then none
  else
    match (if filerow ≥ E.numrows then
        insertMissingRows (filerow - E.numrows + 1).toNat E filerow else some E) with
    | none => none
    | some E1 =>
      let E2 := pushUndoOp E1 undo_type.UNDO_INSERT_CHAR filerow filecol none 0
      if filecol < 0 then none
      else
        match editorRowInsertChar E2 (some filerow.toNat) filecol.toNat (c % 256).toNat with
        | none => none
        | some E3 =>
          let E4 : editorConfig :=
            if E3.cx = E3.screencols - 1 then { E3 with coloff := E3.coloff + 1 }
            else { E3 with cx := E3.cx + 1 }
          some { E4 with dirty := E4.dirty + 1 }

/-- The function `editorDeleteCurrentLine`.  A negative `filerow` addresses
memory before the row array and is outside the model. -/
def editorDeleteCurrentLine (E : editorConfig) : Option editorConfig :=
  let filerow : Int := E.rowoff + E.cy
  if E.numrows = 0 then some E
  else if filerow ≥ E.numrows then some E
  else if filerow < 0 then none
  else
    match E.row[filerow.toNat]? with
    | none => none
    | some row =>
      let E1 := pushUndoOp E undo_type.UNDO_DELETE_LINE filerow 0 (some row.chars) row.size
      let E2 := editorDelRow E1 filerow.toNat
      let E3 : editorConfig :=
        if E2.numrows = 0 then { E2 with cy := 0, cx := 0, rowoff := 0, coloff := 0 }
        else if filerow ≥ E2.numrows then
          if E2.cy > 0 then { E2 with cy := E2.cy - 1 }
          else if E2.rowoff > 0 then { E2 with rowoff := E2.rowoff - 1 }
          else E2
        else E2
      some { E3 with cx := 0, coloff := 0 }

/-- The function `executeUndo`.  An entry with a negative row or column makes
the C code address memory before the arrays and is outside the model. -/
def executeUndo (E : editorConfig) : Option editorConfig :=
  match E.undo_stack with
  | [] => some (editorSetStatusMessage E (bytes "Nothing to undo"))
  | op :: rest =>
    let E1 : editorConfig := { E with undo_stack := rest, undo_count := E.undo_count - 1 }
    match op.type with
    | undo_type.UNDO_DELETE_LINE =>
      match op.data with
      | none => some E1
      | some d =>
        if op.row < 0 ∨ op.data_len < 0 then none
        else
          match editorInsertRow E1 op.row.toNat d op.data_len.toNat with
          | none => none
          | some E2 =>
            let E3 : editorConfig := { E2 with cy := 0, cx := 0, rowoff := op.row, coloff := 0 }
            let E4 : editorConfig :=
              if op.row < E3.screenrows then { E3 with cy := op.row, rowoff := 0 } else E3
            some (editorSetStatusMessage E4 (bytes "Line restored"))
    | undo_type.UNDO_DELETE_CHAR =>
      match op.data with
      | none => some E1
      | some d =>
        if op.row < E1.numrows then
          if op.row < 0 ∨ op.col < 0 then none
          else
            match editorRowInsertChar E1 (some op.row.toNat) op.col.toNat (d.getD 0 0) with
            | none => none
            | some E2 =>
              let E3 : editorConfig := { E2 with cy := op.row - E2.rowoff, cx := op.col + 1 }
              let E4 : editorConfig :=
                if E3.cy < 0 then { E3 with rowoff := E3.rowoff + E3.cy, cy := 0 }
                else if E3.cy ≥ E3.screenrows then
                  { E3 with rowoff := E3.rowoff + (E3.cy - E3.screenrows + 1),
                            cy := E3.screenrows - 1 }
                else E3
              some (editorSetStatusMessage E4 (bytes "Character restored"))
        else some E1
    | undo_type.UNDO_INSERT_CHAR =>
      if op.row < E1.numrows then
        if op.row < 0 then none
        else
          match E1.row[op.row.toNat]? with
          | none => none
          | some row =>
            if op.col < row.size then
              if op.col < 0 then none
              else
                match editorRowDelChar E1 op.row.toNat op.col.toNat with
                | none => none
                | some E2 =>
                  let E3 : editorConfig := { E2 with cy := op.row - E2.rowoff, cx := op.col }
                  some (editorSetStatusMessage E3 (bytes "Character insertion undone"))
            else some E1
      else some E1
    | undo_type.UNDO_INSERT_LINE =>
      if op.row < E1.numrows then
        if op.row < 0 then none
        else
          let E2 := editorDelRow E1 op.row.toNat
          let E3 : editorConfig :=
            if op.row ≤ E2.rowoff + E2.cy then
              if E2.cy > 0 then { E2 with cy := E2.cy - 1 }
              else if E2.rowoff > 0 then { E2 with rowoff := E2.rowoff - 1 }
              else E2
            else E2
          some (editorSetStatusMessage E3 (bytes "Line insertion undone"))
      else some E1

/-- The entry that `pushUndoOp` stores for the arguments held in `a`: the
payload is copied with a terminator when it is given and `data_len > 0`. -/
def storedOp (a : undo_op) : undo_op :=
  { a with data :=
      match a.data with
      | some d => if a.data_len > 0 then some (d.take a.data_len.toNat ++ [0]) else none
      | none => none }

/-- The call `pushUndoOp(a.type, a.row, a.col, a.data, a.data_len)`. -/
def pushOp (E : editorConfig) (a : undo_op) : editorConfig :=
  pushUndoOp E a.type a.row a.col a.data a.data_len

/-- The character insertions at the columns `0` to `n - 1` of row 0, as
arguments of `pushUndoOp`. -/
def exOps (n : Nat) : List undo_op :=
  (List.range n).map (fun k =>
    { type := undo_type.UNDO_INSERT_CHAR, row := 0, col := (k : Int), data := none,
      data_len := 0 })

/-- The entries that `executeUndo` can replay on the state `E` without leaving
the arrays or the line-length limit of `editorUpdateRow`: row, column and
length are not negative, a saved line is a terminated buffer of `data_len`
bytes, and the row that a character entry addresses can be re-rendered. -/
def undoReady (E : editorConfig) (op : undo_op) : Prop :=
  0 ≤ op.row ∧ 0 ≤ op.col ∧ 0 ≤ op.data_len ∧
    match op.type, op.data with
    | undo_type.UNDO_DELETE_LINE, some d =>
      op.data_len.toNat < d.length ∧ d.getD op.data_len.toNat 0 = 0 ∧
        lineFits (d.take op.data_len.toNat)
    | undo_type.UNDO_DELETE_CHAR, some d =>
      op.row.toNat < E.numrows →
        d.getD 0 0 < 256 ∧
          lineFits (spliceChar (E.row.getD op.row.toNat default).raw op.col.toNat (d.getD 0 0))
    | undo_type.UNDO_INSERT_CHAR, _ =>
      op.row.toNat < E.numrows → lineFits (E.row.getD op.row.toNat default).raw
    | _, _ => True

/-- The state after `editorInsertChar('x')` on the document `ab` with the
cursor at column 1. -/
def exTyped : editorConfig :=
  { cx := 2, screenrows := 22, screencols := 80, numrows := 1, dirty := 3,
    row := [{ idx := 0, size := 3, rsize := 3, chars := [97, 120, 98, 0],
              render := [97, 120, 98], hl := [0, 0, 0], hl_oc := 0 }],
    undo_stack := [{ type := undo_type.UNDO_INSERT_CHAR, row := 0, col := 1, data := none,
                     data_len := 0 }],
    undo_count := 1 }

/-- The state after loading the rows `a`, the empty row and `b` in a window of
22 rows and 80 columns and pressing `ARROW_DOWN` once: the cursor is on the
empty row. -/
def exOnEmptyRow : Option editorConfig :=
  (insertLines exInit [bytes "a", bytes "", bytes "b"]).bind
    (fun E => editorMoveCursor E ARROW_DOWN)

/-- The state after loading one row of 90 times `a` in a window of 22 rows and
80 columns, pressing `ARROW_RIGHT` 85 times and typing `x`. -/
def exTypedFar : Option editorConfig :=
  ((insertLines exInit [List.replicate 90 97]).bind
    (repeatCall (fun E => editorMoveCursor E ARROW_RIGHT) 85)).bind
    (fun E => editorInsertChar E 120)

/-! ## Definitions used in the statement on keywords -/

/-- The keyword is defined with the trailing marker `|` of the second
class. -/
def kwClass2 (kw : List Nat) : Bool := kw.getD (kw.length - 1) 0 == 124

/-- The number of bytes of the keyword that are compared with the text. -/
def kwLen (kw : List Nat) : Nat := if kwClass2 kw then kw.length - 1 else kw.length

/-- The keyword stands at rendered offset `i` and a separator follows it. -/
def kwMatches (render : List Nat) (i : Nat) (kw : List Nat) : Prop :=
  memcmpEq render i kw (kwLen kw) = true ∧ is_separator (render.getD (i + kwLen kw) 0) = true

instance (render : List Nat) (i : Nat) (kw : List Nat) : Decidable (kwMatches render i kw) := by
  unfold kwMatches
  infer_instance

/-- The row `auto int x` under the C profile, as `editorUpdateRow` leaves it. -/
def exKeywordRow : erow :=
  { idx := 0, size := 10, rsize := 10, chars := bytes "auto int x" ++ [0],
    render := bytes "auto int x", hl := [4, 4, 4, 4, 0, 5, 5, 5, 0, 0], hl_oc := 0 }

/-- The state in which the scan of `exKeywordRow` starts. -/
def exKeywordScan : scanState :=
  { i := 0, prev_sep := true, in_string := 0, in_comment := false,
    hl := List.replicate 10 HL_NORMAL }

/-! ## Rows that the scan does not leave -/

/-- A row that the scan under the C profile does not leave: the rendered form
has `rsize` bytes, the raw size is an `int` that is not above `rsize`, no
line-comment marker stands to the right of offset `size`, and the last
rendered byte is not a backslash. -/
def rowInside (x : erow) : Prop :=
  x.render.length = x.rsize ∧ x.size ≤ x.rsize ∧ x.size < 2 ^ 31 ∧
    (∀ i, i < x.rsize → lineCommentAt HLDB_C x i → i ≤ x.size) ∧
    x.render.getD (x.rsize - 1) 0 ≠ 92

instance (x : erow) : Decidable (rowInside x) := by
  unfold rowInside
  infer_instance

/-- A state in which the call `editorUpdateSyntax(&E.row[r])` stays inside the
arrays: no profile is selected, or the profile is the C profile and the rows
of the document and the row in slot `r` are rows that the scan does not leave,
with an `idx` that is at most the length of the row array. -/
def scanReady (E : editorConfig) (r : Nat) : Prop :=
  E.esyntax = none ∨
    (E.esyntax = some HLDB_C ∧
      ∀ j, j < E.row.length → (j < E.numrows ∨ j = r) →
        rowInside (E.row.getD j default) ∧ (E.row.getD j default).idx ≤ E.row.length)

instance (E : editorConfig) (r : Nat) : Decidable (scanReady E r) := by
  unfold scanReady
  infer_instance

/-- Every turn of the scan of `row` from a state with `n` highlight entries
and a scan position inside the rendered form stores inside the highlight
array, and the next scan position is inside the rendered form again. -/
def turnsInside (S : editorSyntax) (row : erow) (n : Nat) : Prop :=
  ∀ st : scanState, st.hl.length = n → st.i ≤ row.render.length →
    (∀ w st1, scanStep S row st = scanTurn.next w st1 →
      storesInside w n = true ∧ st1.i ≤ row.render.length) ∧
    (∀ w hl b, scanStep S row st = scanTurn.stop w hl b → storesInside w n = true)

/-! ## Word highlighting -/

/-- The C string that a buffer holds: its bytes before the first NUL. -/
def cstr (s : List Nat) : List Nat := s.takeWhile (fun c => c != 0)

/-- The offset of the first place where `needle` starts in `hay`. -/
def strstrFrom (needle : List Nat) : List Nat → Option Nat
  | [] => if needle.isEmpty then some 0 else none
  | c :: t =>
    if needle.isPrefixOf (c :: t) then some 0 else (strstrFrom needle t).map (fun k => k + 1)

/-- The function `strstr(hay, needle)` on C strings, as the offset of the
first occurrence from `hay`. -/
def strstr (hay needle : List Nat) : Option Nat := strstrFrom (cstr needle) (cstr hay)

/-- The function `isalnum` in the C locale. -/
def isalnum (c : Nat) : Bool := isdigit c || (65 ≤ c && c ≤ 90) || (97 ≤ c && c ≤ 122)

/-- The test `isalnum(c) || c == '_'` of the word functions. -/
def wordByte (c : Nat) : Bool := isalnum c || c == 95

/-- The loop `while (start > 0 && word byte at start - 1) start--` of
`editorGetWordAtCursor`. -/
def wordStartLoop (chars : List Nat) : Nat → Nat
  | 0 => 0
  | s + 1 => if wordByte (chars.getD s 0) then wordStartLoop chars s else s + 1

/-- The loop `while (end < row->size && word byte at end) end++` of
`editorGetWordAtCursor`, bounded by the fuel. -/
def wordEndLoop (chars : List Nat) (size : Nat) : Nat → Nat → Nat
  | 0, e => e
  | fuel + 1, e =>
    if e < size ∧ wordByte (chars.getD e 0) = true then wordEndLoop chars size fuel (e + 1)
    else e

/-- The function `editorGetWordAtCursor`: `some none` for the result 0,
`some (some (word, start, end))` for the result 1.  A negative `filerow` or
`filecol` addresses memory before the arrays and is outside the model. -/
def editorGetWordAtCursor (E : editorConfig) : Option (Option (List Nat × Nat × Nat)) :=
  let filerow : Int := E.rowoff + E.cy
  let filecol : Int := E.coloff + E.cx
  if filerow ≥ E.numrows then some none
  else if filerow < 0 then none
  else
    match E.row[filerow.toNat]? with
    | none => none
    | some row =>
      if filecol ≥ row.size then some none
      else if filecol < 0 then none
      else if !wordByte (row.chars.getD filecol.toNat 0) then some none
      else
        let start := wordStartLoop row.chars filecol.toNat
        let end_ := wordEndLoop row.chars row.size (row.size - filecol.toNat) filecol.toNat
        let word_len : Nat := if end_ - start > 255 then 255 else end_ - start
        let word := cstr ((row.chars.drop start).take word_len)
        if word_len > 0 then some (some (word, start, end_)) else some none

/-- The classes that the word marking leaves untouched. -/
def protectedHl (h : Nat) : Bool :=
  h == HL_MATCH || h == HL_COMMENT || h == HL_MLCOMMENT || h == HL_STRING

/-- The loop that clears `HL_UNDERLINE` in the first `rsize` entries of a
row's highlight array. -/
def clearUnderlineRow (row : erow) : erow :=
  let hl1 : List Nat :=
    (row.hl.take row.rsize).map (fun h => if h == HL_UNDERLINE then HL_NORMAL else h)
      ++ row.hl.drop row.rsize
  { row with hl := hl1 }

/-- The loop `for (j = 0; j < strlen(word) && match_start + j < row->rsize; j++)`
that marks one occurrence. -/
def markRange (rsize ms : Nat) : Nat → Nat → List Nat → List Nat
  | 0, _, hl => hl
  | n + 1, j, hl =>
    if ms + j < rsize then
      markRange rsize ms n (j + 1)
        (if protectedHl (hl.getD (ms + j) 0) then hl else hl.set (ms + j) HL_UNDERLINE)
    else hl

/-- The loop `while ((match = strstr(match, word)) != NULL)` on one row, with
`match = render + m`; bounded by the fuel. -/
def markRow (word : List Nat) (row : erow) : Nat → Nat → List Nat → List Nat
  | 0, _, hl => hl
  | fuel + 1, m, hl =>
    match strstr (row.render.drop m) word with
    | none => hl
    | some off =>
      let match_start := m + off
      let match_end := match_start + (cstr word).length
      let is_word_start : Bool :=
        match_start == 0 || !wordByte (row.render.getD (match_start - 1) 0)
      let is_word_end : Bool :=
        decide (match_end ≥ row.rsize) || !wordByte (row.render.getD match_end 0)
      let hl1 :=
        if is_word_start && is_word_end && !hl.isEmpty then
          markRange row.rsize match_start (cstr word).length 0 hl
        else hl
      markRow word row fuel (match_start + 1) hl1

/-- The function `editorHighlightWordUnderCursor`. -/
def editorHighlightWordUnderCursor (E : editorConfig) : Option editorConfig :=
  let E1 : editorConfig :=
    { E with row := (E.row.take E.numrows).map clearUnderlineRow ++ E.row.drop E.numrows }
  match editorGetWordAtCursor E1 with
  | none => none
  | some none => some E1
  | some (some (word, _, _)) =>
    let rows1 : List erow :=
      (E1.row.take E1.numrows).map
          (fun row => { row with hl := markRow word row (row.render.length + 1) 0 row.hl })
        ++ E1.row.drop E1.numrows
    some { E1 with row := rows1 }

/-! ## Find mode -/

abbrev CTRL_H : Int := 8
abbrev ENTER : Int := 13
abbrev ESC : Int := 27
abbrev BACKSPACE : Int := 127
abbrev DEL_KEY : Int := 1004
abbrev KILO_QUERY_LEN : Nat := 256

/-- The effect of `editorRefreshScreen` on the editor state: it calls
`editorHighlightWordUnderCursor`; what it writes to the terminal is not part of
the state. -/
def editorRefreshScreen (E : editorConfig) : Option editorConfig :=
  editorHighlightWordUnderCursor E

/-- The local variables of `editorFind`.  `query` holds the bytes of the C
string, so that `qlen` is its length; `saved_hl` is `none` for the null
pointer. -/
structure findState where
  query : List Nat := []
  last_match : Int := -1
  find_next : Int := 0
  saved_hl_line : Int := -1
  saved_hl : Option (List Nat) := none
  saved_cx : Int := 0
  saved_cy : Int := 0
  saved_coloff : Int := 0
  saved_rowoff : Int := 0
  deriving DecidableEq, Repr

/-- The block `FIND_RESTORE_HL` of `editorFind`. -/
def FIND_RESTORE_HL (fs : findState) (E : editorConfig) : Option (findState × editorConfig) :=
  match fs.saved_hl with
  | none => some (fs, E)
  | some saved =>
    if fs.saved_hl_line < 0 then none
    else
      match E.row[fs.saved_hl_line.toNat]? with
      | none => none
      | some row =>
        some ({ fs with saved_hl := none },
          setRow E fs.saved_hl_line.toNat { row with hl := memcpy row.hl 0 saved row.rsize })

/-- The loop `for (i = 0; i < E.numrows; i++)` of the search step of
`editorFind`: `some (some (current, match_offset))` when it leaves through
`break`, `some none` when it ends without a match.  A row index outside the
row array is outside the model. -/
def findLoop (E : editorConfig) (query : List Nat) (find_next : Int) :
    Nat → Int → Option (Option (Nat × Nat))
  | 0, _ => some none
  | n + 1, current =>
    let c1 : Int := current + find_next
    let c2 : Int :=
      if c1 = -1 then (E.numrows : Int) - 1 else if c1 = E.numrows then 0 else c1
    if c2 < 0 then none
    else
      match E.row[c2.toNat]? with
      | none => none
      | some row =>
        match strstr row.render query with
        | some off => some (some (c2.toNat, off))
        | none => findLoop E query find_next n c2

/-- The block `if (match) { ... }` of the search step: the match found in row
`current` at offset `off` is overlaid and the cursor is put on it. -/
def findHit (fs3 : findState) (E3 : editorConfig) (qlen current off : Nat) :
    Option (findState × editorConfig) :=
  match E3.row[current]? with
  | none => none
  | some row =>
    let fs4 : findState := { fs3 with last_match := (current : Int) }
    let fs5 : findState :=
      if !row.hl.isEmpty then
        { fs4 with saved_hl_line := (current : Int),
                   saved_hl := some (memcpy (List.replicate row.rsize 0) 0 row.hl row.rsize) }
      else fs4
    let E5 : editorConfig :=
      if !row.hl.isEmpty then
        setRow E3 current { row with hl := memset row.hl off HL_MATCH qlen }
      else E3
    let E6 : editorConfig :=
      { E5 with cy := 0, cx := (off : Int), rowoff := (current : Int), coloff := 0 }
    let E7 : editorConfig :=
      if E6.cx > E6.screencols then
        { E6 with cx := E6.cx - (E6.cx - E6.screencols),
                  coloff := E6.coloff + (E6.cx - E6.screencols) }
      else E6
    some (fs5, E7)

/-- The part `Search occurrence` of the body of the loop of `editorFind`. -/
def findSearch (fs : findState) (E : editorConfig) : Option (findState × editorConfig) :=
  let fs1 : findState := if fs.last_match = -1 then { fs with find_next := 1 } else fs
  if fs1.find_next ≠ 0 then
    match findLoop E fs1.query fs1.find_next E.numrows fs1.last_match with
    | none => none
    | some res =>
      match FIND_RESTORE_HL { fs1 with find_next := 0 } E with
      | none => none
      | some (fs3, E3) =>
        match res with
        | none => some (fs3, E3)
        | some (current, off) => findHit fs3 E3 fs1.query.length current off
  else some (fs1, E)

/-- The state of `editorFind` after a key: still in its loop, or returned. -/
inductive findStep where
  | running (fs : findState) (E : editorConfig)
  | done (E : editorConfig)
  deriving DecidableEq, Repr

/-- One turn of the loop `while (1)` of `editorFind` with the key `c` read by
`editorReadKey`. -/
def editorFindKey (fs : findState) (E : editorConfig) (c : Int) : Option findStep :=
  let E1 := editorSetStatusMessage E
    (bytes "Search: " ++ fs.query ++ bytes " (Use ESC/Arrows/Enter)")
  match editorRefreshScreen E1 with
  | none => none
  | some E2 =>
    if c = DEL_KEY ∨ c = CTRL_H ∨ c = BACKSPACE then
      let fs1 : findState :=
        { fs with query := if fs.query.length ≠ 0 then fs.query.dropLast else fs.query,
                  last_match := -1 }
      match findSearch fs1 E2 with
      | none => none
      | some (fs2, E3) => some (findStep.running fs2 E3)
    else if c = ESC ∨ c = ENTER then
      let E3 : editorConfig :=
        if c = ESC then
          { E2 with cx := fs.saved_cx, cy := fs.saved_cy, coloff := fs.saved_coloff,
                    rowoff := fs.saved_rowoff }
        else E2
      match FIND_RESTORE_HL fs E3 with
      | none => none
      | some (_, E4) => some (findStep.done (editorSetStatusMessage E4 []))
    else
      let fs1 : findState :=
        if c = ARROW_RIGHT ∨ c = ARROW_DOWN then { fs with find_next := 1 }
        else if c = ARROW_LEFT ∨ c = ARROW_UP then { fs with find_next := -1 }
        else if 32 ≤ c ∧ c ≤ 126 then
          if fs.query.length < KILO_QUERY_LEN then
            { fs with query := fs.query ++ [c.toNat], last_match := -1 }
          else fs
        else fs
      match findSearch fs1 E2 with
      | none => none
      | some (fs2, E3) => some (findStep.running fs2 E3)

/-- The loop of `editorFind` on the keys that `editorReadKey` returns, until
the function returns or the keys are used up. -/
def editorFindKeys (fs : findState) (E : editorConfig) : List Int → Option findStep
  | [] => some (findStep.running fs E)
  | c :: cs =>
    match editorFindKey fs E c with
    | none => none
    | some (findStep.done E1) => some (findStep.done E1)
    | some (findStep.running fs1 E1) => editorFindKeys fs1 E1 cs

/-- The function `editorFind` on the keys that `editorReadKey` returns. -/
def editorFind (E : editorConfig) (keys : List Int) : Option findStep :=
  editorFindKeys
    { saved_cx := E.cx, saved_cy := E.cy, saved_coloff := E.coloff, saved_rowoff := E.rowoff }
    E keys

/-! ## Definitions used in the statements on find mode -/

/-- The rows in the order in which a search step that starts next to row `m`
in direction `dir` visits them. -/
def scanOrder (n : Nat) (m dir : Int) : List Nat :=
  (List.range n).map (fun (i : Nat) => ((m + dir * ((i : Int) + 1)) % (n : Int)).toNat)

/-- The first row in the list `order` whose rendered form holds the query,
with the offset of the first occurrence in it. -/
def firstHit (E : editorConfig) (query : List Nat) (order : List Nat) : Option (Nat × Nat) :=
  order.findSome? (fun r =>
    (strstr (E.row.getD r default).render query).map (fun off => (r, off)))

/-- The state after loading the rows `x`, `a`, `x` in a window of 22 rows and
80 columns and pressing `ARROW_DOWN` once: the cursor is on the row `a`. -/
def exFindDoc : editorConfig :=
  { cy := 1, screenrows := 22, screencols := 80, numrows := 3, dirty := 3,
    row := [{ idx := 0, size := 1, rsize := 1, chars := [120, 0], render := [120], hl := [0],
              hl_oc := 0 },
            { idx := 1, size := 1, rsize := 1, chars := [97, 0], render := [97], hl := [0],
              hl_oc := 0 },
            { idx := 2, size := 1, rsize := 1, chars := [120, 0], render := [120], hl := [0],
              hl_oc := 0 }] }

/-- The direction of a search step: the statement
`if (last_match == -1) find_next = 1` applied to the local variables. -/
def searchDir (fs : findState) : Int := if fs.last_match = -1 then 1 else fs.find_next

/-- The saved highlight array, when there is one, belongs to a slot of the
row array. -/
def savedOK (fs : findState) (E : editorConfig) : Prop :=
  fs.saved_hl = none ∨ (0 ≤ fs.saved_hl_line ∧ fs.saved_hl_line.toNat < E.row.length)

instance (fs : findState) (E : editorConfig) : Decidable (savedOK fs E) := by
  unfold savedOK
  infer_instance

/-! ## Definitions used in the statements on word highlighting -/

/-- The columns `s .. e - 1` of the row's raw content are the word around
column `col`: a run of word bytes that holds `col` and is bounded on each side
by the end of the content or a byte that is not a word byte. -/
def isWordAt (row : erow) (col s e : Nat) : Prop :=
  s ≤ col ∧ col < e ∧ e ≤ row.size ∧
    (∀ k, k < e → s ≤ k → wordByte (row.chars.getD k 0) = true) ∧
    (s = 0 ∨ wordByte (row.chars.getD (s - 1) 0) = false) ∧
    (e = row.size ∨ wordByte (row.chars.getD e 0) = false)

instance (row : erow) (col s e : Nat) : Decidable (isWordAt row col s e) := by
  unfold isWordAt
  infer_instance

/-- The bytes in the columns `s .. e - 1` of the row's raw content. -/
def wordAt (row : erow) (s e : Nat) : List Nat := (row.chars.drop s).take (e - s)

/-- The word `w` occurs at offset `o` of the row's rendered form, read as a C
string, between the start of the row or a byte that is not a word byte and the
end of the row or a byte that is not a word byte. -/
def wordOccurrence (w : List Nat) (row : erow) (o : Nat) : Prop :=
  w <+: (cstr row.render).drop o ∧
    (o = 0 ∨ wordByte (row.render.getD (o - 1) 0) = false) ∧
    (row.rsize ≤ o + w.length ∨ wordByte (row.render.getD (o + w.length) 0) = false)

instance (w : List Nat) (row : erow) (o : Nat) : Decidable (wordOccurrence w row o) := by
  unfold wordOccurrence
  infer_instance

/-! ## Auxiliary definitions of the proofs on word highlighting -/

/-- The state `E` with another row array. -/
def withRows (E : editorConfig) (rows : List erow) : editorConfig := { E with row := rows }

/-- The row array after the clearing loop of `editorHighlightWordUnderCursor`. -/
def clearedRows (E : editorConfig) : List erow :=
  (E.row.take E.numrows).map clearUnderlineRow ++ E.row.drop E.numrows

/-- A row after the clearing loop and the marking of the word `w`. -/
def markedRow (w : List Nat) (row : erow) : erow :=
  { clearUnderlineRow row with
    hl := markRow w (clearUnderlineRow row) (row.render.length + 1) 0 (clearUnderlineRow row).hl }

/-- The row array after the clearing loop and the marking of the word `w`. -/
def markedRows (w : List Nat) (E : editorConfig) : List erow :=
  (E.row.take E.numrows).map (markedRow w) ++ E.row.drop E.numrows

/-- The state after loading the rows `foo = foo1 + foo; // foo` and
`"foo" foo` under the C profile in a window of 22 rows and 80 columns and
pressing `ARROW_RIGHT` once: the cursor is on the first `foo`. -/
def exWordDoc : editorConfig :=
  { cx := 1, screenrows := 22, screencols := 80, numrows := 2, dirty := 2,
    esyntax := some HLDB_C,
    row := [{ idx := 0, size := 24, rsize := 24,
              chars := bytes "foo = foo1 + foo; // foo" ++ [0],
              render := bytes "foo = foo1 + foo; // foo",
              hl := [0, 0, 0, 0, 0, 0, 0, 0, 0, 0, 0, 0, 0, 0, 0, 0, 0, 0, 2, 2, 2, 2, 2, 2],
              hl_oc := 0 },
            { idx := 1, size := 9, rsize := 9, chars := bytes "\"foo\" foo" ++ [0],
              render := bytes "\"foo\" foo", hl := [6, 6, 6, 6, 6, 0, 0, 0, 0], hl_oc := 0 }] }

/-- The state after loading one row that holds the bytes `foo`, a NUL byte and
`foo` in a window of 22 rows and 80 columns and pressing `ARROW_RIGHT` once. -/
def exWordNul : editorConfig :=
  { cx := 1, screenrows := 22, screencols := 80, numrows := 1, dirty := 1,
    row := [{ idx := 0, size := 7, rsize := 7, chars := [102, 111, 111, 0, 102, 111, 111, 0],
              render := [102, 111, 111, 0, 102, 111, 111], hl := [0, 0, 0, 0, 0, 0, 0],
              hl_oc := 0 }] }

/-! ## Definitions used in the statements on the search overlay -/

/-- Some byte of the row is classified `HL_MATCH`. -/
def hasMatch (row : erow) : Prop := HL_MATCH ∈ row.hl

instance (row : erow) : Decidable (hasMatch row) := by
  unfold hasMatch
  infer_instance

/-- No byte of any row of the document is classified `HL_MATCH`. -/
def noMatchRows (E : editorConfig) : Prop :=
  ∀ i, i < E.numrows → ¬ hasMatch (E.row.getD i default)

instance (E : editorConfig) : Decidable (noMatchRows E) := by
  unfold noMatchRows
  infer_instance

/-- At most one row of the document carries bytes classified `HL_MATCH`. -/
def atMostOneMatchRow (E : editorConfig) : Prop :=
  ∀ i, i < E.numrows → ∀ j, j < E.numrows →
    hasMatch (E.row.getD i default) → hasMatch (E.row.getD j default) → i = j

instance (E : editorConfig) : Decidable (atMostOneMatchRow E) := by
  unfold atMostOneMatchRow
  infer_instance

/-- The editor state after a step of find mode. -/
def findStep.state : findStep → editorConfig
  | findStep.running _ E => E
  | findStep.done E => E

/-- Whether `editorFind` has returned. -/
def findStep.returned : findStep → Bool
  | findStep.running _ _ => false
  | findStep.done _ => true

/-- The part of the invariant of the loop of `editorFind` on the overlay:
either nothing is saved and no row carries `HL_MATCH`, or the saved array is a
copy without `HL_MATCH` of the highlight array of the saved row, and no other
row carries `HL_MATCH`. -/
def overlayInv (fs : findState) (E : editorConfig) : Prop :=
  E.numrows ≤ E.row.length ∧ hlInv E ∧
    ((fs.saved_hl = none ∧ noMatchRows E) ∨
      (∃ s, fs.saved_hl = some s ∧ 0 ≤ fs.saved_hl_line ∧
        fs.saved_hl_line.toNat < E.numrows ∧
        s.length = (E.row.getD fs.saved_hl_line.toNat default).rsize ∧ HL_MATCH ∉ s ∧
        ∀ i, i < E.numrows → i ≠ fs.saved_hl_line.toNat →
          ¬ hasMatch (E.row.getD i default)))

/-- The invariant of the loop of `editorFind`. -/
def findInv (fs : findState) (E : editorConfig) : Prop :=
  overlayInv fs E ∧ 0 ≤ E.rowoff + E.cy ∧ 0 ≤ E.coloff + E.cx ∧
    -1 ≤ fs.last_match ∧ fs.last_match < E.numrows ∧
    (fs.find_next = 0 ∨ fs.find_next = 1 ∨ fs.find_next = -1)
/-! ## Key decoding -/

abbrev CTRL_C : Int := 3
abbrev CTRL_D : Int := 4
abbrev CTRL_F : Int := 6
abbrev CTRL_G : Int := 7
abbrev CTRL_L : Int := 12
abbrev CTRL_Q : Int := 17
abbrev CTRL_S : Int := 19
abbrev CTRL_U : Int := 21
abbrev HOME_KEY : Int := 1005
abbrev END_KEY : Int := 1006
abbrev PAGE_UP : Int := 1007
abbrev PAGE_DOWN : Int := 1008
abbrev UNDO_KEY : Int := 1009

/-- What one call `read(fd, buf, 1)` on the terminal gives: a byte (result 1),
nothing within the timeout (result 0), or an error (result -1). -/
inductive readResult where
  | byte (b : Nat)
  | timeout
  | error
  deriving DecidableEq, Repr

/-- The `int` value of a byte held in a variable of type `char`; `signedChar`
tells whether plain `char` is signed on the platform. -/
def charValue (signedChar : Bool) (b : Nat) : Int :=
  if signedChar && decide (b ≥ 128) then (b : Int) - 256 else (b : Int)

/-- The loop `while ((nread = read(fd, &c, 1)) == 0)` of `editorReadKey` and
the test of `nread == -1` after it, on the results of the calls of `read`: the
byte read and the results left.  An error ends the process with `exit(1)`; on
a stream of timeouts the loop does not end. -/
def readFirst : List readResult → Option (Nat × List readResult)
  | [] => none
  | readResult.timeout :: rest => readFirst rest
  | readResult.error :: _ => none
  | readResult.byte b :: rest => some (b, rest)

/-- The case `ESC` of the `switch` in the loop `while (1)` of `editorReadKey`:
the key and the results of `read` left.  A sequence that no `return` handles
leaves the `switch` through `break`, and the loop enters the case again, `c`
still being `ESC`.  After an error of `read` the code reads a byte of `seq`
that was never written, which is outside the model. -/
def readEscape : List readResult → Option (Int × List readResult)
  | [] => none
  | readResult.error :: _ => none
  | readResult.timeout :: rest => some (ESC, rest)
  | readResult.byte s0 :: rest =>
    if s0 = 117 then some (UNDO_KEY, rest)
    else
      match rest with
      | [] => none
      | readResult.error :: _ => none
      | readResult.timeout :: rest1 => some (ESC, rest1)
      | readResult.byte s1 :: rest1 =>
        if s0 = 91 then
          if 48 ≤ s1 ∧ s1 ≤ 57 then
            match rest1 with
            | [] => none
            | readResult.error :: _ => none
            | readResult.timeout :: rest2 => some (ESC, rest2)
            | readResult.byte s2 :: rest2 =>
              if s2 = 126 then
                if s1 = 49 then some (HOME_KEY, rest2)
                else if s1 = 51 then some (DEL_KEY, rest2)
                else if s1 = 52 then some (END_KEY, rest2)
                else if s1 = 53 then some (PAGE_UP, rest2)
                else if s1 = 54 then some (PAGE_DOWN, rest2)
                else if s1 = 55 then some (HOME_KEY, rest2)
                else if s1 = 56 then some (END_KEY, rest2)
                else readEscape rest2
              else readEscape rest2
          else if s1 = 65 then some (ARROW_UP, rest1)
          else if s1 = 66 then some (ARROW_DOWN, rest1)
          else if s1 = 67 then some (ARROW_RIGHT, rest1)
          else if s1 = 68 then some (ARROW_LEFT, rest1)
          else if s1 = 72 then some (HOME_KEY, rest1)
          else if s1 = 70 then some (END_KEY, rest1)
          else readEscape rest1
        else if s0 = 79 then
          if s1 = 72 then some (HOME_KEY, rest1)
          else if s1 = 70 then some (END_KEY, rest1)
          else readEscape rest1
        else readEscape rest1

/-- The function `editorReadKey(fd)` on the results of the calls of `read`:
the key it returns and the results left for later calls. -/
def editorReadKey (signedChar : Bool) (input : List readResult) :
    Option (Int × List readResult) :=
  match readFirst input with
  | none => none
  | some (c, rest) => if c = 27 then readEscape rest else some (charValue signedChar c, rest)

/-! ## Colours and the choice of the profile -/

/-- The function `editorSyntaxToColor`. -/
def editorSyntaxToColor (hl : Int) : Int :=
  if hl = HL_COMMENT ∨ hl = HL_MLCOMMENT then 36
  else if hl = HL_KEYWORD1 then 33
  else if hl = HL_KEYWORD2 then 32
  else if hl = HL_STRING then 35
  else if hl = HL_NUMBER then 31
  else if hl = HL_MATCH then 34
  else if hl = HL_UNDERLINE then 37
  else 37

/-- The table `HLDB` of the profiles. -/
def HLDB : List editorSyntax := [HLDB_C]

/-- The test of one pattern in `editorSelectSyntaxHighlight`: `strstr` finds
the pattern in the file name at `p`, and the pattern does not start with a dot
or `p[patlen]` is the terminator. -/
def patternSelects (filename pat : List Nat) : Bool :=
  match strstr filename pat with
  | none => false
  | some off => pat.getD 0 0 != 46 || filename.getD (off + (cstr pat).length) 0 == 0

/-- The loops of `editorSelectSyntaxHighlight` over the profiles and their
patterns: the profile that is assigned to `E.syntax`, if any. -/
def selectLoop (filename : List Nat) : List editorSyntax → Option editorSyntax
  | [] => none
  | s :: rest => if s.filematch.any (patternSelects filename) then some s else selectLoop filename rest

/-- The function `editorSelectSyntaxHighlight(filename)`. -/
def editorSelectSyntaxHighlight (E : editorConfig) (filename : List Nat) : editorConfig :=
  match selectLoop filename HLDB with
  | none => E
  | some s => { E with esyntax := some s }

/-- The row of the test `test_editorUpdateRow_tab_expansion`: the raw content
is one tab, nothing is rendered yet, no profile is active. -/
def exTabRow : editorConfig :=
  { numrows := 1,
    row := [{ idx := 0, size := 1, rsize := 0, chars := [9, 0], render := [], hl := [],
              hl_oc := 0 }] }

/-! ## The key dispatcher -/

abbrev KILO_QUIT_TIMES : Int := 3

/-- The text that `snprintf` writes for `%d`. -/
def decimal (n : Int) : List Nat := bytes (toString n)

/-- The function `editorGoToLine`. -/
def editorGoToLine (E : editorConfig) (line : Int) : editorConfig :=
  let line1 : Int := if line ≤ 0 then 1 else line
  let line2 : Int := if line1 > E.numrows then E.numrows else line1
  let line3 : Int := line2 - 1
  let E1 : editorConfig := { E with cy := 0, cx := 0, rowoff := line3, coloff := 0 }
  if line3 < E1.screenrows then { E1 with cy := line3, rowoff := 0 } else E1

/-- The function `atoi` on a string of digits; a value that does not fit an
`int` is undefined behaviour and gives `none`. -/
def atoi (s : List Nat) : Option Int :=
  let v : Nat := ((cstr s).takeWhile isdigit).foldl (fun acc c => 10 * acc + (c - 48)) 0
  if v < 2 ^ 31 then some (v : Int) else none

/-- The local variables of `editorGoTo`. -/
structure gotoState where
  query : List Nat := []
  saved_cx : Int := 0
  saved_cy : Int := 0
  saved_coloff : Int := 0
  saved_rowoff : Int := 0
  deriving DecidableEq, Repr

/-- The state of `editorGoTo` after a key: still in its loop, or returned. -/
inductive gotoStep where
  | running (gs : gotoState) (E : editorConfig)
  | done (E : editorConfig)
  deriving DecidableEq, Repr

/-- One turn of the loop `while (1)` of `editorGoTo` with the key `c` read by
`editorReadKey`. -/
def editorGoToKey (gs : gotoState) (E : editorConfig) (c : Int) : Option gotoStep :=
  let E1 := editorSetStatusMessage E
    (bytes "Go to line: " ++ gs.query ++ bytes " (Use ESC/Enter)")
  match editorRefreshScreen E1 with
  | none => none
  | some E2 =>
    let restored : editorConfig :=
      { E2 with cx := gs.saved_cx, cy := gs.saved_cy, coloff := gs.saved_coloff,
                rowoff := gs.saved_rowoff }
    if c = DEL_KEY ∨ c = CTRL_H ∨ c = BACKSPACE then
      if gs.query.length ≠ 0 then
        let q := gs.query.dropLast
        if q.length > 0 then
          match atoi q with
          | none => none
          | some v => some (gotoStep.running { gs with query := q } (editorGoToLine E2 v))
        else some (gotoStep.running { gs with query := q } restored)
      else some (gotoStep.running gs E2)
    else if c = ESC then some (gotoStep.done (editorSetStatusMessage restored []))
    else if c = ENTER then some (gotoStep.done (editorSetStatusMessage E2 []))
    else if 48 ≤ c ∧ c ≤ 57 then
      if gs.query.length < KILO_QUERY_LEN then
        let q := gs.query ++ [c.toNat]
        match atoi q with
        | none => none
        | some v => some (gotoStep.running { gs with query := q } (editorGoToLine E2 v))
      else some (gotoStep.running gs E2)
    else some (gotoStep.running gs E2)

/-- The loop of `editorGoTo` on the keys that `editorReadKey` returns. -/
def editorGoToKeys (gs : gotoState) (E : editorConfig) : List Int → Option gotoStep
  | [] => some (gotoStep.running gs E)
  | c :: cs =>
    match editorGoToKey gs E c with
    | none => none
    | some (gotoStep.done E1) => some (gotoStep.done E1)
    | some (gotoStep.running gs1 E1) => editorGoToKeys gs1 E1 cs

/-- The function `editorGoTo` on the keys that `editorReadKey` returns. -/
def editorGoTo (E : editorConfig) (keys : List Int) : Option gotoStep :=
  editorGoToKeys
    { saved_cx := E.cx, saved_cy := E.cy, saved_coloff := E.coloff, saved_rowoff := E.rowoff }
    E keys

/-- The function `editorSave`.  The calls of `open`, `ftruncate` and `write`
are outside the state: `err` is `none` when all three succeed and the text of
`strerror(errno)` otherwise. -/
def editorSave (E : editorConfig) (err : Option (List Nat)) : editorConfig :=
  match err with
  | none =>
    editorSetStatusMessage { E with dirty := 0 }
      (decimal (editorRowsToString E).2 ++ bytes " bytes written on disk")
  | some msg => editorSetStatusMessage E (bytes "Can't save! I/O error: " ++ msg)

/-- The state that `editorProcessKeypress` works on: the editor, the static
variable `quit_times`, and the fields `d_pressed` and `d_press_time` of `E`,
which are kept beside the editor state here. -/
structure keypressState where
  E : editorConfig
  quit_times : Int := KILO_QUIT_TIMES
  d_pressed : Int := 0
  d_press_time : Int := 0
  deriving DecidableEq, Repr

/-- What a call of `editorProcessKeypress` takes from outside the state: the
keys that `editorReadKey` returns to `editorFind` and `editorGoTo`, the value
of `time(NULL)`, and the outcome of the system calls of `editorSave`. -/
structure keypressEnv where
  keys : List Int := []
  now : Int := 0
  save_error : Option (List Nat) := none

/-- How a call of `editorProcessKeypress` ends: it returns, or the process
ends with `exit(code)`. -/
inductive keypressResult where
  | returned (st : keypressState)
  | exited (code : Int)
  deriving DecidableEq, Repr

/-- The loop `while (first_nonspace < row->size && ...)` of the case
`HOME_KEY`. -/
def firstNonspace (row : erow) : Nat :=
  ((row.chars.take row.size).takeWhile (fun c => c == 32 || c == 9)).length

/-- The case `END_KEY` of `editorProcessKeypress`. -/
def keyEnd (E : editorConfig) : Option editorConfig :=
  let filerow : Int := E.rowoff + E.cy
  if filerow < E.numrows then
    if filerow < 0 then none
    else
      match E.row[filerow.toNat]? with
      | none => none
      | some row =>
        let end_ : Int := row.rsize
        if end_ < E.coloff then some { E with coloff := 0, cx := 0 }
        else if end_ ≥ E.coloff + E.screencols then
          some { E with coloff := end_ - E.screencols + 1, cx := E.screencols - 1 }
        else some { E with cx := end_ - E.coloff }
  else some E

/-- The case `HOME_KEY` of `editorProcessKeypress`. -/
def keyHome (E : editorConfig) : Option editorConfig :=
  let filerow : Int := E.rowoff + E.cy
  if filerow < E.numrows then
    if filerow < 0 then none
    else
      match E.row[filerow.toNat]? with
      | none => none
      | some row =>
        let first_nonspace : Int := firstNonspace row
        if first_nonspace ≥ E.coloff + E.screencols then
          some { E with coloff := first_nonspace - E.screencols + 1, cx := E.screencols - 1 }
        else if first_nonspace < E.coloff then
          some { E with coloff := first_nonspace, cx := 0 }
        else some { E with cx := first_nonspace - E.coloff }
  else some { E with coloff := 0, cx := 0 }

/-- The cases `CTRL_U`, `PAGE_UP`, `PAGE_DOWN`, `CTRL_D` of
`editorProcessKeypress`.  A negative `screenrows` makes the loop
`while (times--)` run until the counter wraps around, which is outside the
model. -/
def keyPage (E : editorConfig) (c : Int) : Option editorConfig :=
  let up : Bool := decide (c = PAGE_UP ∨ c = CTRL_U)
  let E1 : editorConfig :=
    if up ∧ E.cy ≠ 0 then { E with cy := 0 }
    else if (c = PAGE_DOWN ∨ c = CTRL_D) ∧ E.cy ≠ E.screenrows - 1 then
      { E with cy := E.screenrows - 1 }
    else E
  if E1.screenrows < 0 then none
  else
    repeatCall (fun E2 => editorMoveCursor E2 (if up then ARROW_UP else ARROW_DOWN))
      E1.screenrows.toNat E1

/-- The cases of the `switch` of `editorProcessKeypress` other than `CTRL_Q`,
up to the `break` that ends each of them. -/
def keyHandler (env : keypressEnv) (st : keypressState) (c : Int) : Option keypressState :=
  if c = ENTER then
    (editorInsertNewline st.E).map (fun E1 => { st with E := E1, d_pressed := 0 })
  else if c = CTRL_C then some st
  else if c = CTRL_S then some { st with E := editorSave st.E env.save_error }
  else if c = CTRL_F then
    match editorFind st.E env.keys with
    | some (findStep.done E1) => some { st with E := E1 }
    | _ => none
  else if c = BACKSPACE ∨ c = CTRL_H ∨ c = DEL_KEY then
    (editorDelChar st.E).map (fun E1 => { st with E := E1 })
  else if c = CTRL_U ∨ c = PAGE_UP ∨ c = PAGE_DOWN ∨ c = CTRL_D then
    (keyPage st.E c).map (fun E1 => { st with E := E1 })
  else if c = ARROW_UP ∨ c = ARROW_DOWN ∨ c = ARROW_LEFT ∨ c = ARROW_RIGHT then
    (editorMoveCursor st.E c).map (fun E1 => { st with E := E1, d_pressed := 0 })
  else if c = CTRL_L then some st
  else if c = 9 then
    (repeatCall (fun E1 => editorInsertChar E1 32) TAB_SIZE st.E).map
      (fun E1 => { st with E := E1 })
  else if c = ESC then some st
  else if c = END_KEY then (keyEnd st.E).map (fun E1 => { st with E := E1 })
  else if c = HOME_KEY then (keyHome st.E).map (fun E1 => { st with E := E1 })
  else if c = CTRL_G then
    match editorGoTo st.E env.keys with
    | some (gotoStep.done E1) => some { st with E := E1 }
    | _ => none
  else if c = UNDO_KEY then
    (executeUndo st.E).map (fun E1 => { st with E := E1, d_pressed := 0 })
  else if c = 100 then
    if st.d_pressed ≠ 0 ∧ env.now - st.d_press_time ≤ 1 then
      ((editorDelChar st.E).bind editorDeleteCurrentLine).map
        (fun E1 => { st with E := editorSetStatusMessage E1 (bytes "Line deleted"),
                             d_pressed := 0 })
    else
      (editorInsertChar st.E 100).map
        (fun E1 => { st with E := E1, d_pressed := 1, d_press_time := env.now })
  else (editorInsertChar st.E c).map (fun E1 => { st with E := E1, d_pressed := 0 })

/-- The function `editorProcessKeypress` with the key `c` that its call of
`editorReadKey` returns. -/
def editorProcessKeypress (env : keypressEnv) (st : keypressState) (c : Int) :
    Option keypressResult :=
  if c = CTRL_Q then
    if st.E.dirty ≠ 0 ∧ st.quit_times ≠ 0 then
      some (keypressResult.returned
        { st with E := editorSetStatusMessage st.E
                    (bytes "WARNING!!! File has unsaved changes. Press Ctrl-Q " ++
                      decimal st.quit_times ++ bytes " more times to quit."),
                  quit_times := st.quit_times - 1 })
    else some (keypressResult.exited 0)
  else
    (keyHandler env st c).map
      (fun st1 => keypressResult.returned { st1 with quit_times := KILO_QUIT_TIMES })

/-- The state after loading the one row that holds a tab and `x` in a window
of 22 rows and 80 columns, without highlighting profile. -/
def exTabX : editorConfig :=
  { screenrows := 22, screencols := 80, numrows := 1, dirty := 1,
    row := [{ idx := 0, size := 2, rsize := 8, chars := [9, 120, 0],
              render := [32, 32, 32, 32, 32, 32, 32, 120], hl := [0, 0, 0, 0, 0, 0, 0, 0],
              hl_oc := 0 }] }

/-! ## Definitions used in the statements on the cursor position -/

/-- The pair `(rowoff + cy, coloff + cx)` addresses a row of the document at a
raw column from 0 to its length, or the row after the last one at column 0. -/
def cursorValid (E : editorConfig) : Prop :=
  0 ≤ E.rowoff + E.cy ∧
    ((E.rowoff + E.cy < E.numrows ∧ 0 ≤ E.coloff + E.cx ∧
        E.coloff + E.cx ≤ ((E.row.getD (E.rowoff + E.cy).toNat default).size : Int)) ∨
      (E.rowoff + E.cy = E.numrows ∧ E.coloff + E.cx = 0))

instance (E : editorConfig) : Decidable (cursorValid E) := by
  unfold cursorValid
  infer_instance

/-- The cursor lies inside the window and the scroll offsets are not
negative. -/
def inWindow (E : editorConfig) : Prop :=
  0 ≤ E.cx ∧ E.cx < E.screencols ∧ 0 ≤ E.cy ∧ E.cy < E.screenrows ∧ 0 ≤ E.rowoff ∧
    0 ≤ E.coloff

instance (E : editorConfig) : Decidable (inWindow E) := by
  unfold inWindow
  infer_instance

/-! ## Auxiliary definitions of the proofs on the cursor position -/

/-- The `switch` of `editorMoveCursor`, for a state whose cursor row is not
before the row array. -/
def moveStep (E : editorConfig) (key : Int) : Option editorConfig :=
  let filerow : Int := E.rowoff + E.cy
  let filecol : Int := E.coloff + E.cx
  let row : Option erow := if filerow ≥ E.numrows then none else E.row[filerow.toNat]?
  if key = ARROW_LEFT then
    if E.cx = 0 then
      if E.coloff ≠ 0 then some { E with coloff := E.coloff - 1 }
      else if filerow > 0 then
        match E.row[filerow.toNat - 1]? with
        | none => none
        | some prev =>
          let E1 : editorConfig := { E with cy := E.cy - 1, cx := prev.size }
          if E1.cx > E1.screencols - 1 then
            some { E1 with coloff := E1.cx - E1.screencols + 1, cx := E1.screencols - 1 }
          else some E1
      else some E
    else some { E with cx := E.cx - 1 }
  else if key = ARROW_RIGHT then
    match row with
    | none => some E
    | some r =>
      if filecol < r.size then
        if E.cx = E.screencols - 1 then some { E with coloff := E.coloff + 1 }
        else some { E with cx := E.cx + 1 }
      else if filecol = r.size then
        let E1 : editorConfig := { E with cx := 0, coloff := 0 }
        if E1.cy = E1.screenrows - 1 then some { E1 with rowoff := E1.rowoff + 1 }
        else some { E1 with cy := E1.cy + 1 }
      else some E
  else if key = ARROW_UP then
    if E.cy = 0 then
      if E.rowoff ≠ 0 then some { E with rowoff := E.rowoff - 1 } else some E
    else some { E with cy := E.cy - 1 }
  else if key = ARROW_DOWN then
    if filerow < E.numrows then
      if E.cy = E.screenrows - 1 then some { E with rowoff := E.rowoff + 1 }
      else some { E with cy := E.cy + 1 }
    else some E
  else some E

/-- The part `Fix cx if the current line has not enough chars` of
`editorMoveCursor`. -/
def fixCx (E1 : editorConfig) : Option editorConfig :=
  let filerow1 : Int := E1.rowoff + E1.cy
  let filecol1 : Int := E1.coloff + E1.cx
  if filerow1 < 0 then none
  else
    let row1 : Option erow :=
      if filerow1 ≥ E1.numrows then none else E1.row[filerow1.toNat]?
    if filerow1 < E1.numrows ∧ row1.isNone then none
    else
      let rowlen : Int := match row1 with
        | some r => r.size
        | none => 0
      if filecol1 > rowlen then
        let E2 : editorConfig := { E1 with cx := E1.cx - (filecol1 - rowlen) }
        if E2.cx < 0 then some { E2 with coloff := E2.coloff + E2.cx, cx := 0 }
        else some E2
      else some E1

/-- The state after loading the rows `a`, `b`, `c` in a window of 2 rows and 80
columns and pressing `ARROW_DOWN` twice and `ARROW_UP` once: the window starts
at the second row and the cursor is on its first line. -/
def exScrolled : Option editorConfig :=
  ((insertLines { screenrows := 2, screencols := 80 } [bytes "a", bytes "b", bytes "c"]).bind
    (repeatCall (fun E => editorMoveCursor E ARROW_DOWN) 2)).bind
    (fun E => editorMoveCursor E ARROW_UP)

/-- The state after loading a row of 82 times `a` and the row `q` in a window
of 22 rows and 80 columns and pressing `ARROW_DOWN` once: the cursor is at the
start of the second row. -/
def exLongPair : Option editorConfig :=
  (insertLines exInit [List.replicate 82 97, bytes "q"]).bind
    (fun E => editorMoveCursor E ARROW_DOWN)

/-! ## The frame of `editorRefreshScreen` -/

/-- The loop `while (max_lineno > 0) { lineno_width++; max_lineno /= 10; }`,
bounded by the fuel. -/
def digitLoop : Nat → Nat → Nat → Nat
  | 0, _, w => w
  | fuel + 1, n, w => if n > 0 then digitLoop fuel (n / 10) (w + 1) else w

/-- The variable `lineno_width` of `editorRefreshScreen`: the width of the
line number margin. -/
def linenoWidth (E : editorConfig) : Nat :=
  (if E.numrows > 0 then digitLoop E.numrows E.numrows 0 else 1) + 2

/-- The loop `for (j = E.coloff; j < (E.cx + E.coloff); j++)` that computes the
column of the cursor; `n` turns are left. -/
def cursorLoop (row : erow) : Nat → Nat → Int → Int
  | 0, _, cx => cx
  | n + 1, j, cx =>
    let cx1 : Int := if j < row.size ∧ row.chars.getD j 0 = TAB then cx + (7 - cx % 8) else cx
    cursorLoop row n (j + 1) (cx1 + 1)

/-- The column that `editorRefreshScreen` writes in its last cursor position
escape `ESC [ row ; column H`.  With a negative `coloff` or cursor row the
loop reads before the arrays, which is outside the model. -/
def cursorColumn (E : editorConfig) : Option Int :=
  let cx0 : Int := (linenoWidth E : Int) + 1
  let filerow : Int := E.rowoff + E.cy
  if filerow ≥ E.numrows then some cx0
  else if filerow < 0 ∨ E.coloff < 0 then none
  else
    match E.row[filerow.toNat]? with
    | none => none
    | some row => some (cursorLoop row E.cx.toNat E.coloff.toNat cx0)

/-- The text that `snprintf(lnbuf, sizeof(lnbuf), "%*d ", width, n)` writes. -/
def lineNumberText (width n : Nat) : List Nat :=
  List.replicate (width - (decimal n).length) 32 ++ decimal n ++ [32]

/-- The local variables of the loop over the bytes of a row in
`editorRefreshScreen`, and what it has appended for each byte so far: one list
of `abAppend` arguments for each turn. -/
structure drawState where
  current_color : Int := -1
  cells : List (List (List Nat)) := []
  deriving DecidableEq, Repr

/-- One turn `j` of the loop `for (j = 0; j < len; j++, screen_col++,
source_col++)` that draws the bytes of a row.  The test `c[j] <= 26` is made
on the byte as a number from 0 to 255; where plain `char` is signed a byte
from 128 on passes it too, which changes the symbol drawn for it, not the
number of columns. -/
def drawCell (E : editorConfig) (r : erow) (lineno_width : Nat) (ds : drawState) (j : Nat) :
    drawState :=
  let coloff : Nat := E.coloff.toNat
  let c : Nat := r.render.getD (coloff + j) 0
  let hl : Nat := r.hl.getD (coloff + j) 0
  let screen_col : Nat := lineno_width + j
  let source_col : Nat := coloff + j
  let is_leading_space : Bool :=
    (List.range source_col).all
      (fun k => !(decide (k + coloff < r.rsize) && r.render.getD (k + coloff) 0 != 32))
  let should_draw_indent_guide : Bool :=
    c == 32 && source_col % TAB_SIZE == 0 && decide (source_col > 0) && is_leading_space
  let is_colorcol : Bool := screen_col == 80
  let pre : List (List Nat) := if is_colorcol then [[27] ++ bytes "[7m"] else []
  let post : List (List Nat) := if is_colorcol then [[27] ++ bytes "[0m"] else []
  if should_draw_indent_guide then
    { ds with cells := ds.cells ++
        [pre ++ [[27] ++ bytes "[2m", bytes "|", [27] ++ bytes "[0m"] ++ post] }
  else if hl == HL_NONPRINT then
    let sym : Nat := if c ≤ 26 then 64 + c else 63
    { ds with cells := ds.cells ++
        [pre ++ [[27] ++ bytes "[7m", [sym], [27] ++ bytes "[0m"] ++ post] }
  else if hl == HL_NORMAL then
    let reset : List (List Nat) :=
      if ds.current_color ≠ -1 then [[27] ++ bytes "[39m"] else []
    { current_color := -1, cells := ds.cells ++ [pre ++ reset ++ [[c]] ++ post] }
  else
    let color : Int := editorSyntaxToColor hl
    let set : List (List Nat) :=
      if color ≠ ds.current_color then
        if hl == HL_UNDERLINE then [[27] ++ bytes "[" ++ decimal color ++ bytes ";4m"]
        else [[27] ++ bytes "[" ++ decimal color ++ bytes "m"]
      else if hl == HL_UNDERLINE then [[27] ++ bytes "[4m"]
      else []
    let unset : List (List Nat) := if hl == HL_UNDERLINE then [[27] ++ bytes "[24m"] else []
    { current_color := color, cells := ds.cells ++ [pre ++ set ++ [[c]] ++ unset ++ post] }

/-- The start of a line of the frame for a row of the document: the arguments
of the `abAppend` calls for the line number margin, and those of the loop over
the bytes of the row, one list for each byte drawn (none when `len <= 0`).
What the frame appends to the line after that loop is not part of this
definition. -/
def drawRowStart (E : editorConfig) (filerow : Nat) :
    Option (List (List Nat) × List (List (List Nat))) :=
  if E.coloff < 0 then none
  else
    match E.row[filerow]? with
    | none => none
    | some r =>
      let lineno_width := linenoWidth E
      let len0 : Int := (r.rsize : Int) - E.coloff
      let margin : List (List Nat) :=
        [[27] ++ bytes "[90m", lineNumberText (lineno_width - 1) (filerow + 1),
         [27] ++ bytes "[39m"]
      if len0 > 0 then
        let len : Int :=
          if len0 > E.screencols - lineno_width then E.screencols - lineno_width else len0
        some (margin,
          ((List.range len.toNat).foldl (drawCell E r lineno_width) {}).cells)
      else some (margin, [])

/-- The number of columns that a list of `abAppend` arguments takes on the
terminal: an argument that starts with `ESC` is a control sequence and takes
none, every other one is text of printable bytes. -/
def columnsOf (chunks : List (List Nat)) : Nat :=
  (chunks.map (fun s => if s.getD 0 0 == 27 then 0 else s.length)).sum

/-- The column of the terminal, counted from 1, at which the frame draws the
byte at offset `coloff + j` of the rendered form of row `filerow`. -/
def drawnColumn (E : editorConfig) (filerow j : Nat) : Option Nat :=
  match drawRowStart E filerow with
  | none => none
  | some (margin, cells) =>
    if j < cells.length then some (columnsOf margin + columnsOf (cells.take j).flatten + 1)
    else none

/-! ## The scan of `editorUpdateSyntax`, turn by turn -/

/-- The scan positions `i` at which the loop `while (*p)` tests `*p`, in order,
and the stores to `row->hl` that the loop makes, each as the first index and
the number of entries; bounded by the fuel. -/
def scanTrace (S : editorSyntax) (row : erow) : Nat → scanState → List Nat × List (Nat × Nat)
  | 0, st => ([st.i], [])
  | fuel + 1, st =>
    match scanStep S row st with
    | scanTurn.stop w _ _ => ([st.i], w)
    | scanTurn.next w st1 =>
      (st.i :: (scanTrace S row fuel st1).1, w ++ (scanTrace S row fuel st1).2)

/-- The row that holds a double quote and a backslash, as `editorUpdateRow`
renders it; its highlight array holds the stores of the scan under the C
profile that lie inside the array. -/
def exEscapeRow : erow :=
  { idx := 0, size := 2, rsize := 2, chars := [34, 92, 0], render := [34, 92], hl := [6, 6],
    hl_oc := 0 }

/-- The row that holds a tab and `//`, as `editorUpdateRow` renders it; its
highlight array holds the two entries of the line comment. -/
def exTabCommentRow : erow :=
  { idx := 0, size := 3, rsize := 9, chars := [9, 47, 47, 0],
    render := [32, 32, 32, 32, 32, 32, 32, 47, 47], hl := [0, 0, 0, 0, 0, 0, 0, 2, 2],
    hl_oc := 0 }

/-! ## Documents on which the scan leaves the row -/

/-- The state in which `editorUpdateSyntax` enters the loop `while (*p)` on a
row: at the first byte that is not white space, at a separator boundary,
outside a string, inside a comment when `seed` says so, with every entry of
the highlight array `HL_NORMAL`. -/
def scanStart (row : erow) (seed : Bool) : scanState :=
  { i := skipSpaces row.render, prev_sep := true, in_string := 0, in_comment := seed,
    hl := List.replicate row.rsize HL_NORMAL }

/-- The editor after `initEditor` on a terminal of 24 rows and 80 columns with
the profile `S`, or none. -/
def exInitWith (S : Option editorSyntax) : editorConfig :=
  { screenrows := 22, screencols := 80, esyntax := S }

/-- The file with the one line of a tab and a slash, loaded with the profile
`S`. -/
def exTabSlash (S : Option editorSyntax) : Option editorConfig :=
  insertLines (exInitWith S) [[9, 47]]

/-- The document of `exTabSlash` with the cursor moved to the end of the line
by two presses of `ARROW_RIGHT`. -/
def exTabSlashEnd (S : Option editorSyntax) : Option editorConfig :=
  ((exTabSlash S).bind (fun E => editorMoveCursor E ARROW_RIGHT)).bind
    (fun E => editorMoveCursor E ARROW_RIGHT)

/-- The file with the one line of a tab and `/x/ab`, loaded with the profile
`S`. -/
def exTabSlashX (S : Option editorSyntax) : Option editorConfig :=
  insertLines (exInitWith S) [[9, 47, 120, 47, 97, 98]]

/-- The file with the two lines of a double quote and of a backslash, loaded
with the profile `S`. -/
def exQuoteBackslash (S : Option editorSyntax) : Option editorConfig :=
  insertLines (exInitWith S) [[34], [92]]

/-- The file with the one line `ab`, a tab and `//cde`, loaded with the profile
`S`, with the cursor moved behind `ab` by two presses of `ARROW_RIGHT`. -/
def exTabbedComment (S : Option editorSyntax) : Option editorConfig :=
  ((insertLines (exInitWith S) [[97, 98, 9, 47, 47, 99, 100, 101]]).bind
      (fun E => editorMoveCursor E ARROW_RIGHT)).bind
    (fun E => editorMoveCursor E ARROW_RIGHT)

/-- The file with the two lines `/*` and a tab with `ab //`, loaded with the
profile `S`, after `ARROW_DOWN`, the deletion of the second line
(`editorDeleteCurrentLine`), `ARROW_UP` and `ENTER` at the start of the first
line: the rows are the empty row and `/*`, and the deleted line is the top
entry of the undo stack. -/
def exPendingLine (S : Option editorSyntax) : Option editorConfig :=
  ((((insertLines (exInitWith S) [[47, 42], [9, 97, 98, 32, 47, 47]]).bind
        (fun E => editorMoveCursor E ARROW_DOWN)).bind
      editorDeleteCurrentLine).bind
    (fun E => editorMoveCursor E ARROW_UP)).bind editorInsertNewline

/-! ## Lemmas on the highlight scan -/

theorem memset_length (buf : List Nat) (dst v n : Nat) :
    (memset buf dst v n).length = buf.length := by
  unfold memset
  split
  · simp only [List.length_append, List.length_take, List.length_replicate, List.length_drop]
    omega
  · rfl

theorem getD_ne_zero_lt (l : List Nat) (i : Nat) (h : l.getD i 0 ≠ 0) : i < l.length := by
  by_contra hlt
  apply h
  rw [List.getD_eq_getElem?_getD, List.getElem?_eq_none (Nat.le_of_not_lt hlt)]
  rfl

/-- The loop `while (*p)` is the repetition of its turns: a turn is made when
the scan position is not past the terminator, and the loop goes on when the
stores of the turn lie inside the highlight array. -/
theorem scanLoop_step (S : editorSyntax) (row : erow) (fuel : Nat) (st : scanState) :
    scanLoop S row (fuel + 1) st =
      if row.render.length < st.i then none
      else
        match scanStep S row st with
        | scanTurn.stop w hl b => if storesInside w st.hl.length then some (hl, b) else none
        | scanTurn.next w st1 =>
          if storesInside w st.hl.length then scanLoop S row fuel st1 else none := rfl

theorem scanStep_next_length (S : editorSyntax) (row : erow) (st : scanState)
    (w : List (Nat × Nat)) (st1 : scanState) (h : scanStep S row st = scanTurn.next w st1) :
    st1.hl.length = st.hl.length := by
  unfold scanStep at h
  simp only at h
  repeat' split at h
  all_goals
    first
    | exact scanTurn.noConfusion h
    | (simp only [scanTurn.next.injEq] at h
       obtain ⟨-, rfl⟩ := h
       simp [memset_length])

theorem scanStep_stop_length (S : editorSyntax) (row : erow) (st : scanState)
    (w : List (Nat × Nat)) (hl : List Nat) (b : Bool)
    (h : scanStep S row st = scanTurn.stop w hl b) : hl.length = st.hl.length := by
  unfold scanStep at h
  simp only at h
  repeat' split at h
  all_goals
    first
    | exact scanTurn.noConfusion h
    | (simp only [scanTurn.stop.injEq] at h
       obtain ⟨-, rfl, -⟩ := h
       simp [memset_length])

theorem scanLoop_length (S : editorSyntax) (row : erow) :
    ∀ (fuel : Nat) (st : scanState) (res : List Nat) (b : Bool),
      scanLoop S row fuel st = some (res, b) → res.length = st.hl.length := by
  intro fuel
  induction fuel with
  | zero => intro st res b h; simp [scanLoop] at h
  | succ n ih =>
    intro st res b h
    rw [scanLoop_step] at h
    split at h
    · exact Option.noConfusion h
    · split at h
      · next w hl b' hs =>
        split at h
        · simp only [Option.some.injEq, Prod.mk.injEq] at h
          rw [← h.1]
          exact scanStep_stop_length S row st w hl b' hs
        · exact Option.noConfusion h
      · next w st1 hs =>
        split at h
        · rw [ih _ _ _ h]
          exact scanStep_next_length S row st w st1 hs
        · exact Option.noConfusion h

theorem hl_getD_set_ne (l : List Nat) (i j v : Nat) (h : i ≠ j) :
    (l.set i v).getD j 0 = l.getD j 0 := by
  simp [List.getD_eq_getElem?_getD, List.getElem?_set_ne h]

theorem hl_getD_set_self (l : List Nat) (i v : Nat) (h : i < l.length) :
    (l.set i v).getD i 0 = v := by
  simp [List.getD_eq_getElem?_getD, List.getElem?_set_self, h]

theorem memset_getD_lt (buf : List Nat) (dst v n j : Nat) (h : j < dst) :
    (memset buf dst v n).getD j 0 = buf.getD j 0 := by
  unfold memset
  split
  · rw [List.getD_append _ _ _ _ (by rw [List.length_take]; omega)]
    simp only [List.getD_eq_getElem?_getD]
    rw [List.getElem?_take_of_lt h]
  · rfl

theorem memset_getD_mid (buf : List Nat) (dst v n j : Nat) (h1 : dst ≤ j) (h2 : j < dst + n)
    (h3 : dst + n ≤ buf.length) : (memset buf dst v n).getD j 0 = v := by
  unfold memset
  rw [if_pos h3]
  have hd : dst ≤ buf.length := by omega
  rw [List.getD_eq_getElem?_getD, List.getElem?_append_right (by rw [List.length_take]; omega),
    List.length_take, Nat.min_eq_left hd,
    List.getElem?_append_left (by rw [List.length_replicate]; omega), List.getElem?_replicate]
  rw [if_pos (by omega)]
  rfl

theorem scanStep_next_prefix (S : editorSyntax) (row : erow) (st : scanState)
    (w : List (Nat × Nat)) (st1 : scanState) (h : scanStep S row st = scanTurn.next w st1) :
    st.i ≤ st1.i ∧ ∀ j, j < st.i → st1.hl.getD j 0 = st.hl.getD j 0 := by
  unfold scanStep at h
  simp only at h
  repeat' split at h
  all_goals
    first
    | exact scanTurn.noConfusion h
    | (simp only [scanTurn.next.injEq] at h
       obtain ⟨-, rfl⟩ := h
       refine ⟨by simp only; omega, fun j hj => ?_⟩
       first
         | rfl
         | exact hl_getD_set_ne _ _ _ _ (by omega)
         | exact (hl_getD_set_ne _ _ _ _ (by omega)).trans (hl_getD_set_ne _ _ _ _ (by omega))
         | exact memset_getD_lt _ _ _ _ _ hj)

theorem scanStep_stop_prefix (S : editorSyntax) (row : erow) (st : scanState)
    (w : List (Nat × Nat)) (hl : List Nat) (b : Bool)
    (h : scanStep S row st = scanTurn.stop w hl b) :
    ∀ j, j < st.i → hl.getD j 0 = st.hl.getD j 0 := by
  unfold scanStep at h
  simp only at h
  repeat' split at h
  all_goals
    first
    | exact scanTurn.noConfusion h
    | (simp only [scanTurn.stop.injEq] at h
       obtain ⟨-, rfl, -⟩ := h
       intro j hj
       first
         | rfl
         | exact memset_getD_lt _ _ _ _ _ hj)

theorem scanLoop_prefix (S : editorSyntax) (row : erow) :
    ∀ (fuel : Nat) (st : scanState) (res : List Nat) (b : Bool),
      scanLoop S row fuel st = some (res, b) →
        ∀ j, j < st.i → res.getD j 0 = st.hl.getD j 0 := by
  intro fuel
  induction fuel with
  | zero => intro st res b h; simp [scanLoop] at h
  | succ n ih =>
    intro st res b h j hj
    rw [scanLoop_step] at h
    split at h
    · exact Option.noConfusion h
    · split at h
      · next w hl b' hs =>
        split at h
        · simp only [Option.some.injEq, Prod.mk.injEq] at h
          rw [← h.1]
          exact scanStep_stop_prefix S row st w hl b' hs j hj
        · exact Option.noConfusion h
      · next w st1 hs =>
        split at h
        · obtain ⟨h1, h2⟩ := scanStep_next_prefix S row st w st1 hs
          rw [ih _ _ _ h j (by omega)]
          exact h2 j hj
        · exact Option.noConfusion h

theorem memcmpEq_iff (render : List Nat) (i : Nat) (kw : List Nat) (n : Nat) :
    memcmpEq render i kw n = true ↔ ∀ k, k < n → render.getD (i + k) 0 = kw.getD k 0 := by
  unfold memcmpEq
  simp only [List.all_eq_true, List.mem_range, beq_iff_eq]

theorem matchKeyword_cons (render : List Nat) (i : Nat) (kw : List Nat)
    (rest : List (List Nat)) :
    matchKeyword render i (kw :: rest) =
      if (memcmpEq render i kw (kwLen kw) &&
          is_separator (render.getD (i + kwLen kw) 0)) = true then
        some (kwLen kw, kwClass2 kw)
      else matchKeyword render i rest := rfl

/-- The keyword loop returns the first entry of the list that matches. -/
theorem matchKeyword_some (render : List Nat) (i : Nat) :
    ∀ (K : List (List Nat)) (klen : Nat) (kw2 : Bool),
      matchKeyword render i K = some (klen, kw2) →
        ∃ pre kw post, K = pre ++ kw :: post ∧ klen = kwLen kw ∧ kw2 = kwClass2 kw ∧
          kwMatches render i kw ∧ ∀ kw', kw' ∈ pre → ¬ kwMatches render i kw' := by
  intro K
  induction K with
  | nil => intro klen kw2 h; simp [matchKeyword] at h
  | cons kw rest ih =>
    intro klen kw2 h
    rw [matchKeyword_cons] at h
    by_cases hm : (memcmpEq render i kw (kwLen kw) &&
        is_separator (render.getD (i + kwLen kw) 0)) = true
    · rw [if_pos hm] at h
      simp only [Option.some.injEq, Prod.mk.injEq] at h
      simp only [Bool.and_eq_true] at hm
      refine ⟨[], kw, rest, rfl, h.1.symm, h.2.symm, hm, ?_⟩
      intro kw' hin
      simp at hin
    · rw [if_neg hm] at h
      obtain ⟨pre, k, post, h1, h2, h3, h4, h5⟩ := ih klen kw2 h
      refine ⟨kw :: pre, k, post, by rw [h1]; rfl, h2, h3, h4, ?_⟩
      intro kw' hin
      simp only [List.mem_cons] at hin
      rcases hin with rfl | hin
      · intro hk
        apply hm
        simp only [Bool.and_eq_true]
        exact hk
      · exact h5 kw' hin

/-- The keyword loop finds a keyword whenever some entry of the list
matches. -/
theorem matchKeyword_isSome (render : List Nat) (i : Nat) :
    ∀ (K : List (List Nat)), (∃ kw, kw ∈ K ∧ kwMatches render i kw) →
      ∃ klen kw2, matchKeyword render i K = some (klen, kw2) := by
  intro K
  induction K with
  | nil => rintro ⟨kw, hin, -⟩; simp at hin
  | cons kw rest ih =>
    rintro ⟨k, hin, hk⟩
    rw [matchKeyword_cons]
    by_cases hm : (memcmpEq render i kw (kwLen kw) &&
        is_separator (render.getD (i + kwLen kw) 0)) = true
    · rw [if_pos hm]
      exact ⟨_, _, rfl⟩
    · rw [if_neg hm]
      simp only [List.mem_cons] at hin
      rcases hin with rfl | hin
      · exfalso
        apply hm
        simp only [Bool.and_eq_true]
        exact hk
      · exact ih ⟨k, hin, hk⟩

/-- Two keywords without separator bytes that both stand at the same offset,
each followed by a separator, have the same length. -/
theorem kwMatches_same_length (render : List Nat) (i : Nat) (kw kw' : List Nat)
    (hfree : ∀ k, k < kwLen kw → is_separator (kw.getD k 0) = false)
    (hfree' : ∀ k, k < kwLen kw' → is_separator (kw'.getD k 0) = false)
    (h : kwMatches render i kw) (h' : kwMatches render i kw') : kwLen kw = kwLen kw' := by
  obtain ⟨hm, hs⟩ := h
  obtain ⟨hm', hs'⟩ := h'
  rw [memcmpEq_iff] at hm hm'
  rcases Nat.lt_trichotomy (kwLen kw) (kwLen kw') with hlt | heq | hgt
  · exfalso
    have h1 := hm' (kwLen kw) hlt
    rw [h1, hfree' _ hlt] at hs
    exact Bool.noConfusion hs
  · exact heq
  · exfalso
    have h1 := hm (kwLen kw') hgt
    rw [h1, hfree _ hgt] at hs'
    exact Bool.noConfusion hs'

/-- Every keyword of the C profile starts with a letter and holds no
separator byte among the bytes that are compared. -/
theorem C_HL_keywords_letters :
    ∀ kw, kw ∈ C_HL_keywords →
      0 < kwLen kw ∧
        ((65 ≤ kw.getD 0 0 ∧ kw.getD 0 0 ≤ 90) ∨ (97 ≤ kw.getD 0 0 ∧ kw.getD 0 0 ≤ 122)) ∧
        ∀ k, k < kwLen kw → is_separator (kw.getD k 0) = false := by
  decide

theorem getD_ne_zero_lt_length (l : List Nat) (i : Nat) (h : l.getD i 0 ≠ 0) : i < l.length := by
  by_contra hn
  exact h (List.getD_eq_default _ _ (by omega))

theorem beq_true_ne_zero (a b : Nat) (h : (a == b) = true) (hb : b ≠ 0) : a ≠ 0 := by
  rw [beq_iff_eq] at h
  rw [h]
  exact hb

/-- Under the C profile a turn of the scan stays inside the row, except the
turn for a backslash that is the last byte of the row, inside a string: every
store of the other turns that go on ends at or before `rsize`, and so does the
next scan position. -/
theorem scanStep_stays_in_row (row : erow) (st : scanState)
    (hlen : row.render.length = row.rsize) :
    ∀ w st1, scanStep HLDB_C row st = scanTurn.next w st1 →
      (st.in_string ≠ 0 ∧ row.render.getD st.i 0 = 92 ∧ st.i + 1 = row.rsize) ∨
        ((∀ a n, (a, n) ∈ w → a + n ≤ row.rsize) ∧ st1.i ≤ row.rsize) := by
  intro w st1 h
  unfold scanStep at h
  dsimp only at h
  by_cases h1 : (row.render.getD st.i 0 == 0) = true
  · rw [if_pos h1] at h
    exact scanTurn.noConfusion h
  · rw [if_neg h1] at h
    have hp : row.render.getD st.i 0 ≠ 0 := by
      intro h0
      exact h1 (by rw [h0]; rfl)
    have hi : st.i < row.rsize := by
      rw [← hlen]
      exact getD_ne_zero_lt_length _ _ hp
    have one : ∀ a n, (a, n) ∈ [(st.i, 1)] → a + n ≤ row.rsize := by
      intro a n hm
      simp only [List.mem_singleton, Prod.mk.injEq] at hm
      omega
    have two : row.render.getD (st.i + 1) 0 ≠ 0 →
        ∀ a n, (a, n) ∈ [(st.i, 1), (st.i + 1, 1)] → a + n ≤ row.rsize := by
      intro hp1 a n hm
      have := getD_ne_zero_lt_length _ _ hp1
      simp only [List.mem_cons, Prod.mk.injEq, List.mem_singleton, List.not_mem_nil,
        or_false] at hm
      omega
    by_cases h2 : (st.prev_sep &&
        row.render.getD st.i 0 == HLDB_C.singleline_comment_start.getD 0 0 &&
        row.render.getD (st.i + 1) 0 == HLDB_C.singleline_comment_start.getD 1 0) = true
    · rw [if_pos h2] at h
      exact scanTurn.noConfusion h
    · rw [if_neg h2] at h
      by_cases h3 : st.in_comment = true
      · rw [if_pos h3] at h
        by_cases h4 : (row.render.getD st.i 0 == HLDB_C.multiline_comment_end.getD 0 0 &&
            row.render.getD (st.i + 1) 0 == HLDB_C.multiline_comment_end.getD 1 0) = true
        · rw [if_pos h4] at h
          simp only [scanTurn.next.injEq] at h
          obtain ⟨hw, hs⟩ := h
          subst hw
          subst hs
          have hp1 : row.render.getD (st.i + 1) 0 ≠ 0 := by
            rw [Bool.and_eq_true] at h4
            exact beq_true_ne_zero _ _ h4.2 (by decide)
          have := getD_ne_zero_lt_length _ _ hp1
          exact Or.inr ⟨two hp1, by simp only; omega⟩
        · rw [if_neg h4] at h
          simp only [scanTurn.next.injEq] at h
          obtain ⟨hw, hs⟩ := h
          subst hw
          subst hs
          exact Or.inr ⟨one, by simp only; omega⟩
      · rw [if_neg h3] at h
        by_cases h5 : (row.render.getD st.i 0 == HLDB_C.multiline_comment_start.getD 0 0 &&
            row.render.getD (st.i + 1) 0 == HLDB_C.multiline_comment_start.getD 1 0) = true
        · rw [if_pos h5] at h
          simp only [scanTurn.next.injEq] at h
          obtain ⟨hw, hs⟩ := h
          subst hw
          subst hs
          have hp1 : row.render.getD (st.i + 1) 0 ≠ 0 := by
            rw [Bool.and_eq_true] at h5
            exact beq_true_ne_zero _ _ h5.2 (by decide)
          have := getD_ne_zero_lt_length _ _ hp1
          exact Or.inr ⟨two hp1, by simp only; omega⟩
        · rw [if_neg h5] at h
          by_cases h6 : (st.in_string != 0) = true
          · rw [if_pos h6] at h
            by_cases h7 : (row.render.getD st.i 0 == 92) = true
            · rw [if_pos h7] at h
              simp only [scanTurn.next.injEq] at h
              obtain ⟨hw, hs⟩ := h
              subst hw
              subst hs
              by_cases hend : st.i + 1 = row.rsize
              · left
                refine ⟨?_, ?_, hend⟩
                · simpa using h6
                · simpa using h7
              · right
                refine ⟨?_, by simp only; omega⟩
                intro a n hm
                simp only [List.mem_cons, Prod.mk.injEq, List.mem_singleton, List.not_mem_nil,
                  or_false] at hm
                omega
            · rw [if_neg h7] at h
              simp only [scanTurn.next.injEq] at h
              obtain ⟨hw, hs⟩ := h
              subst hw
              subst hs
              exact Or.inr ⟨one, by simp only; omega⟩
          · rw [if_neg h6] at h
            by_cases h8 : (row.render.getD st.i 0 == 34 || row.render.getD st.i 0 == 39) = true
            · rw [if_pos h8] at h
              simp only [scanTurn.next.injEq] at h
              obtain ⟨hw, hs⟩ := h
              subst hw
              subst hs
              exact Or.inr ⟨one, by simp only; omega⟩
            · rw [if_neg h8] at h
              by_cases h9 : (!isprint (row.render.getD st.i 0)) = true
              · rw [if_pos h9] at h
                simp only [scanTurn.next.injEq] at h
                obtain ⟨hw, hs⟩ := h
                subst hw
                subst hs
                exact Or.inr ⟨one, by simp only; omega⟩
              · rw [if_neg h9] at h
                by_cases h10 : ((isdigit (row.render.getD st.i 0) &&
                    (st.prev_sep || st.hl.getD (st.i - 1) 0 == HL_NUMBER)) ||
                    (row.render.getD st.i 0 == 46 && decide (st.i > 0) &&
                      st.hl.getD (st.i - 1) 0 == HL_NUMBER)) = true
                · rw [if_pos h10] at h
                  simp only [scanTurn.next.injEq] at h
                  obtain ⟨hw, hs⟩ := h
                  subst hw
                  subst hs
                  exact Or.inr ⟨one, by simp only; omega⟩
                · rw [if_neg h10] at h
                  cases hk : (if st.prev_sep = true then
                      matchKeyword row.render st.i HLDB_C.keywords else none) with
                  | none =>
                    rw [hk] at h
                    simp only [scanTurn.next.injEq] at h
                    obtain ⟨hw, hs⟩ := h
                    subst hw
                    subst hs
                    refine Or.inr ⟨?_, by simp only; omega⟩
                    intro a n hm
                    exact absurd hm (List.not_mem_nil _)
                  | some kw =>
                    obtain ⟨klen, kw2⟩ := kw
                    rw [hk] at h
                    simp only [scanTurn.next.injEq] at h
                    obtain ⟨hw, hs⟩ := h
                    subst hw
                    subst hs
                    have hmk : matchKeyword row.render st.i HLDB_C.keywords
                        = some (klen, kw2) := by
                      by_cases hps : st.prev_sep = true
                      · rw [if_pos hps] at hk
                        exact hk
                      · rw [if_neg hps] at hk
                        exact Option.noConfusion hk
                    obtain ⟨pre, k, post, hK, hkl, -, hm, -⟩ :=
                      matchKeyword_some row.render st.i _ klen kw2 hmk
                    have hin : k ∈ C_HL_keywords := by
                      have : HLDB_C.keywords = C_HL_keywords := rfl
                      rw [← this, hK]
                      exact List.mem_append_right _ (List.mem_cons_self _ _)
                    obtain ⟨hpos, -, hns⟩ := C_HL_keywords_letters k hin
                    have hcmp := (memcmpEq_iff _ _ _ _).mp hm.1 (kwLen k - 1) (by omega)
                    have hnz : row.render.getD (st.i + (kwLen k - 1)) 0 ≠ 0 := by
                      rw [hcmp]
                      intro h0
                      have := hns (kwLen k - 1) (by omega)
                      rw [h0] at this
                      exact absurd this (by decide)
                    have hb := getD_ne_zero_lt_length _ _ hnz
                    refine Or.inr ⟨?_, by simp only; omega⟩
                    intro a n hm2
                    simp only [List.mem_singleton, Prod.mk.injEq] at hm2
                    omega

theorem commentLen_of_le (size i : Nat) (h : i ≤ size) (hs : size < 2 ^ 31) :
    commentLen size i = size - i := by
  unfold commentLen
  have h1 : ((size : Int) - (i : Int)) = ((size - i : Nat) : Int) := by omega
  rw [h1]
  have h2 : ((size - i : Nat) : Int) % (2 : Int) ^ 64 = ((size - i : Nat) : Int) := by
    apply Int.emod_eq_of_lt
    · omega
    · have : (2 : Int) ^ 64 = 18446744073709551616 := by norm_num
      rw [this]
      have : (2 : Nat) ^ 31 = 2147483648 := by norm_num
      omega
  rw [h2]
  simp

/-- The turn that leaves the loop through the `return` of the line comment
makes one store, of `size - i` entries from the scan position; it ends inside
the row when the comment starts within the raw length and the rendered form
is not shorter than the raw content, which fails when a tab stands before the
comment. -/
theorem scanStep_line_comment_store (S : editorSyntax) (row : erow) (st : scanState)
    (w : List (Nat × Nat)) (hl : List Nat)
    (h : scanStep S row st = scanTurn.stop w hl true) :
    w = [(st.i, commentLen row.size st.i)] ∧
      (st.i ≤ row.size → row.size ≤ row.rsize → row.size < 2 ^ 31 →
        st.i + commentLen row.size st.i ≤ row.rsize) := by
  have hw : w = [(st.i, commentLen row.size st.i)] := by
    unfold scanStep at h
    dsimp only at h
    by_cases h1 : (row.render.getD st.i 0 == 0) = true
    · rw [if_pos h1] at h
      simp only [scanTurn.stop.injEq] at h
      exact absurd h.2.2 (by decide)
    · rw [if_neg h1] at h
      by_cases h2 : (st.prev_sep &&
          row.render.getD st.i 0 == S.singleline_comment_start.getD 0 0 &&
          row.render.getD (st.i + 1) 0 == S.singleline_comment_start.getD 1 0) = true
      · rw [if_pos h2] at h
        simp only [scanTurn.stop.injEq] at h
        exact h.1.symm
      · rw [if_neg h2] at h
        repeat' split at h
        all_goals exact scanTurn.noConfusion h
  refine ⟨hw, fun h1 h2 h3 => ?_⟩
  rw [commentLen_of_le _ _ h1 h3]
  omega

/-- A turn after which the loop goes on starts at a byte of the row, and it
moves the scan position forward or, at the same position, leaves the separator
boundary. -/
theorem scanStep_next_measure (S : editorSyntax) (row : erow) (st : scanState)
    (w : List (Nat × Nat)) (st1 : scanState) (h : scanStep S row st = scanTurn.next w st1) :
    st.i < row.render.length ∧
      (st1.i ≤ row.render.length →
        2 * (row.render.length - st1.i) + (if st1.prev_sep then 1 else 0) <
          2 * (row.render.length - st.i) + (if st.prev_sep then 1 else 0)) := by
  unfold scanStep at h
  simp only at h
  split at h
  · exact scanTurn.noConfusion h
  · rename_i hp
    have hi : st.i < row.render.length := by
      apply getD_ne_zero_lt
      intro h0
      apply hp
      rw [h0]
      rfl
    refine ⟨hi, ?_⟩
    repeat' split at h
    all_goals
      first
      | exact scanTurn.noConfusion h
      | (simp only [scanTurn.next.injEq] at h
         obtain ⟨-, rfl⟩ := h
         intro hle
         simp only at hle ⊢
         first
           | (split <;> split <;> omega)
           | (split <;> omega)
           | (have hps : st.prev_sep = true := by
                by_contra hne
                simp_all
              simp only [hps]
              simp
              omega))

/-- The scan returns when every turn stays inside the arrays: the fuel of
`editorUpdateSyntax` is enough for it. -/
theorem scanLoop_isSome (S : editorSyntax) (row : erow) (n : Nat) (hin : turnsInside S row n) :
    ∀ (fuel : Nat) (st : scanState), st.hl.length = n → st.i ≤ row.render.length →
      2 * (row.render.length - st.i) + (if st.prev_sep then 1 else 0) < fuel →
        (scanLoop S row fuel st).isSome = true := by
  intro fuel
  induction fuel with
  | zero => intro st _ _ h; omega
  | succ k ih =>
    intro st hlen hi h
    rw [scanLoop_step, if_neg (by omega)]
    obtain ⟨hnext, hstop⟩ := hin st hlen hi
    cases hs : scanStep S row st with
    | stop w hl b =>
      simp only [hlen, hstop w hl b hs, if_true]
      rfl
    | next w st1 =>
      obtain ⟨hw, hi1⟩ := hnext w st1 hs
      obtain ⟨-, hm⟩ := scanStep_next_measure S row st w st1 hs
      simp only [hlen, hw, if_true]
      apply ih st1
      · rw [scanStep_next_length S row st w st1 hs, hlen]
      · exact hi1
      · have := hm hi1
        omega

/-- The turn that leaves the loop at the terminator stores nothing. -/
theorem scanStep_stop_false (S : editorSyntax) (row : erow) (st : scanState)
    (w : List (Nat × Nat)) (hl : List Nat) (hs : scanStep S row st = scanTurn.stop w hl false) :
    w = [] := by
  unfold scanStep at hs
  simp only at hs
  split at hs
  · simp only [scanTurn.stop.injEq] at hs
    exact hs.1.symm
  · split at hs
    · simp only [scanTurn.stop.injEq] at hs
      exact absurd hs.2.2 (by decide)
    · repeat' split at hs
      all_goals exact scanTurn.noConfusion hs

/-- The turn that leaves the loop through the `return` of the line comment
stands at a byte of the row where the line-comment marker starts. -/
theorem scanStep_stop_true (S : editorSyntax) (row : erow) (st : scanState)
    (w : List (Nat × Nat)) (hl : List Nat) (hs : scanStep S row st = scanTurn.stop w hl true) :
    lineCommentAt S row st.i ∧ st.i < row.render.length := by
  unfold scanStep at hs
  simp only at hs
  split at hs
  · simp only [scanTurn.stop.injEq] at hs
    exact absurd hs.2.2 (by decide)
  · rename_i hp
    have hlt : st.i < row.render.length := by
      apply getD_ne_zero_lt
      intro h0
      apply hp
      rw [h0]
      rfl
    split at hs
    · rename_i hc
      simp only [Bool.and_eq_true, beq_iff_eq] at hc
      exact ⟨⟨hc.1.2, hc.2⟩, hlt⟩
    · repeat' split at hs
      all_goals exact scanTurn.noConfusion hs

/-- Under the C profile the scan does not leave a row of `rowInside`. -/
theorem turnsInside_of_rowInside (row : erow) (h : rowInside row) :
    turnsInside HLDB_C row row.rsize := by
  obtain ⟨hlen, hsz, hint, hline, hlast⟩ := h
  intro st hhl hi
  constructor
  · intro w st1 hs
    rcases scanStep_stays_in_row row st hlen w st1 hs with ⟨-, h92, hend⟩ | ⟨hw, hi1⟩
    · exfalso
      apply hlast
      have : row.rsize - 1 = st.i := by omega
      rw [this]
      exact h92
    · refine ⟨?_, by omega⟩
      unfold storesInside
      rw [List.all_eq_true]
      intro s hs
      simp only [decide_eq_true_eq]
      exact hw s.1 s.2 hs
  · intro w hl b hs
    cases b with
    | false =>
      rw [scanStep_stop_false HLDB_C row st w hl hs]
      rfl
    | true =>
      obtain ⟨hw, hstore⟩ := scanStep_line_comment_store HLDB_C row st w hl hs
      obtain ⟨hat, hilt⟩ := scanStep_stop_true HLDB_C row st w hl hs
      have hle := hline st.i (by omega) hat
      have := hstore hle hsz hint
      rw [hw]
      simp only [storesInside, List.all_cons, List.all_nil, Bool.and_true, decide_eq_true_eq]
      exact this

theorem skipSpaces_le (l : List Nat) : skipSpaces l ≤ l.length := by
  unfold skipSpaces
  exact (List.takeWhile_sublist _).length_le

theorem skipSpaces_isspace (l : List Nat) :
    ∀ j, j < skipSpaces l → isspace (l.getD j 0) = true := by
  unfold skipSpaces
  induction l with
  | nil => intro j h; simp at h
  | cons a t ih =>
    intro j h
    by_cases ha : (a != 0 && isspace a) = true
    · simp only [List.takeWhile_cons, ha, if_true, List.length_cons] at h
      cases j with
      | zero =>
        simp only [Bool.and_eq_true] at ha
        simpa using ha.2
      | succ k =>
        simpa using ih k (by omega)
    · simp [List.takeWhile_cons, ha] at h

/-! ## Lemmas on `editorUpdateSyntax` -/

theorem setRow_numrows (E : editorConfig) (r : Nat) (x : erow) :
    (setRow E r x).numrows = E.numrows := rfl

theorem getD_set_self (l : List erow) (r : Nat) (x : erow) (h : r < l.length) :
    (l.set r x).getD r default = x := by
  simp [List.getD_eq_getElem?_getD, List.getElem?_set, h]

theorem getD_irrel (l : List erow) (r : Nat) (d1 d2 : erow) (h : r < l.length) :
    l.getD r d1 = l.getD r d2 := by
  simp [List.getD_eq_getElem?_getD, List.getElem?_eq_getElem h]

theorem getD_set_ne (l : List erow) (r j : Nat) (x : erow) (h : r ≠ j) :
    (l.set r x).getD j default = l.getD j default := by
  simp [List.getD_eq_getElem?_getD, List.getElem?_set, h]

theorem getD_of_getElem? (l : List erow) (r : Nat) (x : erow) (h : l[r]? = some x) :
    l.getD r default = x := by
  simp [List.getD_eq_getElem?_getD, h]

theorem getElem?_of_lt (l : List erow) (r : Nat) (h : r < l.length) :
    l[r]? = some (l.getD r default) := by
  simp [List.getD_eq_getElem?_getD, List.getElem?_eq_getElem h]

theorem map_strip_set (l : List erow) (r : Nat) (row x : erow) (h : l[r]? = some row)
    (hx : x.strip = row.strip) : (l.set r x).map erow.strip = l.map erow.strip := by
  apply List.ext_getElem?
  intro j
  simp only [List.getElem?_map, List.getElem?_set]
  by_cases hj : r = j
  · subst hj
    by_cases hr : r < l.length
    · simp [hr, h, hx]
    · simp [hr, List.getElem?_eq_none (Nat.le_of_not_lt hr)]
  · simp [hj]

theorem strip_getD_eq (l l' : List erow) (h : l'.map erow.strip = l.map erow.strip) (j : Nat) :
    (l'.getD j default).strip = (l.getD j default).strip := by
  have := congrArg (fun m => m[j]?) h
  simp only [List.getElem?_map] at this
  simp only [List.getD_eq_getElem?_getD]
  cases h1 : l'[j]? <;> cases h2 : l[j]? <;> simp_all

theorem length_eq_of_strip (l l' : List erow) (h : l'.map erow.strip = l.map erow.strip) :
    l'.length = l.length := by
  have := congrArg List.length h
  simpa using this

theorem synPost_setRow (E : editorConfig) (r : Nat) (row x : erow)
    (h : E.row[r]? = some row) (hx : x.strip = row.strip) (hok : hlOK x) :
    synPost E r (setRow E r x) := by
  have hr : r < E.row.length := by
    by_contra hn
    rw [List.getElem?_eq_none (Nat.le_of_not_lt hn)] at h
    cases h
  refine ⟨rfl, map_strip_set _ _ _ _ h hx, ?_, ?_⟩
  · simp only [setRow]
    rw [getD_set_self _ _ _ hr]
    exact hok
  · intro j hj
    simp only [setRow]
    by_cases hjr : r = j
    · subst hjr
      rw [getD_set_self _ _ _ hr]
      exact hok
    · rw [getD_set_ne _ _ _ _ hjr]
      exact hj

theorem idxForward_of_strip (E E' : editorConfig)
    (h : E'.row.map erow.strip = E.row.map erow.strip) (hf : idxForward E) : idxForward E' := by
  intro j hj
  have hl := length_eq_of_strip _ _ h
  have := hf j (by omega)
  have hs := strip_getD_eq _ _ h j
  have : (E'.row.getD j default).idx = (E.row.getD j default).idx := by
    have := congrArg erow.idx hs
    simpa [erow.strip] using this
  omega

/-! ## Lemmas on `editorUpdateRow` -/

theorem tabFill_length_le : ∀ (fuel : Nat) (out : List Nat),
    (tabFill fuel out).length ≤ out.length + fuel := by
  intro fuel
  induction fuel with
  | zero => intro out; simp [tabFill]
  | succ n ih =>
    intro out
    unfold tabFill
    split
    · have := ih (out ++ [32])
      simp only [List.length_append, List.length_singleton] at this
      omega
    · omega

theorem renderLoop_length_le : ∀ (cs out : List Nat),
    (renderLoop cs out).length ≤ out.length + cs.length + 8 * cs.count TAB := by
  intro cs
  induction cs with
  | nil => intro out; simp [renderLoop]
  | cons c cs ih =>
    intro out
    unfold renderLoop
    split
    · rename_i hc
      have hc9 : c = TAB := by simpa using hc
      subst hc9
      have h1 := ih (tabFill 8 (out ++ [32]))
      have h2 := tabFill_length_le 8 (out ++ [32])
      simp only [List.length_append, List.length_singleton] at h2
      simp only [List.length_cons, List.count_cons_self]
      omega
    · rename_i hc
      have hc9 : c ≠ TAB := by simpa using hc
      have h1 := ih (out ++ [c])
      simp only [List.length_append, List.length_singleton] at h1
      have h3 : List.count TAB (c :: cs) = List.count TAB cs := by
        rw [List.count_cons_of_ne hc9.symm]
      simp only [List.length_cons, h3]
      omega

theorem idxForward_set (E : editorConfig) (r : Nat) (row x : erow)
    (h : E.row[r]? = some row) (hx : x.idx = row.idx) (hf : idxForward E) :
    idxForward (setRow E r x) := by
  intro j hj
  simp only [setRow, List.length_set] at hj
  have := hf j hj
  simp only [setRow]
  by_cases hjr : r = j
  · subst hjr
    rw [getD_set_self _ _ _ hj, hx]
    rw [getD_of_getElem? _ _ _ h] at this
    exact this
  · rw [getD_set_ne _ _ _ _ hjr]
    exact this

/-! ## Buffer algebra -/

theorem split_buf {α : Type} (d : α) (buf : List α) (n col : Nat) (hn : n < buf.length)
    (hcol : col ≤ n) :
    ∃ a b z rest, buf = a ++ b ++ z :: rest ∧ a.length = col ∧ a.length + b.length = n ∧
      a ++ b = buf.take n ∧ z = buf.getD n d ∧ a = (buf.take n).take col ∧
      b = (buf.take n).drop col := by
  refine ⟨(buf.take n).take col, (buf.take n).drop col, buf.getD n d, buf.drop (n + 1),
    ?_, ?_, ?_, ?_, rfl, rfl, rfl⟩
  · rw [List.take_append_drop]
    have h1 : buf.getD n d = buf[n] := by
      simp [List.getD_eq_getElem?_getD, List.getElem?_eq_getElem hn]
    rw [h1, ← List.drop_eq_getElem_cons hn, List.take_append_drop]
  · simp only [List.length_take]; omega
  · simp only [List.length_take, List.length_drop]; omega
  · rw [List.take_append_drop]

theorem split_prefix {α : Type} (buf : List α) (n col : Nat) (hn : n ≤ buf.length)
    (hcol : col ≤ n) :
    ∃ a b rest, buf = a ++ b ++ rest ∧ a.length = col ∧ a.length + b.length = n ∧
      a ++ b = buf.take n := by
  refine ⟨(buf.take n).take col, (buf.take n).drop col, buf.drop n, ?_, ?_, ?_, ?_⟩
  · rw [List.take_append_drop, List.take_append_drop]
  · simp only [List.length_take]; omega
  · simp only [List.length_take, List.length_drop]; omega
  · rw [List.take_append_drop]

theorem realloc_grow {α : Type} (fill : α) (w rest : List α) (k : Nat) :
    ∃ T, realloc fill (w ++ rest) (w.length + k) = w ++ T ∧ T.length = k := by
  refine ⟨(rest ++ List.replicate (w.length + k - (w ++ rest).length) fill).take k, ?_, ?_⟩
  · simp only [realloc, List.append_assoc]
    rw [List.take_append]
  · simp only [List.length_take, List.length_append, List.length_replicate]
    omega

theorem list_len_two {α : Type} (T : List α) (h : T.length = 2) : ∃ x y, T = [x, y] := by
  match T, h with
  | [x, y], _ => exact ⟨x, y, rfl⟩

theorem list_len_one {α : Type} (T : List α) (h : T.length = 1) : ∃ x, T = [x] := by
  match T, h with
  | [x], _ => exact ⟨x, rfl⟩

theorem list_split_at {α : Type} (T : List α) (k m : Nat) (h : T.length = k + m) :
    ∃ T1 T2, T = T1 ++ T2 ∧ T1.length = k ∧ T2.length = m := by
  refine ⟨T.take k, T.drop k, (List.take_append_drop k T).symm, ?_, ?_⟩
  · simp only [List.length_take]; omega
  · simp only [List.length_drop]; omega

/-- The buffer that the in-place branch of `editorRowInsertChar` builds. -/
theorem insert_mid_buf (a b rest : List Nat) (z c : Nat) :
    (memmove (realloc 0 (a ++ b ++ z :: rest) (a.length + b.length + 2)) (a.length + 1) a.length
      (b.length + 1)).set a.length c = a ++ c :: b ++ [z] := by
  obtain ⟨T, hT, hlen⟩ := realloc_grow 0 (a ++ b) (z :: rest) 2
  simp only [List.length_append] at hT
  rw [hT]
  obtain ⟨x, y, rfl⟩ := list_len_two T hlen
  have hz : x = z := by
    have h1 := congrArg (fun l => l.getD (a.length + b.length) 0) hT
    simp only [realloc] at h1
    simp (disch := omega) [List.getD_eq_getElem?_getD, List.getElem?_take,
      List.getElem?_append_right] at h1
    simpa using h1.symm
  subst hz
  have e1 : a.length + 1 + (b.length + 1) - a.length = b.length + 2 := by omega
  cases b
  all_goals
    simp (disch := omega) [memmove, List.take_append_eq_append_take,
      List.drop_append_eq_append_drop, List.take_of_length_le, List.drop_of_length_le, e1]
  all_goals omega

/-- The buffer that the padding branch of `editorRowInsertChar` builds. -/
theorem insert_pad_buf (w rest : List Nat) (k c : Nat) :
    (((memset (realloc 0 (w ++ rest) (w.length + k + 2)) w.length 32 k).set
      (w.length + k + 1) 0).set (w.length + k) c)
      = w ++ List.replicate k 32 ++ [c, 0] := by
  obtain ⟨T, hT, hlen⟩ := realloc_grow 0 w rest (k + 2)
  rw [show w.length + (k + 2) = w.length + k + 2 by omega] at hT
  rw [hT]
  obtain ⟨T1, T2, rfl, h1, h2⟩ := list_split_at T k 2 hlen
  obtain ⟨x, y, rfl⟩ := list_len_two T2 h2
  have e1 : (memset (w ++ (T1 ++ [x, y])) w.length 32 k) = w ++ (List.replicate k 32 ++ [x, y]) := by
    simp (disch := omega) [memset, List.take_append_eq_append_take,
      List.drop_append_eq_append_drop, List.take_of_length_le, List.drop_of_length_le, h1]
  rw [e1]
  have e2 : w ++ (List.replicate k 32 ++ [x, y]) = (w ++ List.replicate k 32) ++ [x, y] := by
    simp
  rw [e2]
  have e3 : (w ++ List.replicate k 32).length = w.length + k := by simp
  rw [List.set_append_right _ _ (by have := e3; omega),
    List.set_append_right _ _ (by have := e3; omega)]
  rw [e3]
  simp [show w.length + k + 1 - (w.length + k) = 1 by omega]

/-- The buffer that `editorRowAppendString` builds. -/
theorem append_buf (w rest s : List Nat) (len : Nat) (hs : len ≤ s.length) :
    (memcpy (realloc 0 (w ++ rest) (w.length + len + 1)) w.length s len).set (w.length + len) 0
      = w ++ s.take len ++ [0] := by
  obtain ⟨T, hT, hlen⟩ := realloc_grow 0 w rest (len + 1)
  rw [show w.length + (len + 1) = w.length + len + 1 by omega] at hT
  rw [hT]
  obtain ⟨T1, T2, rfl, h1, h2⟩ := list_split_at T len 1 hlen
  obtain ⟨x, rfl⟩ := list_len_one T2 h2
  have e1 : memcpy (w ++ (T1 ++ [x])) w.length s len = (w ++ s.take len) ++ [x] := by
    simp (disch := omega) [memcpy, List.take_append_eq_append_take,
      List.drop_append_eq_append_drop, List.take_of_length_le, List.drop_of_length_le, h1]
  rw [e1]
  have e3 : (w ++ s.take len).length = w.length + len := by
    simp only [List.length_append, List.length_take]; omega
  rw [List.set_append_right _ _ (by have := e3; omega), e3]
  simp

/-- The buffer that `editorRowDelChar` builds. -/
theorem delete_buf (a b rest : List Nat) (x z : Nat) :
    memmove (a ++ x :: b ++ z :: rest) a.length (a.length + 1) (b.length + 1)
      = a ++ b ++ z :: z :: rest := by
  have e1 : a.length + (b.length + 1) - a.length = b.length + 1 := by omega
  simp (disch := omega) [memmove, List.take_append_eq_append_take,
    List.drop_append_eq_append_drop, List.take_of_length_le, List.drop_of_length_le, e1]

/-- The row array that the `memmove` of `editorDelRow` builds. -/
theorem delete_rows {α : Type} (a b rest : List α) (x : α) :
    memmove (a ++ x :: b ++ rest) a.length (a.length + 1) b.length
      = a ++ b ++ (x :: b ++ rest).drop b.length := by
  have e2 : a.length + b.length - a.length = b.length := by omega
  simp (disch := omega) [memmove, List.take_append_eq_append_take,
    List.drop_append_eq_append_drop, List.take_of_length_le, List.drop_of_length_le, e2]

/-- The row array that `realloc`, `memmove` and the index loop of
`editorInsertRow` build before the new row is stored. -/
theorem insert_rows (a b rest : List erow) (fresh : erow) (hb : b ≠ []) :
    (idxIncr (memmove (realloc default (a ++ b ++ rest) (a.length + b.length + 1))
      (a.length + 1) a.length b.length) (a.length + 1) (a.length + b.length + 1)).set
        a.length fresh
      = a ++ fresh :: b.map (fun r => { r with idx := r.idx + 1 }) := by
  obtain ⟨T, hT, hlen⟩ := realloc_grow default (a ++ b) rest 1
  simp only [List.length_append] at hT
  rw [hT]
  obtain ⟨y, rfl⟩ := list_len_one T hlen
  have e1 : a.length + 1 + b.length - a.length = b.length + 1 := by omega
  have e2 : a.length + b.length + 1 - (a.length + 1) = b.length := by omega
  cases b with
  | nil => exact absurd rfl hb
  | cons x b =>
    simp (disch := omega) [memmove, idxIncr, List.take_append_eq_append_take,
      List.drop_append_eq_append_drop, List.take_of_length_le, List.drop_of_length_le, e1, e2]
    omega

/-- The row array of `editorInsertRow` when the row is appended. -/
theorem insert_rows_end (a rest : List erow) (fresh : erow) :
    (realloc default (a ++ rest) (a.length + 1)).set a.length fresh = a ++ [fresh] := by
  obtain ⟨T, hT, hlen⟩ := realloc_grow default a rest 1
  rw [hT]
  obtain ⟨y, rfl⟩ := list_len_one T hlen
  simp

/-! ## Lemmas on the row mutators -/

theorem getElem?_lt (l : List erow) (r : Nat) (row : erow) (h : l[r]? = some row) :
    r < l.length := by
  by_contra hn
  rw [List.getElem?_eq_none (Nat.le_of_not_lt hn)] at h
  cases h

theorem updated_length (E : editorConfig) (r : Nat) (x : erow) (E1 : editorConfig)
    (h : updated E r x E1) : E1.row.length = E.row.length := by
  have := length_eq_of_strip _ _ h.2.1
  simpa using this

theorem updated_numrows (E : editorConfig) (r : Nat) (x : erow) (E1 : editorConfig)
    (h : updated E r x E1) : E1.numrows = E.numrows := by
  have := congrArg editorConfig.numrows h.1
  exact this

theorem updated_dirty (E : editorConfig) (r : Nat) (x : erow) (E1 : editorConfig)
    (h : updated E r x E1) : E1.dirty = E.dirty := by
  have := congrArg editorConfig.dirty h.1
  exact this

theorem updated_at (E : editorConfig) (r : Nat) (x : erow) (E1 : editorConfig)
    (hr : r < E.row.length) (h : updated E r x E1) :
    (E1.row.getD r default).strip = (rendered x).strip := by
  rw [strip_getD_eq _ _ h.2.1 r, getD_set_self _ _ _ hr]

theorem updated_other (E : editorConfig) (r : Nat) (x : erow) (E1 : editorConfig)
    (h : updated E r x E1) (j : Nat) (hj : j ≠ r) :
    (E1.row.getD j default).strip = (E.row.getD j default).strip := by
  rw [strip_getD_eq _ _ h.2.1 j, getD_set_ne _ _ _ _ (Ne.symm hj)]

theorem strip_raw (x y : erow) (h : x.strip = y.strip) : x.raw = y.raw := by
  have h1 := congrArg erow.chars h
  have h2 := congrArg erow.size h
  simp only [erow.strip] at h1 h2
  simp only [erow.raw, h1, h2]

theorem strip_size (x y : erow) (h : x.strip = y.strip) : x.size = y.size := by
  have h2 := congrArg erow.size h
  simpa [erow.strip] using h2

theorem strip_chars (x y : erow) (h : x.strip = y.strip) : x.chars = y.chars := by
  have h2 := congrArg erow.chars h
  simpa [erow.strip] using h2

theorem strip_idx (x y : erow) (h : x.strip = y.strip) : x.idx = y.idx := by
  have h2 := congrArg erow.idx h
  simpa [erow.strip] using h2

theorem strip_render (x y : erow) (h : x.strip = y.strip) : x.render = y.render := by
  have h2 := congrArg erow.render h
  simpa [erow.strip] using h2

theorem strip_rsize (x y : erow) (h : x.strip = y.strip) : x.rsize = y.rsize := by
  have h2 := congrArg erow.rsize h
  simpa [erow.strip] using h2

theorem updated_idxForward (E : editorConfig) (r : Nat) (row x : erow) (E1 : editorConfig)
    (hrow : E.row[r]? = some row) (hidx : x.idx = row.idx) (hfw : idxForward E)
    (h : updated E r x E1) : idxForward E1 := by
  have h1 : idxForward (setRow E r (rendered x)) := idxForward_set E r row _ hrow hidx hfw
  exact idxForward_of_strip (setRow E r (rendered x)) E1 h.2.1 h1

theorem raw_length (row : erow) (h : row.size < row.chars.length) : row.raw.length = row.size := by
  simp only [erow.raw, List.length_take]
  omega

theorem editorRowInsertChar_eq (E : editorConfig) (r col c : Nat) (row : erow)
    (hrow : E.row[r]? = some row) (hsz : row.size < row.chars.length) :
    editorRowInsertChar E (some r) col c =
      match editorUpdateRow (setRow E r (insertedRow row col c)) r with
      | none => none
      | some E1 => some { E1 with dirty := E1.dirty + 1 } := by
  unfold editorRowInsertChar
  simp only [hrow]
  have hkey : ({ (if col > row.size then
          ({ row with chars := (memset (realloc 0 row.chars (row.size + (col - row.size) + 2))
                        row.size 32 (col - row.size)).set (row.size + (col - row.size) + 1) 0,
                      size := row.size + ((col - row.size) + 1) } : erow)
        else
          { row with chars := memmove (realloc 0 row.chars (row.size + 2)) (col + 1) col
                        (row.size - col + 1),
                     size := row.size + 1 }) with
        chars := (if col > row.size then
          ({ row with chars := (memset (realloc 0 row.chars (row.size + (col - row.size) + 2))
                        row.size 32 (col - row.size)).set (row.size + (col - row.size) + 1) 0,
                      size := row.size + ((col - row.size) + 1) } : erow)
        else
          { row with chars := memmove (realloc 0 row.chars (row.size + 2)) (col + 1) col
                        (row.size - col + 1),
                     size := row.size + 1 }).chars.set col (c % 256) } : erow)
      = insertedRow row col c := by
    unfold insertedRow
    by_cases hc : row.size < col
    · rw [if_pos hc, if_pos hc]
      obtain ⟨a, b, z, rest, hbuf, ha, hab, habw, hz, -, -⟩ :=
        split_buf 0 row.chars row.size row.size hsz (Nat.le_refl _)
      have hb : b = [] := by
        apply List.eq_nil_of_length_eq_zero
        omega
      subst hb
      simp only [List.append_nil] at hbuf habw hab
      have hraw : row.raw = a := habw.symm
      have h1 := insert_pad_buf a (z :: rest) (col - row.size) (c % 256)
      rw [← hbuf, ha] at h1
      have e1 : row.size + (col - row.size) = col := by omega
      rw [e1] at h1
      simp only [e1]
      rw [h1, hraw]
      congr 1
      omega
    · rw [if_neg hc, if_neg hc]
      obtain ⟨a, b, z, rest, hbuf, ha, hab, habw, hz, hat, hbt⟩ :=
        split_buf 0 row.chars row.size col hsz (Nat.le_of_not_lt hc)
      have h1 := insert_mid_buf a b rest z (c % 256)
      have e0 : a.length + b.length + 2 = row.size + 2 := by omega
      rw [← hbuf, e0, ha] at h1
      have e1 : row.size - col + 1 = b.length + 1 := by omega
      rw [e1]
      simp only
      rw [h1, ← hz]
      have hraw : row.raw = row.chars.take row.size := rfl
      rw [hraw, ← hat, ← hbt]
  simp only at hkey ⊢
  rewrite [hkey]
  rfl

theorem delete_chars (chars : List Nat) (n col : Nat) (hn : n < chars.length) (hcol : col < n) :
    (memmove chars col (col + 1) (n - col)).take n
        = (chars.take n).eraseIdx col ++ [chars.getD n 0] ∧
      (memmove chars col (col + 1) (n - col)).take (n - 1) = (chars.take n).eraseIdx col ∧
      n - 1 < (memmove chars col (col + 1) (n - col)).length ∧
      (memmove chars col (col + 1) (n - col)).getD (n - 1) 0 = chars.getD n 0 := by
  obtain ⟨a, b, z, rest, hbuf, ha, hab, habw, hz, -, -⟩ := split_buf 0 chars n col hn (Nat.le_of_lt hcol)
  cases b with
  | nil => exact absurd hab (by simp only [List.length_nil]; omega)
  | cons x b =>
    have h1 := delete_buf a b rest x z
    have hbuf2 : chars = a ++ x :: b ++ z :: rest := by
      rw [hbuf]
    clear hbuf
    subst hbuf2
    simp only [List.length_cons] at hab
    have e1 : n - col = b.length + 1 := by omega
    rw [e1, ← ha, h1, ← hz]
    have e2 : (a ++ x :: b ++ z :: rest).take n = a ++ x :: b := by
      rw [← habw]
    have e3 : (a ++ x :: b).eraseIdx a.length = a ++ b := by
      rw [List.eraseIdx_append_of_length_le (Nat.le_refl _)]
      simp
    rw [e2, e3]
    have e4 : n = (a ++ b).length + 1 := by simp only [List.length_append]; omega
    have e5 : n - 1 = (a ++ b).length := by omega
    refine ⟨?_, ?_, ?_, ?_⟩
    · rw [e4, List.take_append]
      simp
    · rw [e5, List.take_left' rfl]
    · simp only [List.length_append, List.length_cons]
      omega
    · rw [e5, List.getD_eq_getElem?_getD, List.getElem?_append_right (Nat.le_refl _)]
      simp

theorem count_eraseIdx_le (w : List Nat) (col : Nat) :
    (w.eraseIdx col).count TAB ≤ w.count TAB :=
  (List.eraseIdx_sublist w col).count_le TAB

theorem insertedRow_facts (row : erow) (col c : Nat) (hsz : row.size < row.chars.length) :
    (insertedRow row col c).raw =
        (if row.size < col then row.raw ++ List.replicate (col - row.size) 32 ++ [c % 256]
         else row.raw.take col ++ (c % 256) :: row.raw.drop col) ∧
      (insertedRow row col c).size = (if row.size < col then col + 1 else row.size + 1) ∧
      (insertedRow row col c).raw.length = (insertedRow row col c).size ∧
      (insertedRow row col c).size < (insertedRow row col c).chars.length ∧
      (insertedRow row col c).chars.getD (insertedRow row col c).size 0
        = (if row.size < col then 0 else row.chars.getD row.size 0) ∧
      (insertedRow row col c).idx = row.idx := by
  have hlen := raw_length row hsz
  by_cases hc : row.size < col
  · simp only [insertedRow, if_pos hc, erow.raw]
    have hlen2 : (List.take row.size row.chars).length = row.size := hlen
    have e1 : (List.take row.size row.chars ++ List.replicate (col - row.size) 32).length = col := by
      simp only [List.length_append, List.length_replicate, hlen2]
      omega
    have e2 : List.take row.size row.chars ++ List.replicate (col - row.size) 32 ++ [c % 256, 0]
        = (List.take row.size row.chars ++ List.replicate (col - row.size) 32 ++ [c % 256]) ++ [0] := by
      simp
    have e3 : (List.take row.size row.chars ++ List.replicate (col - row.size) 32 ++ [c % 256]).length
        = col + 1 := by
      rw [List.length_append, e1]
      rfl
    refine ⟨?_, trivial, ?_, ?_, ?_, trivial⟩
    · rw [e2, List.take_left' e3]
    · rw [e2, List.take_left' e3, e3]
    · rw [e2, List.length_append, e3]
      simp
    · rw [e2, List.getD_eq_getElem?_getD, List.getElem?_append_right (by rw [e3]), e3]
      simp
  · simp only [insertedRow, if_neg hc, erow.raw]
    have hlen2 : (List.take row.size row.chars).length = row.size := hlen
    have e3 : (List.take col (List.take row.size row.chars) ++
        (c % 256) :: List.drop col (List.take row.size row.chars)).length = row.size + 1 := by
      simp only [List.length_append, List.length_cons, List.length_take, List.length_drop]
      omega
    refine ⟨?_, trivial, ?_, ?_, ?_, trivial⟩
    · rw [List.take_left' e3]
    · rw [List.take_left' e3, e3]
    · rw [List.length_append, e3]
      simp
    · rw [List.getD_eq_getElem?_getD (List.take col (List.take row.size row.chars) ++
        (c % 256) :: List.drop col (List.take row.size row.chars) ++ _),
        List.getElem?_append_right (by rw [e3]), e3]
      simp

theorem mutated_of_updated (E : editorConfig) (r : Nat) (row x : erow) (E1 : editorConfig)
    (hrow : E.row[r]? = some row) (hidx : x.idx = row.idx) (hfw : idxForward E)
    (hup : updated E r x E1) :
    mutated E r x { E1 with dirty := E1.dirty + 1 } := by
  have hr := getElem?_lt _ _ _ hrow
  refine ⟨?_, updated_length E r x E1 hup, updated_at E r x E1 hr hup,
    updated_other E r x E1 hup, hup.2.2.1, hup.2.2.2, ?_⟩
  · have := hup.1
    simp only [editorConfig.frame] at this ⊢
    cases E1
    cases E
    simp_all
  · exact updated_idxForward E r row x E1 hrow hidx hfw hup

theorem appendedRow_facts (row : erow) (s : List Nat) (len : Nat)
    (hsz : row.size < row.chars.length) (hs : len ≤ s.length) :
    (appendedRow row s len).raw = row.raw ++ s.take len ∧
      (appendedRow row s len).raw.length = (appendedRow row s len).size ∧
      (appendedRow row s len).size < (appendedRow row s len).chars.length ∧
      (appendedRow row s len).chars.getD (appendedRow row s len).size 0 = 0 := by
  have hlen := raw_length row hsz
  have e3 : (row.raw ++ s.take len).length = row.size + len := by
    simp only [List.length_append, List.length_take, hlen]
    omega
  simp only [appendedRow, erow.raw]
  have hraw : row.raw = row.chars.take row.size := rfl
  rw [← hraw]
  refine ⟨?_, ?_, ?_, ?_⟩
  · rw [List.take_left' e3]
  · rw [List.take_left' e3, e3]
  · rw [List.length_append, e3]
    simp
  · rw [List.getD_eq_getElem?_getD, List.getElem?_append_right (by rw [e3]), e3]
    simp

/-! ## States in which the scan stays inside the arrays -/

theorem rowInside_of_fields (x y : erow) (h1 : x.render = y.render) (h2 : x.rsize = y.rsize)
    (h3 : x.size = y.size) (h : rowInside y) : rowInside x := by
  unfold rowInside lineCommentAt at h ⊢
  rw [h1, h2, h3]
  exact h

theorem rowInside_of_strip (x y : erow) (h : x.strip = y.strip) (hy : rowInside y) :
    rowInside x :=
  rowInside_of_fields x y (strip_render _ _ h) (strip_rsize _ _ h) (strip_size _ _ h) hy

/-- The seed of the scan is read inside the row array when `idx` is at most the
length of the array. -/
theorem seedComment_isSome (E : editorConfig) (idx : Nat) (h : idx ≤ E.row.length) :
    ∃ ic, seedComment E idx = some ic := by
  unfold seedComment
  by_cases h0 : idx > 0
  · rw [if_pos h0, getElem?_of_lt E.row (idx - 1) (by omega)]
    exact ⟨_, rfl⟩
  · rw [if_neg h0]
    exact ⟨_, rfl⟩

/-- Without profile every state is ready for the scan, which is not run. -/
theorem scanReady_of_no_profile (E : editorConfig) (r : Nat) (h : E.esyntax = none) :
    scanReady E r := Or.inl h

/-- The property `scanReady` looks at the profile, the number of rows and the
rows up to their highlight fields only. -/
theorem scanReady_of_pointwise (E E' : editorConfig) (r : Nat)
    (hsyn : E'.esyntax = E.esyntax) (hnum : E'.numrows = E.numrows)
    (hlen : E'.row.length = E.row.length)
    (hpt : ∀ j, j < E.row.length →
      (E'.row.getD j default).strip = (E.row.getD j default).strip)
    (h : scanReady E r) : scanReady E' r := by
  rcases h with h0 | ⟨hC, hrows⟩
  · exact Or.inl (by rw [hsyn]; exact h0)
  · refine Or.inr ⟨by rw [hsyn]; exact hC, ?_⟩
    intro j hj hjr
    obtain ⟨h1, h2⟩ := hrows j (by omega) (by omega)
    have hs := hpt j (by omega)
    refine ⟨rowInside_of_strip _ _ hs h1, ?_⟩
    rw [strip_idx _ _ hs, hlen]
    exact h2

theorem scanReady_of_strip (E E' : editorConfig) (r : Nat)
    (hrow : E'.row.map erow.strip = E.row.map erow.strip) (hf : E'.frame = E.frame)
    (h : scanReady E r) : scanReady E' r := by
  have hsyn : E'.esyntax = E.esyntax := by
    have := congrArg editorConfig.esyntax hf
    simpa [editorConfig.frame] using this
  have hnum : E'.numrows = E.numrows := by
    have := congrArg editorConfig.numrows hf
    simpa [editorConfig.frame] using this
  exact scanReady_of_pointwise E E' r hsyn hnum (length_eq_of_strip _ _ hrow)
    (fun j _ => strip_getD_eq _ _ hrow j) h

/-- A state that is ready for the scan of one row is ready for the scan of
every row of the document. -/
theorem scanReady_next (E : editorConfig) (r r' : Nat) (h : scanReady E r)
    (hr : r' < E.numrows) : scanReady E r' := by
  rcases h with h0 | ⟨hC, hrows⟩
  · exact Or.inl h0
  · refine Or.inr ⟨hC, ?_⟩
    intro j hj hjr
    exact hrows j hj (Or.inl (by omega))

theorem editorUpdateSyntax_spec :
    ∀ (fuel : Nat) (E : editorConfig) (r : Nat),
      r < E.row.length → E.numrows ≤ E.row.length → idxForward E → scanReady E r →
      E.numrows < r + fuel → 0 < fuel →
      ∃ E', editorUpdateSyntax fuel E r = some E' ∧ synPost E r E' := by
  intro fuel
  induction fuel with
  | zero => intro E r _ _ _ _ _ h; omega
  | succ n ih =>
    intro E r hr hnum hfw hs hfuel _
    have hrow := getElem?_of_lt E.row r hr
    generalize hrw : E.row.getD r default = row at hrow
    unfold editorUpdateSyntax
    simp only [hrow]
    cases hsyn : E.esyntax with
    | none =>
      simp only
      exact ⟨_, rfl, synPost_setRow E r row _ hrow rfl (by simp [hlOK])⟩
    | some S =>
      have hC : S = HLDB_C := by
        rcases hs with h0 | ⟨hC, -⟩
        · rw [hsyn] at h0
          exact Option.noConfusion h0
        · rw [hsyn] at hC
          exact Option.some.inj hC
      subst hC
      have hrows : ∀ j, j < E.row.length → (j < E.numrows ∨ j = r) →
          rowInside (E.row.getD j default) ∧ (E.row.getD j default).idx ≤ E.row.length := by
        rcases hs with h0 | ⟨-, hrows⟩
        · rw [hsyn] at h0
          exact Option.noConfusion h0
        · exact hrows
      obtain ⟨hri, hib⟩ := hrows r hr (Or.inr rfl)
      rw [hrw] at hri hib
      simp only
      obtain ⟨ic, hic⟩ := seedComment_isSome
        (setRow E r { row with hl := List.replicate row.rsize HL_NORMAL }) row.idx
        (by simp only [setRow, List.length_set]; exact hib)
      rw [hic]
      simp only
      have hsome := scanLoop_isSome HLDB_C { row with hl := List.replicate row.rsize HL_NORMAL }
        row.rsize (turnsInside_of_rowInside _ hri)
        (2 * row.render.length + 2)
        { i := skipSpaces row.render, prev_sep := true, in_string := 0, in_comment := ic,
          hl := List.replicate row.rsize HL_NORMAL } (by simp) (by
            simp only
            exact skipSpaces_le row.render) (by simp only; split <;> omega)
      obtain ⟨⟨hl, b⟩, hscan⟩ := Option.isSome_iff_exists.mp hsome
      have hlen := scanLoop_length _ _ _ _ _ _ hscan
      simp only [List.length_replicate] at hlen
      simp only [hscan]
      cases b with
      | true =>
        exact ⟨_, rfl, synPost_setRow E r row _ hrow rfl hlen⟩
      | false =>
        simp only [setRow_numrows]
        generalize (if editorRowHasOpenComment { row with hl := hl } = true then 1 else 0) = oc
        by_cases hcond : (row.hl_oc != oc && decide (row.idx + 1 < E.numrows)) = true
        · rw [if_pos hcond]
          have hnext : row.idx + 1 < E.numrows := by
            simp only [Bool.and_eq_true, decide_eq_true_eq] at hcond
            exact hcond.2
          have hidx : r ≤ row.idx := by
            have := hfw r hr
            rw [hrw] at this
            exact this
          have hpost1 : synPost E r (setRow E r { row with hl := hl }) :=
            synPost_setRow E r row _ hrow rfl hlen
          have hlen1 : (setRow E r { row with hl := hl }).row.length = E.row.length := by
            simp [setRow]
          obtain ⟨E2, hE2, hpost2⟩ := ih (setRow E r { row with hl := hl }) (row.idx + 1)
            (by rw [hlen1]; omega) (by rw [hlen1]; exact hnum)
            (idxForward_of_strip E _ hpost1.2.1 hfw)
            (scanReady_next _ _ _ (scanReady_of_strip E _ r hpost1.2.1 hpost1.1 hs)
              (by simp only [setRow]; exact hnext))
            (by simp only [setRow]; omega) (by omega)
          simp only [hE2]
          refine ⟨_, rfl, ?_⟩
          have hlen2 : E2.row.length = E.row.length := by
            rw [length_eq_of_strip _ _ hpost2.2.1, hlen1]
          have hr2 : r < E2.row.length := by omega
          have hrow2 := getElem?_of_lt E2.row r hr2
          have hstrip2 : (E2.row.getD r default).strip = row.strip := by
            rw [strip_getD_eq _ _ hpost2.2.1 r]
            simp only [setRow]
            rw [getD_set_self _ _ _ hr]
            rfl
          have hok2 : hlOK (E2.row.getD r default) := by
            apply hpost2.2.2.2
            simp only [setRow]
            rw [getD_set_self _ _ _ hr]
            exact hlen
          have hgd : E2.row.getD r { row with hl := hl } = E2.row.getD r default :=
            getD_irrel _ _ _ _ hr2
          rw [hgd]
          have hpost3 := synPost_setRow E2 r (E2.row.getD r default)
            { E2.row.getD r default with hl_oc := oc } hrow2 rfl hok2
          refine ⟨?_, ?_, ?_, ?_⟩
          · exact hpost2.1
          · rw [hpost3.2.1, hpost2.2.1, hpost1.2.1]
          · exact hpost3.2.2.1
          · intro j hj
            exact hpost3.2.2.2 j (hpost2.2.2.2 j (hpost1.2.2.2 j hj))
        · rw [if_neg hcond]
          refine ⟨_, rfl, ?_⟩
          have h1 : setRow (setRow E r { row with hl := hl }) r { row with hl := hl, hl_oc := oc }
              = setRow E r { row with hl := hl, hl_oc := oc } := by
            simp [setRow]
          rw [h1]
          exact synPost_setRow E r row _ hrow rfl hlen

theorem editorUpdateRow_spec (E : editorConfig) (r : Nat) (row : erow)
    (hrow : E.row[r]? = some row) (hnum : E.numrows ≤ E.row.length)
    (hfw : idxForward E) (hfit : row.size + 8 * row.raw.count TAB + 1 ≤ UINT32_MAX)
    (hs : scanReady (setRow E r (rendered row)) r) :
    ∃ E', editorUpdateRow E r = some E' ∧ rowPost E r row E' := by
  have hr : r < E.row.length := by
    by_contra hn
    rw [List.getElem?_eq_none (Nat.le_of_not_lt hn)] at hrow
    cases hrow
  unfold editorUpdateRow
  simp only [hrow]
  have hraw : row.chars.take row.size = row.raw := rfl
  rw [hraw]
  have hlen := renderLoop_length_le row.raw []
  have hrl : row.raw.length ≤ row.size := by
    simp only [erow.raw, List.length_take]
    omega
  simp only [List.length_nil, Nat.zero_add] at hlen
  simp only [UINT32_MAX] at hfit
  have hm1 : (List.count TAB row.raw * 8) % 2 ^ 32 = List.count TAB row.raw * 8 := by
    apply Nat.mod_eq_of_lt
    omega
  have hm2 : (row.size + List.count TAB row.raw * 8 + 0 * 9 + 1) % 2 ^ 32
      = row.size + List.count TAB row.raw * 8 + 1 := by
    rw [Nat.mod_eq_of_lt]
    omega
  rw [hm1, hm2]
  rw [if_neg (by simp only [UINT32_MAX]; omega), if_neg (by omega)]
  obtain ⟨E', hE', hpost⟩ := editorUpdateSyntax_spec (E.numrows + 1)
    (setRow E r { row with render := renderLoop row.raw [],
                           rsize := (renderLoop row.raw []).length }) r
    (by simp only [setRow, List.length_set]; exact hr)
    (by simp only [setRow, List.length_set]; exact hnum)
    (idxForward_set E r row _ hrow rfl hfw) hs
    (by simp only [setRow]; omega) (by omega)
  refine ⟨E', hE', hpost.1, hpost.2.1, hpost.2.2.1, ?_⟩
  intro j hj hok
  apply hpost.2.2.2
  simp only [setRow]
  rw [getD_set_ne _ _ _ _ (Ne.symm hj)]
  exact hok

theorem editorUpdateRow_setRow (E : editorConfig) (r : Nat) (row x : erow)
    (hrow : E.row[r]? = some row) (hidx : x.idx = row.idx) (hnum : E.numrows ≤ E.row.length)
    (hfw : idxForward E) (hfit : x.size + 8 * x.raw.count TAB + 1 ≤ UINT32_MAX)
    (hs : scanReady (setRow E r (rendered x)) r) :
    ∃ E1, editorUpdateRow (setRow E r x) r = some E1 ∧ updated E r x E1 := by
  have hr := getElem?_lt _ _ _ hrow
  have hx : (setRow E r x).row[r]? = some x := by
    simp [setRow, List.getElem?_set, hr]
  obtain ⟨E1, h1, hp⟩ := editorUpdateRow_spec (setRow E r x) r x hx
    (by simp only [setRow, List.length_set]; exact hnum)
    (idxForward_set E r row x hrow hidx hfw) hfit (by
      have e : setRow (setRow E r x) r (rendered x) = setRow E r (rendered x) := by
        simp [setRow]
      rw [e]
      exact hs)
  refine ⟨E1, h1, hp.1, ?_, hp.2.2.1, ?_⟩
  · rw [hp.2.1]
    simp [setRow, rendered]
  · intro j hj hok
    apply hp.2.2.2 j hj
    simp only [setRow]
    rw [getD_set_ne _ _ _ _ (Ne.symm hj)]
    exact hok

theorem editorRowDelChar_spec (E : editorConfig) (r col : Nat) (row : erow)
    (hrow : E.row[r]? = some row) (hnum : E.numrows ≤ E.row.length) (hfw : idxForward E)
    (hsz : row.size < row.chars.length) (hterm : row.chars.getD row.size 0 = 0)
    (hcol : col < row.size) (hfit : lineFits row.raw)
    (hs : scanReady (setRow E r (rendered (shiftedRow row col))) r) :
    ∃ (E' : editorConfig) (x : erow), editorRowDelChar E r col = some E' ∧
      E'.frame = { E.frame with dirty := E.dirty + 1 } ∧
      E'.row.length = E.row.length ∧
      x.strip = (E'.row.getD r default).strip ∧
      x.idx = row.idx ∧
      x.raw = row.raw.eraseIdx col ∧ x.size = row.size - 1 ∧
      x.size < x.chars.length ∧ x.chars.getD x.size 0 = 0 ∧
      x.render = renderLoop (row.raw.eraseIdx col ++ [0]) [] ∧
      x.rsize = (renderLoop (row.raw.eraseIdx col ++ [0]) []).length ∧
      (∀ j, j ≠ r → (E'.row.getD j default).strip = (E.row.getD j default).strip) ∧
      hlOK (E'.row.getD r default) ∧
      (∀ j, j ≠ r → hlOK (E.row.getD j default) → hlOK (E'.row.getD j default)) ∧
      idxForward E' := by
  have hr := getElem?_lt _ _ _ hrow
  obtain ⟨d1, d2, d3, d4⟩ := delete_chars row.chars row.size col hsz hcol
  rw [hterm] at d1 d4
  have hrawlen := raw_length row hsz
  have hfit1 : ({ row with chars := memmove row.chars col (col + 1) (row.size - col) } : erow).size
      + 8 * ({ row with chars := memmove row.chars col (col + 1) (row.size - col) } : erow).raw.count TAB
      + 1 ≤ UINT32_MAX := by
    show row.size + 8 * ((memmove row.chars col (col + 1) (row.size - col)).take row.size).count TAB
      + 1 ≤ UINT32_MAX
    rw [d1, List.count_append]
    have h9 : List.count TAB [0] = 0 := by decide
    have hle := count_eraseIdx_le (row.chars.take row.size) col
    have hf : row.raw.length + 8 * row.raw.count TAB + 1 ≤ UINT32_MAX := hfit
    rw [hrawlen] at hf
    have hraw : row.raw = row.chars.take row.size := rfl
    rw [hraw] at hf
    omega
  obtain ⟨E1, hE1, hup⟩ := editorUpdateRow_setRow E r row
    { row with chars := memmove row.chars col (col + 1) (row.size - col) } hrow rfl hnum hfw hfit1
    hs
  have hlen1 := updated_length _ _ _ _ hup
  have hat := updated_at _ _ _ _ hr hup
  have hr1 : r < E1.row.length := by omega
  unfold editorRowDelChar
  simp only [hrow]
  rw [if_neg (by omega)]
  simp only [hE1]
  have hgd : E1.row.getD r row = E1.row.getD r default := getD_irrel _ _ _ _ hr1
  rw [hgd]
  refine ⟨_, { E1.row.getD r default with size := (E1.row.getD r default).size - 1 }, rfl,
    ?_, ?_, ?_, ?_, ?_, ?_, ?_, ?_, ?_, ?_, ?_, ?_, ?_, ?_⟩
  · have := hup.1
    simp only [editorConfig.frame, setRow] at this ⊢
    cases E1
    cases E
    simp_all
  · simp [setRow, hlen1]
  · simp only [setRow]
    rw [getD_set_self _ _ _ hr1]
  · rw [strip_idx _ _ hat]
    rfl
  · simp only [erow.raw]
    rw [strip_chars _ _ hat, strip_size _ _ hat]
    exact d2
  · simp only
    rw [strip_size _ _ hat]
    rfl
  · simp only
    rw [strip_chars _ _ hat, strip_size _ _ hat]
    exact d3
  · simp only
    rw [strip_chars _ _ hat, strip_size _ _ hat]
    exact d4
  · simp only
    rw [strip_render _ _ hat]
    simp only [rendered, erow.raw]
    rw [d1]
  · simp only
    rw [strip_rsize _ _ hat]
    simp only [rendered, erow.raw]
    rw [d1]
  · intro j hj
    simp only [setRow]
    rw [getD_set_ne _ _ _ _ (Ne.symm hj)]
    exact updated_other _ _ _ _ hup j hj
  · simp only [setRow]
    rw [getD_set_self _ _ _ hr1]
    exact hup.2.2.1
  · intro j hj hok
    simp only [setRow]
    rw [getD_set_ne _ _ _ _ (Ne.symm hj)]
    exact hup.2.2.2 j hj hok
  · have hf1 := updated_idxForward E r row
      ({ row with chars := memmove row.chars col (col + 1) (row.size - col) } : erow)
      E1 hrow rfl hfw hup
    exact idxForward_set E1 r (E1.row.getD r default) _ (getElem?_of_lt _ _ hr1) rfl hf1

theorem editorRowInsertChar_spec (E : editorConfig) (r col c : Nat) (row : erow)
    (hrow : E.row[r]? = some row) (hnum : E.numrows ≤ E.row.length) (hfw : idxForward E)
    (hsz : row.size < row.chars.length) (hfit : lineFits (insertedRow row col c).raw)
    (hs : scanReady (setRow E r (rendered (insertedRow row col c))) r) :
    ∃ E', editorRowInsertChar E (some r) col c = some E' ∧
      mutated E r (insertedRow row col c) E' := by
  obtain ⟨-, -, h3, -, -, h6⟩ := insertedRow_facts row col c hsz
  have hfit1 : (insertedRow row col c).size + 8 * (insertedRow row col c).raw.count TAB + 1
      ≤ UINT32_MAX := by
    have hf : (insertedRow row col c).raw.length + 8 * (insertedRow row col c).raw.count TAB + 1
      ≤ UINT32_MAX := hfit
    rw [h3] at hf
    exact hf
  obtain ⟨E1, hE1, hup⟩ := editorUpdateRow_setRow E r row (insertedRow row col c) hrow h6 hnum hfw
    hfit1 hs
  rw [editorRowInsertChar_eq E r col c row hrow hsz]
  simp only [hE1]
  exact ⟨_, rfl, mutated_of_updated E r row _ E1 hrow h6 hfw hup⟩

theorem editorRowAppendString_spec (E : editorConfig) (r : Nat) (s : List Nat) (len : Nat)
    (row : erow) (hrow : E.row[r]? = some row) (hnum : E.numrows ≤ E.row.length)
    (hfw : idxForward E) (hsz : row.size < row.chars.length) (hs : len ≤ s.length)
    (hfit : lineFits (row.raw ++ s.take len))
    (hsr : scanReady (setRow E r (rendered (appendedRow row s len))) r) :
    ∃ E', editorRowAppendString E r s len = some E' ∧ mutated E r (appendedRow row s len) E' := by
  obtain ⟨h1, h2, -, -⟩ := appendedRow_facts row s len hsz hs
  have hfit1 : (appendedRow row s len).size + 8 * (appendedRow row s len).raw.count TAB + 1
      ≤ UINT32_MAX := by
    have hf : (row.raw ++ s.take len).length + 8 * (row.raw ++ s.take len).count TAB + 1
      ≤ UINT32_MAX := hfit
    rw [← h1, h2] at hf
    exact hf
  obtain ⟨E1, hE1, hup⟩ := editorUpdateRow_setRow E r row (appendedRow row s len) hrow rfl hnum hfw
    hfit1 hsr
  have hkey : ({ row with
      chars := (memcpy (realloc 0 row.chars (row.size + len + 1)) row.size s len).set
        (row.size + len) 0,
      size := row.size + len } : erow) = appendedRow row s len := by
    obtain ⟨a, b, z, rest, hbuf, ha, hab, habw, -, -, -⟩ :=
      split_buf 0 row.chars row.size row.size hsz (Nat.le_refl _)
    have hb : b = [] := by
      apply List.eq_nil_of_length_eq_zero
      omega
    subst hb
    simp only [List.append_nil] at hbuf habw
    have h := append_buf a (z :: rest) s len hs
    rw [← hbuf, ha] at h
    simp only [appendedRow]
    have hraw : row.raw = a := habw.symm
    rw [h, hraw]
  unfold editorRowAppendString
  simp only [hrow]
  rw [hkey]
  simp only [hE1]
  exact ⟨_, rfl, mutated_of_updated E r row _ E1 hrow rfl hfw hup⟩

/-! ## Lemmas on the row array -/

theorem memcpy_fresh (s : List Nat) (len : Nat) :
    memcpy (realloc 0 [] (len + 1)) 0 s (len + 1) = s.take (len + 1) := by
  simp [memcpy, realloc]

theorem getD_append_left (a b : List erow) (j : Nat) (h : j < a.length) :
    (a ++ b).getD j default = a.getD j default := by
  simp [List.getD_eq_getElem?_getD, List.getElem?_append_left h]

theorem getD_append_right (a b : List erow) (j : Nat) (h : a.length ≤ j) :
    (a ++ b).getD j default = b.getD (j - a.length) default := by
  simp [List.getD_eq_getElem?_getD, List.getElem?_append_right h]

theorem getD_map_bump (b : List erow) (j : Nat) (h : j < b.length) :
    (b.map bumpIdx).getD j default = bumpIdx (b.getD j default) := by
  simp [List.getD_eq_getElem?_getD, List.getElem?_map, List.getElem?_eq_getElem h]

theorem getD_cons_succ (x : erow) (b : List erow) (j : Nat) :
    (x :: b).getD (j + 1) default = b.getD j default := by
  simp [List.getD_eq_getElem?_getD]

theorem getD_cons_zero (x : erow) (b : List erow) :
    (x :: b).getD 0 default = x := by
  simp [List.getD_eq_getElem?_getD]

/-- The rows of the inserted array, slot by slot. -/
theorem inserted_getD (a b : List erow) (x : erow) (j : Nat) :
    (a ++ x :: b.map bumpIdx).getD j default =
      if j < a.length then a.getD j default
      else if j = a.length then x
      else if j - a.length - 1 < b.length then bumpIdx (b.getD (j - a.length - 1) default)
      else default := by
  by_cases h1 : j < a.length
  · rw [if_pos h1, getD_append_left _ _ _ h1]
  · rw [if_neg h1, getD_append_right _ _ _ (Nat.le_of_not_lt h1)]
    by_cases h2 : j = a.length
    · rw [if_pos h2, h2, Nat.sub_self, getD_cons_zero]
    · rw [if_neg h2]
      have e : j - a.length = (j - a.length - 1) + 1 := by omega
      have hc := getD_cons_succ x (b.map bumpIdx) (j - a.length - 1)
      rw [← e] at hc
      rw [hc]
      by_cases h3 : j - a.length - 1 < b.length
      · rw [if_pos h3, getD_map_bump _ _ h3]
      · rw [if_neg h3]
        simp [List.getD_eq_getElem?_getD, List.getElem?_eq_none (Nat.le_of_not_lt h3)]

theorem original_getD (a b rest : List erow) (j : Nat) (h1 : a.length ≤ j)
    (h3 : j - a.length < b.length) :
    (a ++ b ++ rest).getD j default = b.getD (j - a.length) default := by
  rw [List.append_assoc, getD_append_right _ _ _ h1, getD_append_left _ _ _ h3]

theorem frame_insert (E E1 : editorConfig) (h : E1.frame = E.frame) :
    ({ E1 with numrows := E1.numrows + 1, dirty := E1.dirty + 1 } : editorConfig).frame
      = { E.frame with numrows := E.numrows + 1, dirty := E.dirty + 1 } := by
  cases E
  cases E1
  simp_all [editorConfig.frame]

/-! ## The claims of the specification -/

theorem wf_row (E : editorConfig) (r : Nat) (hwf : wellFormed E) (hr : r < E.numrows) :
    E.row[r]? = some (E.row.getD r default) ∧
      (E.row.getD r default).size < (E.row.getD r default).chars.length ∧
      (E.row.getD r default).chars.getD (E.row.getD r default).size 0 = 0 := by
  obtain ⟨h1, -, h3⟩ := hwf
  exact ⟨getElem?_of_lt _ _ (by omega), (h3 r hr).1, (h3 r hr).2⟩

theorem insertedRow_raw_splice (row : erow) (col c : Nat) (hsz : row.size < row.chars.length)
    (hc : c < 256) : (insertedRow row col c).raw = spliceChar row.raw col c := by
  rw [(insertedRow_facts row col c hsz).1, spliceChar, raw_length row hsz, Nat.mod_eq_of_lt hc]

theorem mutated_numrows (E : editorConfig) (r : Nat) (x : erow) (E' : editorConfig)
    (h : mutated E r x E') : E'.numrows = E.numrows := by
  have := congrArg editorConfig.numrows h.1
  exact this

theorem mutated_dirty (E : editorConfig) (r : Nat) (x : erow) (E' : editorConfig)
    (h : mutated E r x E') : E'.dirty = E.dirty + 1 := by
  have := congrArg editorConfig.dirty h.1
  exact this

theorem eraseIdx_splice (w : List Nat) (col c : Nat) (h : col ≤ w.length) :
    (w.take col ++ c :: w.drop col).eraseIdx col = w := by
  have e : (w.take col).length = col := by
    simp only [List.length_take]
    omega
  rw [List.eraseIdx_append_of_length_le (by omega), e, Nat.sub_self]
  simp

theorem map_raw_strip (l : List erow) : (l.map erow.strip).map erow.raw = l.map erow.raw := by
  rw [List.map_map]
  rfl

theorem map_raw_of_strip (l l' : List erow) (h : l'.map erow.strip = l.map erow.strip) :
    l'.map erow.raw = l.map erow.raw := by
  rw [← map_raw_strip l', h, map_raw_strip]

theorem map_raw_bump (b : List erow) : (b.map bumpIdx).map erow.raw = b.map erow.raw := by
  rw [List.map_map]
  rfl

theorem idxIncr_mid (a b t : List erow) :
    idxIncr (a ++ b ++ t) a.length (a.length + b.length) = a ++ b.map bumpIdx ++ t := by
  have e2 : a.length + b.length - a.length = b.length := by omega
  simp (disch := omega) [idxIncr, List.take_append_eq_append_take,
    List.drop_append_eq_append_drop, List.take_of_length_le, List.drop_of_length_le, e2]
  intro x _
  rfl

theorem editorDelRow_spec (E : editorConfig) (at_ : Nat) (hnum : E.numrows ≤ E.row.length)
    (hat : at_ < E.numrows) :
    ∃ (a b t : List erow) (x : erow),
      E.rows = a ++ x :: b ∧ a.length = at_ ∧
      (editorDelRow E at_).row = a ++ b.map bumpIdx ++ t ∧
      (editorDelRow E at_).rows = a ++ b.map bumpIdx ∧
      (editorDelRow E at_).numrows = E.numrows - 1 ∧
      (editorDelRow E at_).dirty = E.dirty + 1 := by
  obtain ⟨a, b0, rest, hbuf, ha, hab, habw⟩ :=
    split_prefix E.row E.numrows at_ hnum (Nat.le_of_lt hat)
  cases b0 with
  | nil => exact absurd hab (by simp only [List.length_nil]; omega)
  | cons x b =>
    simp only [List.length_cons] at hab
    have hbuf2 : E.row = a ++ x :: b ++ rest := by
      rw [hbuf]
    have h1 := delete_rows a b rest x
    have e1 : E.numrows - at_ - 1 = b.length := by omega
    have e2 : E.numrows - 1 = a.length + b.length := by omega
    have hrow : (editorDelRow E at_).row = a ++ b.map bumpIdx ++ (x :: b ++ rest).drop b.length := by
      unfold editorDelRow
      rw [if_neg (by omega)]
      simp only
      rw [e1, e2, ← ha, hbuf2, h1, idxIncr_mid]
    have hn : (editorDelRow E at_).numrows = E.numrows - 1 := by
      unfold editorDelRow
      rw [if_neg (by omega)]
    have hd : (editorDelRow E at_).dirty = E.dirty + 1 := by
      unfold editorDelRow
      rw [if_neg (by omega)]
    refine ⟨a, b, (x :: b ++ rest).drop b.length, x, ?_, ha, hrow, ?_, hn, hd⟩
    · simp only [editorConfig.rows]
      rw [← habw]
    · simp only [editorConfig.rows]
      rw [hrow, hn, e2]
      apply List.take_left'
      simp

/-- C3: on a well-formed document `editorDelRow(at)` leaves the state
unchanged (rows, row count, modified counter) when `at >= numrows`; for
`at < numrows` the sequence of raw row contents is the old sequence with the
element at position `at` removed, and `numrows` is one less. -/
theorem C3_delete_row_sequence (E : editorConfig) (at_ : Nat) (hwf : wellFormed E) :
    (E.numrows ≤ at_ → editorDelRow E at_ = E) ∧
      (at_ < E.numrows →
        (editorDelRow E at_).rows.map erow.raw = (E.rows.map erow.raw).eraseIdx at_ ∧
          (editorDelRow E at_).numrows = E.numrows - 1) := by
  constructor
  · intro h
    unfold editorDelRow
    rw [if_pos h]
  · intro h
    obtain ⟨a, b, t, x, hrows, ha, -, hrows', hn, -⟩ := editorDelRow_spec E at_ hwf.1 h
    refine ⟨?_, hn⟩
    rw [hrows', hrows]
    simp only [List.map_append, List.map_cons]
    rw [map_raw_bump]
    have e1 : (a.map erow.raw).length ≤ at_ := by
      rw [List.length_map, ha]
    rw [List.eraseIdx_append_of_length_le e1, List.length_map, ha, Nat.sub_self]
    rfl

theorem rowsTotlen_eq (l : List erow) : ∀ (acc : Nat),
    rowsTotlen l acc = acc + (l.map (fun r => r.size + 1)).sum := by
  induction l with
  | nil => intro acc; simp [rowsTotlen]
  | cons r l ih =>
    intro acc
    simp only [rowsTotlen, ih, List.map_cons, List.sum_cons]
    omega

theorem rowsCopy_eq (l : List erow) : ∀ (out : List Nat),
    rowsCopy l out = out ++ (l.map (fun r => r.raw ++ [10])).flatten := by
  induction l with
  | nil => intro out; simp [rowsCopy]
  | cons r l ih =>
    intro out
    simp only [rowsCopy, ih, List.map_cons, List.flatten_cons, erow.raw, List.append_assoc]

theorem flatten_length (l : List erow) (h : ∀ r ∈ l, r.size ≤ r.chars.length) :
    ((l.map (fun r => r.raw ++ [10])).flatten).length = (l.map (fun r => r.size + 1)).sum := by
  induction l with
  | nil => rfl
  | cons r l ih =>
    simp only [List.map_cons, List.flatten_cons, List.length_append, List.sum_cons,
      List.length_singleton]
    rw [ih (fun x hx => h x (List.mem_cons_of_mem _ hx))]
    have := h r (List.mem_cons_self _ _)
    simp only [erow.raw, List.length_take]
    omega

theorem rows_mem (E : editorConfig) (hnum : E.numrows ≤ E.row.length) (r : erow)
    (h : r ∈ E.rows) : ∃ j, j < E.numrows ∧ E.row.getD j default = r := by
  simp only [editorConfig.rows] at h
  obtain ⟨j, hj, hjr⟩ := List.getElem_of_mem h
  simp only [List.length_take] at hj
  refine ⟨j, by omega, ?_⟩
  rw [List.getElem_take] at hjr
  rw [← hjr]
  simp [List.getD_eq_getElem?_getD, List.getElem?_eq_getElem (show j < E.row.length by omega)]

/-- C10: for a well-formed document `editorRowsToString` returns the
concatenation, in row order, of each row's raw content followed by one
newline (and then the terminator), and the length stored in `*buflen` is the
sum over the rows of `size + 1`, which is the number of bytes of that
concatenation, 0 for an empty document. -/
theorem C10_rows_to_string (E : editorConfig) (hwf : wellFormed E) :
    (editorRowsToString E).1 = (E.rows.map (fun r => r.raw ++ [10])).flatten ++ [0] ∧
      (editorRowsToString E).1.take (editorRowsToString E).2
        = (E.rows.map (fun r => r.raw ++ [10])).flatten ∧
      (editorRowsToString E).2 = (E.rows.map (fun r => r.size + 1)).sum ∧
      (editorRowsToString E).2 = ((E.rows.map (fun r => r.raw ++ [10])).flatten).length ∧
      (E.numrows = 0 → (editorRowsToString E).2 = 0) := by
  have hsz : ∀ r ∈ E.rows, r.size ≤ r.chars.length := by
    intro r hr
    obtain ⟨j, hj, hjr⟩ := rows_mem E hwf.1 r hr
    have := (hwf.2.2 j hj).1
    rw [hjr] at this
    omega
  have hlen := flatten_length E.rows hsz
  have h1 : (editorRowsToString E).1 = (E.rows.map (fun r => r.raw ++ [10])).flatten ++ [0] := by
    simp only [editorRowsToString, rowsCopy_eq, List.nil_append, editorConfig.rows]
  have h2 : (editorRowsToString E).2 = (E.rows.map (fun r => r.size + 1)).sum := by
    simp only [editorRowsToString, rowsTotlen_eq, Nat.zero_add, editorConfig.rows]
  refine ⟨h1, ?_, h2, ?_, ?_⟩
  · rw [h1, h2, ← hlen, List.take_left' rfl]
  · rw [h2, hlen]
  · intro h0
    rw [h2]
    simp [editorConfig.rows, h0]

theorem renderOK_of_strip (x y : erow) (h : x.strip = y.strip) (hy : renderOK y) :
    renderOK x := by
  simp only [renderOK] at hy ⊢
  rw [strip_render _ _ h, strip_rsize _ _ h]
  exact hy

theorem renderOK_rendered (x : erow) : renderOK (rendered x) := rfl

theorem mutated_hlInv (E : editorConfig) (r : Nat) (x : erow) (E' : editorConfig)
    (h : mutated E r x E') (hinv : hlInv E) : hlInv E' := by
  intro j hj
  rw [mutated_numrows _ _ _ _ h] at hj
  by_cases hjr : j = r
  · subst hjr
    exact ⟨h.2.2.2.2.1, renderOK_of_strip _ _ h.2.2.1 (renderOK_rendered x)⟩
  · exact ⟨h.2.2.2.2.2.1 j hjr (hinv j hj).1,
      renderOK_of_strip _ _ (h.2.2.2.1 j hjr) (hinv j hj).2⟩

theorem rows_getD (E : editorConfig) (j : Nat) (hj : j < E.numrows) :
    E.rows.getD j default = E.row.getD j default := by
  simp [editorConfig.rows, List.getD_eq_getElem?_getD, List.getElem?_take, hj]

theorem editorDelRow_hlInv (E : editorConfig) (at_ : Nat) (hwf : wellFormed E)
    (hinv : hlInv E) : hlInv (editorDelRow E at_) := by
  by_cases hat : at_ < E.numrows
  · obtain ⟨a, b, t, x, hrows, ha, hrow, -, hn, -⟩ := editorDelRow_spec E at_ hwf.1 hat
    have hlenab : a.length + (b.length + 1) = E.numrows := by
      have := congrArg List.length hrows
      simp only [editorConfig.rows, List.length_take, List.length_append,
        List.length_cons] at this
      have := hwf.1
      omega
    intro j hj
    rw [hn] at hj
    rw [hrow, List.append_assoc]
    by_cases h1 : j < a.length
    · rw [getD_append_left _ _ _ h1]
      have hold : a.getD j default = E.row.getD j default := by
        rw [← rows_getD E j (by omega), hrows, getD_append_left _ _ _ h1]
      rw [hold]
      exact hinv j (by omega)
    · rw [getD_append_right _ _ _ (by omega),
        getD_append_left _ _ _ (by rw [List.length_map]; omega),
        getD_map_bump _ _ (by omega)]
      have hold : b.getD (j - a.length) default = E.row.getD (j + 1) default := by
        rw [← rows_getD E (j + 1) (by omega), hrows, getD_append_right _ _ _ (by omega)]
        have e : j + 1 - a.length = (j - a.length) + 1 := by omega
        rw [e, getD_cons_succ]
      rw [hold]
      exact hinv (j + 1) (by omega)
  · have h : editorDelRow E at_ = E := by
      unfold editorDelRow
      rw [if_pos (by omega)]
    rw [h]
    exact hinv

/-! ## The mutators in states in which the scan stays inside the arrays -/

/-- The row that `editorRowDelChar` renders depends on the buffer, the size and
the index of the row only. -/
theorem rendered_shifted_strip (x y : erow) (col : Nat) (h1 : x.chars = y.chars)
    (h2 : x.size = y.size) (h3 : x.idx = y.idx) :
    (rendered (shiftedRow x col)).strip = (rendered (shiftedRow y col)).strip := by
  simp only [rendered, shiftedRow, erow.strip, erow.raw, h1, h2, h3]

/-- The property `scanReady` of a state with a row stored in slot `r` looks at
the profile, the number of rows, the other slots and the stored row, all up to
highlight fields. -/
theorem scanReady_setRow_congr (E E1 : editorConfig) (r : Nat) (y1 y2 : erow)
    (hsyn : E1.esyntax = E.esyntax) (hnum : E1.numrows = E.numrows)
    (hlen : E1.row.length = E.row.length)
    (hoth : ∀ j, j ≠ r → (E1.row.getD j default).strip = (E.row.getD j default).strip)
    (hy : y1.strip = y2.strip) (h : scanReady (setRow E r y2) r) :
    scanReady (setRow E1 r y1) r := by
  apply scanReady_of_pointwise (setRow E r y2) (setRow E1 r y1) r hsyn hnum
  · simp only [setRow, List.length_set]
    exact hlen
  · intro j hj
    simp only [setRow, List.length_set] at hj ⊢
    by_cases hjr : r = j
    · subst hjr
      rw [getD_set_self _ _ _ hj, getD_set_self _ _ _ (by rw [hlen]; exact hj)]
      exact hy
    · rw [getD_set_ne _ _ _ _ hjr, getD_set_ne _ _ _ _ hjr]
      exact hoth j (Ne.symm hjr)
  · exact h

/-- The property `scanReady` looks at the profile, the number of rows and the
row array only. -/
theorem scanReady_of_fields (E E1 : editorConfig) (r : Nat) (hsyn : E1.esyntax = E.esyntax)
    (hnum : E1.numrows = E.numrows) (hrow : E1.row = E.row) (h : scanReady E r) :
    scanReady E1 r :=
  scanReady_of_pointwise E E1 r hsyn hnum (by rw [hrow]) (fun j _ => by rw [hrow]) h

/-- After a row mutator has stored `x` in slot `r`, the state with a row `y1`
in slot `r` is ready for the scan when the old state with a row `y2` of the
same content in slot `r` is. -/
theorem scanReady_after_mutated (E E1 : editorConfig) (r : Nat) (x y1 y2 : erow)
    (hm : mutated E r x E1) (hy : y1.strip = y2.strip)
    (h : scanReady (setRow E r y2) r) : scanReady (setRow E1 r y1) r := by
  have hsyn : E1.esyntax = E.esyntax := by
    have := congrArg editorConfig.esyntax hm.1
    simpa [editorConfig.frame] using this
  have hnum : E1.numrows = E.numrows := by
    have := congrArg editorConfig.numrows hm.1
    simpa [editorConfig.frame] using this
  exact scanReady_setRow_congr E E1 r y1 y2 hsyn hnum hm.2.1 hm.2.2.2.1 hy h

theorem editorInsertRow_spec (E : editorConfig) (at_ : Nat) (s : List Nat) (len : Nat)
    (hnum : E.numrows ≤ E.row.length) (hfw : idxForward E) (hat : at_ ≤ E.numrows)
    (hfit : lineFits (s.take len)) (hs : len < s.length)
    (hsr : scanReady (insertedState E at_ s len) at_) :
    ∃ (E' : editorConfig) (a b : List erow),
      editorInsertRow E at_ s len = some E' ∧
      E.rows = a ++ b ∧ a.length = at_ ∧
      E'.frame = { E.frame with numrows := E.numrows + 1, dirty := E.dirty + 1 } ∧
      E'.row.length = E.numrows + 1 ∧
      E'.row.map erow.strip
        = (a ++ rendered (freshRow at_ s len) :: b.map bumpIdx).map erow.strip ∧
      hlOK (E'.row.getD at_ default) ∧
      (∀ j, j ≠ at_ → hlOK ((a ++ freshRow at_ s len :: b.map bumpIdx).getD j default) →
        hlOK (E'.row.getD j default)) ∧
      idxForward E' := by
  obtain ⟨a, b, rest, hbuf, ha, hab, habw⟩ := split_prefix E.row E.numrows at_ hnum hat
  have hrows0 : (if (at_ != E.numrows) = true then
        idxIncr (memmove (realloc default E.row (E.numrows + 1)) (at_ + 1) at_ (E.numrows - at_))
          (at_ + 1) (E.numrows + 1)
      else realloc default E.row (E.numrows + 1)).set at_
        { idx := at_, size := len, rsize := 0,
          chars := memcpy (realloc 0 [] (len + 1)) 0 s (len + 1),
          render := [], hl := [], hl_oc := 0 }
      = a ++ freshRow at_ s len :: b.map bumpIdx := by
    rw [memcpy_fresh]
    by_cases hne : at_ = E.numrows
    · have hb : b = [] := by
        apply List.eq_nil_of_length_eq_zero
        omega
      subst hb
      have h := insert_rows_end a rest (freshRow at_ s len)
      simp only [List.append_nil] at hbuf
      rw [← hbuf, ha] at h
      rw [if_neg (by simp [hne]), ← hne]
      exact h
    · have hb : b ≠ [] := by
        intro hb
        subst hb
        simp only [List.length_nil] at hab
        omega
      have h := insert_rows a b rest (freshRow at_ s len) hb
      have e1 : a.length + b.length + 1 = E.numrows + 1 := by omega
      have e2 : b.length = E.numrows - at_ := by omega
      rw [← hbuf, e1, ha, e2] at h
      rw [if_pos (by simp [hne])]
      exact h
  have hr0 : (a ++ freshRow at_ s len :: b.map bumpIdx)[at_]? = some (freshRow at_ s len) := by
    rw [List.getElem?_append_right (by omega), ha]
    simp
  have hlen0 : (a ++ freshRow at_ s len :: b.map bumpIdx).length = E.numrows + 1 := by
    simp only [List.length_append, List.length_cons, List.length_map]
    omega
  have hfw0 : idxForward { E with row := a ++ freshRow at_ s len :: b.map bumpIdx } := by
    intro j hj
    simp only at hj ⊢
    rw [hlen0] at hj
    rw [inserted_getD]
    by_cases h1 : j < a.length
    · rw [if_pos h1]
      have := hfw j (by omega)
      rw [hbuf, List.append_assoc, getD_append_left _ _ _ h1] at this
      exact this
    · rw [if_neg h1]
      by_cases h2 : j = a.length
      · rw [if_pos h2]
        simp only [freshRow]
        omega
      · rw [if_neg h2]
        have h3 : j - a.length - 1 < b.length := by omega
        rw [if_pos h3]
        have := hfw (j - 1) (by omega)
        rw [hbuf, original_getD a b rest (j - 1) (by omega) (by omega)] at this
        have e : j - 1 - a.length = j - a.length - 1 := by omega
        rw [e] at this
        simp only [bumpIdx]
        omega
  have hfit0 : (freshRow at_ s len).size + 8 * (freshRow at_ s len).raw.count TAB + 1
      ≤ UINT32_MAX := by
    have hf : (s.take len).length + 8 * (s.take len).count TAB + 1 ≤ UINT32_MAX := hfit
    have e1 : (freshRow at_ s len).raw = s.take len := by
      simp only [freshRow, erow.raw, List.take_take]
      congr 1
      omega
    have e2 : (s.take len).length = len := by
      simp only [List.length_take]
      omega
    rw [e1]
    rw [e2] at hf
    exact hf
  have hset : (a ++ freshRow at_ s len :: b.map bumpIdx).set at_ (rendered (freshRow at_ s len))
      = a ++ rendered (freshRow at_ s len) :: b.map bumpIdx := by
    rw [List.set_append_right _ _ (by omega), ha]
    simp
  have hstate : setRow { E with row := a ++ freshRow at_ s len :: b.map bumpIdx } at_
      (rendered (freshRow at_ s len)) = insertedState E at_ s len := by
    simp only [setRow, insertedState, editorConfig.rows]
    rw [hset, ← habw, List.take_left' ha, List.drop_left' ha]
  obtain ⟨E1, hE1, hpost⟩ := editorUpdateRow_spec
    { E with row := a ++ freshRow at_ s len :: b.map bumpIdx } at_ (freshRow at_ s len) hr0
    (by simp only; rw [hlen0]; omega) hfw0 hfit0 (by rw [hstate]; exact hsr)
  have hstrip : E1.row.map erow.strip
      = ((a ++ freshRow at_ s len :: b.map bumpIdx).set at_
          (rendered (freshRow at_ s len))).map erow.strip := hpost.2.1
  rw [hset] at hstrip
  have hlen1 : E1.row.length = E.numrows + 1 := by
    have := length_eq_of_strip _ _ hstrip
    rw [this]
    simp only [List.length_append, List.length_cons, List.length_map]
    omega
  refine ⟨{ E1 with numrows := E1.numrows + 1, dirty := E1.dirty + 1 }, a, b, ?_, ?_, ha, ?_,
    hlen1, hstrip, hpost.2.2.1, hpost.2.2.2, ?_⟩
  · unfold editorInsertRow
    rw [if_neg (by omega)]
    simp only
    rw [hrows0, hE1]
  · simp only [editorConfig.rows]
    rw [← habw]
  · exact frame_insert E E1 hpost.1
  · exact idxForward_of_strip
      (setRow { E with row := a ++ freshRow at_ s len :: b.map bumpIdx } at_
        (rendered (freshRow at_ s len)))
      { E1 with numrows := E1.numrows + 1, dirty := E1.dirty + 1 } hpost.2.1
      (idxForward_set { E with row := a ++ freshRow at_ s len :: b.map bumpIdx } at_
        (freshRow at_ s len) (rendered (freshRow at_ s len)) hr0 rfl hfw0)

/-- The content after `editorRowInsertChar`, in a state in which the scan
stays inside the arrays (`scanReady`): for a row `r` of a well-formed document
with raw content `w` of length `n` and a byte `c`,
`editorRowInsertChar(row, col, c)` returns; if `col > n`
the raw content becomes `w`, then `col - n` spaces, then `c` (length `col + 1`);
if `col <= n` it becomes `w[0..col)`, then `c`, then `w[col..n)` (length
`n + 1`). -/
theorem insert_char_content (E : editorConfig) (r col c : Nat)
    (hwf : wellFormed E) (hr : r < E.numrows) (hc : c < 256)
    (hfit : lineFits (spliceChar (E.row.getD r default).raw col c))
    (hs : scanReady (setRow E r (rendered (insertedRow (E.row.getD r default) col c))) r) :
    ∃ E', editorRowInsertChar E (some r) col c = some E' ∧
      ((E.row.getD r default).size < col →
        (E'.row.getD r default).raw
          = (E.row.getD r default).raw ++
              List.replicate (col - (E.row.getD r default).size) 32 ++ [c] ∧
        (E'.row.getD r default).size = col + 1) ∧
      (col ≤ (E.row.getD r default).size →
        (E'.row.getD r default).raw
          = (E.row.getD r default).raw.take col ++ c :: (E.row.getD r default).raw.drop col ∧
        (E'.row.getD r default).size = (E.row.getD r default).size + 1) := by
  obtain ⟨hrow, hsz, hterm⟩ := wf_row E r hwf hr
  generalize hw : E.row.getD r default = row at *
  have hsplice := insertedRow_raw_splice row col c hsz hc
  obtain ⟨f1, f2, -⟩ := insertedRow_facts row col c hsz
  obtain ⟨E1, hE1, hm⟩ := editorRowInsertChar_spec E r col c row hrow hwf.1 hwf.2.1 hsz
    (by rw [hsplice]; exact hfit) hs
  have hs1 : (E1.row.getD r default).strip = (rendered (insertedRow row col c)).strip := hm.2.2.1
  have hraw1 : (E1.row.getD r default).raw = (insertedRow row col c).raw :=
    strip_raw _ (rendered (insertedRow row col c)) hs1
  have hsize1 : (E1.row.getD r default).size = (insertedRow row col c).size :=
    strip_size _ (rendered (insertedRow row col c)) hs1
  rw [Nat.mod_eq_of_lt hc] at f1
  refine ⟨E1, hE1, ?_, ?_⟩
  · intro h
    rw [hraw1, hsize1, f1, f2, if_pos h, if_pos h]
    exact ⟨rfl, rfl⟩
  · intro h
    rw [hraw1, hsize1, f1, f2, if_neg (by omega), if_neg (by omega)]
    exact ⟨rfl, rfl⟩

/-- Insertion followed by deletion, in states in which the scan stays inside
the arrays (`scanReady`, for the row with the byte spliced in and for that row
with the byte removed again while the size is still the larger one): for a row
`r` of a well-formed document, a column `col` not past the end of the row and
a byte `c`, `editorRowInsertChar(row, col, c)` followed by
`editorRowDelChar(row, col)` returns and leaves the row's raw content, its
size and its terminator as they were before the insertion. -/
theorem insert_then_delete_restores_raw (E : editorConfig) (r col c : Nat)
    (hwf : wellFormed E) (hr : r < E.numrows) (hcol : col ≤ (E.row.getD r default).size)
    (hc : c < 256) (hfit : lineFits (spliceChar (E.row.getD r default).raw col c))
    (hsa : scanReady (setRow E r (rendered (insertedRow (E.row.getD r default) col c))) r)
    (hsb : scanReady
      (setRow E r (rendered (shiftedRow (insertedRow (E.row.getD r default) col c) col))) r) :
    ∃ E1 E2, editorRowInsertChar E (some r) col c = some E1 ∧
      editorRowDelChar E1 r col = some E2 ∧
      (E2.row.getD r default).raw = (E.row.getD r default).raw ∧
      (E2.row.getD r default).size = (E.row.getD r default).size ∧
      (E2.row.getD r default).chars.getD (E2.row.getD r default).size 0 = 0 := by
  obtain ⟨hrow, hsz, hterm⟩ := wf_row E r hwf hr
  have hrl : r < E.row.length := getElem?_lt _ _ _ hrow
  generalize hw : E.row.getD r default = row at *
  have hsplice := insertedRow_raw_splice row col c hsz hc
  obtain ⟨f1, f2, f3, f4, f5, f6⟩ := insertedRow_facts row col c hsz
  rw [if_neg (by omega)] at f1 f2 f5
  obtain ⟨E1, hE1, hm⟩ := editorRowInsertChar_spec E r col c row hrow hwf.1 hwf.2.1 hsz
    (by rw [hsplice]; exact hfit) hsa
  have hlen1 : E1.row.length = E.row.length := hm.2.1
  have hrow1 := getElem?_of_lt E1.row r (by omega)
  have hs1 : (E1.row.getD r default).strip = (rendered (insertedRow row col c)).strip := hm.2.2.1
  have hraw1 : (E1.row.getD r default).raw = (insertedRow row col c).raw :=
    strip_raw _ (rendered (insertedRow row col c)) hs1
  have hsize1 : (E1.row.getD r default).size = row.size + 1 := by
    rw [strip_size _ (rendered (insertedRow row col c)) hs1]
    exact f2
  have hchars1 : (E1.row.getD r default).chars = (insertedRow row col c).chars :=
    strip_chars _ (rendered (insertedRow row col c)) hs1
  obtain ⟨E2, x, hE2, -, -, hx, -, hxraw, hxsize, -, hxterm, -⟩ :=
    editorRowDelChar_spec E1 r col (E1.row.getD r default) hrow1
      (by rw [hlen1, mutated_numrows _ _ _ _ hm]; exact hwf.1) hm.2.2.2.2.2.2
      (by rw [hsize1, hchars1]; rw [f2] at f4; exact f4)
      (by rw [hsize1, hchars1]; rw [f2] at f5; rw [f5]; exact hterm)
      (by omega)
      (by rw [hraw1, hsplice]; exact hfit)
      (scanReady_after_mutated E E1 r _ _ _ hm
        (rendered_shifted_strip _ _ col (strip_chars _ _ hs1) (strip_size _ _ hs1)
          (strip_idx _ _ hs1)) hsb)
  refine ⟨E1, E2, hE1, hE2, ?_, ?_, ?_⟩
  · rw [← strip_raw _ _ hx, hxraw, hraw1, f1, Nat.mod_eq_of_lt hc]
    exact eraseIdx_splice row.raw col c (by rw [raw_length row hsz]; exact hcol)
  · rw [← strip_size _ _ hx, hxsize, hsize1]
    rfl
  · rw [← strip_size _ _ hx, ← strip_chars _ _ hx]
    exact hxterm

/-- The content after `editorRowDelChar`, in a state in which the scan stays
inside the arrays (`scanReady`): `editorRowDelChar(row, col)` on a row `r` of a
well-formed document returns the state unchanged, modified counter included, when `col` is not
below the row length; for `col` below the row length it returns, the raw
content is the old one with exactly the byte at index `col` removed, and the
length is one less. -/
theorem delete_char_content (E : editorConfig) (r col : Nat)
    (hwf : wellFormed E) (hr : r < E.numrows) (hfit : lineFits (E.row.getD r default).raw)
    (hs : scanReady (setRow E r (rendered (shiftedRow (E.row.getD r default) col))) r) :
    ((E.row.getD r default).size ≤ col → editorRowDelChar E r col = some E) ∧
      (col < (E.row.getD r default).size →
        ∃ E', editorRowDelChar E r col = some E' ∧
          (E'.row.getD r default).raw = (E.row.getD r default).raw.eraseIdx col ∧
          (E'.row.getD r default).size = (E.row.getD r default).size - 1 ∧
          (E'.row.getD r default).raw.length = (E.row.getD r default).raw.length - 1) := by
  obtain ⟨hrow, hsz, hterm⟩ := wf_row E r hwf hr
  generalize hw : E.row.getD r default = row at *
  constructor
  · intro h
    unfold editorRowDelChar
    simp only [hrow]
    rw [if_pos h]
  · intro h
    obtain ⟨E2, x, hE2, -, -, hx, -, hxraw, hxsize, hxlen, -⟩ :=
      editorRowDelChar_spec E r col row hrow hwf.1 hwf.2.1 hsz hterm h hfit hs
    refine ⟨E2, hE2, ?_, ?_, ?_⟩
    · rw [← strip_raw _ _ hx, hxraw]
    · rw [← strip_size _ _ hx, hxsize]
    · rw [← strip_raw _ _ hx, raw_length x hxlen, hxsize, raw_length row hsz]

/-- The rows after `editorInsertRow`, in a state in which the scan stays inside
the arrays (`scanReady`): on a well-formed document
`editorInsertRow(at, s, len)` returns the state unchanged (rows, row count, modified counter) when `at > numrows`; for
`at <= numrows` it returns a document whose sequence of raw row contents is the
old rows before `at`, then the `len` bytes of `s`, then the old rows from `at`
on, with `numrows` increased by one. -/
theorem insert_row_sequence (E : editorConfig) (at_ : Nat) (s : List Nat) (len : Nat)
    (hwf : wellFormed E) (hs : len < s.length) (hfit : lineFits (s.take len))
    (hsr : scanReady (insertedState E at_ s len) at_) :
    (E.numrows < at_ → editorInsertRow E at_ s len = some E) ∧
      (at_ ≤ E.numrows →
        ∃ E', editorInsertRow E at_ s len = some E' ∧
          E'.rows.map erow.raw
            = (E.rows.map erow.raw).take at_ ++ s.take len :: (E.rows.map erow.raw).drop at_ ∧
          E'.numrows = E.numrows + 1) := by
  constructor
  · intro h
    unfold editorInsertRow
    rw [if_pos h]
  · intro h
    obtain ⟨E', a, b, hE', hrows, ha, hframe, hlen, hstrip, -⟩ :=
      editorInsertRow_spec E at_ s len hwf.1 hwf.2.1 h hfit hs hsr
    have hnum : E'.numrows = E.numrows + 1 := by
      have := congrArg editorConfig.numrows hframe
      exact this
    refine ⟨E', hE', ?_, hnum⟩
    have h1 : E'.rows = E'.row := by
      simp only [editorConfig.rows]
      rw [List.take_of_length_le (by omega)]
    rw [h1, map_raw_of_strip _ _ hstrip, hrows]
    simp only [List.map_append, List.map_cons]
    rw [map_raw_bump]
    have e1 : (a.map erow.raw).length = at_ := by
      rw [List.length_map, ha]
    rw [List.take_left' e1, List.drop_left' e1]
    have e2 : (rendered (freshRow at_ s len)).raw = s.take len := by
      simp only [rendered, freshRow, erow.raw, List.take_take]
      congr 1
      omega
    rw [e2]

theorem editorUpdateRow_hl (E : editorConfig) (r : Nat) (hwf : wellFormed E)
    (hr : r < E.numrows) (hfit : lineFits (E.row.getD r default).raw)
    (hs : scanReady (setRow E r (rendered (E.row.getD r default))) r) :
    ∃ E', editorUpdateRow E r = some E' ∧
      (E'.row.getD r default).hl.length = (E'.row.getD r default).rsize ∧
      (E'.row.getD r default).render.length = (E'.row.getD r default).rsize ∧
      (E'.row.getD r default).render = renderLoop (E.row.getD r default).raw [] ∧
      (hlInv E → hlInv E') := by
  obtain ⟨hrow, hsz, -⟩ := wf_row E r hwf hr
  have hrl : r < E.row.length := getElem?_lt _ _ _ hrow
  generalize hw : E.row.getD r default = row at *
  have hfit1 : row.size + 8 * row.raw.count TAB + 1 ≤ UINT32_MAX := by
    have hf : row.raw.length + 8 * row.raw.count TAB + 1 ≤ UINT32_MAX := hfit
    rw [raw_length row hsz] at hf
    exact hf
  obtain ⟨E1, hE1, hp⟩ := editorUpdateRow_spec E r row hrow hwf.1 hwf.2.1 hfit1 hs
  have hstrip : E1.row.map erow.strip = (E.row.set r (rendered row)).map erow.strip := hp.2.1
  have hat : (E1.row.getD r default).strip = (rendered row).strip := by
    rw [strip_getD_eq _ _ hstrip r, getD_set_self _ _ _ hrl]
  have hrok := renderOK_of_strip _ _ hat (renderOK_rendered row)
  refine ⟨E1, hE1, hp.2.2.1, hrok, strip_render _ _ hat, ?_⟩
  intro hinv j hj
  have hn : E1.numrows = E.numrows := by
    have := congrArg editorConfig.numrows hp.1
    exact this
  rw [hn] at hj
  by_cases hjr : j = r
  · subst hjr
    exact ⟨hp.2.2.1, hrok⟩
  · refine ⟨hp.2.2.2 j hjr (hinv j hj).1, ?_⟩
    have : (E1.row.getD j default).strip = (E.row.getD j default).strip := by
      rw [strip_getD_eq _ _ hstrip j, getD_set_ne _ _ _ _ (Ne.symm hjr)]
    exact renderOK_of_strip _ _ this (hinv j hj).2

theorem editorInsertRow_hlInv (E : editorConfig) (at_ : Nat) (s : List Nat) (len : Nat)
    (hwf : wellFormed E) (hinv : hlInv E) (hat : at_ ≤ E.numrows) (hs : len < s.length)
    (hfit : lineFits (s.take len)) (hsr : scanReady (insertedState E at_ s len) at_) :
    ∃ E', editorInsertRow E at_ s len = some E' ∧ hlInv E' := by
  obtain ⟨E', a, b, hE', hrows, ha, hframe, hlen, hstrip, hok, hoth, -⟩ :=
    editorInsertRow_spec E at_ s len hwf.1 hwf.2.1 hat hfit hs hsr
  refine ⟨E', hE', ?_⟩
  have hnum : E'.numrows = E.numrows + 1 := by
    have := congrArg editorConfig.numrows hframe
    exact this
  have hlenab : a.length + b.length = E.numrows := by
    have := congrArg List.length hrows
    simp only [editorConfig.rows, List.length_take, List.length_append] at this
    have := hwf.1
    omega
  intro j hj
  rw [hnum] at hj
  have hsj := strip_getD_eq _ _ hstrip j
  rw [inserted_getD] at hsj
  by_cases h1 : j < a.length
  · rw [if_pos h1] at hsj
    have hold : a.getD j default = E.row.getD j default := by
      rw [← rows_getD E j (by omega), hrows, getD_append_left _ _ _ h1]
    rw [hold] at hsj
    refine ⟨hoth j (by omega) ?_, renderOK_of_strip _ _ hsj (hinv j (by omega)).2⟩
    rw [inserted_getD, if_pos h1, hold]
    exact (hinv j (by omega)).1
  · rw [if_neg h1] at hsj
    by_cases h2 : j = a.length
    · rw [if_pos h2] at hsj
      have hja : j = at_ := by omega
      rw [hja]
      rw [hja] at hsj
      exact ⟨hok, renderOK_of_strip _ _ hsj (renderOK_rendered _)⟩
    · rw [if_neg h2] at hsj
      have h3 : j - a.length - 1 < b.length := by omega
      rw [if_pos h3] at hsj
      have hold : b.getD (j - a.length - 1) default = E.row.getD (j - 1) default := by
        rw [← rows_getD E (j - 1) (by omega), hrows, getD_append_right _ _ _ (by omega)]
        congr 1
        omega
      rw [hold] at hsj
      refine ⟨hoth j (by omega) ?_, ?_⟩
      · rw [inserted_getD, if_neg h1, if_neg h2, if_pos h3, hold]
        exact (hinv (j - 1) (by omega)).1
      · exact renderOK_of_strip _ (bumpIdx (E.row.getD (j - 1) default)) hsj
          (hinv (j - 1) (by omega)).2

theorem editorRowDelChar_hlInv (E : editorConfig) (r col : Nat) (hwf : wellFormed E)
    (hinv : hlInv E) (hr : r < E.numrows) (hfit : lineFits (E.row.getD r default).raw)
    (hs : scanReady (setRow E r (rendered (shiftedRow (E.row.getD r default) col))) r) :
    ∃ E', editorRowDelChar E r col = some E' ∧ hlInv E' := by
  obtain ⟨hrow, hsz, hterm⟩ := wf_row E r hwf hr
  generalize hw : E.row.getD r default = row at *
  by_cases hcol : col < row.size
  · obtain ⟨E2, x, hE2, hframe, -, hx, -, -, -, -, -, hxr, hxs, hoth, hok, hokoth, -⟩ :=
      editorRowDelChar_spec E r col row hrow hwf.1 hwf.2.1 hsz hterm hcol hfit hs
    refine ⟨E2, hE2, ?_⟩
    have hn : E2.numrows = E.numrows := by
      have := congrArg editorConfig.numrows hframe
      exact this
    intro j hj
    rw [hn] at hj
    by_cases hjr : j = r
    · subst hjr
      refine ⟨hok, renderOK_of_strip _ _ hx.symm ?_⟩
      simp only [renderOK]
      rw [hxr, hxs]
    · exact ⟨hokoth j hjr (hinv j hj).1, renderOK_of_strip _ _ (hoth j hjr) (hinv j hj).2⟩
  · refine ⟨E, ?_, hinv⟩
    unfold editorRowDelChar
    simp only [hrow]
    rw [if_pos (by omega)]

/-- The highlight array has `rsize` entries after every mutator, in states in
which the scan stays inside the arrays (`scanReady`): on a well-formed
document, `editorUpdateRow` returns and leaves the row with a highlight array of exactly
`rsize` entries, `rsize` being the number of rendered bytes; and when every row
of the document has that property before `editorInsertRow`, `editorDelRow`,
`editorRowInsertChar`, `editorRowAppendString` or `editorRowDelChar`, the call
returns and every row of the resulting document has it. -/
theorem highlight_length_is_rsize :
    (∀ (E : editorConfig) (r : Nat), wellFormed E → r < E.numrows →
      lineFits (E.row.getD r default).raw →
      scanReady (setRow E r (rendered (E.row.getD r default))) r →
      ∃ E', editorUpdateRow E r = some E' ∧
        (E'.row.getD r default).hl.length = (E'.row.getD r default).rsize ∧
        (E'.row.getD r default).render.length = (E'.row.getD r default).rsize ∧
        (hlInv E → hlInv E')) ∧
    (∀ (E : editorConfig) (at_ : Nat) (s : List Nat) (len : Nat), wellFormed E → hlInv E →
      at_ ≤ E.numrows → len < s.length → lineFits (s.take len) →
      scanReady (insertedState E at_ s len) at_ →
      ∃ E', editorInsertRow E at_ s len = some E' ∧ hlInv E') ∧
    (∀ (E : editorConfig) (at_ : Nat), wellFormed E → hlInv E → hlInv (editorDelRow E at_)) ∧
    (∀ (E : editorConfig) (r col c : Nat), wellFormed E → hlInv E → r < E.numrows → c < 256 →
      lineFits (spliceChar (E.row.getD r default).raw col c) →
      scanReady (setRow E r (rendered (insertedRow (E.row.getD r default) col c))) r →
      ∃ E', editorRowInsertChar E (some r) col c = some E' ∧ hlInv E') ∧
    (∀ (E : editorConfig) (r : Nat) (s : List Nat) (len : Nat), wellFormed E → hlInv E →
      r < E.numrows → len ≤ s.length → lineFits ((E.row.getD r default).raw ++ s.take len) →
      scanReady (setRow E r (rendered (appendedRow (E.row.getD r default) s len))) r →
      ∃ E', editorRowAppendString E r s len = some E' ∧ hlInv E') ∧
    (∀ (E : editorConfig) (r col : Nat), wellFormed E → hlInv E → r < E.numrows →
      lineFits (E.row.getD r default).raw →
      scanReady (setRow E r (rendered (shiftedRow (E.row.getD r default) col))) r →
      ∃ E', editorRowDelChar E r col = some E' ∧ hlInv E') := by
  refine ⟨?_, ?_, ?_, ?_, ?_, ?_⟩
  · intro E r hwf hr hfit hs
    obtain ⟨E', h1, h2, h3, -, h5⟩ := editorUpdateRow_hl E r hwf hr hfit hs
    exact ⟨E', h1, h2, h3, h5⟩
  · intro E at_ s len hwf hinv hat hs hfit hsr
    exact editorInsertRow_hlInv E at_ s len hwf hinv hat hs hfit hsr
  · intro E at_ hwf hinv
    exact editorDelRow_hlInv E at_ hwf hinv
  · intro E r col c hwf hinv hr hc hfit hs
    obtain ⟨hrow, hsz, -⟩ := wf_row E r hwf hr
    obtain ⟨E', hE', hm⟩ := editorRowInsertChar_spec E r col c (E.row.getD r default) hrow
      hwf.1 hwf.2.1 hsz (by rw [insertedRow_raw_splice _ col c hsz hc]; exact hfit) hs
    exact ⟨E', hE', mutated_hlInv _ _ _ _ hm hinv⟩
  · intro E r s len hwf hinv hr hs hfit hsr
    obtain ⟨hrow, hsz, -⟩ := wf_row E r hwf hr
    obtain ⟨E', hE', hm⟩ := editorRowAppendString_spec E r s len (E.row.getD r default) hrow
      hwf.1 hwf.2.1 hsz hs hfit hsr
    exact ⟨E', hE', mutated_hlInv _ _ _ _ hm hinv⟩
  · intro E r col hwf hinv hr hfit hs
    exact editorRowDelChar_hlInv E r col hwf hinv hr hfit hs

/-! ## Further facts on rendering and row indices -/

/-- The tab loop of `editorUpdateRow` stops when the next column is a multiple
of 8, that is with a length congruent to 7 modulo 8, and only appends spaces. -/
theorem tabFill_stop : ∀ (fuel : Nat) (out : List Nat), 7 - out.length % 8 ≤ fuel →
    (tabFill fuel out).length % 8 = 7 ∧
      ∃ k, k ≤ 7 ∧ tabFill fuel out = out ++ List.replicate k 32 := by
  intro fuel
  induction fuel with
  | zero =>
    intro out h
    refine ⟨?_, 0, by omega, by simp [tabFill]⟩
    simp only [tabFill]
    omega
  | succ n ih =>
    intro out h
    unfold tabFill
    by_cases hc : ((out.length + 1) % 8 != 0) = true
    · rw [if_pos hc]
      have hne : (out.length + 1) % 8 ≠ 0 := by simpa using hc
      obtain ⟨h1, k, hk, h2⟩ := ih (out ++ [32]) (by
        simp only [List.length_append, List.length_singleton]
        omega)
      refine ⟨h1, k + 1, ?_, ?_⟩
      · have hl := congrArg List.length h2
        simp only [List.length_append, List.length_singleton, List.length_replicate] at hl
        omega
      · rw [h2, List.append_assoc]
        rfl
    · rw [if_neg hc]
      have he : (out.length + 1) % 8 = 0 := by simpa using hc
      exact ⟨by omega, 0, by omega, by simp⟩

/-- After a row is removed by `editorDelRow`, every row that followed it
carries an index two above its position. -/
theorem editorDelRow_idx (E : editorConfig) (at_ : Nat) (hwf : wellFormed E)
    (hd : idxDense E) (hat : at_ < E.numrows) :
    ∀ j, j < (editorDelRow E at_).numrows →
      ((editorDelRow E at_).row.getD j default).idx = if j < at_ then j else j + 2 := by
  obtain ⟨a, b, t, x, hrows, ha, hrow, -, hn, -⟩ := editorDelRow_spec E at_ hwf.1 hat
  have hlenab : a.length + (b.length + 1) = E.numrows := by
    have := congrArg List.length hrows
    simp only [editorConfig.rows, List.length_take, List.length_append,
      List.length_cons] at this
    have := hwf.1
    omega
  intro j hj
  rw [hn] at hj
  rw [hrow, List.append_assoc]
  by_cases h1 : j < a.length
  · rw [getD_append_left _ _ _ h1, if_pos (by omega)]
    have hold : a.getD j default = E.row.getD j default := by
      rw [← rows_getD E j (by omega), hrows, getD_append_left _ _ _ h1]
    rw [hold]
    exact hd j (by omega)
  · rw [getD_append_right _ _ _ (by omega),
      getD_append_left _ _ _ (by rw [List.length_map]; omega),
      getD_map_bump _ _ (by omega), if_neg (by omega)]
    have hold : b.getD (j - a.length) default = E.row.getD (j + 1) default := by
      rw [← rows_getD E (j + 1) (by omega), hrows, getD_append_right _ _ _ (by omega)]
      have e : j + 1 - a.length = (j - a.length) + 1 := by omega
      rw [e, getD_cons_succ]
    rw [hold]
    have := hd (j + 1) (by omega)
    simp only [bumpIdx]
    omega

/-! ## Well-formed states are closed under the mutators -/

theorem terminated_of_strip (x y : erow) (h : x.strip = y.strip) (hy : terminated y) :
    terminated x := by
  simp only [terminated] at hy ⊢
  rw [strip_size _ _ h, strip_chars _ _ h]
  exact hy

theorem wellFormed_of_mutated (E : editorConfig) (r : Nat) (x : erow) (E' : editorConfig)
    (hwf : wellFormed E) (hx : terminated x) (hm : mutated E r x E') : wellFormed E' := by
  refine ⟨?_, hm.2.2.2.2.2.2, ?_⟩
  · rw [mutated_numrows _ _ _ _ hm, hm.2.1]
    exact hwf.1
  · intro j hj
    rw [mutated_numrows _ _ _ _ hm] at hj
    by_cases hjr : j = r
    · subst hjr
      exact terminated_of_strip _ (rendered x) hm.2.2.1 hx
    · exact terminated_of_strip _ _ (hm.2.2.2.1 j hjr) (hwf.2.2 j hj)

/-- The function `editorDelRow` keeps a document well-formed. -/
theorem wellFormed_editorDelRow (E : editorConfig) (at_ : Nat) (hwf : wellFormed E) :
    wellFormed (editorDelRow E at_) := by
  by_cases hat : at_ < E.numrows
  · obtain ⟨a, b0, rest, hbuf, ha, hab, -⟩ :=
      split_prefix E.row E.numrows at_ hwf.1 (Nat.le_of_lt hat)
    cases b0 with
    | nil => exact absurd hab (by simp only [List.length_nil]; omega)
    | cons x b =>
      simp only [List.length_cons] at hab
      have hbuf2 : E.row = a ++ (x :: b ++ rest) := by
        rw [hbuf]
        simp
      have h1 := delete_rows a b rest x
      have e1 : E.numrows - at_ - 1 = b.length := by omega
      have e2 : E.numrows - 1 = a.length + b.length := by omega
      have hrow : (editorDelRow E at_).row
          = a ++ (b.map bumpIdx ++ (x :: b ++ rest).drop b.length) := by
        unfold editorDelRow
        rw [if_neg (by omega)]
        simp only
        rw [e1, e2, ← ha, hbuf, h1, idxIncr_mid, List.append_assoc]
      have hn : (editorDelRow E at_).numrows = E.numrows - 1 := by
        unfold editorDelRow
        rw [if_neg (by omega)]
      have hlen : (editorDelRow E at_).row.length = E.row.length := by
        rw [hrow, hbuf2]
        simp only [List.length_append, List.length_map, List.length_drop, List.length_cons]
        omega
      have hslot : ∀ j, j < E.row.length →
          (editorDelRow E at_).row.getD j default =
            if j < a.length then E.row.getD j default
            else if j < a.length + b.length then bumpIdx (E.row.getD (j + 1) default)
            else E.row.getD j default := by
        intro j hj
        rw [hrow, hbuf2]
        by_cases h1 : j < a.length
        · rw [if_pos h1, getD_append_left _ _ _ h1, getD_append_left _ _ _ h1]
        · rw [if_neg h1, getD_append_right _ _ _ (by omega)]
          by_cases h2 : j < a.length + b.length
          · rw [if_pos h2, getD_append_left _ _ _ (by rw [List.length_map]; omega),
              getD_map_bump _ _ (by omega), getD_append_right _ _ _ (by omega)]
            have e : j + 1 - a.length = (j - a.length) + 1 := by omega
            rw [e, getD_append_left _ _ _ (by simp only [List.length_cons]; omega),
              getD_cons_succ]
          · rw [if_neg h2, getD_append_right _ _ _ (by rw [List.length_map]; omega),
              getD_append_right _ _ _ (by omega), List.length_map]
            simp only [List.getD_eq_getElem?_getD, List.getElem?_drop]
            congr 2
            omega
      refine ⟨?_, ?_, ?_⟩
      · rw [hn, hlen]
        have := hwf.1
        omega
      · intro j hj
        rw [hlen] at hj
        rw [hslot j hj]
        have hf := hwf.2.1
        split
        · exact hf j hj
        · split
          · have hl : E.row.length = a.length + (b.length + 1 + rest.length) := by
              rw [hbuf2]
              simp only [List.length_append, List.length_cons]
            have := hf (j + 1) (by omega)
            simp only [bumpIdx]
            omega
          · exact hf j hj
      · intro j hj
        rw [hn] at hj
        have hjl : j < E.row.length := by
          have := hwf.1
          omega
        rw [hslot j hjl]
        split
        · exact hwf.2.2 j (by omega)
        · rw [if_pos (by omega)]
          exact hwf.2.2 (j + 1) (by omega)
  · have h : editorDelRow E at_ = E := by
      unfold editorDelRow
      rw [if_pos (by omega)]
    rw [h]
    exact hwf

/-! ## Concrete documents -/

/-- The example documents are what `editorInsertRow` builds from the empty
editor, also under the C profile. -/
theorem examples_reachable :
    (editorInsertRow exEmpty 0 [97, 0] 1).bind (fun E => editorInsertRow E 1 [98, 0] 1)
        = some exDoc ∧
      (editorInsertRow { exEmpty with esyntax := some HLDB_C } 0 [97, 0] 1).bind
        (fun E => editorInsertRow E 1 [98, 0] 1) = some exDocC ∧
      editorInsertRow exEmpty 0 [97, 98, 0] 2 = some exAb ∧
      editorInsertRow exEmpty 0 [0] 0 = some exBlank := by
  decide

/-! ## Claims that the code does not meet -/

/-- C4: row indices do not stay dense under `editorDelRow`.  In the dense
two-row document `a`, `b`, `editorDelRow(0)` leaves the single row `b` at
position 0 with `idx == 2`: the loop after the `memmove` increments the index
of each row that moved down instead of decrementing it. -/
theorem C4_delete_row_leaves_idx_not_dense :
    wellFormed exDoc ∧ idxDense exDoc ∧ (editorDelRow exDoc 0).numrows = 1 ∧
      ((editorDelRow exDoc 0).row.getD 0 default).raw = [98] ∧
      ((editorDelRow exDoc 0).row.getD 0 default).idx = 2 ∧
      ¬ idxDense (editorDelRow exDoc 0) := by
  decide

/-- C7: the rendered form is not current after `editorRowDelChar`.  Deleting
column 0 of the row `ab` leaves raw content `b` of size 1, whose tab expansion
is the one byte `b`, but the row's rendered form is `b` followed by a NUL byte
and its `rsize` is 2: `editorUpdateRow` runs before `row->size--`. -/
theorem C7_delete_char_leaves_stale_render :
    wellFormed exAb ∧
      ∃ E', editorRowDelChar exAb 0 0 = some E' ∧
        (E'.row.getD 0 default).raw = [98] ∧ (E'.row.getD 0 default).size = 1 ∧
        renderLoop (E'.row.getD 0 default).raw [] = [98] ∧
        (E'.row.getD 0 default).render = [98, 0] ∧ (E'.row.getD 0 default).rsize = 2 := by
  refine ⟨by decide, _, rfl, ?_⟩
  decide

/-- C8: a tab alone in a row is rendered as 7 spaces, not 8.  Inserting a tab
at column 0 of an empty row, and `editorUpdateRow` on a row whose raw content
is one tab, both give a rendered form of exactly 7 spaces, `rsize == 7` and a
highlight array of length 7: the loop `while ((idx + 1) % 8 != 0)` stops one
column before the multiple of 8. -/
theorem C8_single_tab_renders_seven_spaces :
    (∃ E', editorRowInsertChar exBlank (some 0) 0 TAB = some E' ∧
        (E'.row.getD 0 default).raw = [TAB] ∧
        (E'.row.getD 0 default).render = List.replicate 7 32 ∧
        (E'.row.getD 0 default).rsize = 7 ∧
        (E'.row.getD 0 default).hl.length = 7) ∧
      (∃ E', editorInsertRow exEmpty 0 [TAB, 0] 1 = some E' ∧
        (E'.row.getD 0 default).raw = [TAB] ∧
        (E'.row.getD 0 default).render = List.replicate 7 32 ∧
        (E'.row.getD 0 default).rsize = 7 ∧
        (E'.row.getD 0 default).hl.length = 7) := by
  refine ⟨⟨_, rfl, ?_⟩, ⟨_, rfl, ?_⟩⟩
  · decide
  · decide

/-! ## The claims at concrete documents -/

/-- C3 at the document `a`, `b`, deleting row 0. -/
theorem C3_witness :
    (exDoc.numrows ≤ 0 → editorDelRow exDoc 0 = exDoc) ∧
      (0 < exDoc.numrows →
        (editorDelRow exDoc 0).rows.map erow.raw = (exDoc.rows.map erow.raw).eraseIdx 0 ∧
          (editorDelRow exDoc 0).numrows = exDoc.numrows - 1) :=
  C3_delete_row_sequence exDoc 0 (by decide)

/-- C10 at the document `a`, `b`. -/
theorem C10_witness :
    (editorRowsToString exDoc).1 = (exDoc.rows.map (fun r => r.raw ++ [10])).flatten ++ [0] ∧
      (editorRowsToString exDoc).1.take (editorRowsToString exDoc).2
        = (exDoc.rows.map (fun r => r.raw ++ [10])).flatten ∧
      (editorRowsToString exDoc).2 = (exDoc.rows.map (fun r => r.size + 1)).sum ∧
      (editorRowsToString exDoc).2 = ((exDoc.rows.map (fun r => r.raw ++ [10])).flatten).length ∧
      (exDoc.numrows = 0 → (editorRowsToString exDoc).2 = 0) :=
  C10_rows_to_string exDoc (by decide)

/-! ## The open-comment flag -/

theorem getD_eq_getElem_nat (l : List Nat) (i : Nat) (h : i < l.length) : l.getD i 0 = l[i] := by
  simp [List.getD_eq_getElem?_getD, List.getElem?_eq_getElem h]

theorem ends_with_two (l : List Nat) (a b : Nat) :
    (∃ pre, l = pre ++ [a, b]) ↔
      2 ≤ l.length ∧ l.getD (l.length - 2) 0 = a ∧ l.getD (l.length - 1) 0 = b := by
  constructor
  · rintro ⟨pre, rfl⟩
    have e1 : (pre ++ [a, b]).length - 2 = pre.length := by simp
    have e2 : (pre ++ [a, b]).length - 1 = pre.length + 1 := by simp
    refine ⟨by simp, ?_, ?_⟩
    · rw [e1, List.getD_eq_getElem?_getD, List.getElem?_append_right (Nat.le_refl _)]
      simp
    · rw [e2, List.getD_eq_getElem?_getD, List.getElem?_append_right (by omega)]
      simp
  · rintro ⟨h2, ha, hb⟩
    refine ⟨l.take (l.length - 2), ?_⟩
    have h1 : l.length - 2 < l.length := by omega
    have h3 : l.length - 2 + 1 < l.length := by omega
    have e1 : l.length - 2 + 1 = l.length - 1 := by omega
    rw [getD_eq_getElem_nat l _ h1] at ha
    rw [getD_eq_getElem_nat l _ (by omega)] at hb
    have hd : l.drop (l.length - 2) = [a, b] := by
      rw [List.drop_eq_getElem_cons h1, List.drop_eq_getElem_cons h3, ha]
      have hb2 : l[l.length - 2 + 1] = b := by
        rw [← hb]
        congr 1
      rw [hb2, List.drop_of_length_le (by omega)]
    rw [← hd, List.take_append_drop]

/-- C19: for a row whose rendered form has `rsize` bytes and whose highlight
array, when it is allocated, has `rsize` entries, `editorRowHasOpenComment`
returns 1 exactly when the highlight array is not empty, its last entry is
`HL_MLCOMMENT`, and the rendered form does not end with the two bytes `*` `/`
(a rendered form shorter than two bytes does not end with them); it returns 0
in every other case, in particular for every row with `rsize == 0`. -/
theorem C19_row_has_open_comment (row : erow)
    (hhl : row.hl ≠ [] → row.hl.length = row.rsize)
    (hrender : row.render.length = row.rsize) :
    (editorRowHasOpenComment row = true ↔
        (row.hl ≠ [] ∧ row.hl.getLast? = some HL_MLCOMMENT ∧
          ¬ ∃ pre, row.render = pre ++ [42, 47])) ∧
      (row.rsize = 0 → editorRowHasOpenComment row = false) := by
  have hlast : row.hl ≠ [] → (row.hl.getLast? = some HL_MLCOMMENT ↔
      row.hl.getD (row.rsize - 1) 0 = HL_MLCOMMENT) := by
    intro hne
    have hpos : 0 < row.hl.length := List.length_pos.mpr hne
    have hlen := hhl hne
    rw [List.getLast?_eq_getElem?, hlen, List.getD_eq_getElem?_getD,
      List.getElem?_eq_getElem (show row.rsize - 1 < row.hl.length by omega)]
    simp
  have hends := ends_with_two row.render 42 47
  rw [hrender] at hends
  constructor
  · constructor
    · intro h
      simp only [editorRowHasOpenComment, Bool.and_eq_true, Bool.not_eq_true', bne_iff_ne,
        beq_iff_eq, Bool.or_eq_true, decide_eq_true_eq, List.isEmpty_eq_false] at h
      obtain ⟨⟨⟨hne, -⟩, hml⟩, hend⟩ := h
      have hne' : row.hl ≠ [] := by
        intro h0
        simp [h0] at hne
      refine ⟨hne', (hlast hne').mpr hml, ?_⟩
      intro hex
      obtain ⟨h2, ha, hb⟩ := hends.mp hex
      rcases hend with hlt | hne1 | hne2
      · omega
      · exact hne1 ha
      · exact hne2 hb
    · rintro ⟨hne, hl, hend⟩
      have hml := (hlast hne).mp hl
      have hpos : 0 < row.hl.length := List.length_pos.mpr hne
      have hlen := hhl hne
      simp only [editorRowHasOpenComment, Bool.and_eq_true, Bool.not_eq_true', bne_iff_ne,
        beq_iff_eq, Bool.or_eq_true, decide_eq_true_eq]
      refine ⟨⟨⟨?_, by omega⟩, hml⟩, ?_⟩
      · cases hh : row.hl with
        | nil => exact absurd hh hne
        | cons a t => rfl
      · by_contra hcon
        apply hend
        apply hends.mpr
        refine ⟨?_, ?_, ?_⟩
        · by_contra h2
          exact hcon (Or.inl (by omega))
        · by_contra h2
          exact hcon (Or.inr (Or.inl h2))
        · by_contra h2
          exact hcon (Or.inr (Or.inr h2))
  · intro h0
    simp [editorRowHasOpenComment, h0]

/-- C19 at the rendered rows `/*` (open), `*/` (closed) and the empty row. -/
theorem C19_witness :
    editorRowHasOpenComment
        { idx := 0, size := 2, rsize := 2, chars := [47, 42, 0], render := [47, 42],
          hl := [3, 3], hl_oc := 1 } = true ∧
      editorRowHasOpenComment
        { idx := 1, size := 2, rsize := 2, chars := [42, 47, 0], render := [42, 47],
          hl := [3, 3], hl_oc := 0 } = false ∧
      editorRowHasOpenComment
        { idx := 2, size := 0, rsize := 0, chars := [0], render := [], hl := [],
          hl_oc := 0 } = false :=
  ⟨(C19_row_has_open_comment
      { idx := 0, size := 2, rsize := 2, chars := [47, 42, 0], render := [47, 42],
        hl := [3, 3], hl_oc := 1 } (by decide) (by decide)).1.mpr
      ⟨by decide, by decide, by
        rintro ⟨pre, h⟩
        have h1 := congrArg List.reverse h
        simp at h1⟩,
    Bool.eq_false_iff.mpr (fun h =>
      ((C19_row_has_open_comment
        { idx := 1, size := 2, rsize := 2, chars := [42, 47, 0], render := [42, 47],
          hl := [3, 3], hl_oc := 0 } (by decide) (by decide)).1.mp h).2.2 ⟨[], rfl⟩),
    (C19_row_has_open_comment
      { idx := 2, size := 0, rsize := 0, chars := [0], render := [], hl := [],
        hl_oc := 0 } (by decide) (by decide)).2 rfl⟩

/-! ## Highlighting of concrete documents -/

/-- C15: under the C profile, after the rows `/* abc`, `def */`, `ghi` are
inserted in that order with `editorInsertRow`, every byte of the first row and
every byte of the second row, up to and including its close marker at the end
of the row, is `HL_MLCOMMENT`, and every byte of the third row is `HL_NORMAL`. -/
theorem C15_three_row_block_comment :
    ∃ E, insertLines exInitC [bytes "/* abc", bytes "def */", bytes "ghi"] = some E ∧
      E.numrows = 3 ∧
      (E.row.getD 0 default).raw = bytes "/* abc" ∧
      (E.row.getD 0 default).hl = List.replicate 6 HL_MLCOMMENT ∧
      (E.row.getD 1 default).raw = bytes "def */" ∧
      (E.row.getD 1 default).hl = List.replicate 6 HL_MLCOMMENT ∧
      (E.row.getD 2 default).raw = bytes "ghi" ∧
      (E.row.getD 2 default).hl = List.replicate 3 HL_NORMAL := by
  refine ⟨_, rfl, ?_⟩
  decide

/-- C13: the action taken for `DEL_KEY` is `editorDelChar`, which deletes the
byte before the cursor.  On the document `hello world` with the cursor at
column 6 it removes the space at raw index 5, not the `w` at index 6: the
document becomes `helloworld` and the cursor column becomes 5. -/
theorem C13_del_key_deletes_backwards :
    ∃ E E', insertLines exInit [bytes "hello world"] = some E ∧
      editorProcessKeypress_DEL_KEY { E with cx := 6, cy := 0 } = some E' ∧
      E'.rows.map erow.raw = [bytes "helloworld"] ∧ E'.cx = 5 ∧
      E'.rows.map erow.raw ≠ [bytes "hello orld"] := by
  refine ⟨_, _, rfl, rfl, ?_⟩
  decide

/-- C14: the action taken for `DEL_KEY` is `editorDelChar`, which deletes the
byte before the cursor.  With the cursor at the end of row 0 (column 5) of the
document `hello`, `world` it removes the `o` of `hello`: the rows become
`hell`, `world`, the row count stays 2 and the cursor column becomes 4; on the
one-row document `hello` with the cursor at column 5 the row becomes `hell`. -/
theorem C14_del_key_at_end_of_line :
    (∃ E E', insertLines exInit [bytes "hello", bytes "world"] = some E ∧
      editorProcessKeypress_DEL_KEY { E with cx := 5, cy := 0 } = some E' ∧
      E'.rows.map erow.raw = [bytes "hell", bytes "world"] ∧ E'.numrows = 2 ∧ E'.cx = 4) ∧
    (∃ E E', insertLines exInit [bytes "hello"] = some E ∧
      editorProcessKeypress_DEL_KEY { E with cx := 5, cy := 0 } = some E' ∧
      E'.rows.map erow.raw = [bytes "hell"] ∧ E'.numrows = 1 ∧ E'.cx = 4) := by
  refine ⟨⟨_, _, rfl, rfl, ?_⟩, ⟨_, _, rfl, rfl, ?_⟩⟩
  · decide
  · decide

/-- C20: the line-comment step fills `row->size - i` entries, not the entries
up to the end of the rendered form.  Under the C profile the row made of a tab
and `//abcd` has 7 raw bytes and 13 rendered bytes, the marker stands at
rendered offset 7 after white space, and no entry of the highlight array is
`HL_COMMENT`: all 13 stay `HL_NORMAL`. -/
theorem C20_line_comment_after_tab_not_classified :
    ∃ E, insertLines exInitC [TAB :: bytes "//abcd"] = some E ∧
      (E.row.getD 0 default).size = 7 ∧ (E.row.getD 0 default).rsize = 13 ∧
      (E.row.getD 0 default).render = List.replicate 7 32 ++ bytes "//abcd" ∧
      (E.row.getD 0 default).hl = List.replicate 13 HL_NORMAL := by
  refine ⟨_, rfl, ?_⟩
  decide

/-- C17: highlighting does not stay globally correct after an edit.  Under the
C profile the document `/* a`, `b` is correctly highlighted; after
`editorInsertRow(1, "*/", 2)` the row `b`, now third, is still classified
block-comment although the row before it closes the comment.  Likewise after
`editorRowInsertChar` turns the first row of `/*`, `b` into the line comment
`//*`, and after `editorDelRow(0)` on `/*`, `b`. -/
theorem C17_highlight_not_correct_after_edit :
    (∃ E E', insertLines exInitC [bytes "/* a", bytes "b"] = some E ∧ hlCorrect E ∧
      wellFormed E ∧ editorInsertRow E 1 (bytes "*/" ++ [0]) 2 = some E' ∧
      (E'.row.getD 2 default).raw = bytes "b" ∧
      (E'.row.getD 2 default).hl = [HL_MLCOMMENT] ∧
      editorRowHasOpenComment (E'.row.getD 1 default) = false ∧
      ¬ hlCorrect E') ∧
    (∃ E E', insertLines exInitC [bytes "/*", bytes "b"] = some E ∧ hlCorrect E ∧
      wellFormed E ∧ editorRowInsertChar E (some 0) 0 47 = some E' ∧
      (E'.row.getD 1 default).hl = [HL_MLCOMMENT] ∧
      editorRowHasOpenComment (E'.row.getD 0 default) = false ∧
      ¬ hlCorrect E') ∧
    (∃ E, insertLines exInitC [bytes "/*", bytes "b"] = some E ∧ hlCorrect E ∧
      wellFormed E ∧
      ((editorDelRow E 0).row.getD 0 default).hl = [HL_MLCOMMENT] ∧
      ¬ hlCorrect (editorDelRow E 0)) := by
  refine ⟨⟨_, _, rfl, ?_, ?_, rfl, ?_⟩, ⟨_, _, rfl, ?_, ?_, rfl, ?_⟩, ⟨_, rfl, ?_⟩⟩
  all_goals decide

/-- In states in which the scan stays inside the arrays (`scanReady`): after
`editorInsertRow`, `editorRowInsertChar` and `editorRowAppendString`
the rendered form of the affected row is the tab expansion of its new raw
content; after `editorRowDelChar` it is the expansion of the new raw content
followed by the terminator byte, one rendered byte too many. -/
theorem render_after_mutators :
    (∀ (E : editorConfig) (r col c : Nat), wellFormed E → r < E.numrows → c < 256 →
      lineFits (spliceChar (E.row.getD r default).raw col c) →
      scanReady (setRow E r (rendered (insertedRow (E.row.getD r default) col c))) r →
      ∃ E', editorRowInsertChar E (some r) col c = some E' ∧
        (E'.row.getD r default).render = renderLoop (E'.row.getD r default).raw [] ∧
        (E'.row.getD r default).rsize = (renderLoop (E'.row.getD r default).raw []).length) ∧
    (∀ (E : editorConfig) (r : Nat) (s : List Nat) (len : Nat), wellFormed E →
      r < E.numrows → len ≤ s.length → lineFits ((E.row.getD r default).raw ++ s.take len) →
      scanReady (setRow E r (rendered (appendedRow (E.row.getD r default) s len))) r →
      ∃ E', editorRowAppendString E r s len = some E' ∧
        (E'.row.getD r default).render = renderLoop (E'.row.getD r default).raw [] ∧
        (E'.row.getD r default).rsize = (renderLoop (E'.row.getD r default).raw []).length) ∧
    (∀ (E : editorConfig) (at_ : Nat) (s : List Nat) (len : Nat), wellFormed E →
      at_ ≤ E.numrows → len < s.length → lineFits (s.take len) →
      scanReady (insertedState E at_ s len) at_ →
      ∃ E', editorInsertRow E at_ s len = some E' ∧
        (E'.row.getD at_ default).render = renderLoop (E'.row.getD at_ default).raw [] ∧
        (E'.row.getD at_ default).rsize
          = (renderLoop (E'.row.getD at_ default).raw []).length) ∧
    (∀ (E : editorConfig) (r col : Nat), wellFormed E → r < E.numrows →
      col < (E.row.getD r default).size → lineFits (E.row.getD r default).raw →
      scanReady (setRow E r (rendered (shiftedRow (E.row.getD r default) col))) r →
      ∃ E', editorRowDelChar E r col = some E' ∧
        (E'.row.getD r default).render
          = renderLoop ((E'.row.getD r default).raw ++ [0]) [] ∧
        (E'.row.getD r default).rsize
          = (renderLoop ((E'.row.getD r default).raw ++ [0]) []).length) := by
  refine ⟨?_, ?_, ?_, ?_⟩
  · intro E r col c hwf hr hc hfit hsr
    obtain ⟨hrow, hsz, -⟩ := wf_row E r hwf hr
    obtain ⟨E', hE', hm⟩ := editorRowInsertChar_spec E r col c (E.row.getD r default) hrow
      hwf.1 hwf.2.1 hsz (by rw [insertedRow_raw_splice _ col c hsz hc]; exact hfit) hsr
    refine ⟨E', hE', ?_, ?_⟩
    · rw [strip_render _ _ hm.2.2.1, strip_raw _ _ hm.2.2.1]
      rfl
    · rw [strip_rsize _ _ hm.2.2.1, strip_raw _ _ hm.2.2.1]
      rfl
  · intro E r s len hwf hr hs hfit hsr
    obtain ⟨hrow, hsz, -⟩ := wf_row E r hwf hr
    obtain ⟨E', hE', hm⟩ := editorRowAppendString_spec E r s len (E.row.getD r default) hrow
      hwf.1 hwf.2.1 hsz hs hfit hsr
    refine ⟨E', hE', ?_, ?_⟩
    · rw [strip_render _ _ hm.2.2.1, strip_raw _ _ hm.2.2.1]
      rfl
    · rw [strip_rsize _ _ hm.2.2.1, strip_raw _ _ hm.2.2.1]
      rfl
  · intro E at_ s len hwf hat hs hfit hsr
    obtain ⟨E', a, b, hE', -, ha, -, -, hstrip, -⟩ :=
      editorInsertRow_spec E at_ s len hwf.1 hwf.2.1 hat hfit hs hsr
    have hsj := strip_getD_eq _ _ hstrip at_
    rw [inserted_getD, if_neg (by omega), if_pos ha.symm] at hsj
    refine ⟨E', hE', ?_, ?_⟩
    · rw [strip_render _ _ hsj, strip_raw _ _ hsj]
      rfl
    · rw [strip_rsize _ _ hsj, strip_raw _ _ hsj]
      rfl
  · intro E r col hwf hr hcol hfit hsr
    obtain ⟨hrow, hsz, hterm⟩ := wf_row E r hwf hr
    obtain ⟨E', x, hE', -, -, hx, -, hxraw, -, -, -, hxr, hxs, -⟩ :=
      editorRowDelChar_spec E r col (E.row.getD r default) hrow hwf.1 hwf.2.1 hsz hterm hcol hfit
        hsr
    refine ⟨E', hE', ?_, ?_⟩
    · rw [← strip_render _ _ hx, ← strip_raw _ _ hx, hxr, hxraw]
    · rw [← strip_rsize _ _ hx, ← strip_raw _ _ hx, hxs, hxraw]

/-- The function `editorInsertRow` keeps row indices dense, in a state in
which the scan stays inside the arrays. -/
theorem editorInsertRow_idxDense (E : editorConfig) (at_ : Nat) (s : List Nat) (len : Nat)
    (hwf : wellFormed E) (hd : idxDense E) (hat : at_ ≤ E.numrows) (hs : len < s.length)
    (hfit : lineFits (s.take len)) (hsr : scanReady (insertedState E at_ s len) at_) :
    ∃ E', editorInsertRow E at_ s len = some E' ∧ idxDense E' := by
  obtain ⟨E', a, b, hE', hrows, ha, hframe, hlen, hstrip, -⟩ :=
    editorInsertRow_spec E at_ s len hwf.1 hwf.2.1 hat hfit hs hsr
  refine ⟨E', hE', ?_⟩
  have hnum : E'.numrows = E.numrows + 1 := by
    have := congrArg editorConfig.numrows hframe
    exact this
  have hlenab : a.length + b.length = E.numrows := by
    have := congrArg List.length hrows
    simp only [editorConfig.rows, List.length_take, List.length_append] at this
    have := hwf.1
    omega
  intro j hj
  rw [hnum] at hj
  rw [strip_idx _ _ (strip_getD_eq _ _ hstrip j), inserted_getD]
  by_cases h1 : j < a.length
  · rw [if_pos h1]
    have hold : a.getD j default = E.row.getD j default := by
      rw [← rows_getD E j (by omega), hrows, getD_append_left _ _ _ h1]
    rw [hold]
    exact hd j (by omega)
  · rw [if_neg h1]
    by_cases h2 : j = a.length
    · rw [if_pos h2]
      simp only [rendered, freshRow]
      omega
    · rw [if_neg h2]
      have h3 : j - a.length - 1 < b.length := by omega
      rw [if_pos h3]
      have hold : b.getD (j - a.length - 1) default = E.row.getD (j - 1) default := by
        rw [← rows_getD E (j - 1) (by omega), hrows, getD_append_right _ _ _ (by omega)]
        congr 1
        omega
      rw [hold]
      have := hd (j - 1) (by omega)
      simp only [bumpIdx]
      omega

/-- The functions `editorRowInsertChar`, `editorRowAppendString` (for a
terminated `s`) and `editorRowDelChar` return and keep a document well-formed, in states in which
the scan stays inside the arrays. -/
theorem wellFormed_row_mutators :
    (∀ (E : editorConfig) (r col c : Nat), wellFormed E → r < E.numrows → c < 256 →
      lineFits (spliceChar (E.row.getD r default).raw col c) →
      scanReady (setRow E r (rendered (insertedRow (E.row.getD r default) col c))) r →
      ∃ E', editorRowInsertChar E (some r) col c = some E' ∧ wellFormed E') ∧
    (∀ (E : editorConfig) (r : Nat) (s : List Nat) (len : Nat), wellFormed E →
      r < E.numrows → len ≤ s.length → lineFits ((E.row.getD r default).raw ++ s.take len) →
      scanReady (setRow E r (rendered (appendedRow (E.row.getD r default) s len))) r →
      ∃ E', editorRowAppendString E r s len = some E' ∧ wellFormed E') ∧
    (∀ (E : editorConfig) (r col : Nat), wellFormed E → r < E.numrows →
      lineFits (E.row.getD r default).raw →
      scanReady (setRow E r (rendered (shiftedRow (E.row.getD r default) col))) r →
      ∃ E', editorRowDelChar E r col = some E' ∧ wellFormed E') := by
  refine ⟨?_, ?_, ?_⟩
  · intro E r col c hwf hr hc hfit hsr
    obtain ⟨hrow, hsz, hterm⟩ := wf_row E r hwf hr
    obtain ⟨E', hE', hm⟩ := editorRowInsertChar_spec E r col c (E.row.getD r default) hrow
      hwf.1 hwf.2.1 hsz (by rw [insertedRow_raw_splice _ col c hsz hc]; exact hfit) hsr
    obtain ⟨-, -, -, f4, f5, -⟩ := insertedRow_facts (E.row.getD r default) col c hsz
    refine ⟨E', hE', wellFormed_of_mutated E r _ E' hwf ⟨f4, ?_⟩ hm⟩
    rw [f5]
    split
    · rfl
    · exact hterm
  · intro E r s len hwf hr hs hfit hsr
    obtain ⟨hrow, hsz, -⟩ := wf_row E r hwf hr
    obtain ⟨E', hE', hm⟩ := editorRowAppendString_spec E r s len (E.row.getD r default) hrow
      hwf.1 hwf.2.1 hsz hs hfit hsr
    obtain ⟨-, -, f3, f4⟩ := appendedRow_facts (E.row.getD r default) s len hsz hs
    exact ⟨E', hE', wellFormed_of_mutated E r _ E' hwf ⟨f3, f4⟩ hm⟩
  · intro E r col hwf hr hfit hsr
    obtain ⟨hrow, hsz, hterm⟩ := wf_row E r hwf hr
    by_cases hcol : col < (E.row.getD r default).size
    · obtain ⟨E', x, hE', hframe, hlen, hx, -, -, -, hx1, hx2, -, -, hoth, -, -, hfw'⟩ :=
        editorRowDelChar_spec E r col (E.row.getD r default) hrow hwf.1 hwf.2.1 hsz hterm hcol
          hfit hsr
      have hn : E'.numrows = E.numrows := by
        have := congrArg editorConfig.numrows hframe
        exact this
      refine ⟨E', hE', ?_, hfw', ?_⟩
      · rw [hn, hlen]
        exact hwf.1
      · intro j hj
        rw [hn] at hj
        by_cases hjr : j = r
        · subst hjr
          exact terminated_of_strip _ x hx.symm ⟨hx1, hx2⟩
        · exact terminated_of_strip _ _ (hoth j hjr) (hwf.2.2 j hj)
    · refine ⟨E, ?_, hwf⟩
      unfold editorRowDelChar
      simp only [hrow]
      rw [if_pos (by omega)]

/-- The function `editorInsertRow`, for a terminated `s`, returns and keeps a
document well-formed, in a state in which the scan stays inside the arrays. -/
theorem wellFormed_editorInsertRow (E : editorConfig) (at_ : Nat) (s : List Nat) (len : Nat)
    (hwf : wellFormed E) (hat : at_ ≤ E.numrows) (hs : len < s.length)
    (hz : s.getD len 0 = 0) (hfit : lineFits (s.take len))
    (hsr : scanReady (insertedState E at_ s len) at_) :
    ∃ E', editorInsertRow E at_ s len = some E' ∧ wellFormed E' := by
  obtain ⟨E', a, b, hE', hrows, ha, hframe, hlen, hstrip, -, -, hfw'⟩ :=
    editorInsertRow_spec E at_ s len hwf.1 hwf.2.1 hat hfit hs hsr
  refine ⟨E', hE', ?_, hfw', ?_⟩
  · have hnum : E'.numrows = E.numrows + 1 := by
      have := congrArg editorConfig.numrows hframe
      exact this
    omega
  · have hnum : E'.numrows = E.numrows + 1 := by
      have := congrArg editorConfig.numrows hframe
      exact this
    have hlenab : a.length + b.length = E.numrows := by
      have := congrArg List.length hrows
      simp only [editorConfig.rows, List.length_take, List.length_append] at this
      have := hwf.1
      omega
    intro j hj
    rw [hnum] at hj
    have hsj := strip_getD_eq _ _ hstrip j
    rw [inserted_getD] at hsj
    by_cases h1 : j < a.length
    · rw [if_pos h1] at hsj
      have hold : a.getD j default = E.row.getD j default := by
        rw [← rows_getD E j (by omega), hrows, getD_append_left _ _ _ h1]
      rw [hold] at hsj
      exact terminated_of_strip _ _ hsj (hwf.2.2 j (by omega))
    · rw [if_neg h1] at hsj
      by_cases h2 : j = a.length
      · rw [if_pos h2] at hsj
        apply terminated_of_strip _ _ hsj
        have e1 : (s.take (len + 1)).length = len + 1 := by
          simp only [List.length_take]
          omega
        refine ⟨?_, ?_⟩
        · show len < (s.take (len + 1)).length
          omega
        · show (s.take (len + 1)).getD len 0 = 0
          rw [← hz]
          simp [List.getD_eq_getElem?_getD, List.getElem?_take, List.getElem?_eq_getElem hs]
      · rw [if_neg h2] at hsj
        have h3 : j - a.length - 1 < b.length := by omega
        rw [if_pos h3] at hsj
        have hold : b.getD (j - a.length - 1) default = E.row.getD (j - 1) default := by
          rw [← rows_getD E (j - 1) (by omega), hrows, getD_append_right _ _ _ (by omega)]
          congr 1
          omega
        rw [hold] at hsj
        exact terminated_of_strip _ (bumpIdx (E.row.getD (j - 1) default)) hsj
          (hwf.2.2 (j - 1) (by omega))

/-- Insertion then deletion at row 0 of the document `a`, `b` under the C profile, column 1, byte `c`. -/
theorem insert_then_delete_example :
    ∃ E1 E2, editorRowInsertChar exDocC (some 0) 1 99 = some E1 ∧
      editorRowDelChar E1 0 1 = some E2 ∧
      (E2.row.getD 0 default).raw = (exDocC.row.getD 0 default).raw ∧
      (E2.row.getD 0 default).size = (exDocC.row.getD 0 default).size ∧
      (E2.row.getD 0 default).chars.getD (E2.row.getD 0 default).size 0 = 0 :=
  insert_then_delete_restores_raw exDocC 0 1 99 (by decide) (by decide) (by decide)
    (by decide) (by decide) (by decide) (by decide)

/-- Row insertion at the document `a`, `b` under the C profile, inserting `xy` at position 1. -/
theorem insert_row_example :
    (exDocC.numrows < 1 → editorInsertRow exDocC 1 [120, 121, 0] 2 = some exDocC) ∧
      (1 ≤ exDocC.numrows →
        ∃ E', editorInsertRow exDocC 1 [120, 121, 0] 2 = some E' ∧
          E'.rows.map erow.raw
            = (exDocC.rows.map erow.raw).take 1 ++ [120, 121, 0].take 2 ::
                (exDocC.rows.map erow.raw).drop 1 ∧
          E'.numrows = exDocC.numrows + 1) :=
  insert_row_sequence exDocC 1 [120, 121, 0] 2 (by decide) (by decide) (by decide)
    (by decide)

/-- Insertion at row 1 of the document `a`, `b` under the C profile, column 3 past the end,
byte `c`. -/
theorem insert_char_example :
    ∃ E', editorRowInsertChar exDocC (some 1) 3 99 = some E' ∧
      ((exDocC.row.getD 1 default).size < 3 →
        (E'.row.getD 1 default).raw
          = (exDocC.row.getD 1 default).raw ++
              List.replicate (3 - (exDocC.row.getD 1 default).size) 32 ++ [99] ∧
        (E'.row.getD 1 default).size = 3 + 1) ∧
      (3 ≤ (exDocC.row.getD 1 default).size →
        (E'.row.getD 1 default).raw
          = (exDocC.row.getD 1 default).raw.take 3 ++ 99 ::
              (exDocC.row.getD 1 default).raw.drop 3 ∧
        (E'.row.getD 1 default).size = (exDocC.row.getD 1 default).size + 1) :=
  insert_char_content exDocC 1 3 99 (by decide) (by decide) (by decide) (by decide)
    (by decide)

/-- Deletion at the row `ab`, column 1. -/
theorem delete_char_example :
    ((exAb.row.getD 0 default).size ≤ 1 → editorRowDelChar exAb 0 1 = some exAb) ∧
      (1 < (exAb.row.getD 0 default).size →
        ∃ E', editorRowDelChar exAb 0 1 = some E' ∧
          (E'.row.getD 0 default).raw = (exAb.row.getD 0 default).raw.eraseIdx 1 ∧
          (E'.row.getD 0 default).size = (exAb.row.getD 0 default).size - 1 ∧
          (E'.row.getD 0 default).raw.length = (exAb.row.getD 0 default).raw.length - 1) :=
  delete_char_content exAb 0 1 (by decide) (by decide) (by decide) (by decide)

/-- The highlight length at the document `a`, `b` under the C profile, one call of each function. -/
theorem highlight_length_example :
    (∃ E', editorUpdateRow exDocC 0 = some E' ∧
        (E'.row.getD 0 default).hl.length = (E'.row.getD 0 default).rsize ∧
        (E'.row.getD 0 default).render.length = (E'.row.getD 0 default).rsize ∧
        (hlInv exDocC → hlInv E')) ∧
      (∃ E', editorInsertRow exDocC 1 [47, 42, 0] 2 = some E' ∧ hlInv E') ∧
      hlInv (editorDelRow exDocC 0) ∧
      (∃ E', editorRowInsertChar exDocC (some 0) 0 TAB = some E' ∧ hlInv E') ∧
      (∃ E', editorRowAppendString exDocC 0 [47, 47, 0] 2 = some E' ∧ hlInv E') ∧
      (∃ E', editorRowDelChar exDocC 1 0 = some E' ∧ hlInv E') :=
  ⟨highlight_length_is_rsize.1 exDocC 0 (by decide) (by decide) (by decide)
      (by decide),
    highlight_length_is_rsize.2.1 exDocC 1 [47, 42, 0] 2 (by decide) (by decide) (by decide)
      (by decide) (by decide) (by decide),
    highlight_length_is_rsize.2.2.1 exDocC 0 (by decide) (by decide),
    highlight_length_is_rsize.2.2.2.1 exDocC 0 0 TAB (by decide) (by decide) (by decide)
      (by decide) (by decide) (by decide),
    highlight_length_is_rsize.2.2.2.2.1 exDocC 0 [47, 47, 0] 2 (by decide) (by decide)
      (by decide) (by decide) (by decide) (by decide),
    highlight_length_is_rsize.2.2.2.2.2 exDocC 1 0 (by decide) (by decide) (by decide)
      (by decide) (by decide)⟩

/-! ## The rows that `editorUpdateSyntax` scans -/

theorem editorUpdateSyntaxTrace_fst : ∀ (fuel : Nat) (E : editorConfig) (r : Nat),
    (editorUpdateSyntaxTrace fuel E r).map Prod.fst = editorUpdateSyntax fuel E r := by
  intro fuel
  induction fuel with
  | zero => intro E r; rfl
  | succ n ih =>
    intro E r
    unfold editorUpdateSyntaxTrace editorUpdateSyntax
    cases hrow : E.row[r]? with
    | none => rfl
    | some row =>
      simp only
      cases hsyn : E.esyntax with
      | none => rfl
      | some S =>
        simp only
        cases hseed : seedComment (setRow E r { row with hl := List.replicate row.rsize HL_NORMAL })
            row.idx with
        | none => rfl
        | some ic =>
          simp only
          cases hscan : scanLoop S { row with hl := List.replicate row.rsize HL_NORMAL }
              (2 * row.render.length + 2)
              { i := skipSpaces row.render, prev_sep := true, in_string := 0,
                in_comment := ic, hl := List.replicate row.rsize HL_NORMAL } with
          | none => rfl
          | some p =>
            obtain ⟨hl, b⟩ := p
            cases b with
            | true => rfl
            | false =>
              simp only
              generalize (if editorRowHasOpenComment { row with hl := hl } = true then 1 else 0) = oc
              by_cases hcond : (row.hl_oc != oc &&
                  decide (row.idx + 1 < (setRow E r { row with hl := hl }).numrows)) = true
              · rw [if_pos hcond, if_pos hcond, ← ih]
                cases editorUpdateSyntaxTrace n _ _ with
                | none => rfl
                | some p => rfl
              · rw [if_neg hcond, if_neg hcond]
                rfl

/-- C18: the rows that `editorUpdateSyntax` re-scans need not be contiguous.
Under the C profile the rows `x`, `/**`, `c`, `d`, `e`, `f` are inserted and
row 0 is deleted, which leaves the rows below it with `idx` two more than their
position.  When `editorRowInsertChar` then appends `/` to the first row, so
that it reads `/**/` and closes its comment, `editorUpdateSyntax` scans the
rows at positions 0 and 3 only: the rows `c` and `d` at positions 1 and 2 are
skipped and stay classified block-comment. -/
theorem C18_rescan_skips_rows_after_delete :
    ∃ E0 : editorConfig,
      insertLines exInitC
          [bytes "x", bytes "/**", bytes "c", bytes "d", bytes "e", bytes "f"] = some E0 ∧
        wellFormed E0 ∧ wellFormed (editorDelRow E0 0) ∧
        (editorDelRow E0 0).numrows = 5 ∧
        (editorUpdateSyntaxTrace ((editorDelRow E0 0).numrows + 1)
            (setRow (editorDelRow E0 0) 0
              (rendered (insertedRow ((editorDelRow E0 0).row.getD 0 default) 3 47))) 0).map
          Prod.snd = some [0, 3] ∧
        (editorRowInsertChar (editorDelRow E0 0) (some 0) 3 47).map editorConfig.row =
          (editorUpdateSyntaxTrace ((editorDelRow E0 0).numrows + 1)
            (setRow (editorDelRow E0 0) 0
              (rendered (insertedRow ((editorDelRow E0 0).row.getD 0 default) 3 47))) 0).map
          (fun p => p.1.row) ∧
        (editorRowInsertChar (editorDelRow E0 0) (some 0) 3 47).map
            (fun E => E.rows.map (fun x => (x.raw, x.hl))) =
          some [(bytes "/**/", List.replicate 4 HL_MLCOMMENT), (bytes "c", [HL_MLCOMMENT]),
            (bytes "d", [HL_MLCOMMENT]), (bytes "e", [HL_MLCOMMENT]),
            (bytes "f", [HL_MLCOMMENT])] := by
  refine ⟨_, rfl, ?_, ?_, ?_, ?_, ?_, ?_⟩
  · decide!
  · decide!
  · decide!
  · decide!
  · decide!
  · decide!

/-! ## Line splitting and line joining at the cursor -/

theorem rows_raw_getElem (E : editorConfig) (j : Nat) (h : j < (E.rows.map erow.raw).length) :
    (E.rows.map erow.raw)[j] = (E.row.getD j default).raw := by
  have h1 : j < E.row.length := by
    simp only [editorConfig.rows, List.length_map, List.length_take] at h
    omega
  simp only [editorConfig.rows, List.getElem_map, List.getElem_take]
  rw [List.getD_eq_getElem _ _ h1]

theorem rows_raw_length (E : editorConfig) (hnum : E.numrows ≤ E.row.length) :
    (E.rows.map erow.raw).length = E.numrows := by
  simp only [editorConfig.rows, List.length_map, List.length_take]
  omega

theorem updated_rows_raw (E : editorConfig) (r : Nat) (x : erow) (E1 : editorConfig)
    (hu : updated E r x E1) (hnum : E.numrows ≤ E.row.length) :
    E1.rows.map erow.raw = (E.rows.map erow.raw).set r x.raw := by
  have hn := updated_numrows E r x E1 hu
  have hl := updated_length E r x E1 hu
  have hnum1 : E1.numrows ≤ E1.row.length := by rw [hn, hl]; exact hnum
  apply List.ext_getElem
  · rw [List.length_set, rows_raw_length E hnum, rows_raw_length E1 hnum1, hn]
  · intro j h1 h2
    have hj : j < E.numrows := by
      rw [rows_raw_length E1 hnum1, hn] at h1
      exact h1
    rw [rows_raw_getElem, List.getElem_set]
    split
    · next h =>
      subst h
      exact strip_raw _ (rendered x) (updated_at E r x E1 (by omega) hu)
    · next h =>
      rw [rows_raw_getElem]
      exact strip_raw _ _ (updated_other E r x E1 hu j (Ne.symm h))

theorem take_succ_set {α : Type} (L : List α) (r : Nat) (v : α) (h : r < L.length) :
    (L.take (r + 1)).set r v = L.take r ++ [v] := by
  induction L generalizing r with
  | nil => simp at h
  | cons a t ih =>
    cases r with
    | zero => simp
    | succ n =>
      simp only [List.length_cons] at h
      simp only [List.take_succ_cons, List.set_cons_succ, List.cons_append, List.cons.injEq,
        true_and]
      exact ih n (by omega)

theorem split_rows {α : Type} (L : List α) (r : Nat) (v1 v2 : α) (h : r < L.length) :
    (L.take (r + 1) ++ v2 :: L.drop (r + 1)).set r v1
      = L.take r ++ v1 :: v2 :: L.drop (r + 1) := by
  rw [List.set_append_left _ _ (by rw [List.length_take]; omega), take_succ_set L r v1 h]
  simp

theorem take_set_self {α : Type} (l : List α) (c : Nat) (v : α) :
    (l.set c v).take c = l.take c := by
  induction l generalizing c with
  | nil => simp
  | cons a t ih =>
    cases c with
    | zero => simp
    | succ n =>
      simp only [List.set_cons_succ, List.take_succ_cons, List.cons.injEq, true_and]
      exact ih n

theorem fixcursor_rows (E : editorConfig) :
    (fixcursor E).rows = E.rows ∧ (fixcursor E).numrows = E.numrows ∧
      (fixcursor E).row = E.row := by
  unfold fixcursor
  split <;> exact ⟨rfl, rfl, rfl⟩

theorem lineFits_take (w : List Nat) (c : Nat) (h : lineFits w) : lineFits (w.take c) := by
  unfold lineFits at *
  have h1 : (w.take c).length ≤ w.length := by
    rw [List.length_take]
    omega
  have h2 : (w.take c).count TAB ≤ w.count TAB := (List.take_sublist c w).count_le TAB
  omega

theorem lineFits_drop (w : List Nat) (c : Nat) (h : lineFits w) : lineFits (w.drop c) := by
  unfold lineFits at *
  have h1 : (w.drop c).length ≤ w.length := by
    rw [List.length_drop]
    omega
  have h2 : (w.drop c).count TAB ≤ w.count TAB := (List.drop_sublist c w).count_le TAB
  omega

theorem lineFits_nil : lineFits [] := by
  unfold lineFits
  decide

theorem mutated_rows_raw (E : editorConfig) (r : Nat) (x : erow) (E' : editorConfig)
    (hm : mutated E r x E') (hnum : E.numrows ≤ E.row.length) :
    E'.rows.map erow.raw = (E.rows.map erow.raw).set r x.raw := by
  have hn := mutated_numrows E r x E' hm
  have hnum' : E'.numrows ≤ E'.row.length := by rw [hn, hm.2.1]; exact hnum
  apply List.ext_getElem
  · rw [List.length_set, rows_raw_length E hnum, rows_raw_length E' hnum', hn]
  · intro j h1 h2
    rw [rows_raw_getElem, List.getElem_set]
    split
    · next h => subst h; exact strip_raw _ (rendered x) hm.2.2.1
    · next h =>
      rw [rows_raw_getElem]
      exact strip_raw _ _ (hm.2.2.2.1 j (Ne.symm h))

theorem editorDelRow_cursor (E : editorConfig) (at_ : Nat) :
    (editorDelRow E at_).cx = E.cx ∧ (editorDelRow E at_).cy = E.cy ∧
      (editorDelRow E at_).rowoff = E.rowoff ∧ (editorDelRow E at_).coloff = E.coloff ∧
      (editorDelRow E at_).screencols = E.screencols := by
  unfold editorDelRow
  split <;> simp

theorem frame_cursor (E E' : editorConfig) (d : Nat)
    (h : E'.frame = { E.frame with dirty := d }) :
    E'.cx = E.cx ∧ E'.cy = E.cy ∧ E'.rowoff = E.rowoff ∧ E'.coloff = E.coloff ∧
      E'.screencols = E.screencols ∧ E'.screenrows = E.screenrows := by
  cases E
  cases E'
  simp only [editorConfig.frame, editorConfig.mk.injEq] at h
  simp only
  tauto

/-- C12: the cursor column after a join is not always the old length of row
`r - 1`.  The file `p`, 82 times `a`, `q` is loaded in an 80 column window; two
`ARROW_DOWN`, one `editorDelChar` (which joins the last two rows and, by its
shift arithmetic, leaves `cx == 83` and `coloff == -1`) and 82 `ARROW_LEFT`
lead to a well-formed document with the cursor at column 0 of row 1
(`coloff + cx == 0`).  `editorDelChar` then joins rows 0 and 1 and leaves
`cx == 1`, `coloff == -1`: `coloff + cx` is 0, not the old length 1 of row 0. -/
theorem C12_join_after_long_join_misplaces_cursor :
    exJoined.map (fun E => (decide (wellFormed E), E.rows.map erow.raw, E.rowoff + E.cy,
        E.coloff + E.cx, E.cx, E.coloff)) =
      some (true, [bytes "p", List.replicate 82 97 ++ bytes "q"], 1, 0, 1, -1) ∧
    (exJoined.bind editorDelChar).map (fun E => (E.rows.map erow.raw, E.numrows,
        E.rowoff + E.cy, E.coloff + E.cx, E.cx, E.coloff)) =
      some ([bytes "p" ++ (List.replicate 82 97 ++ bytes "q")], 1, 0, 0, 1, -1) := by
  constructor
  · decide!
  · decide!

/-! ## The scan inside a block comment -/

/-- The turn at the terminator leaves the loop. -/
theorem scanStep_nul (S : editorSyntax) (row : erow) (st : scanState)
    (hp : row.render.getD st.i 0 = 0) : scanStep S row st = scanTurn.stop [] st.hl false := by
  unfold scanStep
  simp only [hp, beq_self_eq_true, if_true]

/-- The turn inside a block comment at a byte where the line-comment test
fails: the byte is `HL_MLCOMMENT`, and at the close marker so is the byte after
it and the comment ends. -/
theorem scanStep_in_comment (S : editorSyntax) (row : erow) (st : scanState)
    (hp : row.render.getD st.i 0 ≠ 0) (hin : st.in_comment = true)
    (hline : st.prev_sep = true → ¬ lineCommentAt S row st.i) :
    scanStep S row st =
      if (row.render.getD st.i 0 == S.multiline_comment_end.getD 0 0 &&
          row.render.getD (st.i + 1) 0 == S.multiline_comment_end.getD 1 0) = true then
        scanTurn.next [(st.i, 1), (st.i + 1, 1)]
          { st with hl := (st.hl.set st.i HL_MLCOMMENT).set (st.i + 1) HL_MLCOMMENT,
                    i := st.i + 2, in_comment := false, prev_sep := true }
      else
        scanTurn.next [(st.i, 1)]
          { st with hl := st.hl.set st.i HL_MLCOMMENT, prev_sep := false, i := st.i + 1 } := by
  unfold scanStep
  dsimp only
  rw [if_neg (by simpa using hp), if_neg (by
    intro hc
    simp only [Bool.and_eq_true, beq_iff_eq] at hc
    exact hline hc.1.1 ⟨hc.1.2, hc.2⟩), if_pos hin]

theorem scanLoop_comment (S : editorSyntax) (row : erow)
    (hmce0 : S.multiline_comment_end.getD 0 0 = 42)
    (hmce1 : S.multiline_comment_end.getD 1 0 = 47)
    (hlen : row.render.length = row.rsize)
    (hnul : ∀ j, j < row.rsize → row.render.getD j 0 ≠ 0) :
    ∀ (fuel : Nat) (st : scanState) (res : List Nat) (b : Bool),
      scanLoop S row fuel st = some (res, b) → st.in_comment = true →
      (st.prev_sep = true → ¬ lineCommentAt S row st.i) →
      st.hl.length = row.rsize → st.i ≤ row.rsize →
      ∀ e, st.i ≤ e → e ≤ row.rsize → noCloseIn row st.i e →
        (∀ j, st.i ≤ j → j < e → res.getD j 0 = HL_MLCOMMENT) ∧
          (closeAt row e → res.getD e 0 = HL_MLCOMMENT ∧ res.getD (e + 1) 0 = HL_MLCOMMENT) := by
  intro fuel
  induction fuel with
  | zero => intro st res b h; simp [scanLoop] at h
  | succ n ih =>
    intro st res b h hin hsep hhl hi e he1 he2 hno
    rw [scanLoop_step, if_neg (by omega)] at h
    by_cases hp0 : row.render.getD st.i 0 = 0
    · have hie : st.i = row.rsize := by
        by_contra hne
        exact hnul st.i (by omega) hp0
      have hee : e = st.i := by omega
      subst hee
      refine ⟨fun j h1 h2 => absurd h2 (by omega), fun hc => ?_⟩
      rw [hc.1] at hp0
      exact absurd hp0 (by decide)
    · have hilt : st.i < row.rsize := by
        rw [← hlen]
        exact getD_ne_zero_lt _ _ hp0
      rw [scanStep_in_comment S row st hp0 hin hsep] at h
      by_cases hm : (row.render.getD st.i 0 == S.multiline_comment_end.getD 0 0 &&
          row.render.getD (st.i + 1) 0 == S.multiline_comment_end.getD 1 0) = true
      · rw [if_pos hm] at h
        simp only at h
        split at h
        swap
        · exact Option.noConfusion h
        simp only [Bool.and_eq_true, beq_iff_eq, hmce0, hmce1] at hm
        have hc : closeAt row st.i := hm
        have hi1 : st.i + 1 < row.rsize := by
          rw [← hlen]
          exact getD_ne_zero_lt _ _ (by rw [hm.2]; decide)
        by_cases hee : e = st.i
        · subst hee
          refine ⟨fun j h1 h2 => absurd h2 (by omega), fun _ => ?_⟩
          have q0 := scanLoop_prefix S row n _ res b h st.i (by simp only; omega)
          have q1 := scanLoop_prefix S row n _ res b h (st.i + 1) (by simp only; omega)
          simp only at q0 q1
          rw [q0, q1, hl_getD_set_ne _ _ _ _ (by omega), hl_getD_set_self _ _ _ (by omega),
            hl_getD_set_self _ _ _ (by rw [List.length_set]; omega)]
          exact ⟨rfl, rfl⟩
        · exact absurd hc (hno st.i (by omega) (Nat.le_refl _))
      · rw [if_neg hm] at h
        simp only at h
        split at h
        swap
        · exact Option.noConfusion h
        have hnc : ¬ closeAt row st.i := by
          intro hc
          apply hm
          simp only [Bool.and_eq_true, beq_iff_eq, hmce0, hmce1]
          exact hc
        by_cases hee : e = st.i
        · subst hee
          exact ⟨fun j h1 h2 => absurd h2 (by omega), fun hc => absurd hc hnc⟩
        · have hrec := ih _ res b h hin (by simp) (by simp only [List.length_set]; exact hhl)
            (by simp only; omega) e (by simp only; omega) he2
            (by
              intro j h1 h2
              exact hno j h1 (by simp only at h2; omega))
          simp only at hrec
          refine ⟨fun j h1 h2 => ?_, hrec.2⟩
          by_cases hj : j = st.i
          · subst hj
            have q0 := scanLoop_prefix S row n _ res b h st.i (by simp only; omega)
            simp only at q0
            rw [q0, hl_getD_set_self _ _ _ (by omega)]
          · exact hrec.1 j (by omega) h2

theorem erow_hl_eta (row : erow) : ({ row with hl := row.hl } : erow) = row := by
  cases row
  rfl

/-- The scan of a row of text that starts inside a block comment, when it
returns: white space at the start stays `HL_NORMAL`, every byte from the first
one that is not white space up to and including the first close marker, or to
the end of the row, is `HL_MLCOMMENT`, and a row without close marker that has
a byte that is not white space ends with an open comment. -/
theorem scanRow_seeded (S : editorSyntax) (row : erow)
    (hmce0 : S.multiline_comment_end.getD 0 0 = 42)
    (hmce1 : S.multiline_comment_end.getD 1 0 = 47) (ht : textRow S row) (hl : List Nat)
    (hrow : scanRow (some S) row true = some hl) :
    hl.length = row.rsize ∧
      (∀ j, j < skipSpaces row.render → hl.getD j 0 = HL_NORMAL) ∧
      (∀ e, skipSpaces row.render ≤ e → e ≤ row.rsize →
        noCloseIn row (skipSpaces row.render) e →
          (∀ j, skipSpaces row.render ≤ j → j < e → hl.getD j 0 = HL_MLCOMMENT) ∧
            (closeAt row e →
              hl.getD e 0 = HL_MLCOMMENT ∧ hl.getD (e + 1) 0 = HL_MLCOMMENT)) ∧
      (noCloseIn row (skipSpaces row.render) row.rsize → hasText row →
        editorRowHasOpenComment { row with hl := hl } = true) := by
  obtain ⟨hlen, hnul, hline⟩ := ht
  have hs := skipSpaces_le row.render
  unfold scanRow at hrow
  simp only at hrow
  cases hscan : scanLoop S { row with hl := List.replicate row.rsize HL_NORMAL }
      (2 * row.render.length + 2)
      { i := skipSpaces row.render, prev_sep := true, in_string := 0, in_comment := true,
        hl := List.replicate row.rsize HL_NORMAL } with
  | none =>
    rw [hscan] at hrow
    exact Option.noConfusion hrow
  | some p =>
    obtain ⟨hl', b⟩ := p
    rw [hscan] at hrow
    simp only [Option.some.injEq] at hrow
    subst hrow
    have hl_len := scanLoop_length _ _ _ _ _ _ hscan
    simp only [List.length_replicate] at hl_len
    have hpre := scanLoop_prefix _ _ _ _ _ _ hscan
    simp only at hpre
    have hcom := scanLoop_comment S { row with hl := List.replicate row.rsize HL_NORMAL }
      hmce0 hmce1 hlen hnul _ _ _ _ hscan rfl (fun _ => hline) (by simp) (by simp only; omega)
    simp only at hcom
    have hnormal : ∀ j, j < skipSpaces row.render → hl'.getD j 0 = HL_NORMAL := by
      intro j hj
      rw [hpre j hj, List.getD_eq_getElem?_getD, List.getElem?_replicate]
      split <;> rfl
    refine ⟨hl_len, hnormal, ?_, ?_⟩
    · intro e h1 h2 h3
      exact hcom e h1 h2 h3
    · intro hno htxt
      have htxt' : skipSpaces row.render < row.rsize := htxt
      have hml := (hcom row.rsize (by omega) (Nat.le_refl _) hno).1
      have hne : hl' ≠ [] := by
        intro h0
        rw [h0] at hl_len
        simp at hl_len
        omega
      have hlast := hml (row.rsize - 1) (by omega) (by omega)
      simp only [editorRowHasOpenComment, Bool.and_eq_true, Bool.not_eq_true', bne_iff_ne,
        beq_iff_eq, Bool.or_eq_true, decide_eq_true_eq]
      refine ⟨⟨⟨?_, by omega⟩, hlast⟩, ?_⟩
      · cases hh : hl' with
        | nil => exact absurd hh hne
        | cons a t => rfl
      · by_contra hcon
        have h2 : 2 ≤ row.rsize := by
          by_contra h2
          exact hcon (Or.inl (by omega))
        have ha : row.render.getD (row.rsize - 2) 0 = 42 := by
          by_contra h3
          exact hcon (Or.inr (Or.inl h3))
        have hb : row.render.getD (row.rsize - 1) 0 = 47 := by
          by_contra h3
          exact hcon (Or.inr (Or.inr h3))
        by_cases hge : skipSpaces row.render ≤ row.rsize - 2
        · apply hno (row.rsize - 2) (by omega) hge
          refine ⟨ha, ?_⟩
          have e1 : row.rsize - 2 + 1 = row.rsize - 1 := by omega
          rw [e1]
          exact hb
        · have hsp := skipSpaces_isspace row.render (row.rsize - 2) (by omega)
          rw [ha] at hsp
          exact absurd hsp (by decide)

/-- The example states with a cursor are what file loading and cursor keys
build from the initial editor. -/
theorem cursor_examples_reachable :
    (insertLines exInit [bytes "ab"]).bind (fun E => editorMoveCursor E ARROW_RIGHT)
        = some exAbMid ∧
      insertLines exInitC [bytes "/* a", bytes "  b", bytes "c */ d"] = some exCascade := by
  constructor
  · decide!
  · decide!

/-- C16, amended: the cascade of a block comment, row by row.  In a document
in which every row's highlight array is the scan of that row seeded with the
open-comment flag of the row before it, under a profile whose close marker is
`*/`: if row `i` ends with an open comment, the rows `i + 1` to `k` are rows
of text that do not start with the line-comment marker, and each of the rows
`i + 1` to `k - 1` has a byte that is not white space and no close marker,
then in row `k` the white space at the start is `HL_NORMAL` and every byte from
the first one that is not white space up to and including the first close
marker, or to the end of the row when it has none, is `HL_MLCOMMENT`. -/
theorem C16_block_comment_cascade (E : editorConfig) (S : editorSyntax) (i k : Nat)
    (hS : E.esyntax = some S)
    (hmce0 : S.multiline_comment_end.getD 0 0 = 42)
    (hmce1 : S.multiline_comment_end.getD 1 0 = 47)
    (hcorrect : hlCorrect E) (hik : i < k) (hk : k < E.numrows)
    (hopen : editorRowHasOpenComment (E.row.getD i default) = true)
    (htext : ∀ j, j < k + 1 → i < j → textRow S (E.row.getD j default))
    (hmid : ∀ j, j < k → i < j → hasText (E.row.getD j default) ∧
      noCloseIn (E.row.getD j default) (skipSpaces (E.row.getD j default).render)
        (E.row.getD j default).rsize) :
    (∀ j, j < skipSpaces (E.row.getD k default).render →
        (E.row.getD k default).hl.getD j 0 = HL_NORMAL) ∧
      (∀ e, skipSpaces (E.row.getD k default).render ≤ e → e ≤ (E.row.getD k default).rsize →
        noCloseIn (E.row.getD k default) (skipSpaces (E.row.getD k default).render) e →
          (∀ j, skipSpaces (E.row.getD k default).render ≤ j → j < e →
              (E.row.getD k default).hl.getD j 0 = HL_MLCOMMENT) ∧
            (closeAt (E.row.getD k default) e →
              (E.row.getD k default).hl.getD e 0 = HL_MLCOMMENT ∧
                (E.row.getD k default).hl.getD (e + 1) 0 = HL_MLCOMMENT)) := by
  have hrowj : ∀ j, i < j → j < k + 1 →
      editorRowHasOpenComment (E.row.getD (j - 1) default) = true →
      scanRow (some S) (E.row.getD j default) true = some (E.row.getD j default).hl := by
    intro j h1 h2 hprev
    have hc := hcorrect j (by omega)
    rw [hS, hprev] at hc
    have hd : decide (j > 0) = true := by
      simp only [decide_eq_true_eq]
      omega
    rw [hd] at hc
    exact hc
  have hcasc : ∀ j, i ≤ j → j < k →
      editorRowHasOpenComment (E.row.getD j default) = true := by
    intro j
    induction j with
    | zero =>
      intro h1 _
      have h0 : i = 0 := by omega
      rw [← h0]
      exact hopen
    | succ n ih =>
      intro h1 h2
      by_cases hin : i = n + 1
      · rw [← hin]
        exact hopen
      · have hprev := ih (by omega) (by omega)
        have hscan := hrowj (n + 1) (by omega) (by omega) hprev
        obtain ⟨-, -, -, hoc⟩ := scanRow_seeded S (E.row.getD (n + 1) default)
          hmce0 hmce1 (htext (n + 1) (by omega) (by omega)) _ hscan
        have hm := hmid (n + 1) h2 (by omega)
        have hoc2 := hoc hm.2 hm.1
        rw [erow_hl_eta] at hoc2
        exact hoc2
  have hprev := hcasc (k - 1) (by omega) (by omega)
  have hscan := hrowj k hik (by omega) hprev
  obtain ⟨-, hnormal, hrun, -⟩ := scanRow_seeded S (E.row.getD k default)
    hmce0 hmce1 (htext k (by omega) hik) _ hscan
  exact ⟨hnormal, hrun⟩

/-- C16 at the rows `/* a`, `  b`, `c */ d`: in the third row the bytes up to
and including the close marker at offset 2 are `HL_MLCOMMENT`. -/
theorem C16_witness :
    (∀ j, 0 ≤ j → j < 2 → (exCascade.row.getD 2 default).hl.getD j 0 = HL_MLCOMMENT) ∧
      (closeAt (exCascade.row.getD 2 default) 2 →
        (exCascade.row.getD 2 default).hl.getD 2 0 = HL_MLCOMMENT ∧
          (exCascade.row.getD 2 default).hl.getD (2 + 1) 0 = HL_MLCOMMENT) :=
  (C16_block_comment_cascade exCascade HLDB_C 0 2 rfl (by decide) (by decide) (by decide)
    (by decide) (by decide) (by decide) (by decide) (by decide)).2 2 (by decide) (by decide)
    (by decide)

/-- C16 as stated fails.  Under the C profile, after the row `/* a`, which
opens a comment that it does not close: an empty row or a row of white space
ends the cascade, so that the rows `b` and `c */` after it are `HL_NORMAL`;
the white space at the start of the row ` b` is `HL_NORMAL`; and the row
`// b` is classified line comment and the row `c` after it `HL_NORMAL`. -/
theorem C16_cascade_counterexample :
    (insertLines exInitC [bytes "/* a", bytes "", bytes "b", bytes "c */"]).map
        (fun E => (editorRowHasOpenComment (E.row.getD 0 default),
          E.rows.map (fun r => (r.raw, r.hl)))) =
      some (true, [(bytes "/* a", List.replicate 4 HL_MLCOMMENT), ([], []),
        (bytes "b", [HL_NORMAL]), (bytes "c */", List.replicate 4 HL_NORMAL)]) ∧
    (insertLines exInitC [bytes "/* a", bytes "  ", bytes "b"]).map
        (fun E => E.rows.map (fun r => (r.raw, r.hl))) =
      some [(bytes "/* a", List.replicate 4 HL_MLCOMMENT), (bytes "  ", [HL_NORMAL, HL_NORMAL]),
        (bytes "b", [HL_NORMAL])] ∧
    (insertLines exInitC [bytes "/* a", bytes " b"]).map
        (fun E => E.rows.map (fun r => (r.raw, r.hl))) =
      some [(bytes "/* a", List.replicate 4 HL_MLCOMMENT),
        (bytes " b", [HL_NORMAL, HL_MLCOMMENT])] ∧
    (insertLines exInitC [bytes "/* a", bytes "// b", bytes "c"]).map
        (fun E => E.rows.map (fun r => (r.raw, r.hl))) =
      some [(bytes "/* a", List.replicate 4 HL_MLCOMMENT),
        (bytes "// b", List.replicate 4 HL_COMMENT), (bytes "c", [HL_NORMAL])] := by
  refine ⟨?_, ?_, ?_, ?_⟩
  · decide!
  · decide!
  · decide!
  · decide!

/-- A property of the result of a call that returns, from its evaluation. -/
theorem forall_result_of_all {α : Type} (o : Option α) (P : α → Prop) [DecidablePred P]
    (h : o.all (fun a => decide (P a)) = true) : ∀ a, o = some a → P a := by
  intro a ha
  subst ha
  simpa [Option.all] using h

/-- On a document whose rows from `r` on carry their position as index, in a
state in which the scan stays inside the arrays, `editorUpdateSyntax` on row
`r` returns and scans one contiguous run of rows
that starts at `r` and ends before `numrows`. -/
theorem editorUpdateSyntaxTrace_contiguous : ∀ (fuel : Nat) (E : editorConfig) (r : Nat),
    r < E.row.length → E.numrows ≤ E.row.length →
    (∀ j, r ≤ j → j < E.row.length → (E.row.getD j default).idx = j) →
    scanReady E r → E.numrows < r + fuel → 0 < fuel →
    ∃ E' k, editorUpdateSyntaxTrace fuel E r = some (E', List.range' r (k + 1)) ∧
      (k = 0 ∨ r + k < E.numrows) := by
  intro fuel
  induction fuel with
  | zero => intro E r _ _ _ _ _ h; omega
  | succ n ih =>
    intro E r hr hnum hidx hs hfuel _
    have hrow := getElem?_of_lt E.row r hr
    have hir := hidx r (Nat.le_refl _) hr
    generalize hrw : E.row.getD r default = row at hrow hir
    unfold editorUpdateSyntaxTrace
    simp only [hrow]
    cases hsyn : E.esyntax with
    | none => exact ⟨_, 0, rfl, Or.inl rfl⟩
    | some S =>
      have hC : S = HLDB_C := by
        rcases hs with h0 | ⟨hC, -⟩
        · rw [hsyn] at h0
          exact Option.noConfusion h0
        · rw [hsyn] at hC
          exact Option.some.inj hC
      subst hC
      have hrows : ∀ j, j < E.row.length → (j < E.numrows ∨ j = r) →
          rowInside (E.row.getD j default) ∧ (E.row.getD j default).idx ≤ E.row.length := by
        rcases hs with h0 | ⟨-, hrows⟩
        · rw [hsyn] at h0
          exact Option.noConfusion h0
        · exact hrows
      obtain ⟨hri, hib⟩ := hrows r hr (Or.inr rfl)
      rw [hrw] at hri hib
      simp only
      obtain ⟨ic, hic⟩ := seedComment_isSome
        (setRow E r { row with hl := List.replicate row.rsize HL_NORMAL }) row.idx
        (by simp only [setRow, List.length_set]; exact hib)
      rw [hic]
      simp only
      have hsome := scanLoop_isSome HLDB_C { row with hl := List.replicate row.rsize HL_NORMAL }
        row.rsize (turnsInside_of_rowInside _ hri)
        (2 * row.render.length + 2)
        { i := skipSpaces row.render, prev_sep := true, in_string := 0, in_comment := ic,
          hl := List.replicate row.rsize HL_NORMAL } (by simp) (by
            simp only
            exact skipSpaces_le row.render) (by simp only; split <;> omega)
      obtain ⟨⟨hl, b⟩, hscan⟩ := Option.isSome_iff_exists.mp hsome
      have hlen := scanLoop_length _ _ _ _ _ _ hscan
      simp only [List.length_replicate] at hlen
      simp only [hscan]
      cases b with
      | true => exact ⟨_, 0, rfl, Or.inl rfl⟩
      | false =>
        simp only [setRow_numrows]
        generalize (if editorRowHasOpenComment { row with hl := hl } = true then 1 else 0) = oc
        by_cases hcond : (row.hl_oc != oc && decide (row.idx + 1 < E.numrows)) = true
        · rw [if_pos hcond]
          have hnext : row.idx + 1 < E.numrows := by
            simp only [Bool.and_eq_true, decide_eq_true_eq] at hcond
            exact hcond.2
          have hlen1 : (setRow E r { row with hl := hl }).row.length = E.row.length := by
            simp [setRow]
          obtain ⟨E2, k, hE2, hk⟩ := ih (setRow E r { row with hl := hl }) (row.idx + 1)
            (by rw [hlen1]; omega) (by rw [hlen1]; exact hnum)
            (by
              intro j hj1 hj2
              rw [hlen1] at hj2
              simp only [setRow]
              rw [getD_set_ne _ _ _ _ (by omega)]
              exact hidx j (by omega) hj2)
            (scanReady_next _ _ _
              (scanReady_of_strip E _ r
                (synPost_setRow E r row { row with hl := hl } hrow rfl hlen).2.1
                (synPost_setRow E r row { row with hl := hl } hrow rfl hlen).1 hs)
              (by simp only [setRow]; exact hnext))
            (by simp only [setRow]; omega) (by omega)
          simp only [hE2]
          have hk1 : r + (k + 1) < E.numrows := by
            simp only [setRow] at hk
            omega
          rw [hir]
          exact ⟨_, k + 1, rfl, Or.inr hk1⟩
        · rw [if_neg hcond]
          exact ⟨_, 0, rfl, Or.inl rfl⟩

/-- What `editorInsertRow` leaves behind on a well-formed document, in a state
in which the scan stays inside the arrays. -/
theorem editorInsertRow_rows (E : editorConfig) (at_ : Nat) (s : List Nat) (len : Nat)
    (hwf : wellFormed E) (hat : at_ ≤ E.numrows) (hs : len < s.length)
    (hz : s.getD len 0 = 0) (hfit : lineFits (s.take len))
    (hsr : scanReady (insertedState E at_ s len) at_) :
    ∃ E', editorInsertRow E at_ s len = some E' ∧ wellFormed E' ∧
      E'.numrows = E.numrows + 1 ∧ E'.row.length = E.numrows + 1 ∧
      E'.rows.map erow.raw
        = (E.rows.map erow.raw).take at_ ++ s.take len :: (E.rows.map erow.raw).drop at_ ∧
      (∀ j, j < at_ → (E'.row.getD j default).strip = (E.row.getD j default).strip) := by
  obtain ⟨E', a, b, hE', hrows, ha, hframe, hlen, hstrip, -⟩ :=
    editorInsertRow_spec E at_ s len hwf.1 hwf.2.1 hat hfit hs hsr
  obtain ⟨E'', hE'', hwf'⟩ := wellFormed_editorInsertRow E at_ s len hwf hat hs hz hfit
    hsr
  have hEE : E'' = E' := by
    rw [hE'] at hE''
    exact (Option.some.inj hE'').symm
  subst hEE
  have hnum : E''.numrows = E.numrows + 1 := by
    have := congrArg editorConfig.numrows hframe
    exact this
  refine ⟨E'', hE', hwf', hnum, hlen, ?_, ?_⟩
  · have h1 : E''.rows = E''.row := by
      simp only [editorConfig.rows]
      rw [List.take_of_length_le (by omega)]
    rw [h1, map_raw_of_strip _ _ hstrip, hrows]
    simp only [List.map_append, List.map_cons]
    rw [map_raw_bump]
    have e1 : (a.map erow.raw).length = at_ := by
      rw [List.length_map, ha]
    rw [List.take_left' e1, List.drop_left' e1]
    have e2 : (rendered (freshRow at_ s len)).raw = s.take len := by
      simp only [rendered, freshRow, erow.raw, List.take_take]
      congr 1
      omega
    rw [e2]
  · intro j hj
    have h2 := strip_getD_eq _ _ hstrip j
    rw [h2]
    have h3 : (a ++ rendered (freshRow at_ s len) :: b.map bumpIdx).getD j default
        = a.getD j default := by
      rw [List.getD_append _ _ _ _ (by omega)]
    have h4 : E.row.getD j default = a.getD j default := by
      rw [← rows_getD E j (by omega), hrows, List.getD_append _ _ _ _ (by omega)]
    rw [h3, h4]

/-- The rows after `editorInsertNewline`, when every call of `editorUpdateRow`
in it happens in a state in which the scan stays inside the arrays: with the
cursor on row `r` of a well-formed document at raw column `c` (the column
`coloff + cx`, not negative, clamped to the row length), the call returns and
the document has one row more.  When `c > 0` row `r` holds the old content
before `c` and the new row `r + 1` the old content at and after `c`; when
`c == 0` an empty row stands at position `r` and the old row at `r + 1`.  In
both cases the rows before `r` and the old rows after `r` keep their content
and order. -/
theorem insert_newline_splits_row (E : editorConfig) (r c : Nat) (hwf : wellFormed E)
    (hr : r < E.numrows) (hrow : E.rowoff + E.cy = (r : Int)) (hcol : 0 ≤ E.coloff + E.cx)
    (hc : c = min (E.coloff + E.cx).toNat (E.row.getD r default).size)
    (hfit : lineFits (E.row.getD r default).raw)
    (hs0 : c = 0 → scanReady (insertedState E r [0] 0) r)
    (hs1 : 0 < c →
      scanReady (insertedState E (r + 1) ((E.row.getD r default).chars.drop c)
        ((E.row.getD r default).size - c)) (r + 1))
    (hs2 : 0 < c →
      ∀ E1, editorInsertRow E (r + 1) ((E.row.getD r default).chars.drop c)
          ((E.row.getD r default).size - c) = some E1 →
        scanReady (setRow E1 r (rendered
          { E1.row.getD r default with
              chars := (E1.row.getD r default).chars.set c 0, size := c })) r) :
    ∃ E', editorInsertNewline E = some E' ∧ E'.numrows = E.numrows + 1 ∧
      (0 < c →
        E'.rows.map erow.raw =
          (E.rows.map erow.raw).take r ++
            (E.row.getD r default).raw.take c :: (E.row.getD r default).raw.drop c ::
              (E.rows.map erow.raw).drop (r + 1)) ∧
      (c = 0 →
        E'.rows.map erow.raw =
          (E.rows.map erow.raw).take r ++ [] :: (E.row.getD r default).raw ::
            (E.rows.map erow.raw).drop (r + 1)) := by
  obtain ⟨hrowr, hsz, hterm⟩ := wf_row E r hwf hr
  have hLr : (E.rows.map erow.raw).drop r
      = (E.row.getD r default).raw :: (E.rows.map erow.raw).drop (r + 1) := by
    have hlen := rows_raw_length E hwf.1
    rw [List.drop_eq_getElem_cons (by omega), rows_raw_getElem]
  generalize hw : E.row.getD r default = row at *
  have hcdef := hc.symm
  have hc : (if E.coloff + E.cx ≥ (row.size : Int) then row.size else (E.coloff + E.cx).toNat)
      = c := by
    split <;> omega
  have hcs : c ≤ row.size := by omega
  unfold editorInsertNewline
  simp only [hrow]
  rw [if_neg (by omega), if_neg (by omega)]
  simp only [Int.toNat_ofNat, hrowr]
  rw [if_neg (by omega)]
  simp only [hc]
  by_cases hc0 : c = 0
  · rw [if_pos hc0]
    obtain ⟨E1, hE1, hwf1, hn1, -, hraw1, -⟩ := editorInsertRow_rows E r [0] 0 hwf (by omega)
      (by decide) (by decide) lineFits_nil (hs0 hc0)
    rw [hE1]
    obtain ⟨e1, e2, -⟩ := fixcursor_rows E1
    refine ⟨_, rfl, by rw [e2, hn1], fun h => absurd hc0 (by omega), fun _ => ?_⟩
    rw [e1, hraw1, hLr]
    rfl
  · rw [if_neg hc0]
    have hdrop : (row.chars.drop c).take (row.size - c) = row.raw.drop c := by
      simp only [erow.raw]
      rw [List.drop_take]
    obtain ⟨E1, hE1, hwf1, hn1, hl1, hraw1, hpre⟩ := editorInsertRow_rows E (r + 1)
      (row.chars.drop c) (row.size - c) hwf (by omega)
      (by rw [List.length_drop]; omega)
      (by
        rw [List.getD_eq_getElem?_getD, List.getElem?_drop, ← List.getD_eq_getElem?_getD]
        have e : c + (row.size - c) = row.size := by omega
        rw [e]
        exact hterm)
      (by rw [hdrop]; exact lineFits_drop _ _ hfit) (hs1 (by omega))
    have hsx := hs2 (by omega) E1 hE1
    rw [hE1]
    simp only
    have hrow1 := getElem?_of_lt E1.row r (by omega)
    have hs1 : (E1.row.getD r default).strip = row.strip := by
      rw [hpre r (by omega), hw]
    generalize hw1 : E1.row.getD r default = row1 at *
    rw [hrow1]
    simp only
    have hch := strip_chars _ _ hs1
    have hxraw : ({ row1 with chars := row1.chars.set c 0, size := c } : erow).raw
        = row.raw.take c := by
      simp only [erow.raw, hch]
      rw [take_set_self, List.take_take, Nat.min_eq_left hcs]
    have hxfit : ({ row1 with chars := row1.chars.set c 0, size := c } : erow).size +
        8 * ({ row1 with chars := row1.chars.set c 0, size := c } : erow).raw.count TAB + 1
          ≤ UINT32_MAX := by
      rw [hxraw]
      have h1 := lineFits_take row.raw c hfit
      unfold lineFits at h1
      rw [List.length_take, raw_length row hsz] at h1
      simp only
      omega
    obtain ⟨E2, hE2, hu⟩ := editorUpdateRow_setRow E1 r row1
      { row1 with chars := row1.chars.set c 0, size := c } hrow1 rfl hwf1.1 hwf1.2.1 hxfit
      hsx
    rw [hE2]
    have hn2 := updated_numrows _ _ _ _ hu
    have hraw2 := updated_rows_raw _ _ _ _ hu hwf1.1
    obtain ⟨e1, e2, -⟩ := fixcursor_rows E2
    refine ⟨_, rfl, by rw [e2, hn2, hn1], fun _ => ?_, fun h => absurd h hc0⟩
    rw [e1, hraw2, hraw1, hxraw, hdrop]
    exact split_rows _ r _ _ (by rw [rows_raw_length E hwf.1]; exact hr)

/-- The merge branch of `editorDelChar`, in a state in which the scan of the
merged row stays inside the arrays: with the cursor at column 0 of row
`r >= 1` of a well-formed document the call returns, row `r - 1` holds the old
content of row `r - 1` followed by that of row `r`, row `r` is removed, the
cursor addresses row `r - 1`, and `coloff + cx` is the old `coloff` plus the
old length of row `r - 1`. -/
theorem editorDelChar_merge (E : editorConfig) (r : Nat) (hwf : wellFormed E)
    (hr1 : 1 ≤ r) (hr : r < E.numrows) (hrow : E.rowoff + E.cy = (r : Int))
    (hcol : E.coloff + E.cx = 0)
    (hfit : lineFits ((E.row.getD (r - 1) default).raw ++ (E.row.getD r default).raw))
    (hs : scanReady (setRow E (r - 1) (rendered (appendedRow (E.row.getD (r - 1) default)
      (E.row.getD r default).chars (E.row.getD r default).size))) (r - 1)) :
    ∃ E', editorDelChar E = some E' ∧
      E'.rows.map erow.raw =
        ((E.rows.map erow.raw).set (r - 1)
          ((E.row.getD (r - 1) default).raw ++ (E.row.getD r default).raw)).eraseIdx r ∧
      E'.numrows = E.numrows - 1 ∧
      E'.rowoff + E'.cy = (r : Int) - 1 ∧
      E'.coloff + E'.cx = E.coloff + ((E.row.getD (r - 1) default).size : Int) ∧
      wellFormed E' := by
  obtain ⟨hrowr, hszr, htermr⟩ := wf_row E r hwf hr
  obtain ⟨hrowp, hszp, htermp⟩ := wf_row E (r - 1) hwf (by omega)
  generalize hw : E.row.getD r default = row at *
  generalize hp : E.row.getD (r - 1) default = prev at *
  have hraw : row.chars.take row.size = row.raw := rfl
  obtain ⟨E1, hE1, hm⟩ := editorRowAppendString_spec E (r - 1) row.chars row.size prev hrowp
    hwf.1 hwf.2.1 hszp (by omega) (by rw [hraw]; exact hfit) hs
  obtain ⟨f1, f2, f3, f4⟩ := appendedRow_facts prev row.chars row.size hszp (by omega)
  have hwf1 : wellFormed E1 := wellFormed_of_mutated E (r - 1) _ E1 hwf ⟨f3, f4⟩ hm
  have hn1 := mutated_numrows E (r - 1) _ E1 hm
  have hraw1 := mutated_rows_raw E (r - 1) _ E1 hm hwf.1
  obtain ⟨c1, c2, c3, c4, c5, -⟩ := frame_cursor E E1 _ hm.1
  obtain ⟨a, b, t, x, hrows, ha, -, hrows2, hn2, -⟩ := editorDelRow_spec E1 r hwf1.1
    (by rw [hn1]; exact hr)
  obtain ⟨k1, k2, k3, k4, k5⟩ := editorDelRow_cursor E1 r
  have hwf2 := wellFormed_editorDelRow E1 r hwf1
  have hraw2 : (editorDelRow E1 r).rows.map erow.raw =
      ((E.rows.map erow.raw).set (r - 1) (prev.raw ++ row.raw)).eraseIdx r := by
    rw [← hraw, ← f1, ← hraw1, hrows2, hrows]
    simp only [List.map_append, List.map_cons]
    rw [map_raw_bump]
    have e1 : (a.map erow.raw).length ≤ r := by
      rw [List.length_map, ha]
    rw [List.eraseIdx_append_of_length_le e1, List.length_map, ha, Nat.sub_self]
    rfl
  unfold editorDelChar
  simp only [hrow, hcol]
  rw [if_neg (by omega), if_neg (by omega)]
  simp only [Int.toNat_ofNat, hrowr, hrowp, hE1, if_true]
  generalize hE2 : editorDelRow E1 r = E2 at *
  refine ⟨_, rfl, ?_, ?_, ?_, ?_, ?_⟩
  · rw [← hraw2]
    split_ifs <;> rfl
  · rw [← hn1, ← hn2]
    split_ifs <;> rfl
  · split_ifs <;> simp only <;> omega
  · split_ifs <;> simp only <;> omega
  · split_ifs <;> exact hwf2

/-- Line break in the document `ab` under the C profile with the cursor at
column 1: the rows become `a` and `b`. -/
theorem insert_newline_example :
    ∃ E', editorInsertNewline { exAbMid with esyntax := some HLDB_C } = some E' ∧
      E'.numrows = 2 ∧ E'.rows.map erow.raw = [[97], [98]] := by
  obtain ⟨E', h1, h2, h3, -⟩ := insert_newline_splits_row
    { exAbMid with esyntax := some HLDB_C } 0 1 (by decide) (by decide)
    (by decide) (by decide) (by decide) (by decide) (fun _ => by decide) (fun _ => by decide)
    (fun _ => forall_result_of_all _ _ (by decide))
  exact ⟨E', h1, h2, (h3 (by decide)).trans (by decide)⟩

/-! ## The line-comment step -/

/-- The turn at a separator boundary where the line-comment marker starts. -/
theorem scanStep_line_comment (S : editorSyntax) (row : erow) (st : scanState)
    (hp : row.render.getD st.i 0 ≠ 0) (hsep : st.prev_sep = true)
    (hline : lineCommentAt S row st.i) :
    scanStep S row st =
      scanTurn.stop [(st.i, commentLen row.size st.i)]
        (memset st.hl st.i HL_COMMENT (commentLen row.size st.i)) true := by
  unfold scanStep
  dsimp only
  rw [if_neg (by simpa using hp), if_pos (by
    simp only [Bool.and_eq_true, beq_iff_eq]
    exact ⟨⟨hsep, hline.1⟩, hline.2⟩)]

/-- The line-comment step of the scan: at a separator boundary at offset `i`
where the line-comment marker starts, with `i` not above the raw size and the
raw size not above the rendered size, the function returns; no entry before
`i` changes, the entries from `i` to `size` are `HL_COMMENT`, and on a row
whose rendered form is as long as its raw content (a row without tabs) these
are all entries from `i` on. -/
theorem scanLoop_line_comment (S : editorSyntax) (row : erow) (fuel : Nat) (st : scanState)
    (hp : row.render.getD st.i 0 ≠ 0) (hsep : st.prev_sep = true)
    (hline : lineCommentAt S row st.i) (hlen : row.render.length = row.rsize)
    (hhl : st.hl.length = row.rsize) (hsize : row.size < 2 ^ 31)
    (hin1 : st.i ≤ row.size) (hin2 : row.size ≤ row.rsize) :
    ∃ res, scanLoop S row (fuel + 1) st = some (res, true) ∧ res.length = row.rsize ∧
      (∀ j, j < st.i → res.getD j 0 = st.hl.getD j 0) ∧
      (∀ j, st.i ≤ j → j < row.size → res.getD j 0 = HL_COMMENT) ∧
      (row.size = row.rsize → ∀ j, st.i ≤ j → j < row.rsize → res.getD j 0 = HL_COMMENT) := by
  have hi : st.i < row.rsize := by
    rw [← hlen]
    exact getD_ne_zero_lt _ _ hp
  have hc := commentLen_of_le _ _ hin1 hsize
  refine ⟨memset st.hl st.i HL_COMMENT (commentLen row.size st.i), ?_, ?_, ?_, ?_, ?_⟩
  · rw [scanLoop_step, if_neg (by omega), scanStep_line_comment S row st hp hsep hline]
    simp only [storesInside, List.all_cons, List.all_nil, Bool.and_true, decide_eq_true_eq]
    rw [if_pos (by omega)]
  · rw [memset_length, hhl]
  · intro j hj
    exact memset_getD_lt _ _ _ _ _ hj
  · intro j h1 h2
    exact memset_getD_mid _ _ _ _ _ h1 (by omega) (by omega)
  · intro heq j h1 h2
    exact memset_getD_mid _ _ _ _ _ h1 (by omega) (by omega)

theorem commentLen_of_gt (size i : Nat) (h : size < i) (hi : i < 2 ^ 31) :
    commentLen size i = 2 ^ 64 - (i - size) := by
  unfold commentLen
  have h1 : ((size : Int) - (i : Int)) % (2 : Int) ^ 64
      = (((2 : Nat) ^ 64 - (i - size) : Nat) : Int) := by
    have e64 : (2 : Int) ^ 64 = 18446744073709551616 := by norm_num
    have n64 : (2 : Nat) ^ 64 = 18446744073709551616 := by norm_num
    have n31 : (2 : Nat) ^ 31 = 2147483648 := by norm_num
    rw [e64, n64]
    rw [n31] at hi
    omega
  rw [h1]
  simp

/-- The line-comment step when tabs stand before the comment: at a separator
boundary at a rendered offset `i` above the raw size where the line-comment
marker starts, the length `size - i` of the `memset` is negative and wraps as
`size_t`, the store leaves the highlight array, and the scan does not return
normally. -/
theorem scanLoop_line_comment_leaves_array (S : editorSyntax) (row : erow) (fuel : Nat)
    (st : scanState) (hp : row.render.getD st.i 0 ≠ 0) (hsep : st.prev_sep = true)
    (hline : lineCommentAt S row st.i) (hover : row.size < st.i) (hi : st.i < 2 ^ 31)
    (hhl : st.hl.length < 2 ^ 31) :
    commentLen row.size st.i = 2 ^ 64 - (st.i - row.size) ∧
      scanLoop S row (fuel + 1) st = none := by
  have hc := commentLen_of_gt _ _ hover hi
  refine ⟨hc, ?_⟩
  rw [scanLoop_step]
  split
  · rfl
  · rw [scanStep_line_comment S row st hp hsep hline]
    simp only [storesInside, List.all_cons, List.all_nil, Bool.and_true, decide_eq_true_eq]
    rw [if_neg]
    rw [hc]
    have n64 : (2 : Nat) ^ 64 = 18446744073709551616 := by norm_num
    have n31 : (2 : Nat) ^ 31 = 2147483648 := by norm_num
    rw [n64]
    rw [n31] at hi hhl
    omega


/-! ## The undo stack -/

theorem dropOldest_eq : ∀ (l : List undo_op), 2 ≤ l.length → dropOldest l = l.take (l.length - 1)
  | [], h => by simp at h
  | [_], h => by simp at h
  | [a, b], _ => rfl
  | a :: b :: c :: rest, _ => by
    have ih := dropOldest_eq (b :: c :: rest) (by simp)
    simp only [dropOldest, ih, List.length_cons]
    rfl

theorem pushOp_stack (E : editorConfig) (a : undo_op)
    (hc : E.undo_count = (E.undo_stack.length : Int)) (hl : E.undo_stack.length ≤ 100) :
    (pushOp E a).undo_stack = (storedOp a :: E.undo_stack).take 100 ∧
      (pushOp E a).undo_count = (((pushOp E a).undo_stack.length : Nat) : Int) ∧
      (pushOp E a).undo_stack.length ≤ 100 := by
  unfold pushOp pushUndoOp
  by_cases h100 : E.undo_stack.length = 100
  · have h1 : E.undo_count ≥ MAX_UNDO_STACK := by
      rw [hc, h100]
      decide
    have hd := dropOldest_eq E.undo_stack (by omega)
    simp only [h1, if_true, ge_iff_le, show 2 ≤ E.undo_stack.length by omega, hd]
    refine ⟨?_, ?_, ?_⟩
    · simp only [List.take_succ_cons, h100]
      rfl
    · simp only [List.length_cons, List.length_take, hc, h100]
      rfl
    · simp only [List.length_cons, List.length_take]
      omega
  · have h1 : ¬ E.undo_count ≥ MAX_UNDO_STACK := by
      rw [hc]
      simp only [MAX_UNDO_STACK]
      omega
    simp only [h1, if_false]
    refine ⟨?_, ?_, ?_⟩
    · simp only [List.take_succ_cons]
      rw [List.take_of_length_le (by omega)]
      rfl
    · simp only [List.length_cons, hc]
      omega
    · simp only [List.length_cons]
      omega

theorem take_append_take {α : Type} (A B : List α) (n : Nat) :
    (A ++ B.take n).take n = (A ++ B).take n := by
  simp only [List.take_append_eq_append_take, List.take_take]
  congr 2
  omega

theorem pushOp_foldl : ∀ (ops : List undo_op) (E : editorConfig),
    E.undo_count = (E.undo_stack.length : Int) → E.undo_stack.length ≤ 100 →
    (ops.foldl pushOp E).undo_stack = ((ops.reverse.map storedOp) ++ E.undo_stack).take 100 ∧
      (ops.foldl pushOp E).undo_count = (((ops.foldl pushOp E).undo_stack.length : Nat) : Int)
  | [], E, hc, hl => by
    simp only [List.foldl_nil, List.reverse_nil, List.map_nil, List.nil_append]
    exact ⟨(List.take_of_length_le hl).symm, hc⟩
  | a :: t, E, hc, hl => by
    obtain ⟨h1, h2, h3⟩ := pushOp_stack E a hc hl
    obtain ⟨k1, k2⟩ := pushOp_foldl t (pushOp E a) h2 h3
    simp only [List.foldl_cons]
    refine ⟨?_, k2⟩
    rw [k1, h1, take_append_take]
    simp

/-- C22: after any sequence of `pushUndoOp` calls on an empty undo stack the
stack holds the stored entries of the most recent calls, the latest on top and
the earlier ones beneath it in order, at most 100 of them, and `undo_count` is
their number; for more than 100 calls these are exactly the 100 most recent
ones and `undo_count` is 100. -/
theorem C22_undo_stack_keeps_most_recent (E : editorConfig) (ops : List undo_op)
    (h0 : E.undo_stack = []) (hc : E.undo_count = 0) :
    (ops.foldl pushOp E).undo_stack = (ops.reverse.map storedOp).take 100 ∧
      (ops.foldl pushOp E).undo_count = ((min ops.length 100 : Nat) : Int) ∧
      (100 < ops.length →
        (ops.foldl pushOp E).undo_stack.length = 100 ∧
          (ops.foldl pushOp E).undo_count = MAX_UNDO_STACK ∧
          (ops.foldl pushOp E).undo_stack = ((ops.drop (ops.length - 100)).map storedOp).reverse) := by
  obtain ⟨h1, h2⟩ := pushOp_foldl ops E (by rw [hc, h0]; rfl) (by rw [h0]; simp)
  rw [h0, List.append_nil] at h1
  have hlen : (ops.foldl pushOp E).undo_stack.length = min ops.length 100 := by
    rw [h1, List.length_take, List.length_map, List.length_reverse, Nat.min_comm]
  refine ⟨h1, by rw [h2, hlen], fun hN => ⟨by rw [hlen]; omega, ?_, ?_⟩⟩
  · rw [h2, hlen, Nat.min_eq_right (by omega)]
    rfl
  · rw [h1, ← List.map_reverse, ← List.map_take, List.reverse_drop]
    congr 2
    omega

/-- C22 at 101 pushes on the initial editor: the stack holds the entries for
the columns 100 down to 1 and the entry for column 0 is gone. -/
theorem C22_witness :
    ((exOps 101).foldl pushOp exInit).undo_stack = ((exOps 101).reverse.map storedOp).take 100 ∧
      ((exOps 101).foldl pushOp exInit).undo_count = ((min (exOps 101).length 100 : Nat) : Int) ∧
      (100 < (exOps 101).length →
        ((exOps 101).foldl pushOp exInit).undo_stack.length = 100 ∧
          ((exOps 101).foldl pushOp exInit).undo_count = MAX_UNDO_STACK ∧
          ((exOps 101).foldl pushOp exInit).undo_stack
            = (((exOps 101).drop ((exOps 101).length - 100)).map storedOp).reverse) :=
  C22_undo_stack_keeps_most_recent exInit (exOps 101) rfl rfl

/-! ## Lemmas on the editing functions at the cursor -/

theorem pushUndoOp_fields (E : editorConfig) (t : undo_type) (r c : Int)
    (d : Option (List Nat)) (l : Int) :
    (pushUndoOp E t r c d l).row = E.row ∧ (pushUndoOp E t r c d l).numrows = E.numrows ∧
      (pushUndoOp E t r c d l).cx = E.cx ∧ (pushUndoOp E t r c d l).cy = E.cy ∧
      (pushUndoOp E t r c d l).rowoff = E.rowoff ∧ (pushUndoOp E t r c d l).coloff = E.coloff ∧
      (pushUndoOp E t r c d l).screenrows = E.screenrows ∧
      (pushUndoOp E t r c d l).screencols = E.screencols ∧
      (pushUndoOp E t r c d l).dirty = E.dirty ∧
      editorConfig.esyntax (pushUndoOp E t r c d l) = E.esyntax ∧
      ∃ rest, (pushUndoOp E t r c d l).undo_stack
        = storedOp { type := t, row := r, col := c, data := d, data_len := l } :: rest := by
  unfold pushUndoOp
  simp only
  split
  · split
    · exact ⟨rfl, rfl, rfl, rfl, rfl, rfl, rfl, rfl, rfl, rfl, _, rfl⟩
    · exact ⟨rfl, rfl, rfl, rfl, rfl, rfl, rfl, rfl, rfl, rfl, _, rfl⟩
  · exact ⟨rfl, rfl, rfl, rfl, rfl, rfl, rfl, rfl, rfl, rfl, _, rfl⟩

theorem wellFormed_of_row_eq (E E' : editorConfig) (h1 : E'.row = E.row)
    (h2 : E'.numrows = E.numrows) (hwf : wellFormed E) : wellFormed E' := by
  unfold wellFormed idxForward rowsTerminated at *
  rw [h1, h2]
  exact hwf

theorem rows_of_row_eq (E E' : editorConfig) (h1 : E'.row = E.row)
    (h2 : E'.numrows = E.numrows) : E'.rows = E.rows := by
  unfold editorConfig.rows
  rw [h1, h2]

theorem frame_fields (E E' : editorConfig) (d : Nat)
    (h : E'.frame = { E.frame with dirty := d }) :
    E'.cx = E.cx ∧ E'.cy = E.cy ∧ E'.rowoff = E.rowoff ∧ E'.coloff = E.coloff ∧
      E'.screencols = E.screencols ∧ E'.screenrows = E.screenrows ∧
      E'.numrows = E.numrows ∧ E'.undo_stack = E.undo_stack ∧
      E'.undo_count = E.undo_count ∧ E'.esyntax = E.esyntax ∧ E'.statusmsg = E.statusmsg ∧
      E'.dirty = d := by
  cases E
  cases E'
  simp only [editorConfig.frame, editorConfig.mk.injEq] at h
  simp only
  tauto

theorem frame_fields_insert (E E' : editorConfig) (n d : Nat)
    (h : E'.frame = { E.frame with numrows := n, dirty := d }) :
    E'.cx = E.cx ∧ E'.cy = E.cy ∧ E'.rowoff = E.rowoff ∧ E'.coloff = E.coloff ∧
      E'.screencols = E.screencols ∧ E'.screenrows = E.screenrows ∧
      E'.numrows = n ∧ E'.undo_stack = E.undo_stack ∧
      E'.undo_count = E.undo_count ∧ E'.esyntax = E.esyntax ∧ E'.statusmsg = E.statusmsg ∧
      E'.dirty = d := by
  cases E
  cases E'
  simp only [editorConfig.frame, editorConfig.mk.injEq] at h
  simp only
  tauto

theorem editorDelRow_fields (E : editorConfig) (at_ : Nat) :
    (editorDelRow E at_).cx = E.cx ∧ (editorDelRow E at_).cy = E.cy ∧
      (editorDelRow E at_).rowoff = E.rowoff ∧ (editorDelRow E at_).coloff = E.coloff ∧
      (editorDelRow E at_).screencols = E.screencols ∧
      (editorDelRow E at_).screenrows = E.screenrows ∧
      (editorDelRow E at_).undo_stack = E.undo_stack ∧
      (editorDelRow E at_).undo_count = E.undo_count ∧
      editorConfig.esyntax (editorDelRow E at_) = E.esyntax ∧
      (editorDelRow E at_).statusmsg = E.statusmsg := by
  unfold editorDelRow
  split <;> simp

theorem rows_raw_set_of_pointwise (E E' : editorConfig) (r : Nat) (v : List Nat)
    (hn : E'.numrows = E.numrows) (hl : E'.row.length = E.row.length)
    (hnum : E.numrows ≤ E.row.length)
    (hr : (E'.row.getD r default).raw = v)
    (ho : ∀ j, j ≠ r → (E'.row.getD j default).raw = (E.row.getD j default).raw) :
    E'.rows.map erow.raw = (E.rows.map erow.raw).set r v := by
  have hnum' : E'.numrows ≤ E'.row.length := by rw [hn, hl]; exact hnum
  apply List.ext_getElem
  · rw [List.length_set, rows_raw_length E hnum, rows_raw_length E' hnum', hn]
  · intro j h1 h2
    rw [rows_raw_getElem, List.getElem_set]
    split
    · next h => subst h; exact hr
    · next h =>
      rw [rows_raw_getElem]
      exact ho j (Ne.symm h)

theorem rows_raw_set_self (E : editorConfig) (r : Nat) :
    (E.rows.map erow.raw).set r (E.row.getD r default).raw = E.rows.map erow.raw := by
  apply List.ext_getElem
  · rw [List.length_set]
  · intro j h1 h2
    rw [List.getElem_set]
    split
    · next h => subst h; rw [rows_raw_getElem]
    · rfl

/-! ## Lemmas on `executeUndo` -/

theorem setStatus_fields (E : editorConfig) (msg : List Nat) :
    (editorSetStatusMessage E msg).row = E.row ∧
      (editorSetStatusMessage E msg).numrows = E.numrows ∧
      (editorSetStatusMessage E msg).cx = E.cx ∧ (editorSetStatusMessage E msg).cy = E.cy ∧
      (editorSetStatusMessage E msg).rowoff = E.rowoff ∧
      (editorSetStatusMessage E msg).coloff = E.coloff ∧
      (editorSetStatusMessage E msg).undo_stack = E.undo_stack ∧
      (editorSetStatusMessage E msg).undo_count = E.undo_count :=
  ⟨rfl, rfl, rfl, rfl, rfl, rfl, rfl, rfl⟩

theorem editorDelRow_rows_raw (E : editorConfig) (at_ : Nat) (hnum : E.numrows ≤ E.row.length)
    (hat : at_ < E.numrows) :
    (editorDelRow E at_).rows.map erow.raw = (E.rows.map erow.raw).eraseIdx at_ ∧
      (editorDelRow E at_).numrows = E.numrows - 1 := by
  obtain ⟨a, b, t, x, hrows, ha, -, hrows', hn, -⟩ := editorDelRow_spec E at_ hnum hat
  refine ⟨?_, hn⟩
  rw [hrows', hrows]
  simp only [List.map_append, List.map_cons]
  rw [map_raw_bump]
  have e1 : (a.map erow.raw).length ≤ at_ := by
    rw [List.length_map, ha]
  rw [List.eraseIdx_append_of_length_le e1, List.length_map, ha, Nat.sub_self]
  rfl

theorem insert_erased {α : Type} (L : List α) (r : Nat) (h : r < L.length) :
    (L.eraseIdx r).take r ++ L[r] :: (L.eraseIdx r).drop r = L := by
  induction L generalizing r with
  | nil => simp at h
  | cons a t ih =>
    cases r with
    | zero => simp
    | succ n =>
      simp only [List.length_cons] at h
      simp only [List.eraseIdx_cons_succ, List.take_succ_cons, List.getElem_cons_succ,
        List.drop_succ_cons, List.cons_append, List.cons.injEq, true_and]
      exact ih n (by omega)

/-- What `editorDeleteCurrentLine` leaves behind when the cursor is on a row of
a well-formed document. -/
theorem editorDeleteCurrentLine_spec (E : editorConfig) (r : Nat) (hwf : wellFormed E)
    (hrow : E.rowoff + E.cy = (r : Int)) (hr : r < E.numrows) :
    ∃ E1 rest, editorDeleteCurrentLine E = some E1 ∧ wellFormed E1 ∧
      E1.numrows = E.numrows - 1 ∧
      E1.rows.map erow.raw = (E.rows.map erow.raw).eraseIdx r ∧
      E1.undo_stack
        = storedOp { type := undo_type.UNDO_DELETE_LINE, row := (r : Int), col := 0,
                     data := some (E.row.getD r default).chars,
                     data_len := ((E.row.getD r default).size : Int) } :: rest := by
  obtain ⟨hrowr, hsz, hterm⟩ := wf_row E r hwf hr
  generalize hw : E.row.getD r default = row at *
  obtain ⟨p1, p2, p3, p4, p5, p6, p7, p8, p9, p10, rest, p11⟩ :=
    pushUndoOp_fields E undo_type.UNDO_DELETE_LINE (r : Int) 0 (some row.chars) (row.size : Int)
  generalize hP : pushUndoOp E undo_type.UNDO_DELETE_LINE (r : Int) 0 (some row.chars)
    (row.size : Int) = P at *
  have hwfP : wellFormed P := wellFormed_of_row_eq E P p1 p2 hwf
  obtain ⟨hraw, hn⟩ := editorDelRow_rows_raw P r hwfP.1 (by rw [p2]; exact hr)
  have hwfD := wellFormed_editorDelRow P r hwfP
  obtain ⟨k1, k2, k3, k4, k5, k6, k7, k8, k9, k10⟩ := editorDelRow_fields P r
  rw [rows_of_row_eq E P p1 p2] at hraw
  rw [p2] at hn
  generalize hD : editorDelRow P r = D at *
  unfold editorDeleteCurrentLine
  simp only [hrow]
  rw [if_neg (by omega), if_neg (by omega), if_neg (by omega)]
  simp only [Int.toNat_ofNat, hrowr, hP, hD]
  refine ⟨_, rest, rfl, ?_, ?_, ?_, ?_⟩
  · split_ifs <;> exact wellFormed_of_row_eq D _ rfl rfl hwfD
  · rw [← hn]
    split_ifs <;> rfl
  · rw [← hraw]
    split_ifs <;> rfl
  · have h1 : D.undo_stack = _ := k7.trans p11
    rw [← h1]
    split_ifs <;> rfl

/-- What `editorRowInsertChar` leaves behind on a well-formed document, in a state
in which the scan stays inside the arrays. -/
theorem editorRowInsertChar_rows (E : editorConfig) (r col c : Nat) (hwf : wellFormed E)
    (hr : r < E.numrows) (hc : c < 256)
    (hfit : lineFits (spliceChar (E.row.getD r default).raw col c))
    (hs : scanReady (setRow E r (rendered (insertedRow (E.row.getD r default) col c))) r) :
    ∃ E', editorRowInsertChar E (some r) col c = some E' ∧ wellFormed E' ∧
      E'.frame = { E.frame with dirty := E.dirty + 1 } ∧
      E'.rows.map erow.raw
        = (E.rows.map erow.raw).set r (spliceChar (E.row.getD r default).raw col c) ∧
      (E'.row.getD r default).raw = spliceChar (E.row.getD r default).raw col c ∧
      (E'.row.getD r default).size
        = (if (E.row.getD r default).size < col then col + 1
           else (E.row.getD r default).size + 1) := by
  obtain ⟨hrow, hsz, hterm⟩ := wf_row E r hwf hr
  generalize hw : E.row.getD r default = row at *
  have hsplice := insertedRow_raw_splice row col c hsz hc
  obtain ⟨f1, f2, f3, f4, f5, f6⟩ := insertedRow_facts row col c hsz
  obtain ⟨E1, hE1, hm⟩ := editorRowInsertChar_spec E r col c row hrow hwf.1 hwf.2.1 hsz
    (by rw [hsplice]; exact hfit) hs
  have hterm1 : terminated (insertedRow row col c) := by
    refine ⟨f4, ?_⟩
    rw [f5]
    split
    · rfl
    · exact hterm
  have hwf1 := wellFormed_of_mutated E r _ E1 hwf hterm1 hm
  have hraw := mutated_rows_raw E r _ E1 hm hwf.1
  rw [hsplice] at hraw
  refine ⟨E1, hE1, hwf1, hm.1, hraw, ?_, ?_⟩
  · rw [strip_raw _ (rendered (insertedRow row col c)) hm.2.2.1]
    exact hsplice
  · rw [strip_size _ (rendered (insertedRow row col c)) hm.2.2.1]
    exact f2

/-- What `editorRowDelChar` leaves behind on a well-formed document, in a state in
which the scan stays inside the arrays. -/
theorem editorRowDelChar_rows (E : editorConfig) (r col : Nat) (hwf : wellFormed E)
    (hr : r < E.numrows) (hcol : col < (E.row.getD r default).size)
    (hfit : lineFits (E.row.getD r default).raw)
    (hs : scanReady (setRow E r (rendered (shiftedRow (E.row.getD r default) col))) r) :
    ∃ E', editorRowDelChar E r col = some E' ∧ wellFormed E' ∧
      E'.frame = { E.frame with dirty := E.dirty + 1 } ∧
      E'.rows.map erow.raw
        = (E.rows.map erow.raw).set r ((E.row.getD r default).raw.eraseIdx col) := by
  obtain ⟨hrow, hsz, hterm⟩ := wf_row E r hwf hr
  obtain ⟨E'', hE'', hwf''⟩ := wellFormed_row_mutators.2.2 E r col hwf hr hfit hs
  generalize hw : E.row.getD r default = row at *
  obtain ⟨E1, x, hE1, hframe, hlen, hx, -, hxraw, -, -, -, -, -, hother, -⟩ :=
    editorRowDelChar_spec E r col row hrow hwf.1 hwf.2.1 hsz hterm hcol hfit hs
  have hEE : E'' = E1 := by
    rw [hE1] at hE''
    exact (Option.some.inj hE'').symm
  subst hEE
  refine ⟨E'', hE1, hwf'', hframe, ?_⟩
  have hn := (frame_fields E E'' _ hframe).2.2.2.2.2.2.1
  apply rows_raw_set_of_pointwise E E'' r _ hn hlen hwf.1
  · rw [← strip_raw _ _ hx, hxraw]
  · intro j hj
    exact strip_raw _ _ (hother j hj)

/-- The branch `UNDO_INSERT_CHAR` of `executeUndo` on an entry that addresses
a byte of a row, in a state in which the scan of the row with the byte removed
stays inside the arrays. -/
theorem executeUndo_insert_char (E : editorConfig) (op : undo_op) (rest : List undo_op)
    (hwf : wellFormed E) (hst : E.undo_stack = op :: rest)
    (ht : op.type = undo_type.UNDO_INSERT_CHAR) (hrow0 : 0 ≤ op.row)
    (hr : op.row.toNat < E.numrows) (hcol0 : 0 ≤ op.col)
    (hcol : op.col.toNat < (E.row.getD op.row.toNat default).size)
    (hfit : lineFits (E.row.getD op.row.toNat default).raw)
    (hs : scanReady (setRow E op.row.toNat
      (rendered (shiftedRow (E.row.getD op.row.toNat default) op.col.toNat))) op.row.toNat) :
    ∃ E', executeUndo E = some E' ∧ wellFormed E' ∧ E'.undo_stack = rest ∧
      E'.undo_count = E.undo_count - 1 ∧ E'.numrows = E.numrows ∧
      E'.rows.map erow.raw = (E.rows.map erow.raw).set op.row.toNat
        ((E.row.getD op.row.toNat default).raw.eraseIdx op.col.toNat) ∧
      E'.rowoff + E'.cy = op.row ∧ E'.cx = op.col ∧ E'.coloff = E.coloff ∧
      E'.rowoff = E.rowoff ∧ E'.statusmsg = bytes "Character insertion undone" := by
  obtain ⟨hrowr, -, -⟩ := wf_row E op.row.toNat hwf hr
  have hwf1 : wellFormed ({ E with undo_stack := rest, undo_count := E.undo_count - 1 } :
      editorConfig) := wellFormed_of_row_eq E _ rfl rfl hwf
  obtain ⟨E2, hE2, hwf2, hframe, hraw⟩ := editorRowDelChar_rows
    ({ E with undo_stack := rest, undo_count := E.undo_count - 1 } : editorConfig)
    op.row.toNat op.col.toNat hwf1 hr hcol hfit
    (scanReady_of_fields _ _ _ rfl rfl rfl hs)
  obtain ⟨g1, g2, g3, g4, g5, g6, g7, g8, g9, g10, g11, g12⟩ := frame_fields _ _ _ hframe
  unfold executeUndo
  simp only [hst, ht]
  rw [if_pos (by omega), if_neg (by omega)]
  simp only [hrowr]
  rw [if_pos (by omega), if_neg (by omega)]
  simp only [hE2]
  refine ⟨_, rfl, ?_, ?_, ?_, ?_, ?_, ?_, ?_, ?_, ?_, ?_⟩
  · exact wellFormed_of_row_eq E2 _ rfl rfl hwf2
  · exact g8
  · exact g9
  · exact g7
  · exact hraw
  · simp only [editorSetStatusMessage]
    omega
  · rfl
  · exact g4
  · exact g3
  · rfl

/-- What `editorInsertChar` leaves behind when the cursor is on a row of a
well-formed document, in a state in which the scan of the row with the byte
spliced in stays inside the arrays. -/
theorem editorInsertChar_spec (E : editorConfig) (c : Int) (r : Nat) (hwf : wellFormed E)
    (hrow : E.rowoff + E.cy = (r : Int)) (hr : r < E.numrows) (hcol0 : 0 ≤ E.coloff + E.cx)
    (hfit : lineFits (spliceChar (E.row.getD r default).raw (E.coloff + E.cx).toNat
      (c % 256).toNat))
    (hs : scanReady (setRow E r (rendered (insertedRow (E.row.getD r default)
      (E.coloff + E.cx).toNat (c % 256).toNat))) r) :
    ∃ E1 rest, editorInsertChar E c = some E1 ∧ wellFormed E1 ∧ E1.numrows = E.numrows ∧
      E1.rows.map erow.raw = (E.rows.map erow.raw).set r
        (spliceChar (E.row.getD r default).raw (E.coloff + E.cx).toNat (c % 256).toNat) ∧
      (E1.row.getD r default).raw
        = spliceChar (E.row.getD r default).raw (E.coloff + E.cx).toNat (c % 256).toNat ∧
      (E1.row.getD r default).size
        = (if (E.row.getD r default).size < (E.coloff + E.cx).toNat
           then (E.coloff + E.cx).toNat + 1 else (E.row.getD r default).size + 1) ∧
      E1.undo_stack
        = { type := undo_type.UNDO_INSERT_CHAR, row := (r : Int), col := E.coloff + E.cx,
            data := none, data_len := 0 } :: rest ∧
      E1.rowoff + E1.cy = (r : Int) ∧ E1.coloff + E1.cx = E.coloff + E.cx + 1 := by
  obtain ⟨p1, p2, p3, p4, p5, p6, p7, p8, p9, p10, rest, p11⟩ :=
    pushUndoOp_fields E undo_type.UNDO_INSERT_CHAR (r : Int) (E.coloff + E.cx) none 0
  generalize hP : pushUndoOp E undo_type.UNDO_INSERT_CHAR (r : Int) (E.coloff + E.cx) none 0
    = P at *
  have hwfP : wellFormed P := wellFormed_of_row_eq E P p1 p2 hwf
  have hc : (c % 256).toNat < 256 := by
    have h1 := Int.emod_nonneg c (show (256 : Int) ≠ 0 by decide)
    have h2 := Int.emod_lt_of_pos c (show (0 : Int) < 256 by decide)
    omega
  obtain ⟨E3, hE3, hwf3, hframe, hraw, hrawr, hsize⟩ := editorRowInsertChar_rows P r
    (E.coloff + E.cx).toNat (c % 256).toNat hwfP (by rw [p2]; exact hr) hc
    (by rw [p1]; exact hfit)
    (by
      rw [p1]
      exact scanReady_of_fields (setRow E r _) (setRow P r _) r p10 p2
        (by simp only [setRow]; rw [p1]) hs)
  obtain ⟨g1, g2, g3, g4, g5, g6, g7, g8, g9, g10, g11, g12⟩ := frame_fields _ _ _ hframe
  rw [p1] at hrawr hsize
  rw [rows_of_row_eq E P p1 p2] at hraw
  rw [p1] at hraw
  unfold editorInsertChar
  simp only [hrow]
  rw [if_neg (by omega), if_neg (by omega)]
  simp only [Int.toNat_ofNat]
  rw [hP, if_neg (by omega), hE3]
  simp only
  refine ⟨_, rest, rfl, ?_, ?_, ?_, ?_, ?_, ?_, ?_, ?_⟩
  · split
    · exact wellFormed_of_row_eq E3 _ rfl rfl hwf3
    · exact wellFormed_of_row_eq E3 _ rfl rfl hwf3
  · split
    · exact g7.trans p2
    · exact g7.trans p2
  · rw [← hraw]
    split <;> rfl
  · rw [← hrawr]
    split <;> rfl
  · rw [← hsize]
    split <;> rfl
  · have h1 : E3.undo_stack = storedOp
        { type := undo_type.UNDO_INSERT_CHAR, row := (r : Int), col := E.coloff + E.cx,
          data := none, data_len := 0 } :: rest := g8.trans p11
    split
    · exact h1
    · exact h1
  · split
    · simp only
      omega
    · simp only
      omega
  · split
    · simp only
      omega
    · simp only
      omega

/-- Insertion then undo, when both calls of `editorUpdateRow` happen in states
in which the scan stays inside the arrays: with the cursor on row `r` of a
well-formed document at a raw column not beyond the end of the row,
`editorInsertChar(c)` followed by `executeUndo` returns and leaves the sequence
of raw row contents, and the number of rows, as they were before the
insertion. -/
theorem undo_of_insert_char (E : editorConfig) (c : Int) (r : Nat) (hwf : wellFormed E)
    (hrow : E.rowoff + E.cy = (r : Int)) (hr : r < E.numrows) (hcol0 : 0 ≤ E.coloff + E.cx)
    (hcol : (E.coloff + E.cx).toNat ≤ (E.row.getD r default).size)
    (hfit : lineFits (spliceChar (E.row.getD r default).raw (E.coloff + E.cx).toNat
      (c % 256).toNat))
    (hsa : scanReady (setRow E r (rendered (insertedRow (E.row.getD r default)
      (E.coloff + E.cx).toNat (c % 256).toNat))) r)
    (hsb : ∀ E1, editorInsertChar E c = some E1 →
      scanReady (setRow E1 r (rendered (shiftedRow (E1.row.getD r default)
        (E.coloff + E.cx).toNat))) r) :
    ∃ E1 E2, editorInsertChar E c = some E1 ∧ executeUndo E1 = some E2 ∧
      E2.rows.map erow.raw = E.rows.map erow.raw ∧ E2.numrows = E.numrows := by
  obtain ⟨hrowr, hsz, -⟩ := wf_row E r hwf hr
  obtain ⟨E1, rest, hE1, hwf1, hn1, hraw1, hrawr, hsize, hstack, -, -⟩ :=
    editorInsertChar_spec E c r hwf hrow hr hcol0 hfit hsa
  rw [if_neg (by omega)] at hsize
  obtain ⟨E2, hE2, -, -, -, hn2, hraw2, -⟩ := executeUndo_insert_char E1 _ rest hwf1 hstack rfl
    (by simp) (by simp only [Int.toNat_ofNat]; omega) hcol0
    (by simp only [Int.toNat_ofNat]; omega)
    (by simp only [Int.toNat_ofNat]; rw [hrawr]; exact hfit)
    (by simp only [Int.toNat_ofNat]; exact hsb E1 hE1)
  refine ⟨E1, E2, hE1, hE2, ?_, by rw [hn2, hn1]⟩
  simp only [Int.toNat_ofNat] at hraw2
  rw [hraw2, hraw1, hrawr, List.set_set]
  have hsp : spliceChar (E.row.getD r default).raw (E.coloff + E.cx).toNat (c % 256).toNat
      = (E.row.getD r default).raw.take (E.coloff + E.cx).toNat ++
          (c % 256).toNat :: (E.row.getD r default).raw.drop (E.coloff + E.cx).toNat := by
    unfold spliceChar
    rw [if_neg (by rw [raw_length _ hsz]; omega)]
  rw [hsp, eraseIdx_splice _ _ _ (by rw [raw_length _ hsz]; exact hcol)]
  exact rows_raw_set_self E r

/-- The branch `UNDO_DELETE_LINE` of `executeUndo` on an entry that holds a
saved line, in a state in which the scan of the restored row stays inside the
arrays. -/
theorem executeUndo_delete_line (E : editorConfig) (op : undo_op) (rest : List undo_op)
    (d : List Nat) (hwf : wellFormed E) (hst : E.undo_stack = op :: rest)
    (ht : op.type = undo_type.UNDO_DELETE_LINE) (hd : op.data = some d)
    (hrow0 : 0 ≤ op.row) (hlen0 : 0 ≤ op.data_len) (hr : op.row.toNat ≤ E.numrows)
    (hs : op.data_len.toNat < d.length) (hz : d.getD op.data_len.toNat 0 = 0)
    (hfit : lineFits (d.take op.data_len.toNat))
    (hsr : scanReady (insertedState E op.row.toNat d op.data_len.toNat) op.row.toNat) :
    ∃ E', executeUndo E = some E' ∧ wellFormed E' ∧ E'.undo_stack = rest ∧
      E'.undo_count = E.undo_count - 1 ∧ E'.numrows = E.numrows + 1 ∧
      E'.rows.map erow.raw = (E.rows.map erow.raw).take op.row.toNat ++
        d.take op.data_len.toNat :: (E.rows.map erow.raw).drop op.row.toNat ∧
      E'.rowoff + E'.cy = op.row ∧ E'.cx = 0 ∧ E'.coloff = 0 ∧
      E'.statusmsg = bytes "Line restored" := by
  have hwf1 : wellFormed ({ E with undo_stack := rest, undo_count := E.undo_count - 1 } :
      editorConfig) := wellFormed_of_row_eq E _ rfl rfl hwf
  obtain ⟨E2, hE2, hwf2, hn2, -, hraw2, -⟩ := editorInsertRow_rows
    ({ E with undo_stack := rest, undo_count := E.undo_count - 1 } : editorConfig)
    op.row.toNat d op.data_len.toNat hwf1 hr hs hz hfit
    (scanReady_of_fields _ _ _ rfl rfl rfl hsr)
  obtain ⟨E3, a, b, hE3, -, -, hframe, -⟩ := editorInsertRow_spec
    ({ E with undo_stack := rest, undo_count := E.undo_count - 1 } : editorConfig)
    op.row.toNat d op.data_len.toNat hwf1.1 hwf1.2.1 hr hfit hs
    (scanReady_of_fields _ _ _ rfl rfl rfl hsr)
  have hEE : E3 = E2 := by
    rw [hE2] at hE3
    exact (Option.some.inj hE3).symm
  subst hEE
  obtain ⟨g1, g2, g3, g4, g5, g6, g7, g8, g9, g10, g11, g12⟩ :=
    frame_fields_insert _ _ _ _ hframe
  unfold executeUndo
  simp only [hst, ht, hd]
  rw [if_neg (by omega)]
  simp only [hE2]
  refine ⟨_, rfl, ?_, ?_, ?_, ?_, ?_, ?_, ?_, ?_, ?_⟩
  · split
    · exact wellFormed_of_row_eq E3 _ rfl rfl hwf2
    · exact wellFormed_of_row_eq E3 _ rfl rfl hwf2
  · split <;> exact g8
  · split <;> exact g9
  · split <;> exact hn2
  · split <;> exact hraw2
  · split
    · simp only [editorSetStatusMessage]
      omega
    · simp only [editorSetStatusMessage]
      omega
  · split <;> rfl
  · split <;> rfl
  · split <;> rfl

/-- Undo of the deletion of a line that is not empty, when the scan of the
restored row stays inside the arrays: with the cursor on row
`r` of a well-formed document, `editorDeleteCurrentLine` followed by
`executeUndo` returns, restores the sequence of raw row contents, and leaves
the cursor on row `r`. -/
theorem undo_of_delete_line (E : editorConfig) (r : Nat) (hwf : wellFormed E)
    (hrow : E.rowoff + E.cy = (r : Int)) (hr : r < E.numrows)
    (hne : 0 < (E.row.getD r default).size) (hfit : lineFits (E.row.getD r default).raw)
    (hsr : ∀ E1, editorDeleteCurrentLine E = some E1 →
      scanReady (insertedState E1 r ((E.row.getD r default).raw ++ [0])
        (E.row.getD r default).size) r) :
    ∃ E1 E2, editorDeleteCurrentLine E = some E1 ∧ executeUndo E1 = some E2 ∧
      E2.rows.map erow.raw = E.rows.map erow.raw ∧ E2.numrows = E.numrows ∧
      E2.rowoff + E2.cy = (r : Int) := by
  obtain ⟨hrowr, hsz, hterm⟩ := wf_row E r hwf hr
  obtain ⟨E1, rest, hE1, hwf1, hn1, hraw1, hstack⟩ :=
    editorDeleteCurrentLine_spec E r hwf hrow hr
  have hlenL : (E.rows.map erow.raw).length = E.numrows := rows_raw_length E hwf.1
  have hrL : r < (E.rows.map erow.raw).length := by rw [hlenL]; exact hr
  have hLr : (E.rows.map erow.raw)[r] = (E.row.getD r default).raw :=
    rows_raw_getElem E r hrL
  generalize hw : E.row.getD r default = row at *
  have hdata : (storedOp { type := undo_type.UNDO_DELETE_LINE, row := (r : Int), col := 0,
                           data := some row.chars, data_len := (row.size : Int) }).data
        = some (row.raw ++ [0]) := by
    simp only [storedOp]
    rw [if_pos (by omega)]
    rfl
  have hrl := raw_length row hsz
  obtain ⟨E2, hE2, -, -, -, hn2, hraw2, hcur, -⟩ := executeUndo_delete_line E1 _ rest
    (row.raw ++ [0]) hwf1 hstack rfl hdata (by simp [storedOp]) (by simp [storedOp])
    (by simp only [storedOp, Int.toNat_ofNat]; omega)
    (by simp only [storedOp, Int.toNat_ofNat, List.length_append, List.length_singleton]; omega)
    (by
      simp only [storedOp, Int.toNat_ofNat]
      rw [List.getD_eq_getElem?_getD, List.getElem?_append_right (by omega), hrl, Nat.sub_self]
      rfl)
    (by
      simp only [storedOp, Int.toNat_ofNat]
      rw [← hrl, List.take_left]
      exact hfit)
    (by
      simp only [storedOp, Int.toNat_ofNat]
      exact hsr E1 hE1)
  simp only [storedOp, Int.toNat_ofNat] at hraw2 hcur
  refine ⟨E1, E2, hE1, hE2, ?_, by rw [hn2, hn1]; omega, hcur⟩
  rw [hraw2, hraw1]
  have e : (row.raw ++ [0]).take row.size = row.raw := by
    rw [← hrl, List.take_left]
  rw [e, ← hLr]
  exact insert_erased _ r (by rw [hlenL]; exact hr)

/-- Without highlighting profile, on a well-formed state `executeUndo` returns for every entry that is ready
to be replayed, with the entry removed from the stack. -/
theorem executeUndo_pops (E : editorConfig) (op : undo_op) (rest : List undo_op)
    (hwf : wellFormed E) (hsyn : E.esyntax = none) (hst : E.undo_stack = op :: rest)
    (hready : undoReady E op) :
    ∃ E', executeUndo E = some E' ∧ E'.undo_stack = rest ∧
      E'.undo_count = E.undo_count - 1 ∧ wellFormed E' := by
  have hwf1 : wellFormed ({ E with undo_stack := rest, undo_count := E.undo_count - 1 } :
      editorConfig) := wellFormed_of_row_eq E _ rfl rfl hwf
  obtain ⟨type, row, col, data, data_len⟩ := op
  obtain ⟨h0r, h0c, h0l, hm⟩ := hready
  simp only at h0r h0c h0l
  cases type with
  | UNDO_DELETE_LINE =>
    cases data with
    | none =>
      refine ⟨_, ?_, rfl, rfl, hwf1⟩
      unfold executeUndo
      simp only [hst]
    | some d =>
      simp only at hm
      by_cases hr : row.toNat ≤ E.numrows
      · obtain ⟨E', h1, h2, h3, h4, -⟩ := executeUndo_delete_line E _ rest d hwf hst rfl rfl
          h0r h0l hr hm.1 hm.2.1 hm.2.2 (scanReady_of_no_profile _ _ hsyn)
        exact ⟨E', h1, h3, h4, h2⟩
      · unfold executeUndo
        simp only [hst]
        rw [if_neg (by omega)]
        have hins : editorInsertRow
            ({ E with undo_stack := rest, undo_count := E.undo_count - 1 } : editorConfig)
            row.toNat d data_len.toNat
              = some ({ E with undo_stack := rest, undo_count := E.undo_count - 1 } :
                  editorConfig) := by
          unfold editorInsertRow
          rw [if_pos (by simp only; omega)]
        simp only [hins]
        refine ⟨_, rfl, ?_, ?_, ?_⟩
        · split <;> rfl
        · split <;> rfl
        · split <;> exact hwf1
  | UNDO_DELETE_CHAR =>
    cases data with
    | none =>
      refine ⟨_, ?_, rfl, rfl, hwf1⟩
      unfold executeUndo
      simp only [hst]
    | some d =>
      simp only at hm
      by_cases hr : row.toNat < E.numrows
      · obtain ⟨hc, hfit⟩ := hm hr
        obtain ⟨E2, hE2, hwf2, hframe, -⟩ := editorRowInsertChar_rows
          ({ E with undo_stack := rest, undo_count := E.undo_count - 1 } : editorConfig)
          row.toNat col.toNat (d.getD 0 0) hwf1 hr hc hfit
          (scanReady_of_no_profile _ _ hsyn)
        obtain ⟨g1, g2, g3, g4, g5, g6, g7, g8, g9, g10, g11, g12⟩ := frame_fields _ _ _ hframe
        unfold executeUndo
        simp only [hst]
        rw [if_pos (by omega), if_neg (by omega)]
        simp only [hE2]
        refine ⟨_, rfl, ?_, ?_, ?_⟩
        · split_ifs <;> exact g8
        · split_ifs <;> exact g9
        · split_ifs <;> exact wellFormed_of_row_eq E2 _ rfl rfl hwf2
      · refine ⟨_, ?_, rfl, rfl, hwf1⟩
        unfold executeUndo
        simp only [hst]
        rw [if_neg (by omega)]
  | UNDO_INSERT_CHAR =>
    have hm1 : row.toNat < E.numrows → lineFits (E.row.getD row.toNat default).raw := by
      cases data <;> exact hm
    by_cases hr : row.toNat < E.numrows
    · obtain ⟨hrowr, -, -⟩ := wf_row E row.toNat hwf hr
      by_cases hcol : col.toNat < (E.row.getD row.toNat default).size
      · obtain ⟨E', h1, h2, h3, h4, -⟩ := executeUndo_insert_char E _ rest hwf hst rfl
          h0r hr h0c hcol (hm1 hr) (scanReady_of_no_profile _ _ hsyn)
        exact ⟨E', h1, h3, h4, h2⟩
      · refine ⟨_, ?_, rfl, rfl, hwf1⟩
        unfold executeUndo
        simp only [hst]
        rw [if_pos (by omega), if_neg (by omega)]
        simp only [hrowr]
        rw [if_neg (by omega)]
    · refine ⟨_, ?_, rfl, rfl, hwf1⟩
      unfold executeUndo
      simp only [hst]
      rw [if_neg (by omega)]
  | UNDO_INSERT_LINE =>
    by_cases hr : row.toNat < E.numrows
    · obtain ⟨k1, k2, k3, k4, k5, k6, k7, k8, k9, k10⟩ := editorDelRow_fields
        ({ E with undo_stack := rest, undo_count := E.undo_count - 1 } : editorConfig) row.toNat
      have hwfD := wellFormed_editorDelRow _ row.toNat hwf1
      unfold executeUndo
      simp only [hst]
      rw [if_pos (by omega), if_neg (by omega)]
      refine ⟨_, rfl, ?_, ?_, ?_⟩
      · split_ifs <;> exact k7
      · split_ifs <;> exact k8
      · split_ifs <;> exact wellFormed_of_row_eq _ _ rfl rfl hwfD
    · refine ⟨_, ?_, rfl, rfl, hwf1⟩
      unfold executeUndo
      simp only [hst]
      rw [if_neg (by omega)]

/-- Insertion then undo at the document `ab` under the C profile with the
cursor at column 1 and the byte `x`. -/
theorem undo_of_insert_char_example :
    ∃ E1 E2, editorInsertChar { exAbMid with esyntax := some HLDB_C } 120 = some E1 ∧
      executeUndo E1 = some E2 ∧
      E2.rows.map erow.raw = exAbMid.rows.map erow.raw ∧ E2.numrows = exAbMid.numrows :=
  undo_of_insert_char { exAbMid with esyntax := some HLDB_C } 120 0 (by decide) (by decide)
    (by decide) (by decide) (by decide) (by decide) (by decide)
    (forall_result_of_all _ _ (by decide))

/-- On an empty undo stack `executeUndo` changes nothing but the status
message, which becomes `Nothing to undo`; without highlighting profile, on a
well-formed state whose stack is not empty and whose top entry is ready to be
replayed it returns, removes exactly the top entry and decreases `undo_count`
by one. -/
theorem execute_undo_pops (E : editorConfig) :
    (E.undo_stack = [] →
      executeUndo E = some { E with statusmsg := bytes "Nothing to undo" }) ∧
    (∀ op rest, E.undo_stack = op :: rest → wellFormed E → E.esyntax = none →
      undoReady E op →
      ∃ E', executeUndo E = some E' ∧ E'.undo_stack = rest ∧
        E'.undo_count = E.undo_count - 1) := by
  constructor
  · intro h
    cases E
    simp only at h
    subst h
    rfl
  · intro op rest hst hwf hsyn hready
    obtain ⟨E', h1, h2, h3, -⟩ := executeUndo_pops E op rest hwf hsyn hst hready
    exact ⟨E', h1, h2, h3⟩

/-- Undo at the initial editor, whose stack is empty, and at the state after
typing `x` into the document `ab`. -/
theorem execute_undo_example :
    executeUndo exInit = some { exInit with statusmsg := bytes "Nothing to undo" } ∧
      ∃ E', executeUndo exTyped = some E' ∧ E'.undo_stack = [] ∧
        E'.undo_count = exTyped.undo_count - 1 :=
  ⟨(execute_undo_pops exInit).1 rfl,
    (execute_undo_pops exTyped).2 _ [] rfl (by decide) (by decide)
      ⟨by decide, by decide, by decide, fun _ => by decide⟩⟩

/-! ## The claims on undo -/

/-- The example state with an undo entry is what `editorInsertChar` builds. -/
theorem undo_examples_reachable : editorInsertChar exAbMid 120 = some exTyped := by
  decide!

/-- C23: undo does not restore a deleted line that was empty.  With the cursor
on the empty second row of the document `a`, (empty), `b`,
`editorDeleteCurrentLine` pushes an entry without payload, because
`pushUndoOp` stores the payload only when `data_len > 0`, and `executeUndo`
restores a line only when the entry has a payload: after the undo the document
is `a`, `b`. -/
theorem C23_undo_loses_empty_line :
    exOnEmptyRow.map (fun E => (decide (wellFormed E), E.rows.map erow.raw, E.rowoff + E.cy)) =
      some (true, [bytes "a", [], bytes "b"], 1) ∧
    (exOnEmptyRow.bind editorDeleteCurrentLine).map
        (fun E => (E.rows.map erow.raw, E.undo_stack)) =
      some ([bytes "a", bytes "b"],
        [{ type := undo_type.UNDO_DELETE_LINE, row := 1, col := 0, data := none,
           data_len := 0 }]) ∧
    ((exOnEmptyRow.bind editorDeleteCurrentLine).bind executeUndo).map
        (fun E => (E.rows.map erow.raw, E.numrows, E.undo_stack)) =
      some ([bytes "a", bytes "b"], 2, []) := by
  refine ⟨?_, ?_, ?_⟩
  · decide!
  · decide!
  · decide!

/-- C25: after the undo of a character insertion `coloff + cx` is not always
the column of the entry.  A row of 90 bytes is loaded in an 80 column window,
`ARROW_RIGHT` is pressed 85 times (`cx == 79`, `coloff == 6`) and `x` is typed
at column 85.  The top entry is the insertion at (0, 85) and the row has 91
bytes; `executeUndo` sets `cx = 85` and leaves `coloff == 7`, so that
`coloff + cx == 92`. -/
theorem C25_undo_insert_char_keeps_coloff :
    exTypedFar.map (fun E => (decide (wellFormed E), E.undo_stack, E.numrows,
        (E.row.getD 0 default).size, E.cx, E.coloff)) =
      some (true, [{ type := undo_type.UNDO_INSERT_CHAR, row := 0, col := 85, data := none,
                     data_len := 0 }], 1, 91, 79, 7) ∧
    (exTypedFar.bind executeUndo).map
        (fun E => (E.rowoff + E.cy, E.coloff + E.cx, E.cx, E.coloff)) =
      some (0, 92, 85, 7) := by
  refine ⟨?_, ?_⟩
  · decide!
  · decide!

/-! ## Keywords -/

/-- The turn inside a string at a backslash, under the C profile: the
backslash and the byte after it are `HL_STRING` and the scan position moves by
two. -/
theorem scanStep_escape (row : erow) (st : scanState) (hcom : st.in_comment = false)
    (hstr : st.in_string ≠ 0) (hp : row.render.getD st.i 0 = 92) :
    scanStep HLDB_C row st =
      scanTurn.next [(st.i, 1), (st.i + 1, 1)]
        { st with hl := (st.hl.set st.i HL_STRING).set (st.i + 1) HL_STRING,
                  i := st.i + 2, prev_sep := false } := by
  have hs0 : HLDB_C.singleline_comment_start.getD 0 0 = 47 := rfl
  have hc0 : HLDB_C.multiline_comment_start.getD 0 0 = 47 := rfl
  have hstr' : (st.in_string != 0) = true := by simpa using hstr
  have e1 : ((92 : Nat) == 0) = false := rfl
  have e2 : ((92 : Nat) == 47) = false := rfl
  unfold scanStep
  simp only [hp, hs0, hc0, hcom, hstr', e1, e2, Bool.false_and, Bool.and_false,
    Bool.false_eq_true, if_false, if_true, beq_self_eq_true]

/-- A backslash inside a string as the last byte of the row: the turn stores
to `hl[rsize]` and the scan does not return normally. -/
theorem scanLoop_escape_leaves_array (row : erow) (fuel : Nat) (st : scanState)
    (hcom : st.in_comment = false) (hstr : st.in_string ≠ 0)
    (hp : row.render.getD st.i 0 = 92) (hend : st.i + 1 = row.render.length)
    (hhl : st.hl.length = row.render.length) :
    scanLoop HLDB_C row (fuel + 1) st = none := by
  rw [scanLoop_step]
  split
  · rfl
  · rw [scanStep_escape row st hcom hstr hp]
    simp only [storesInside, List.all_cons, List.all_nil, Bool.and_true, Bool.and_eq_true,
      decide_eq_true_eq]
    rw [if_neg]
    omega

/-- The turn at a separator boundary, outside comments and strings, on a
letter where the keyword loop finds a keyword: the keyword's bytes are set to
its class and the scan goes on behind it. -/
theorem scanStep_keyword (row : erow) (st : scanState) (klen : Nat)
    (kw2 : Bool) (hsep : st.prev_sep = true) (hcom : st.in_comment = false)
    (hstr : st.in_string = 0)
    (hletter : (65 ≤ row.render.getD st.i 0 ∧ row.render.getD st.i 0 ≤ 90) ∨
      (97 ≤ row.render.getD st.i 0 ∧ row.render.getD st.i 0 ≤ 122))
    (hm : matchKeyword row.render st.i C_HL_keywords = some (klen, kw2)) :
    scanStep HLDB_C row st =
      scanTurn.next [(st.i, klen)]
        { st with hl := memset st.hl st.i (if kw2 then HL_KEYWORD2 else HL_KEYWORD1) klen,
                  i := st.i + klen, prev_sep := false } := by
  generalize hp : row.render.getD st.i 0 = p at hletter
  have h1 : (p == 0) = false := by
    rw [beq_eq_false_iff_ne]
    omega
  have h2 : (p == 47) = false := by
    rw [beq_eq_false_iff_ne]
    omega
  have h3 : (p == 34) = false := by
    rw [beq_eq_false_iff_ne]
    omega
  have h4 : (p == 39) = false := by
    rw [beq_eq_false_iff_ne]
    omega
  have h5 : isprint p = true := by
    simp only [isprint, Bool.and_eq_true, decide_eq_true_eq]
    omega
  have h6 : isdigit p = false := by
    simp only [isdigit, Bool.and_eq_false_iff, decide_eq_false_iff_not]
    omega
  have h7 : (p == 46) = false := by
    rw [beq_eq_false_iff_ne]
    omega
  have hk : HLDB_C.keywords = C_HL_keywords := rfl
  have hs0 : HLDB_C.singleline_comment_start.getD 0 0 = 47 := rfl
  have hc0 : HLDB_C.multiline_comment_start.getD 0 0 = 47 := rfl
  unfold scanStep
  simp only [hp, h1, h2, h3, h4, h5, h6, h7, hsep, hcom, hstr, hk, hm, hs0, hc0,
    Bool.false_and, Bool.and_false, Bool.true_and, Bool.or_self, Bool.not_true,
    Bool.false_eq_true, if_false, if_true, bne_self_eq_false, Bool.false_or, Bool.and_self]

/-- C21: under the C profile, when the scan stands at a separator boundary
outside comments and strings at an offset where some keyword of the list
matches the text and is followed by a separator, the keyword that the turn
classifies is the first entry of the list that matches; every entry that
matches has the same length, so that it is the longest one; the turn stores the
class of the entry, `HL_KEYWORD2` when it ends with the marker `|` and
`HL_KEYWORD1` otherwise, to the bytes of the keyword, which lie inside the
highlight array, and goes on behind the keyword; the result of the scan keeps
these entries; and the scan returns on every row that it does not leave
(`rowInside`). -/
theorem C21_keyword_classification (row : erow) (st : scanState)
    (hsep : st.prev_sep = true) (hcom : st.in_comment = false) (hstr : st.in_string = 0)
    (hhl : st.hl.length = row.render.length)
    (hex : ∃ kw, kw ∈ C_HL_keywords ∧ kwMatches row.render st.i kw) :
    ∃ kw, kw ∈ C_HL_keywords ∧ kwMatches row.render st.i kw ∧
      (∀ kw', kw' ∈ C_HL_keywords → kwMatches row.render st.i kw' → kwLen kw' = kwLen kw) ∧
      (∃ pre post, C_HL_keywords = pre ++ kw :: post ∧
        ∀ kw', kw' ∈ pre → ¬ kwMatches row.render st.i kw') ∧
      st.i + kwLen kw ≤ st.hl.length ∧
      (∃ st1, scanStep HLDB_C row st = scanTurn.next [(st.i, kwLen kw)] st1 ∧
        st1.i = st.i + kwLen kw ∧
        (∀ j, j < st.hl.length → st1.hl.getD j 0 =
          if st.i ≤ j ∧ j < st.i + kwLen kw then
            (if kwClass2 kw then HL_KEYWORD2 else HL_KEYWORD1)
          else st.hl.getD j 0)) ∧
      (∀ fuel res b, scanLoop HLDB_C row fuel st = some (res, b) →
        ∀ j, st.i ≤ j → j < st.i + kwLen kw →
          res.getD j 0 = if kwClass2 kw then HL_KEYWORD2 else HL_KEYWORD1) ∧
      (rowInside row → ∀ fuel, 2 * (row.render.length - st.i) + 1 < fuel →
        ∃ res b, scanLoop HLDB_C row fuel st = some (res, b)) := by
  obtain ⟨klen, kw2, hm⟩ := matchKeyword_isSome row.render st.i C_HL_keywords hex
  obtain ⟨pre, kw, post, hK, hklen, hkw2, hmatch, hfirst⟩ :=
    matchKeyword_some row.render st.i C_HL_keywords klen kw2 hm
  have hin : kw ∈ C_HL_keywords := by
    rw [hK]
    simp
  obtain ⟨hpos, hletter, hfree⟩ := C_HL_keywords_letters kw hin
  have hp : row.render.getD st.i 0 = kw.getD 0 0 := by
    have := (memcmpEq_iff _ _ _ _).mp hmatch.1 0 hpos
    simpa using this
  have hstep := scanStep_keyword row st klen kw2 hsep hcom hstr (by rw [hp]; exact hletter) hm
  rw [hklen, hkw2] at hstep
  have hinside : st.i + kwLen kw ≤ st.hl.length := by
    have hcmp := (memcmpEq_iff _ _ _ _).mp hmatch.1 (kwLen kw - 1) (by omega)
    have hnz : row.render.getD (st.i + (kwLen kw - 1)) 0 ≠ 0 := by
      rw [hcmp]
      intro h0
      have := hfree (kwLen kw - 1) (by omega)
      rw [h0] at this
      exact absurd this (by decide)
    have hb := getD_ne_zero_lt _ _ hnz
    omega
  have hstore : ∀ j, st.i ≤ j → j < st.i + kwLen kw →
      (memset st.hl st.i (if kwClass2 kw then HL_KEYWORD2 else HL_KEYWORD1) (kwLen kw)).getD j 0
        = if kwClass2 kw then HL_KEYWORD2 else HL_KEYWORD1 :=
    fun j h1 h2 => memset_getD_mid _ _ _ _ _ h1 h2 hinside
  refine ⟨kw, hin, hmatch, ?_, ⟨pre, post, hK, hfirst⟩, hinside, ⟨_, hstep, rfl, ?_⟩, ?_, ?_⟩
  · intro kw' hin' hm'
    exact kwMatches_same_length _ _ kw' kw (C_HL_keywords_letters kw' hin').2.2 hfree hm'
      hmatch
  · intro j hj
    simp only
    by_cases hr : st.i ≤ j ∧ j < st.i + kwLen kw
    · rw [if_pos hr]
      exact hstore j hr.1 hr.2
    · rw [if_neg hr]
      by_cases hlt : j < st.i
      · exact memset_getD_lt _ _ _ _ _ hlt
      · unfold memset
        rw [if_pos hinside]
        have h1 : st.i ≤ st.hl.length := by omega
        rw [List.getD_eq_getElem?_getD, List.getD_eq_getElem?_getD,
          List.getElem?_append_right (by rw [List.length_take]; omega),
          List.getElem?_append_right (by
            rw [List.length_take, List.length_replicate]
            omega),
          List.getElem?_drop]
        congr 2
        rw [List.length_take, List.length_replicate]
        omega
  · intro fuel res b h j h1 h2
    cases fuel with
    | zero => simp [scanLoop] at h
    | succ n =>
      rw [scanLoop_step] at h
      split at h
      · exact Option.noConfusion h
      · rw [hstep] at h
        simp only at h
        split at h
        · have hpre := scanLoop_prefix HLDB_C row n _ res b h j (by simp only; omega)
          simp only at hpre
          rw [hpre]
          exact hstore j h1 h2
        · exact Option.noConfusion h
  · intro hrow fuel hfuel
    have hsome := scanLoop_isSome HLDB_C row row.rsize (turnsInside_of_rowInside row hrow)
      fuel st (by rw [hhl, hrow.1]) (by omega) (by
        rw [hsep]
        simpa using hfuel)
    obtain ⟨⟨res, b⟩, hres⟩ := Option.isSome_iff_exists.mp hsome
    exact ⟨res, b, hres⟩

/-- C21 at the row `auto int x`, scanned from its start: the word `auto` is
entered without the marker first and gets `HL_KEYWORD1`. -/
theorem C21_witness :
    ∃ kw, kw ∈ C_HL_keywords ∧ kwMatches exKeywordRow.render exKeywordScan.i kw ∧
      (∀ kw', kw' ∈ C_HL_keywords → kwMatches exKeywordRow.render exKeywordScan.i kw' →
        kwLen kw' = kwLen kw) ∧
      (∃ pre post, C_HL_keywords = pre ++ kw :: post ∧
        ∀ kw', kw' ∈ pre → ¬ kwMatches exKeywordRow.render exKeywordScan.i kw') ∧
      exKeywordScan.i + kwLen kw ≤ exKeywordScan.hl.length ∧
      (∃ st1, scanStep HLDB_C exKeywordRow exKeywordScan
            = scanTurn.next [(exKeywordScan.i, kwLen kw)] st1 ∧
        st1.i = exKeywordScan.i + kwLen kw ∧
        (∀ j, j < exKeywordScan.hl.length → st1.hl.getD j 0 =
          if exKeywordScan.i ≤ j ∧ j < exKeywordScan.i + kwLen kw then
            (if kwClass2 kw then HL_KEYWORD2 else HL_KEYWORD1)
          else exKeywordScan.hl.getD j 0)) ∧
      (∀ fuel res b, scanLoop HLDB_C exKeywordRow fuel exKeywordScan = some (res, b) →
        ∀ j, exKeywordScan.i ≤ j → j < exKeywordScan.i + kwLen kw →
          res.getD j 0 = if kwClass2 kw then HL_KEYWORD2 else HL_KEYWORD1) ∧
      (rowInside exKeywordRow →
        ∀ fuel, 2 * (exKeywordRow.render.length - exKeywordScan.i) + 1 < fuel →
          ∃ res b, scanLoop HLDB_C exKeywordRow fuel exKeywordScan = some (res, b)) :=
  C21_keyword_classification exKeywordRow exKeywordScan rfl rfl rfl (by decide)
    ⟨bytes "auto", by decide, by decide⟩

/-- The scan of the example row returns with `auto` in the first class and
`int` in the second. -/
theorem keyword_example_scan :
    rowInside exKeywordRow ∧
      scanLoop HLDB_C exKeywordRow 22 exKeywordScan
        = some ([4, 4, 4, 4, 0, 5, 5, 5, 0, 0], false) := by
  constructor
  · decide
  · decide!


/-- The example row of the keyword claim is what the scan of `auto int x`
under the C profile gives: `auto` in the first class, `int` in the second. -/
theorem keyword_example_reachable :
    (insertLines exInitC [bytes "auto int x"]).map (fun E => E.row) = some [exKeywordRow] := by
  decide!

/-! ## The search loop of find mode -/

theorem range_succ_map {β : Type} (f : Nat → β) (k : Nat) :
    (List.range (k + 1)).map f = f 0 :: (List.range k).map (fun i => f (i + 1)) := by
  rw [List.range_succ_eq_map, List.map_cons, List.map_map]
  rfl

/-- The search loop visits the rows next to `cur` in direction `dir`, one
after the other with wrap-around, and leaves at the first row that holds the
query. -/
theorem findLoop_eq (E : editorConfig) (q : List Nat) (dir : Int)
    (hnum : E.numrows ≤ E.row.length) (hdir : dir = 1 ∨ dir = -1) :
    ∀ (k : Nat) (cur : Int), k ≤ E.numrows → -1 ≤ cur → cur < E.numrows →
      (dir = -1 → cur ≠ -1) →
      findLoop E q dir k cur = some (firstHit E q
        ((List.range k).map
          (fun (i : Nat) => ((cur + dir * ((i : Int) + 1)) % (E.numrows : Int)).toNat)))
  | 0, cur, _, _, _, _ => rfl
  | k + 1, cur, hk, h1, h2, h3 => by
    have hn : 0 < E.numrows := by omega
    have hc2 : (if cur + dir = -1 then (E.numrows : Int) - 1
        else if cur + dir = E.numrows then 0 else cur + dir)
          = (cur + dir) % (E.numrows : Int) := by
      rcases hdir with hd | hd
      · subst hd
        split
        · omega
        · split
          · next h => rw [h, Int.emod_self]
          · rw [Int.emod_eq_of_lt (by omega) (by omega)]
      · subst hd
        have hcur : cur ≠ -1 := h3 rfl
        split
        · next h =>
          have : cur = 0 := by omega
          subst this
          rw [show (0 : Int) + -1 = -1 from rfl]
          rw [Int.emod_eq_add_self_emod, Int.emod_eq_of_lt (by omega) (by omega)]
          omega
        · split
          · omega
          · rw [Int.emod_eq_of_lt (by omega) (by omega)]
    have hmod0 := Int.emod_nonneg (cur + dir) (show ((E.numrows : Nat) : Int) ≠ 0 by omega)
    have hmodlt := Int.emod_lt_of_pos (cur + dir) (show (0 : Int) < (E.numrows : Nat) by omega)
    unfold findLoop
    simp only [hc2]
    rw [if_neg (by omega)]
    have hlt : ((cur + dir) % (E.numrows : Int)).toNat < E.row.length := by omega
    rw [getElem?_of_lt E.row _ hlt]
    simp only
    rw [range_succ_map]
    have h0 : (cur + dir * (((0 : Nat) : Int) + 1)) = cur + dir := by simp
    unfold firstHit
    rw [List.findSome?_cons, h0]
    cases hs : strstr (E.row.getD ((cur + dir) % (E.numrows : Int)).toNat default).render q with
    | some off => rfl
    | none =>
      simp only [Option.map_none']
      have ih := findLoop_eq E q dir hnum hdir k ((cur + dir) % (E.numrows : Int)) (by omega)
        (by omega) (by omega) (by omega)
      rw [ih]
      unfold firstHit
      congr 2
      apply List.map_congr_left
      intro i _
      congr 1
      rw [Int.emod_add_emod]
      congr 1
      push_cast
      ring

/-! ## The function `strstr` -/

theorem strstrFrom_some (w : List Nat) :
    ∀ (s : List Nat) (k : Nat), strstrFrom w s = some k →
      w <+: s.drop k ∧ k ≤ s.length ∧ ∀ k', k' < k → ¬ w <+: s.drop k'
  | [], k, h => by
    unfold strstrFrom at h
    split at h
    · next he =>
      simp only [Option.some.injEq] at h
      subst h
      have hw : w = [] := by simpa using he
      subst hw
      exact ⟨List.nil_prefix, Nat.le_refl _, fun k' hk => absurd hk (by omega)⟩
    · exact Option.noConfusion h
  | c :: t, k, h => by
    unfold strstrFrom at h
    split at h
    · next hp =>
      simp only [Option.some.injEq] at h
      subst h
      exact ⟨List.isPrefixOf_iff_prefix.mp hp, Nat.zero_le _, fun k' hk => absurd hk (by omega)⟩
    · next hp =>
      cases hr : strstrFrom w t with
      | none => rw [hr] at h; exact Option.noConfusion h
      | some k0 =>
        rw [hr] at h
        simp only [Option.map_some', Option.some.injEq] at h
        subst h
        obtain ⟨h1, h2, h3⟩ := strstrFrom_some w t k0 hr
        refine ⟨h1, by simp only [List.length_cons]; omega, ?_⟩
        intro k' hk'
        cases k' with
        | zero =>
          intro hpre
          exact hp (List.isPrefixOf_iff_prefix.mpr hpre)
        | succ j => exact h3 j (by omega)

theorem strstrFrom_none (w : List Nat) :
    ∀ (s : List Nat), strstrFrom w s = none → ∀ k, ¬ w <+: s.drop k
  | [], h, k => by
    unfold strstrFrom at h
    split at h
    · exact Option.noConfusion h
    · next he =>
      intro hpre
      simp only [List.drop_nil, List.prefix_nil] at hpre
      subst hpre
      exact he rfl
  | c :: t, h, k => by
    unfold strstrFrom at h
    split at h
    · exact Option.noConfusion h
    · next hp =>
      cases hr : strstrFrom w t with
      | some k0 => rw [hr] at h; exact Option.noConfusion h
      | none =>
        cases k with
        | zero =>
          intro hpre
          exact hp (List.isPrefixOf_iff_prefix.mpr hpre)
        | succ j => exact strstrFrom_none w t hr j

theorem infix_iff_prefix_drop (w s : List Nat) : w <:+: s ↔ ∃ k, w <+: s.drop k := by
  constructor
  · rintro ⟨a, b, h⟩
    refine ⟨a.length, b, ?_⟩
    rw [← h, List.append_assoc, List.drop_left]
  · rintro ⟨k, hpre⟩
    exact hpre.isInfix.trans (List.drop_suffix k s).isInfix

/-- The function `strstr` finds an occurrence exactly when the needle is
contained in the haystack, both taken as C strings. -/
theorem strstr_isSome_iff (hay needle : List Nat) :
    (strstr hay needle).isSome = true ↔ cstr needle <:+: cstr hay := by
  unfold strstr
  rw [infix_iff_prefix_drop]
  constructor
  · intro h
    obtain ⟨k, hk⟩ := Option.isSome_iff_exists.mp h
    exact ⟨k, (strstrFrom_some _ _ _ hk).1⟩
  · rintro ⟨k, hk⟩
    cases hr : strstrFrom (cstr needle) (cstr hay) with
    | some _ => rfl
    | none => exact absurd hk (strstrFrom_none _ _ hr k)

/-! ## The order of the cyclic scan -/

theorem scanOrder_length (n : Nat) (m dir : Int) : (scanOrder n m dir).length = n := by
  simp [scanOrder]

theorem scanOrder_lt (n : Nat) (m dir : Int) (r : Nat) (h : r ∈ scanOrder n m dir) : r < n := by
  simp only [scanOrder, List.mem_map, List.mem_range] at h
  obtain ⟨i, hi, rfl⟩ := h
  have hn : (0 : Int) < (n : Int) := by omega
  have h1 := Int.emod_lt_of_pos (m + dir * ((i : Int) + 1)) hn
  have h2 := Int.emod_nonneg (m + dir * ((i : Int) + 1)) (show (n : Int) ≠ 0 by omega)
  omega

theorem scanOrder_nodup (n : Nat) (m dir : Int) (hdir : dir = 1 ∨ dir = -1) :
    (scanOrder n m dir).Nodup := by
  unfold scanOrder
  apply List.Nodup.map_on _ (List.nodup_range n)
  intro i hi j hj heq
  simp only [List.mem_range] at hi hj
  have hn : (0 : Int) < (n : Int) := by omega
  have hi0 := Int.emod_nonneg (m + dir * ((i : Int) + 1)) (show (n : Int) ≠ 0 by omega)
  have hj0 := Int.emod_nonneg (m + dir * ((j : Int) + 1)) (show (n : Int) ≠ 0 by omega)
  have heq2 : (m + dir * ((i : Int) + 1)) % (n : Int) = (m + dir * ((j : Int) + 1)) % (n : Int) := by
    omega
  rw [Int.emod_eq_emod_iff_emod_sub_eq_zero] at heq2
  have hdvd : (n : Int) ∣ (m + dir * ((i : Int) + 1) - (m + dir * ((j : Int) + 1))) :=
    Int.dvd_of_emod_eq_zero heq2
  have hdvd2 : (n : Int) ∣ ((i : Int) - (j : Int)) := by
    rcases hdir with hd | hd
    · subst hd
      have e : (m + 1 * ((i : Int) + 1) - (m + 1 * ((j : Int) + 1))) = (i : Int) - (j : Int) := by
        ring
      rw [e] at hdvd
      exact hdvd
    · subst hd
      have e : (m + -1 * ((i : Int) + 1) - (m + -1 * ((j : Int) + 1)))
          = -((i : Int) - (j : Int)) := by
        ring
      rw [e] at hdvd
      exact (Int.dvd_neg.mp hdvd)
  have hz : (i : Int) - (j : Int) = 0 := by
    apply Int.eq_zero_of_abs_lt_dvd hdvd2
    rw [abs_lt]
    constructor <;> omega
  omega

/-- A scan in direction 1 or -1 visits every row of the document exactly
once. -/
theorem scanOrder_mem (n : Nat) (m dir : Int) (hdir : dir = 1 ∨ dir = -1) (r : Nat) :
    r ∈ scanOrder n m dir ↔ r < n := by
  constructor
  · exact scanOrder_lt n m dir r
  · intro hr
    have hnd := scanOrder_nodup n m dir hdir
    have hsub : (scanOrder n m dir).toFinset ⊆ Finset.range n := by
      intro x hx
      rw [List.mem_toFinset] at hx
      rw [Finset.mem_range]
      exact scanOrder_lt n m dir x hx
    have hcard : (scanOrder n m dir).toFinset.card = n := by
      rw [List.toFinset_card_of_nodup hnd, scanOrder_length]
    have heq : (scanOrder n m dir).toFinset = Finset.range n := by
      apply Finset.eq_of_subset_of_card_le hsub
      rw [Finset.card_range, hcard]
    have : r ∈ (scanOrder n m dir).toFinset := by
      rw [heq, Finset.mem_range]
      exact hr
    exact List.mem_toFinset.mp this

theorem scanOrder_forward_from_start (n : Nat) : scanOrder n (-1) 1 = List.range n := by
  unfold scanOrder
  conv_rhs => rw [← List.map_id (List.range n)]
  apply List.map_congr_left
  intro i hi
  simp only [List.mem_range] at hi
  have e : (-1 : Int) + 1 * ((i : Int) + 1) = (i : Int) := by ring
  rw [e, Int.emod_eq_of_lt (by omega) (by omega)]
  simp

theorem firstHit_isSome (E : editorConfig) (q : List Nat) (order : List Nat) :
    (firstHit E q order).isSome = true ↔
      ∃ r, r ∈ order ∧ (strstr (E.row.getD r default).render q).isSome = true := by
  unfold firstHit
  induction order with
  | nil => simp
  | cons a t ih =>
    rw [List.findSome?_cons]
    cases hs : strstr (E.row.getD a default).render q with
    | some off =>
      simp only [Option.map_some', Option.isSome_some, List.mem_cons, true_iff]
      exact ⟨a, Or.inl rfl, by rw [hs]; rfl⟩
    | none =>
      simp only [Option.map_none', List.mem_cons]
      rw [ih]
      constructor
      · rintro ⟨r, hr, h⟩
        exact ⟨r, Or.inr hr, h⟩
      · rintro ⟨r, hr | hr, h⟩
        · subst hr
          rw [hs] at h
          exact absurd h (by simp)
        · exact ⟨r, hr, h⟩

/-- The hit that a scan reports is the first row of its order that holds the
query: no row before it in the order holds it. -/
theorem firstHit_first (E : editorConfig) (q : List Nat) (order : List Nat) (r off : Nat)
    (h : firstHit E q order = some (r, off)) :
    ∃ pre post, order = pre ++ r :: post ∧
      strstr (E.row.getD r default).render q = some off ∧
      ∀ x, x ∈ pre → strstr (E.row.getD x default).render q = none := by
  unfold firstHit at h
  induction order with
  | nil => simp at h
  | cons a t ih =>
    rw [List.findSome?_cons] at h
    cases hs : strstr (E.row.getD a default).render q with
    | some o =>
      rw [hs] at h
      simp only [Option.map_some', Option.some.injEq, Prod.mk.injEq] at h
      obtain ⟨h1, h2⟩ := h
      subst h1
      subst h2
      exact ⟨[], t, rfl, hs, fun x hx => absurd hx (by simp)⟩
    | none =>
      rw [hs] at h
      simp only [Option.map_none'] at h
      obtain ⟨pre, post, h1, h2, h3⟩ := ih h
      refine ⟨a :: pre, post, by rw [h1]; rfl, h2, ?_⟩
      intro x hx
      simp only [List.mem_cons] at hx
      rcases hx with rfl | hx
      · exact hs
      · exact h3 x hx

/-! ## The search step of find mode -/

theorem setRow_fields (E : editorConfig) (r : Nat) (x : erow) :
    (setRow E r x).cx = E.cx ∧ (setRow E r x).cy = E.cy ∧ (setRow E r x).rowoff = E.rowoff ∧
      (setRow E r x).coloff = E.coloff ∧ (setRow E r x).numrows = E.numrows ∧
      (setRow E r x).row.length = E.row.length ∧ (setRow E r x).screencols = E.screencols ∧
      (setRow E r x).screenrows = E.screenrows := by
  simp [setRow]

/-- The block `FIND_RESTORE_HL` returns, clears the saved pointer, and changes
nothing but the highlight array of the saved row. -/
theorem FIND_RESTORE_HL_spec (fs : findState) (E : editorConfig) (hs : savedOK fs E) :
    ∃ E3, FIND_RESTORE_HL fs E = some ({ fs with saved_hl := none }, E3) ∧
      E3.cx = E.cx ∧ E3.cy = E.cy ∧ E3.rowoff = E.rowoff ∧ E3.coloff = E.coloff ∧
      E3.numrows = E.numrows ∧ E3.row.length = E.row.length ∧
      E3.screencols = E.screencols ∧ E3.screenrows = E.screenrows ∧
      (fs.saved_hl = none → E3 = E) ∧
      (∀ s, fs.saved_hl = some s →
        E3 = setRow E fs.saved_hl_line.toNat
          { E.row.getD fs.saved_hl_line.toNat default with
            hl := memcpy (E.row.getD fs.saved_hl_line.toNat default).hl 0 s
              (E.row.getD fs.saved_hl_line.toNat default).rsize }) := by
  unfold FIND_RESTORE_HL
  cases hsv : fs.saved_hl with
  | none =>
    simp only
    refine ⟨E, ?_, rfl, rfl, rfl, rfl, rfl, rfl, rfl, rfl, fun _ => rfl, fun s h => ?_⟩
    · cases fs
      simp only at hsv
      subst hsv
      rfl
    · exact Option.noConfusion h
  | some s =>
    rcases hs with h | ⟨h1, h2⟩
    · rw [hsv] at h
      exact Option.noConfusion h
    · simp only
      rw [if_neg (by omega), getElem?_of_lt E.row _ h2]
      simp only
      obtain ⟨g1, g2, g3, g4, g5, g6, g7, g8⟩ := setRow_fields E fs.saved_hl_line.toNat
        { E.row.getD fs.saved_hl_line.toNat default with
          hl := memcpy (E.row.getD fs.saved_hl_line.toNat default).hl 0 s
            (E.row.getD fs.saved_hl_line.toNat default).rsize }
      refine ⟨_, rfl, g1, g2, g3, g4, g5, g6, g7, g8, fun h => Option.noConfusion h,
        fun s' h => ?_⟩
      simp only [Option.some.injEq] at h
      subst h
      rfl

/-- The search step as one scan in cyclic order followed by the restore block
and, on a hit, the overlay of the match. -/
theorem findSearch_eq (fs : findState) (E : editorConfig) (hnum : E.numrows ≤ E.row.length)
    (hm1 : -1 ≤ fs.last_match) (hm2 : fs.last_match < E.numrows)
    (hdir : searchDir fs = 1 ∨ searchDir fs = -1) (hs : savedOK fs E) :
    ∃ E3, FIND_RESTORE_HL fs E = some ({ fs with saved_hl := none }, E3) ∧
      findLoop E fs.query (searchDir fs) E.numrows fs.last_match
        = some (firstHit E fs.query (scanOrder E.numrows fs.last_match (searchDir fs))) ∧
      findSearch fs E =
        (match firstHit E fs.query (scanOrder E.numrows fs.last_match (searchDir fs)) with
         | none => some ({ fs with find_next := 0, saved_hl := none }, E3)
         | some (r, off) =>
           findHit { fs with find_next := 0, saved_hl := none } E3 fs.query.length r off) := by
  obtain ⟨E3, hE3, -⟩ := FIND_RESTORE_HL_spec fs E hs
  have hloop := findLoop_eq E fs.query (searchDir fs) hnum hdir E.numrows fs.last_match
    (Nat.le_refl _) hm1 hm2 (by
      intro hd hl
      unfold searchDir at hd
      rw [if_pos hl] at hd
      exact absurd hd (by decide))
  refine ⟨E3, hE3, hloop, ?_⟩
  have hrest : ∀ (f : Int), FIND_RESTORE_HL { fs with find_next := f } E
      = some ({ fs with find_next := f, saved_hl := none }, E3) := by
    intro f
    unfold FIND_RESTORE_HL at hE3 ⊢
    simp only at hE3 ⊢
    cases hsv : fs.saved_hl with
    | none =>
      rw [hsv] at hE3
      simp only [Option.some.injEq, Prod.mk.injEq] at hE3 ⊢
      exact ⟨trivial, hE3.2⟩
    | some s =>
      rw [hsv] at hE3
      simp only at hE3 ⊢
      split at hE3
      · exact Option.noConfusion hE3
      · next hneg =>
        rw [if_neg hneg]
        cases hrow : E.row[fs.saved_hl_line.toNat]? with
        | none =>
          rw [hrow] at hE3
          exact Option.noConfusion hE3
        | some row =>
          rw [hrow] at hE3
          simp only [Option.some.injEq, Prod.mk.injEq] at hE3 ⊢
          exact ⟨trivial, hE3.2⟩
  unfold findSearch
  by_cases hl : fs.last_match = -1
  · have hsd : searchDir fs = 1 := by
      unfold searchDir
      rw [if_pos hl]
    rw [hsd] at hloop ⊢
    have hr := hrest 0
    rw [if_pos hl]
    simp only
    rw [if_pos (by decide), hloop]
    simp only
    rw [hr]
    rfl
  · have hsd : searchDir fs = fs.find_next := by
      unfold searchDir
      rw [if_neg hl]
    rw [hsd] at hloop hdir ⊢
    have hr := hrest 0
    rw [if_neg hl]
    simp only
    rw [if_pos (by omega), hloop]
    simp only
    rw [hr]
    rfl

/-- The overlay block on a row of the row array. -/
theorem findHit_spec (fs3 : findState) (E3 : editorConfig) (qlen r off : Nat)
    (hr : r < E3.row.length) :
    ∃ fs' E', findHit fs3 E3 qlen r off = some (fs', E') ∧
      fs'.last_match = (r : Int) ∧ fs'.query = fs3.query ∧ fs'.find_next = fs3.find_next ∧
      fs'.saved_cx = fs3.saved_cx ∧ fs'.saved_cy = fs3.saved_cy ∧
      fs'.saved_coloff = fs3.saved_coloff ∧ fs'.saved_rowoff = fs3.saved_rowoff ∧
      E'.rowoff = (r : Int) ∧ E'.cy = 0 ∧ E'.coloff + E'.cx = (off : Int) ∧
      E'.numrows = E3.numrows ∧ E'.row.length = E3.row.length ∧
      E'.screencols = E3.screencols ∧ E'.screenrows = E3.screenrows ∧
      ((E3.row.getD r default).hl = [] →
        fs'.saved_hl = fs3.saved_hl ∧ fs'.saved_hl_line = fs3.saved_hl_line ∧ E'.row = E3.row) ∧
      ((E3.row.getD r default).hl ≠ [] →
        fs'.saved_hl = some (memcpy (List.replicate (E3.row.getD r default).rsize 0) 0
          (E3.row.getD r default).hl (E3.row.getD r default).rsize) ∧
        fs'.saved_hl_line = (r : Int) ∧
        E'.row = E3.row.set r { E3.row.getD r default with
          hl := memset (E3.row.getD r default).hl off HL_MATCH qlen }) := by
  unfold findHit
  rw [getElem?_of_lt E3.row r hr]
  simp only
  generalize E3.row.getD r default = row
  by_cases hhl : row.hl = []
  · have he : row.hl.isEmpty = true := by rw [hhl]; rfl
    simp only [he, Bool.not_true, Bool.false_eq_true, if_false]
    refine ⟨_, _, rfl, ?_⟩
    split
    · refine ⟨rfl, rfl, rfl, rfl, rfl, rfl, rfl, rfl, rfl, ?_, rfl, rfl, rfl, rfl,
        fun _ => ⟨rfl, rfl, rfl⟩, fun h => absurd hhl h⟩
      simp only
      omega
    · refine ⟨rfl, rfl, rfl, rfl, rfl, rfl, rfl, rfl, rfl, ?_, rfl, rfl, rfl, rfl,
        fun _ => ⟨rfl, rfl, rfl⟩, fun h => absurd hhl h⟩
      simp only
      omega
  · have he : row.hl.isEmpty = false := by
      cases h : row.hl with
      | nil => exact absurd h hhl
      | cons a t => rfl
    simp only [he, Bool.not_false, if_true]
    refine ⟨_, _, rfl, ?_⟩
    split
    · refine ⟨rfl, rfl, rfl, rfl, rfl, rfl, rfl, rfl, rfl, ?_, rfl, ?_, rfl, rfl,
        fun h => absurd h hhl, fun _ => ⟨rfl, rfl, rfl⟩⟩
      · simp only
        omega
      · simp [setRow]
    · refine ⟨rfl, rfl, rfl, rfl, rfl, rfl, rfl, rfl, rfl, ?_, rfl, ?_, rfl, rfl,
        fun h => absurd h hhl, fun _ => ⟨rfl, rfl, rfl⟩⟩
      · simp only
        omega
      · simp [setRow]

/-- One search step of `editorFind` from the last match `m`, with
`-1 <= m < numrows`, in direction 1, or -1 when `m != -1`, tests the rows in
the cyclic order that starts next to `m`; this order holds every row of the
document exactly once; the step reports a hit exactly when the rendered form
of some row contains the query, both as C strings; on a hit it reports the
first row of the order that contains the query, and without a hit it leaves
`cx`, `cy`, `rowoff` and `coloff` as they were. -/
theorem search_step_spec (fs : findState) (E : editorConfig)
    (hnum : E.numrows ≤ E.row.length) (hm1 : -1 ≤ fs.last_match)
    (hm2 : fs.last_match < E.numrows) (hdir : searchDir fs = 1 ∨ searchDir fs = -1)
    (hs : savedOK fs E) :
    (scanOrder E.numrows fs.last_match (searchDir fs)).Nodup ∧
      (∀ r, r ∈ scanOrder E.numrows fs.last_match (searchDir fs) ↔ r < E.numrows) ∧
      findLoop E fs.query (searchDir fs) E.numrows fs.last_match
        = some (firstHit E fs.query (scanOrder E.numrows fs.last_match (searchDir fs))) ∧
      ((firstHit E fs.query (scanOrder E.numrows fs.last_match (searchDir fs))).isSome = true ↔
        ∃ r, r < E.numrows ∧ cstr fs.query <:+: cstr (E.row.getD r default).render) ∧
      ∃ fs' E', findSearch fs E = some (fs', E') ∧
        (firstHit E fs.query (scanOrder E.numrows fs.last_match (searchDir fs)) = none →
          E'.cx = E.cx ∧ E'.cy = E.cy ∧ E'.rowoff = E.rowoff ∧ E'.coloff = E.coloff ∧
            fs'.last_match = fs.last_match) ∧
        (∀ r off,
          firstHit E fs.query (scanOrder E.numrows fs.last_match (searchDir fs)) = some (r, off) →
            fs'.last_match = (r : Int) ∧ E'.rowoff = (r : Int) ∧ E'.cy = 0 ∧
              E'.coloff + E'.cx = (off : Int)) := by
  obtain ⟨E3, hE3, hloop, hsearch⟩ := findSearch_eq fs E hnum hm1 hm2 hdir hs
  obtain ⟨E3', hE3', c1, c2, c3, c4, c5, c6, -⟩ := FIND_RESTORE_HL_spec fs E hs
  have hEE : E3' = E3 := by
    rw [hE3] at hE3'
    simp only [Option.some.injEq, Prod.mk.injEq, true_and] at hE3'
    exact hE3'.symm
  subst hEE
  refine ⟨scanOrder_nodup _ _ _ hdir, scanOrder_mem _ _ _ hdir, hloop, ?_, ?_⟩
  · rw [firstHit_isSome]
    constructor
    · rintro ⟨r, hr, h⟩
      exact ⟨r, (scanOrder_mem _ _ _ hdir r).mp hr, (strstr_isSome_iff _ _).mp h⟩
    · rintro ⟨r, hr, h⟩
      exact ⟨r, (scanOrder_mem _ _ _ hdir r).mpr hr, (strstr_isSome_iff _ _).mpr h⟩
  · cases hfh : firstHit E fs.query (scanOrder E.numrows fs.last_match (searchDir fs)) with
    | none =>
      rw [hfh] at hsearch
      simp only at hsearch
      exact ⟨_, _, hsearch, fun _ => ⟨c1, c2, c3, c4, rfl⟩, fun r off h => Option.noConfusion h⟩
    | some p =>
      obtain ⟨r, off⟩ := p
      rw [hfh] at hsearch
      simp only at hsearch
      obtain ⟨pre, post, hord, -, -⟩ := firstHit_first E fs.query _ r off hfh
      have hrn : r < E.numrows := by
        apply (scanOrder_mem _ _ _ hdir r).mp
        rw [hord]
        simp
      obtain ⟨fs', E', hhit, h1, -, -, -, -, -, -, h2, h3, h4, -⟩ :=
        findHit_spec { fs with find_next := 0, saved_hl := none } E3' fs.query.length r off
          (by omega)
      rw [hhit] at hsearch
      refine ⟨fs', E', hsearch, fun h => Option.noConfusion h, fun r' off' h => ?_⟩
      simp only [Option.some.injEq, Prod.mk.injEq] at h
      obtain ⟨e1, e2⟩ := h
      subst e1
      subst e2
      exact ⟨h1, h2, h3, h4⟩

/-- C27: one search step of `editorFind` from the last match `m`, with
`-1 <= m < numrows`, in direction 1, or -1 when `m != -1`, tests the rows in
the cyclic order that starts next to `m`; this order holds every row of the
document exactly once; the step reports a hit exactly when the rendered form
of some row contains the query, both as C strings; on a hit it reports the
first row of the order that contains the query, and without a hit it leaves
`cx`, `cy`, `rowoff` and `coloff` as they were. -/
theorem C27_search_is_full_cyclic_scan (fs : findState) (E : editorConfig)
    (hnum : E.numrows ≤ E.row.length) (hm1 : -1 ≤ fs.last_match)
    (hm2 : fs.last_match < E.numrows) (hdir : searchDir fs = 1 ∨ searchDir fs = -1)
    (hs : savedOK fs E) :
    (scanOrder E.numrows fs.last_match (searchDir fs)).Nodup ∧
      (∀ r, r ∈ scanOrder E.numrows fs.last_match (searchDir fs) ↔ r < E.numrows) ∧
      findLoop E fs.query (searchDir fs) E.numrows fs.last_match
        = some (firstHit E fs.query (scanOrder E.numrows fs.last_match (searchDir fs))) ∧
      ((firstHit E fs.query (scanOrder E.numrows fs.last_match (searchDir fs))).isSome = true ↔
        ∃ r, r < E.numrows ∧ cstr fs.query <:+: cstr (E.row.getD r default).render) ∧
      ∃ fs' E', findSearch fs E = some (fs', E') ∧
        (firstHit E fs.query (scanOrder E.numrows fs.last_match (searchDir fs)) = none →
          E'.cx = E.cx ∧ E'.cy = E.cy ∧ E'.rowoff = E.rowoff ∧ E'.coloff = E.coloff ∧
            fs'.last_match = fs.last_match) ∧
        (∀ r off,
          firstHit E fs.query (scanOrder E.numrows fs.last_match (searchDir fs)) = some (r, off) →
            fs'.last_match = (r : Int) ∧ E'.rowoff = (r : Int) ∧ E'.cy = 0 ∧
              E'.coloff + E'.cx = (off : Int)) :=
  search_step_spec fs E hnum hm1 hm2 hdir hs

theorem range_split (n r : Nat) (pre post : List Nat) (h : List.range n = pre ++ r :: post) :
    pre = List.range r ∧ r < n := by
  have hlen : pre.length < (List.range n).length := by
    rw [h, List.length_append, List.length_cons]
    omega
  have hget : (List.range n)[pre.length] = r := by
    simp only [h]
    rw [List.getElem_append_right (Nat.le_refl _)]
    simp
  rw [List.getElem_range] at hget
  rw [List.length_range] at hlen
  refine ⟨?_, by omega⟩
  have htake : (List.range n).take pre.length = pre := by
    rw [h, List.take_left]
  rw [← htake, List.take_range, hget, Nat.min_eq_left (by omega)]

/-- C27 at the document `x`, `a`, `x` with the last match in row 2 and the
direction forward: the scan wraps around and reports row 0. -/
theorem C27_witness :
    ∃ fs' E',
      findSearch { query := [120], last_match := 2, find_next := 1 } exFindDoc = some (fs', E') ∧
        (firstHit exFindDoc [120] (scanOrder 3 2 1) = none →
          E'.cx = exFindDoc.cx ∧ E'.cy = exFindDoc.cy ∧ E'.rowoff = exFindDoc.rowoff ∧
            E'.coloff = exFindDoc.coloff ∧ fs'.last_match = 2) ∧
        (∀ r off, firstHit exFindDoc [120] (scanOrder 3 2 1) = some (r, off) →
          fs'.last_match = (r : Int) ∧ E'.rowoff = (r : Int) ∧ E'.cy = 0 ∧
            E'.coloff + E'.cx = (off : Int)) :=
  (C27_search_is_full_cyclic_scan { query := [120], last_match := 2, find_next := 1 } exFindDoc
    (by decide) (by decide) (by decide) (by decide) (by decide)).2.2.2.2

/-- C28, amended: without a last match a search step of `editorFind` starts at
the first row of the document, wherever the cursor is: it tests the rows in the
order 0, 1, ..., `numrows - 1` and reports the first row of the document whose
rendered form holds the query, with the cursor put on it; without such a row
the cursor stays where it was. -/
theorem C28_search_starts_at_first_row (fs : findState) (E : editorConfig)
    (hnum : E.numrows ≤ E.row.length) (hm : fs.last_match = -1) (hs : savedOK fs E) :
    findLoop E fs.query 1 E.numrows (-1) = some (firstHit E fs.query (List.range E.numrows)) ∧
      ∃ fs' E', findSearch fs E = some (fs', E') ∧
        (firstHit E fs.query (List.range E.numrows) = none →
          E'.cx = E.cx ∧ E'.cy = E.cy ∧ E'.rowoff = E.rowoff ∧ E'.coloff = E.coloff ∧
            fs'.last_match = -1) ∧
        (∀ r off, firstHit E fs.query (List.range E.numrows) = some (r, off) →
          r < E.numrows ∧ strstr (E.row.getD r default).render fs.query = some off ∧
            (∀ x, x < r → strstr (E.row.getD x default).render fs.query = none) ∧
            fs'.last_match = (r : Int) ∧ E'.rowoff = (r : Int) ∧ E'.cy = 0 ∧
            E'.coloff + E'.cx = (off : Int)) := by
  have hsd : searchDir fs = 1 := by
    unfold searchDir
    rw [if_pos hm]
  obtain ⟨-, -, hloop, -, fs', E', hsearch, hnone, hsome⟩ :=
    search_step_spec fs E hnum (by omega) (by omega) (Or.inl hsd) hs
  rw [hsd, hm, scanOrder_forward_from_start] at hloop hnone hsome
  refine ⟨hloop, fs', E', hsearch, ?_, ?_⟩
  · intro h
    obtain ⟨a, b, c, d, e⟩ := hnone h
    exact ⟨a, b, c, d, e⟩
  · intro r off h
    obtain ⟨pre, post, hord, hstr, hpre⟩ := firstHit_first E fs.query _ r off h
    obtain ⟨hp, hrn⟩ := range_split _ _ _ _ hord
    obtain ⟨a, b, c, d⟩ := hsome r off h
    refine ⟨hrn, hstr, ?_, a, b, c, d⟩
    intro x hx
    apply hpre
    rw [hp, List.mem_range]
    exact hx

/-- C28 at the document `x`, `a`, `x` with the cursor on row 1 and the query
`x`: the step reports row 0. -/
theorem C28_witness :
    findLoop exFindDoc [120] 1 exFindDoc.numrows (-1)
        = some (firstHit exFindDoc [120] (List.range exFindDoc.numrows)) ∧
      ∃ fs' E', findSearch { query := [120] } exFindDoc = some (fs', E') ∧
        (firstHit exFindDoc [120] (List.range exFindDoc.numrows) = none →
          E'.cx = exFindDoc.cx ∧ E'.cy = exFindDoc.cy ∧ E'.rowoff = exFindDoc.rowoff ∧
            E'.coloff = exFindDoc.coloff ∧ fs'.last_match = -1) ∧
        (∀ r off, firstHit exFindDoc [120] (List.range exFindDoc.numrows) = some (r, off) →
          r < exFindDoc.numrows ∧
            strstr (exFindDoc.row.getD r default).render [120] = some off ∧
            (∀ x, x < r → strstr (exFindDoc.row.getD x default).render [120] = none) ∧
            fs'.last_match = (r : Int) ∧ E'.rowoff = (r : Int) ∧ E'.cy = 0 ∧
            E'.coloff + E'.cx = (off : Int)) :=
  C28_search_starts_at_first_row { query := [120] } exFindDoc (by decide) rfl (by decide)

/-- C28 as stated fails: in the document `x`, `a`, `x` with the cursor on row
1 and no last match, the first row that holds the query `x` in the cyclic
order from the cursor row (1, 2, 0) is row 2, but the search step reports row
0; typing `x` in find mode leaves the cursor on row 0. -/
theorem C28_counterexample :
    exFindDoc.rowoff + exFindDoc.cy = 1 ∧
      firstHit exFindDoc [120] (scanOrder exFindDoc.numrows 0 1) = some (2, 0) ∧
      (findSearch { query := [120] } exFindDoc).map
          (fun p => (p.1.last_match, p.2.rowoff + p.2.cy)) = some (0, 0) ∧
      (editorFind exFindDoc [120]).map
          (fun s => match s with
            | findStep.running fs E => (fs.last_match, E.rowoff + E.cy)
            | findStep.done E => (-2, E.rowoff + E.cy)) = some (0, 0) := by
  refine ⟨?_, ?_, ?_, ?_⟩
  · decide!
  · decide!
  · decide!
  · decide!

/-- The example document of find mode is what file loading and one
`ARROW_DOWN` build from the initial editor. -/
theorem find_example_reachable :
    (insertLines exInit [bytes "x", bytes "a", bytes "x"]).bind
        (fun E => editorMoveCursor E ARROW_DOWN) = some exFindDoc := by
  decide!

/-! ## C strings -/

theorem cstr_initial (s : List Nat) : cstr s <+: s :=
  List.takeWhile_prefix _

theorem cstr_length_le (s : List Nat) : (cstr s).length ≤ s.length :=
  List.IsPrefix.length_le (cstr_initial s)

theorem cstr_of_text : ∀ (s : List Nat), (∀ c, c ∈ s → c ≠ 0) → cstr s = s
  | [], _ => rfl
  | a :: t, h => by
    have ha : a ≠ 0 := h a (List.mem_cons_self _ _)
    have ht : cstr t = t := cstr_of_text t (fun c hc => h c (List.mem_cons_of_mem _ hc))
    unfold cstr at ht ⊢
    rw [List.takeWhile_cons]
    simp [ha, ht]

theorem cstr_drop : ∀ (s : List Nat) (m : Nat), m ≤ (cstr s).length →
    cstr (s.drop m) = (cstr s).drop m
  | _, 0, _ => rfl
  | [], m + 1, _ => by simp [cstr]
  | a :: t, m + 1, h => by
    by_cases ha : a = 0
    · subst ha
      simp [cstr] at h
    · have hc : cstr (a :: t) = a :: cstr t := by
        unfold cstr
        rw [List.takeWhile_cons]
        simp [ha]
      rw [hc] at h ⊢
      simp only [List.length_cons] at h
      simp only [List.drop_succ_cons]
      exact cstr_drop t m (by omega)

theorem cstr_getD : ∀ (s : List Nat) (k : Nat), k < (cstr s).length →
    (cstr s).getD k 0 = s.getD k 0
  | [], k, h => by simp [cstr] at h
  | a :: t, k, h => by
    by_cases ha : a = 0
    · subst ha
      simp [cstr] at h
    · have hc : cstr (a :: t) = a :: cstr t := by
        unfold cstr
        rw [List.takeWhile_cons]
        simp [ha]
      rw [hc] at h ⊢
      cases k with
      | zero => rfl
      | succ k =>
        simp only [List.length_cons] at h
        simp only [List.getD_cons_succ]
        exact cstr_getD t k (by omega)

/-! ## The marking loops -/

theorem protectedHl_underline : protectedHl HL_UNDERLINE = false := by decide

theorem markRange_length (rsize ms : Nat) :
    ∀ (n j : Nat) (hl : List Nat), (markRange rsize ms n j hl).length = hl.length
  | 0, _, _ => rfl
  | n + 1, j, hl => by
    unfold markRange
    split
    · rw [markRange_length rsize ms n (j + 1)]
      split
      · rfl
      · exact List.length_set _ _ _
    · rfl

theorem getD_set_eq (l : List Nat) (i j v : Nat) :
    (l.set i v).getD j 0 = if i = j ∧ j < l.length then v else l.getD j 0 := by
  simp only [List.getD_eq_getElem?_getD, List.getElem?_set]
  by_cases h : i = j
  · subst h
    by_cases h2 : i < l.length
    · simp [h2]
    · simp [h2]
      rw [List.getElem?_eq_none (by omega)]
      rfl
  · simp [h]

/-- One occurrence: the entries `ms + j .. ms + j + n - 1` below `rsize` that
are not protected become `HL_UNDERLINE`; nothing else changes. -/
theorem markRange_getD (rsize ms : Nat) :
    ∀ (n j : Nat) (hl : List Nat) (idx : Nat),
      (markRange rsize ms n j hl).getD idx 0 =
        if ms + j ≤ idx ∧ idx < ms + j + n ∧ idx < rsize ∧ idx < hl.length ∧
            protectedHl (hl.getD idx 0) = false
        then HL_UNDERLINE else hl.getD idx 0
  | 0, j, hl, idx => by
    unfold markRange
    rw [if_neg (by omega)]
  | n + 1, j, hl, idx => by
    unfold markRange
    by_cases hlt : ms + j < rsize
    · rw [if_pos hlt, markRange_getD rsize ms n (j + 1)]
      by_cases hp : protectedHl (hl.getD (ms + j) 0) = true
      · rw [if_pos hp]
        by_cases hidx : idx = ms + j
        · subst hidx
          rw [if_neg (by omega), if_neg]
          intro h
          rw [hp] at h
          exact Bool.noConfusion h.2.2.2.2
        · by_cases hc : ms + (j + 1) ≤ idx ∧ idx < ms + (j + 1) + n ∧ idx < rsize ∧
              idx < hl.length ∧ protectedHl (hl.getD idx 0) = false
          · rw [if_pos hc, if_pos ⟨by omega, by omega, hc.2.2.1, hc.2.2.2.1, hc.2.2.2.2⟩]
          · rw [if_neg hc, if_neg]
            intro h
            exact hc ⟨by omega, by omega, h.2.2.1, h.2.2.2.1, h.2.2.2.2⟩
      · rw [if_neg hp]
        have hp2 : protectedHl (hl.getD (ms + j) 0) = false := by
          cases h : protectedHl (hl.getD (ms + j) 0)
          · rfl
          · exact absurd h hp
        rw [List.length_set]
        by_cases hidx : idx = ms + j
        · subst hidx
          rw [if_neg (by omega), getD_set_eq]
          by_cases hl2 : ms + j < hl.length
          · rw [if_pos ⟨rfl, hl2⟩, if_pos ⟨Nat.le_refl _, by omega, hlt, hl2, hp2⟩]
          · rw [if_neg (by omega), if_neg (by omega)]
        · have hg : (hl.set (ms + j) HL_UNDERLINE).getD idx 0 = hl.getD idx 0 := by
            rw [getD_set_eq, if_neg]
            intro h
            exact hidx h.1.symm
          rw [hg]
          by_cases hc : ms + (j + 1) ≤ idx ∧ idx < ms + (j + 1) + n ∧ idx < rsize ∧
              idx < hl.length ∧ protectedHl (hl.getD idx 0) = false
          · rw [if_pos hc, if_pos ⟨by omega, by omega, hc.2.2.1, hc.2.2.2.1, hc.2.2.2.2⟩]
          · rw [if_neg hc, if_neg]
            intro h
            exact hc ⟨by omega, by omega, h.2.2.1, h.2.2.2.1, h.2.2.2.2⟩
    · rw [if_neg hlt, if_neg]
      intro h
      omega

theorem markRow_length (word : List Nat) (row : erow) :
    ∀ (fuel m : Nat) (hl : List Nat), (markRow word row fuel m hl).length = hl.length
  | 0, _, _ => rfl
  | fuel + 1, m, hl => by
    unfold markRow
    cases strstr (List.drop m row.render) word with
    | none => rfl
    | some off =>
      simp only
      rw [markRow_length word row fuel]
      split
      · exact markRange_length _ _ _ _ _
      · rfl

/-- The marking of a row changes an entry only from a class that is not
protected to `HL_UNDERLINE`. -/
theorem markRow_weak (word : List Nat) (row : erow) :
    ∀ (fuel m : Nat) (hl : List Nat) (idx : Nat),
      (markRow word row fuel m hl).getD idx 0 = hl.getD idx 0 ∨
        ((markRow word row fuel m hl).getD idx 0 = HL_UNDERLINE ∧
          protectedHl (hl.getD idx 0) = false)
  | 0, _, _, _ => Or.inl rfl
  | fuel + 1, m, hl, idx => by
    unfold markRow
    cases strstr (List.drop m row.render) word with
    | none => exact Or.inl rfl
    | some off =>
      simp only
      split
      · rcases markRow_weak word row fuel (m + off + 1)
          (markRange row.rsize (m + off) (cstr word).length 0 hl) idx with h | h
        · rw [h, markRange_getD]
          split
          · next hc => exact Or.inr ⟨rfl, hc.2.2.2.2⟩
          · exact Or.inl rfl
        · rw [markRange_getD] at h
          split at h
          · next hc => exact Or.inr ⟨h.1, hc.2.2.2.2⟩
          · exact Or.inr h
      · exact markRow_weak word row fuel (m + off + 1) hl idx

theorem markCond_iff (w : List Nat) (row : erow) (ms : Nat) (hl : List Nat)
    (hp : w <+: (cstr row.render).drop ms) :
    ((ms == 0 || !wordByte (row.render.getD (ms - 1) 0)) &&
        (decide (ms + w.length ≥ row.rsize) || !wordByte (row.render.getD (ms + w.length) 0)) &&
        !hl.isEmpty) = true ↔ (wordOccurrence w row ms ∧ hl ≠ []) := by
  unfold wordOccurrence
  have he : hl.isEmpty = false ↔ hl ≠ [] := by
    cases hl with
    | nil => simp
    | cons a t => simp
  simp only [Bool.and_eq_true, Bool.or_eq_true, beq_iff_eq, Bool.not_eq_true',
    decide_eq_true_eq, ge_iff_le, he]
  constructor
  · rintro ⟨⟨h1, h2⟩, h3⟩
    exact ⟨⟨hp, h1, h2⟩, h3⟩
  · rintro ⟨⟨-, h1, h2⟩, h3⟩
    exact ⟨⟨h1, h2⟩, h3⟩

/-- The marking of a row: an entry becomes `HL_UNDERLINE` when it lies inside
a bounded occurrence of the word at or after offset `m` and is not protected;
every other entry is unchanged. -/
theorem markRow_getD (w : List Nat) (row : erow) (hw : w ≠ []) (hcw : cstr w = w) :
    ∀ (fuel m : Nat) (hl : List Nat) (idx : Nat), m ≤ (cstr row.render).length →
      (cstr row.render).length + 1 ≤ fuel + m →
      ((((∃ o, m ≤ o ∧ wordOccurrence w row o ∧ o ≤ idx ∧ idx < o + w.length) ∧
            idx < row.rsize ∧ idx < hl.length ∧ protectedHl (hl.getD idx 0) = false) →
          (markRow w row fuel m hl).getD idx 0 = HL_UNDERLINE) ∧
        (¬ ((∃ o, m ≤ o ∧ wordOccurrence w row o ∧ o ≤ idx ∧ idx < o + w.length) ∧
            idx < row.rsize ∧ idx < hl.length ∧ protectedHl (hl.getD idx 0) = false) →
          (markRow w row fuel m hl).getD idx 0 = hl.getD idx 0))
  | 0, m, hl, idx, hm, hf => by omega
  | fuel + 1, m, hl, idx, hm, hf => by
    unfold markRow
    have hstr : strstr (List.drop m row.render) w
        = strstrFrom w ((cstr row.render).drop m) := by
      unfold strstr
      rw [hcw, cstr_drop _ _ hm]
    rw [hstr]
    cases hr : strstrFrom w ((cstr row.render).drop m) with
    | none =>
      have hno := strstrFrom_none w _ hr
      simp only
      refine ⟨?_, fun _ => trivial⟩
      rintro ⟨⟨o, ho, hocc, -, -⟩, -⟩
      have h1 := hocc.1
      have h2 : (cstr row.render).drop o = ((cstr row.render).drop m).drop (o - m) := by
        rw [List.drop_drop]
        congr 1
        omega
      rw [h2] at h1
      exact absurd h1 (hno _)
    | some off =>
      obtain ⟨hpre, hoff, hmin⟩ := strstrFrom_some w _ _ hr
      have hpre2 : w <+: (cstr row.render).drop (m + off) := by
        rw [List.drop_drop] at hpre
        exact hpre
      have hwl : 0 < w.length := List.length_pos.mpr hw
      have hlen := hpre2.length_le
      rw [List.length_drop] at hlen
      have hm2 : m + off + 1 ≤ (cstr row.render).length := by omega
      simp only
      rw [hcw]
      -- the array after this occurrence
      have hstep : ∃ hl1 : List Nat,
          (if ((m + off == 0 || !wordByte (row.render.getD (m + off - 1) 0)) &&
              (decide (m + off + w.length ≥ row.rsize) ||
                !wordByte (row.render.getD (m + off + w.length) 0)) &&
              !hl.isEmpty) = true
            then markRange row.rsize (m + off) w.length 0 hl else hl) = hl1 ∧
          hl1.length = hl.length ∧
          (hl1.getD idx 0 = if wordOccurrence w row (m + off) ∧ m + off ≤ idx ∧
              idx < m + off + w.length ∧ idx < row.rsize ∧ idx < hl.length ∧
              protectedHl (hl.getD idx 0) = false then HL_UNDERLINE else hl.getD idx 0) := by
        refine ⟨_, rfl, ?_, ?_⟩
        · split
          · exact markRange_length _ _ _ _ _
          · rfl
        · by_cases hc : ((m + off == 0 || !wordByte (row.render.getD (m + off - 1) 0)) &&
              (decide (m + off + w.length ≥ row.rsize) ||
                !wordByte (row.render.getD (m + off + w.length) 0)) &&
              !hl.isEmpty) = true
          · rw [if_pos hc, markRange_getD]
            have hocc := (markCond_iff w row (m + off) hl hpre2).mp hc
            by_cases hq : m + off ≤ idx ∧ idx < m + off + w.length ∧ idx < row.rsize ∧
                idx < hl.length ∧ protectedHl (hl.getD idx 0) = false
            · rw [if_pos ⟨by omega, by omega, hq.2.2.1, hq.2.2.2.1, hq.2.2.2.2⟩,
                if_pos ⟨hocc.1, hq⟩]
            · rw [if_neg, if_neg]
              · intro h
                exact hq h.2
              · intro h
                exact hq ⟨by omega, by omega, h.2.2.1, h.2.2.2.1, h.2.2.2.2⟩
          · rw [if_neg hc, if_neg]
            intro h
            apply hc
            apply (markCond_iff w row (m + off) hl hpre2).mpr
            refine ⟨h.1, ?_⟩
            intro he
            rw [he] at h
            exact absurd h.2.2.2.2.1 (by simp)
      obtain ⟨hl1, hdef, hlen1, hget1⟩ := hstep
      rw [hdef]
      have hprot : protectedHl (hl1.getD idx 0) = protectedHl (hl.getD idx 0) := by
        rw [hget1]
        split
        · next hq => rw [hq.2.2.2.2.2]; rfl
        · rfl
      obtain ⟨ih1, ih2⟩ := markRow_getD w row hw hcw fuel (m + off + 1) hl1 idx hm2 (by omega)
      rw [hlen1, hprot] at ih1 ih2
      constructor
      · rintro ⟨⟨o, ho, hocc, ho1, ho2⟩, hr1, hr2, hr3⟩
        by_cases hP : (∃ o, m + off + 1 ≤ o ∧ wordOccurrence w row o ∧ o ≤ idx ∧
            idx < o + w.length) ∧ idx < row.rsize ∧ idx < hl.length ∧
            protectedHl (hl.getD idx 0) = false
        · exact ih1 hP
        · rw [ih2 hP, hget1]
          have hoeq : o = m + off := by
            by_contra hne
            by_cases hlt : o < m + off
            · have h1 := hocc.1
              have h2 : (cstr row.render).drop o
                  = ((cstr row.render).drop m).drop (o - m) := by
                rw [List.drop_drop]
                congr 1
                omega
              rw [h2] at h1
              exact hmin (o - m) (by omega) h1
            · exact hP ⟨⟨o, by omega, hocc, ho1, ho2⟩, hr1, hr2, hr3⟩
          subst hoeq
          rw [if_pos ⟨hocc, ho1, ho2, hr1, hr2, hr3⟩]
      · intro hnP
        have hnP' : ¬ ((∃ o, m + off + 1 ≤ o ∧ wordOccurrence w row o ∧ o ≤ idx ∧
            idx < o + w.length) ∧ idx < row.rsize ∧ idx < hl.length ∧
            protectedHl (hl.getD idx 0) = false) := by
          rintro ⟨⟨o, ho, hocc, ho1, ho2⟩, hr⟩
          exact hnP ⟨⟨o, by omega, hocc, ho1, ho2⟩, hr⟩
        rw [ih2 hnP', hget1, if_neg]
        intro hq
        exact hnP ⟨⟨m + off, by omega, hq.1, hq.2.1, hq.2.2.1⟩, hq.2.2.2⟩

/-! ## The word at the cursor -/

theorem getD_map_take {α : Type} (f : α → α) (d : α) :
    ∀ (l : List α) (n i : Nat),
      ((l.take n).map f ++ l.drop n).getD i d
        = if i < n ∧ i < l.length then f (l.getD i d) else l.getD i d
  | [], n, i => by simp
  | a :: t, 0, i => by simp
  | a :: t, n + 1, 0 => by simp
  | a :: t, n + 1, i + 1 => by
    have ih := getD_map_take f d t n i
    simp only [List.take_succ_cons, List.map_cons, List.drop_succ_cons, List.cons_append,
      List.getD_cons_succ, List.length_cons]
    rw [ih]
    by_cases h : i < n ∧ i < t.length
    · rw [if_pos h, if_pos ⟨by omega, by omega⟩]
    · rw [if_neg h, if_neg]
      intro h2
      exact h ⟨by omega, by omega⟩

theorem length_map_take {α : Type} (f : α → α) (l : List α) (n : Nat) :
    ((l.take n).map f ++ l.drop n).length = l.length := by
  rw [List.length_append, List.length_map, List.length_take, List.length_drop]
  omega

theorem wordStartLoop_spec (chars : List Nat) :
    ∀ (n : Nat), wordStartLoop chars n ≤ n ∧
      (∀ k, wordStartLoop chars n ≤ k → k < n → wordByte (chars.getD k 0) = true) ∧
      (wordStartLoop chars n = 0 ∨
        wordByte (chars.getD (wordStartLoop chars n - 1) 0) = false)
  | 0 => ⟨Nat.le_refl _, fun k _ hk => absurd hk (by omega), Or.inl rfl⟩
  | n + 1 => by
    unfold wordStartLoop
    by_cases hb : wordByte (chars.getD n 0) = true
    · rw [if_pos hb]
      obtain ⟨h1, h2, h3⟩ := wordStartLoop_spec chars n
      refine ⟨by omega, fun k hk1 hk2 => ?_, h3⟩
      by_cases hkn : k = n
      · subst hkn
        exact hb
      · exact h2 k hk1 (by omega)
    · rw [if_neg hb]
      refine ⟨Nat.le_refl _, fun k hk1 hk2 => absurd hk2 (by omega), Or.inr ?_⟩
      simp only [Nat.add_sub_cancel]
      cases h : wordByte (chars.getD n 0)
      · rfl
      · exact absurd h hb

theorem wordEndLoop_spec (chars : List Nat) (size : Nat) :
    ∀ (fuel e0 : Nat), e0 ≤ size → size ≤ fuel + e0 →
      e0 ≤ wordEndLoop chars size fuel e0 ∧ wordEndLoop chars size fuel e0 ≤ size ∧
      (∀ k, e0 ≤ k → k < wordEndLoop chars size fuel e0 → wordByte (chars.getD k 0) = true) ∧
      (wordEndLoop chars size fuel e0 = size ∨
        wordByte (chars.getD (wordEndLoop chars size fuel e0) 0) = false)
  | 0, e0, h1, h2 => by
    unfold wordEndLoop
    exact ⟨Nat.le_refl _, h1, fun k hk1 hk2 => absurd hk2 (by omega), Or.inl (by omega)⟩
  | fuel + 1, e0, h1, h2 => by
    unfold wordEndLoop
    by_cases hc : e0 < size ∧ wordByte (chars.getD e0 0) = true
    · rw [if_pos hc]
      obtain ⟨a, b, c, d⟩ := wordEndLoop_spec chars size fuel (e0 + 1) (by omega) (by omega)
      refine ⟨by omega, b, fun k hk1 hk2 => ?_, d⟩
      by_cases hk : k = e0
      · subst hk
        exact hc.2
      · exact c k (by omega) hk2
    · rw [if_neg hc]
      refine ⟨Nat.le_refl _, h1, fun k hk1 hk2 => absurd hk2 (by omega), ?_⟩
      by_cases hlt : e0 < size
      · right
        cases h : wordByte (chars.getD e0 0)
        · rfl
        · exact absurd ⟨hlt, h⟩ hc
      · left
        omega

theorem wordByte_ne_zero (c : Nat) (h : wordByte c = true) : c ≠ 0 := by
  intro h0
  subst h0
  exact absurd h (by decide)

/-- The two loops of `editorGetWordAtCursor` find the word around the
column. -/
theorem word_loops (row : erow) (col s e : Nat) (h : isWordAt row col s e) :
    wordStartLoop row.chars col = s ∧
      wordEndLoop row.chars row.size (row.size - col) col = e := by
  obtain ⟨h1, h2, h3, h4, h5, h6⟩ := h
  obtain ⟨a1, a2, a3⟩ := wordStartLoop_spec row.chars col
  obtain ⟨b1, b2, b3, b4⟩ :=
    wordEndLoop_spec row.chars row.size (row.size - col) col (by omega) (by omega)
  constructor
  · by_contra hne
    by_cases hlt : wordStartLoop row.chars col < s
    · rcases h5 with h5 | h5
      · omega
      · have := a2 (s - 1) (by omega) (by omega)
        rw [this] at h5
        exact Bool.noConfusion h5
    · rcases a3 with a3 | a3
      · omega
      · have := h4 (wordStartLoop row.chars col - 1) (by omega) (by omega)
        rw [this] at a3
        exact Bool.noConfusion a3
  · by_contra hne
    by_cases hlt : wordEndLoop row.chars row.size (row.size - col) col < e
    · rcases b4 with b4 | b4
      · omega
      · have := h4 _ hlt (by omega)
        rw [this] at b4
        exact Bool.noConfusion b4
    · rcases h6 with h6 | h6
      · omega
      · have := b3 e (by omega) (by omega)
        rw [this] at h6
        exact Bool.noConfusion h6

theorem wordAt_text (row : erow) (col s e : Nat) (h : isWordAt row col s e) :
    (∀ c, c ∈ wordAt row s e → wordByte c = true) ∧ wordAt row s e ≠ [] := by
  obtain ⟨h1, h2, h3, h4, h5, h6⟩ := h
  have hcol := h4 col h2 h1
  have hlen : col < row.chars.length := by
    by_contra hge
    rw [List.getD_eq_default _ _ (by omega)] at hcol
    exact absurd hcol (by decide)
  constructor
  · intro c hc
    unfold wordAt at hc
    obtain ⟨k, hk, rfl⟩ := List.getElem_of_mem hc
    rw [List.length_take, List.length_drop] at hk
    rw [List.getElem_take, List.getElem_drop]
    have := h4 (s + k) (by omega) (by omega)
    rw [List.getD_eq_getElem _ _ (by omega)] at this
    exact this
  · intro he
    have : (wordAt row s e).length = 0 := by rw [he]; rfl
    unfold wordAt at this
    rw [List.length_take, List.length_drop] at this
    omega

theorem editorGetWordAtCursor_word (E : editorConfig) (r col s e : Nat)
    (hnum : E.numrows ≤ E.row.length) (hr : r < E.numrows)
    (hrow : E.rowoff + E.cy = (r : Int)) (hcol : E.coloff + E.cx = (col : Int))
    (hword : isWordAt (E.row.getD r default) col s e) (hlen : e - s ≤ 255) :
    editorGetWordAtCursor E = some (some (wordAt (E.row.getD r default) s e, s, e)) := by
  unfold editorGetWordAtCursor
  simp only [hrow, hcol]
  rw [if_neg (by omega), if_neg (by omega)]
  simp only [Int.toNat_ofNat]
  rw [getElem?_of_lt E.row r (by omega)]
  simp only
  obtain ⟨hs, he⟩ := word_loops _ _ _ _ hword
  have hw := hword
  obtain ⟨h1, h2, h3, h4, h5, h6⟩ := hw
  rw [if_neg (by omega), if_neg (by omega), hs, he]
  have hb := h4 col h2 h1
  rw [hb]
  have hwl : (if e - s > 255 then 255 else e - s) = e - s := if_neg (by omega)
  simp only [Bool.not_true, Bool.false_eq_true, if_false, hwl]
  rw [if_pos (by omega)]
  obtain ⟨ht, -⟩ := wordAt_text _ _ _ _ hword
  have hc := cstr_of_text _ (fun c hc => wordByte_ne_zero c (ht c hc))
  unfold wordAt at hc
  rw [hc]
  rfl

/-! ## The function `editorHighlightWordUnderCursor` -/

theorem clearUnderlineRow_hl_length (row : erow) :
    (clearUnderlineRow row).hl.length = row.hl.length :=
  length_map_take _ _ _

theorem clearUnderlineRow_getD (row : erow) (j : Nat) :
    (clearUnderlineRow row).hl.getD j 0 =
      if j < row.rsize ∧ j < row.hl.length then
        (if row.hl.getD j 0 = HL_UNDERLINE then HL_NORMAL else row.hl.getD j 0)
      else row.hl.getD j 0 := by
  unfold clearUnderlineRow
  simp only
  rw [getD_map_take]
  split
  · simp only [beq_iff_eq]
  · rfl

theorem take_map_take {α : Type} (f : α → α) (l : List α) (n : Nat) (h : n ≤ l.length) :
    ((l.take n).map f ++ l.drop n).take n = (l.take n).map f ∧
      ((l.take n).map f ++ l.drop n).drop n = l.drop n := by
  have hl : ((l.take n).map f).length = n := by
    rw [List.length_map, List.length_take]
    omega
  exact ⟨List.take_left' hl, List.drop_left' hl⟩

theorem hwuc_eq (E : editorConfig) :
    editorHighlightWordUnderCursor E =
      match editorGetWordAtCursor (withRows E (clearedRows E)) with
      | none => none
      | some none => some (withRows E (clearedRows E))
      | some (some (word, _, _)) => some (withRows E
          ((List.take E.numrows (clearedRows E)).map
            (fun row => { row with hl := markRow word row (row.render.length + 1) 0 row.hl })
            ++ List.drop E.numrows (clearedRows E))) := rfl

/-- The three ways in which `editorHighlightWordUnderCursor` ends: outside
the model, after the clearing when there is no word at the cursor, and after
the marking of the word at the cursor. -/
theorem hwuc_rows (E : editorConfig) (hnum : E.numrows ≤ E.row.length) :
    editorHighlightWordUnderCursor E = none ∨
      editorHighlightWordUnderCursor E = some (withRows E (clearedRows E)) ∨
      ∃ w, editorGetWordAtCursor (withRows E (clearedRows E)) = some (some w) ∧
        editorHighlightWordUnderCursor E = some (withRows E (markedRows w.1 E)) := by
  rw [hwuc_eq]
  cases hg : editorGetWordAtCursor (withRows E (clearedRows E)) with
  | none => exact Or.inl rfl
  | some res =>
    cases res with
    | none => exact Or.inr (Or.inl rfl)
    | some w =>
      obtain ⟨word, s, e⟩ := w
      refine Or.inr (Or.inr ⟨(word, s, e), rfl, ?_⟩)
      simp only
      obtain ⟨h1, h2⟩ := take_map_take clearUnderlineRow E.row E.numrows hnum
      unfold clearedRows
      rw [h1, h2, List.map_map]
      rfl

theorem editorGetWordAtCursor_isSome (E : editorConfig) (hnum : E.numrows ≤ E.row.length)
    (h1 : 0 ≤ E.rowoff + E.cy) (h2 : 0 ≤ E.coloff + E.cx) :
    ∃ res, editorGetWordAtCursor E = some res := by
  unfold editorGetWordAtCursor
  simp only
  split
  · exact ⟨_, rfl⟩
  · next hlt =>
    rw [if_neg (by omega)]
    have hlt2 : (E.rowoff + E.cy).toNat < E.row.length := by omega
    rw [getElem?_of_lt E.row _ hlt2]
    simp only
    split
    · exact ⟨_, rfl⟩
    · rw [if_neg (by omega)]
      repeat' split
      all_goals exact ⟨_, rfl⟩

theorem clearedRows_length (E : editorConfig) : (clearedRows E).length = E.row.length :=
  length_map_take _ _ _

theorem markedRows_length (w : List Nat) (E : editorConfig) :
    (markedRows w E).length = E.row.length :=
  length_map_take _ _ _

/-- The function returns when the cursor is not before the first row or the
first column. -/
theorem hwuc_isSome (E : editorConfig) (hnum : E.numrows ≤ E.row.length)
    (h1 : 0 ≤ E.rowoff + E.cy) (h2 : 0 ≤ E.coloff + E.cx) :
    ∃ E', editorHighlightWordUnderCursor E = some E' := by
  obtain ⟨res, hres⟩ := editorGetWordAtCursor_isSome (withRows E (clearedRows E))
    (by
      show E.numrows ≤ (clearedRows E).length
      rw [clearedRows_length]
      exact hnum) h1 h2
  rcases hwuc_rows E hnum with h0 | h0 | ⟨w, -, h0⟩
  · rw [hwuc_eq, hres] at h0
    cases res with
    | none => exact Option.noConfusion h0
    | some w => exact Option.noConfusion h0
  · exact ⟨_, h0⟩
  · exact ⟨_, h0⟩

theorem clear_weak (row : erow) (j : Nat) :
    (clearUnderlineRow row).hl.getD j 0 = row.hl.getD j 0 ∨
      (protectedHl (row.hl.getD j 0) = false ∧
        (clearUnderlineRow row).hl.getD j 0 = HL_NORMAL) := by
  rw [clearUnderlineRow_getD]
  split
  · split
    · next hu => exact Or.inr ⟨by rw [hu]; rfl, rfl⟩
    · exact Or.inl rfl
  · exact Or.inl rfl

theorem markedRow_weak (w : List Nat) (row : erow) (j : Nat) :
    (markedRow w row).hl.getD j 0 = row.hl.getD j 0 ∨
      (protectedHl (row.hl.getD j 0) = false ∧
        ((markedRow w row).hl.getD j 0 = HL_UNDERLINE ∨
          (markedRow w row).hl.getD j 0 = HL_NORMAL)) := by
  show (markRow w (clearUnderlineRow row) (row.render.length + 1) 0
      (clearUnderlineRow row).hl).getD j 0 = _ ∨ _ ∧
    ((markRow w (clearUnderlineRow row) (row.render.length + 1) 0
      (clearUnderlineRow row).hl).getD j 0 = _ ∨
    (markRow w (clearUnderlineRow row) (row.render.length + 1) 0
      (clearUnderlineRow row).hl).getD j 0 = _)
  rcases markRow_weak w (clearUnderlineRow row) (row.render.length + 1) 0
    (clearUnderlineRow row).hl j with hm | hm
  · rw [hm]
    rcases clear_weak row j with hc | hc
    · exact Or.inl hc
    · exact Or.inr ⟨hc.1, Or.inr hc.2⟩
  · refine Or.inr ⟨?_, Or.inl hm.1⟩
    rcases clear_weak row j with hc | hc
    · rw [← hc]
      exact hm.2
    · exact hc.1

theorem markedRow_hl_length (w : List Nat) (row : erow) :
    (markedRow w row).hl.length = row.hl.length := by
  show (markRow w (clearUnderlineRow row) (row.render.length + 1) 0
      (clearUnderlineRow row).hl).length = _
  rw [markRow_length, clearUnderlineRow_hl_length]

/-- What `editorHighlightWordUnderCursor` changes: highlight entries of
classes that are not protected, to `HL_NORMAL` or `HL_UNDERLINE`. -/
theorem hwuc_preserves (E E' : editorConfig) (hnum : E.numrows ≤ E.row.length)
    (h : editorHighlightWordUnderCursor E = some E') :
    E'.frame = E.frame ∧ E'.row.length = E.row.length ∧
      E'.row.map erow.strip = E.row.map erow.strip ∧
      ∀ i, (E'.row.getD i default).hl.length = (E.row.getD i default).hl.length ∧
        ∀ j, (E'.row.getD i default).hl.getD j 0 = (E.row.getD i default).hl.getD j 0 ∨
          (protectedHl ((E.row.getD i default).hl.getD j 0) = false ∧
            ((E'.row.getD i default).hl.getD j 0 = HL_UNDERLINE ∨
              (E'.row.getD i default).hl.getD j 0 = HL_NORMAL)) := by
  rcases hwuc_rows E hnum with h0 | h1 | ⟨w, -, h1⟩
  · rw [h0] at h
    exact Option.noConfusion h
  · rw [h1] at h
    simp only [Option.some.injEq] at h
    subst h
    refine ⟨rfl, clearedRows_length E, ?_, fun i => ?_⟩
    · show (clearedRows E).map erow.strip = E.row.map erow.strip
      unfold clearedRows
      rw [List.map_append, List.map_map]
      have : erow.strip ∘ clearUnderlineRow = erow.strip := rfl
      rw [this, ← List.map_append, List.take_append_drop]
    · show ((clearedRows E).getD i default).hl.length = _ ∧ ∀ j,
        ((clearedRows E).getD i default).hl.getD j 0 = _ ∨ _ ∧ (
        ((clearedRows E).getD i default).hl.getD j 0 = _ ∨
        ((clearedRows E).getD i default).hl.getD j 0 = _)
      unfold clearedRows
      rw [getD_map_take]
      split
      · refine ⟨clearUnderlineRow_hl_length _, fun j => ?_⟩
        rcases clear_weak (E.row.getD i default) j with hc | hc
        · exact Or.inl hc
        · exact Or.inr ⟨hc.1, Or.inr hc.2⟩
      · exact ⟨rfl, fun j => Or.inl rfl⟩
  · rw [h1] at h
    simp only [Option.some.injEq] at h
    subst h
    refine ⟨rfl, markedRows_length _ E, ?_, fun i => ?_⟩
    · show (markedRows w.1 E).map erow.strip = E.row.map erow.strip
      unfold markedRows
      rw [List.map_append, List.map_map]
      have : erow.strip ∘ markedRow w.1 = erow.strip := rfl
      rw [this, ← List.map_append, List.take_append_drop]
    · show ((markedRows w.1 E).getD i default).hl.length = _ ∧ ∀ j,
        ((markedRows w.1 E).getD i default).hl.getD j 0 = _ ∨ _ ∧ (
        ((markedRows w.1 E).getD i default).hl.getD j 0 = _ ∨
        ((markedRows w.1 E).getD i default).hl.getD j 0 = _)
      unfold markedRows
      rw [getD_map_take]
      split
      · exact ⟨markedRow_hl_length _ _, fun j => markedRow_weak _ _ j⟩
      · exact ⟨rfl, fun j => Or.inl rfl⟩

theorem hwuc_of_word (E : editorConfig) (hnum : E.numrows ≤ E.row.length)
    (w : List Nat × Nat × Nat)
    (h : editorGetWordAtCursor (withRows E (clearedRows E)) = some (some w)) :
    editorHighlightWordUnderCursor E = some (withRows E (markedRows w.1 E)) := by
  obtain ⟨word, s, e⟩ := w
  rw [hwuc_eq, h]
  simp only
  obtain ⟨h1, h2⟩ := take_map_take clearUnderlineRow E.row E.numrows hnum
  unfold clearedRows
  rw [h1, h2, List.map_map]
  rfl

/-- A row of the document after `editorHighlightWordUnderCursor` with the
word `w` at the cursor: an entry is `HL_UNDERLINE` exactly when it lies inside
a bounded occurrence of `w` and was not protected, and a protected entry is
unchanged. -/
theorem markedRow_getD (w : List Nat) (row : erow) (hw : w ≠ [])
    (ht : ∀ c, c ∈ w → wordByte c = true) (hhl : row.hl.length = row.rsize)
    (j : Nat) (hj : j < row.rsize) :
    ((markedRow w row).hl.getD j 0 = HL_UNDERLINE ↔
        ((∃ o, wordOccurrence w row o ∧ o ≤ j ∧ j < o + w.length) ∧
          protectedHl (row.hl.getD j 0) = false)) ∧
      (protectedHl (row.hl.getD j 0) = true →
        (markedRow w row).hl.getD j 0 = row.hl.getD j 0) := by
  have hcw : cstr w = w := cstr_of_text w (fun c hc => wordByte_ne_zero c (ht c hc))
  obtain ⟨m1, m2⟩ := markRow_getD w (clearUnderlineRow row) hw hcw (row.render.length + 1) 0
    (clearUnderlineRow row).hl j (Nat.zero_le _)
    (by
      have := cstr_length_le row.render
      show (cstr row.render).length + 1 ≤ row.render.length + 1 + 0
      omega)
  have hclr := clearUnderlineRow_getD row j
  rw [if_pos ⟨hj, by omega⟩] at hclr
  have hne : (clearUnderlineRow row).hl.getD j 0 ≠ HL_UNDERLINE := by
    rw [hclr]
    split
    · decide
    · next h => exact h
  have hprot : protectedHl ((clearUnderlineRow row).hl.getD j 0)
      = protectedHl (row.hl.getD j 0) := by
    rw [hclr]
    split
    · next h => rw [h]; rfl
    · rfl
  have hlen : (clearUnderlineRow row).hl.length = row.hl.length :=
    clearUnderlineRow_hl_length row
  rw [hlen, hprot] at m1 m2
  change ((∃ o, 0 ≤ o ∧ wordOccurrence w row o ∧ o ≤ j ∧ j < o + w.length) ∧
    j < row.rsize ∧ j < row.hl.length ∧ protectedHl (row.hl.getD j 0) = false) →
      (markedRow w row).hl.getD j 0 = HL_UNDERLINE at m1
  change ¬ ((∃ o, 0 ≤ o ∧ wordOccurrence w row o ∧ o ≤ j ∧ j < o + w.length) ∧
    j < row.rsize ∧ j < row.hl.length ∧ protectedHl (row.hl.getD j 0) = false) →
      (markedRow w row).hl.getD j 0 = (clearUnderlineRow row).hl.getD j 0 at m2
  refine ⟨⟨fun hu => ?_, ?_⟩, fun hp => ?_⟩
  · by_contra hn
    have hnP : ¬ ((∃ o, 0 ≤ o ∧ wordOccurrence w row o ∧ o ≤ j ∧ j < o + w.length) ∧
        j < row.rsize ∧ j < row.hl.length ∧ protectedHl (row.hl.getD j 0) = false) := by
      rintro ⟨⟨o, -, h1, h2, h3⟩, -, -, h4⟩
      exact hn ⟨⟨o, h1, h2, h3⟩, h4⟩
    rw [m2 hnP] at hu
    exact hne hu
  · rintro ⟨⟨o, h1, h2, h3⟩, h4⟩
    exact m1 ⟨⟨o, Nat.zero_le _, h1, h2, h3⟩, hj, by omega, h4⟩
  · have hnP : ¬ ((∃ o, 0 ≤ o ∧ wordOccurrence w row o ∧ o ≤ j ∧ j < o + w.length) ∧
        j < row.rsize ∧ j < row.hl.length ∧ protectedHl (row.hl.getD j 0) = false) := by
      rintro ⟨-, -, -, h4⟩
      rw [hp] at h4
      exact Bool.noConfusion h4
    rw [m2 hnP, hclr, if_neg]
    intro hu
    rw [hu] at hp
    exact absurd hp (by decide)

/-- C30: with the cursor on a word `w` of at most 255 bytes (the bytes
`s .. e - 1` of the cursor row, the run of word bytes around the cursor column),
`editorHighlightWordUnderCursor` returns, changes nothing but highlight
entries, and in every row of the document a rendered byte is `HL_UNDERLINE`
afterwards exactly when it lies inside an occurrence of `w` in the rendered
form that is bounded on both sides by a byte that is not a word byte or by the
start or end of the row and its class before the call was not `HL_MATCH`,
`HL_COMMENT`, `HL_MLCOMMENT` or `HL_STRING`; a byte of one of these four
classes keeps its class. -/
theorem C30_word_under_cursor_marked (E : editorConfig) (r col s e : Nat)
    (hnum : E.numrows ≤ E.row.length) (hinv : hlInv E) (hr : r < E.numrows)
    (hrow : E.rowoff + E.cy = (r : Int)) (hcol : E.coloff + E.cx = (col : Int))
    (hword : isWordAt (E.row.getD r default) col s e) (hlen : e - s ≤ 255) :
    ∃ E', editorHighlightWordUnderCursor E = some E' ∧
      E'.frame = E.frame ∧ E'.row.map erow.strip = E.row.map erow.strip ∧
      ∀ i, i < E.numrows → ∀ j, j < (E.row.getD i default).rsize →
        ((E'.row.getD i default).hl.getD j 0 = HL_UNDERLINE ↔
          ((∃ o, wordOccurrence (wordAt (E.row.getD r default) s e) (E.row.getD i default) o ∧
              o ≤ j ∧ j < o + (wordAt (E.row.getD r default) s e).length) ∧
            protectedHl ((E.row.getD i default).hl.getD j 0) = false)) ∧
        (protectedHl ((E.row.getD i default).hl.getD j 0) = true →
          (E'.row.getD i default).hl.getD j 0 = (E.row.getD i default).hl.getD j 0) := by
  have hcl : ∀ i, i < E.numrows →
      (clearedRows E).getD i default = clearUnderlineRow (E.row.getD i default) := by
    intro i hi
    unfold clearedRows
    rw [getD_map_take, if_pos ⟨hi, by omega⟩]
  have hget : editorGetWordAtCursor (withRows E (clearedRows E))
      = some (some (wordAt (E.row.getD r default) s e, s, e)) := by
    have h := editorGetWordAtCursor_word (withRows E (clearedRows E)) r col s e
      (by
        show E.numrows ≤ (clearedRows E).length
        rw [clearedRows_length]
        exact hnum) hr hrow hcol
      (by
        show isWordAt ((clearedRows E).getD r default) col s e
        rw [hcl r hr]
        exact hword) hlen
    have h2 : (withRows E (clearedRows E)).row.getD r default
        = clearUnderlineRow (E.row.getD r default) := hcl r hr
    rw [h2] at h
    exact h
  have hres := hwuc_of_word E hnum _ hget
  have hpres := hwuc_preserves E _ hnum hres
  refine ⟨_, hres, hpres.1, hpres.2.2.1, fun i hi j hj => ?_⟩
  obtain ⟨ht, hne⟩ := wordAt_text _ _ _ _ hword
  have hrowi : (withRows E (markedRows (wordAt (E.row.getD r default) s e) E)).row.getD i default
      = markedRow (wordAt (E.row.getD r default) s e) (E.row.getD i default) := by
    show (markedRows (wordAt (E.row.getD r default) s e) E).getD i default = _
    unfold markedRows
    rw [getD_map_take, if_pos ⟨hi, by omega⟩]
  rw [hrowi]
  exact markedRow_getD _ _ hne ht (hinv i hi).1 j hj

/-- C30 at the rows `foo = foo1 + foo; // foo` and `"foo" foo` with the cursor
on the first `foo`. -/
theorem C30_witness :
    ∃ E', editorHighlightWordUnderCursor exWordDoc = some E' ∧
      E'.frame = exWordDoc.frame ∧ E'.row.map erow.strip = exWordDoc.row.map erow.strip ∧
      ∀ i, i < exWordDoc.numrows → ∀ j, j < (exWordDoc.row.getD i default).rsize →
        ((E'.row.getD i default).hl.getD j 0 = HL_UNDERLINE ↔
          ((∃ o, wordOccurrence (wordAt (exWordDoc.row.getD 0 default) 0 3)
                (exWordDoc.row.getD i default) o ∧
              o ≤ j ∧ j < o + (wordAt (exWordDoc.row.getD 0 default) 0 3).length) ∧
            protectedHl ((exWordDoc.row.getD i default).hl.getD j 0) = false)) ∧
        (protectedHl ((exWordDoc.row.getD i default).hl.getD j 0) = true →
          (E'.row.getD i default).hl.getD j 0 = (exWordDoc.row.getD i default).hl.getD j 0) :=
  C30_word_under_cursor_marked exWordDoc 0 1 0 3 (by decide) (by decide) (by decide)
    (by decide) (by decide) (by decide) (by decide)

/-- The marking at the example: the first and the third `foo` of the first row
and the second `foo` of the second row become `HL_UNDERLINE`; `foo1`, the
`foo` in the comment and the `foo` in the string do not. -/
theorem word_example_marks :
    (editorHighlightWordUnderCursor exWordDoc).map (fun E => E.row.map (fun r => r.hl))
      = some [[9, 9, 9, 0, 0, 0, 0, 0, 0, 0, 0, 0, 0, 9, 9, 9, 0, 0, 2, 2, 2, 2, 2, 2],
              [6, 6, 6, 6, 6, 0, 9, 9, 9]] := by
  decide!

/-- The example document of the word marking is what file loading under the
C profile and one `ARROW_RIGHT` build from the initial editor. -/
theorem word_example_reachable :
    (insertLines exInitC [bytes "foo = foo1 + foo; // foo", bytes "\"foo\" foo"]).bind
        (fun E => editorMoveCursor E ARROW_RIGHT) = some exWordDoc := by
  decide!

/-- The marking reads the rendered form as a C string: in a row that holds a
NUL byte the occurrences after it are not reached. -/
theorem word_marking_reads_c_string :
    (editorHighlightWordUnderCursor exWordNul).map (fun E => E.row.map (fun r => r.hl))
      = some [[9, 9, 9, 0, 0, 0, 0]] := by
  decide!

theorem word_nul_example_reachable :
    (insertLines exInit [[102, 111, 111, 0, 102, 111, 111]]).bind
        (fun E => editorMoveCursor E ARROW_RIGHT) = some exWordNul := by
  decide!

/-! ## The overlay of find mode -/

theorem mem_iff_getD (l : List Nat) (v : Nat) (hv : v ≠ 0) :
    v ∈ l ↔ ∃ j, l.getD j 0 = v := by
  constructor
  · intro h
    obtain ⟨k, hk, rfl⟩ := List.getElem_of_mem h
    exact ⟨k, List.getD_eq_getElem _ _ hk⟩
  · rintro ⟨j, hj⟩
    by_cases hlt : j < l.length
    · rw [List.getD_eq_getElem _ _ hlt] at hj
      rw [← hj]
      exact List.getElem_mem _
    · rw [List.getD_eq_default _ _ (by omega)] at hj
      exact absurd hj.symm hv

theorem memcpy_restore (hl s : List Nat) (n : Nat) (h1 : hl.length = n) (h2 : s.length = n) :
    memcpy hl 0 s n = s := by
  unfold memcpy
  rw [List.take_zero, List.nil_append, Nat.zero_add, List.drop_of_length_le (by omega),
    List.append_nil, List.take_of_length_le (by omega)]

theorem memcpy_save (hl : List Nat) (n : Nat) (h1 : hl.length = n) :
    memcpy (List.replicate n 0) 0 hl n = hl := by
  apply memcpy_restore
  · exact List.length_replicate _ _
  · exact h1

theorem hlInv_of_strip (E E' : editorConfig) (hn : E'.numrows = E.numrows)
    (hs : E'.row.map erow.strip = E.row.map erow.strip)
    (hl : ∀ i, (E'.row.getD i default).hl.length = (E.row.getD i default).hl.length)
    (h : hlInv E) : hlInv E' := by
  intro j hj
  rw [hn] at hj
  obtain ⟨h1, h2⟩ := h j hj
  have hst := strip_getD_eq E.row E'.row hs j
  refine ⟨?_, renderOK_of_strip _ _ hst h2⟩
  unfold hlOK at h1 ⊢
  rw [hl j, h1, strip_rsize _ _ hst]

/-- The refresh of the screen between two keys keeps the overlay: it neither
makes nor removes an `HL_MATCH` entry. -/
theorem refresh_hasMatch (E E' : editorConfig) (hnum : E.numrows ≤ E.row.length)
    (h : editorRefreshScreen E = some E') (i : Nat) :
    hasMatch (E'.row.getD i default) ↔ hasMatch (E.row.getD i default) := by
  obtain ⟨-, -, -, hp⟩ := hwuc_preserves E E' hnum h
  obtain ⟨-, hj⟩ := hp i
  unfold hasMatch
  rw [mem_iff_getD _ _ (by decide), mem_iff_getD _ _ (by decide)]
  constructor
  · rintro ⟨j, hm⟩
    rcases hj j with h1 | ⟨-, h1 | h1⟩
    · exact ⟨j, by rw [← h1]; exact hm⟩
    · rw [hm] at h1
      exact absurd h1 (by decide)
    · rw [hm] at h1
      exact absurd h1 (by decide)
  · rintro ⟨j, hm⟩
    rcases hj j with h1 | ⟨h0, -⟩
    · exact ⟨j, by rw [h1]; exact hm⟩
    · rw [hm] at h0
      exact absurd h0 (by decide)

theorem frame_cursor_eq (E E' : editorConfig) (h : E'.frame = E.frame) :
    E'.cx = E.cx ∧ E'.cy = E.cy ∧ E'.rowoff = E.rowoff ∧ E'.coloff = E.coloff ∧
      E'.numrows = E.numrows ∧ E'.screencols = E.screencols := by
  have h1 := congrArg editorConfig.cx h
  have h2 := congrArg editorConfig.cy h
  have h3 := congrArg editorConfig.rowoff h
  have h4 := congrArg editorConfig.coloff h
  have h5 := congrArg editorConfig.numrows h
  have h6 := congrArg editorConfig.screencols h
  exact ⟨h1, h2, h3, h4, h5, h6⟩

/-- The refresh of the screen returns and keeps the invariant of the loop. -/
theorem refresh_inv (fs : findState) (E : editorConfig) (hJ : findInv fs E) :
    ∃ E', editorRefreshScreen E = some E' ∧ findInv fs E' ∧
      E'.cx = E.cx ∧ E'.cy = E.cy ∧ E'.rowoff = E.rowoff ∧ E'.coloff = E.coloff := by
  obtain ⟨⟨hnum, hinv, hov⟩, c1, c2, m1, m2, fn⟩ := hJ
  obtain ⟨E', hE'⟩ := hwuc_isSome E hnum c1 c2
  obtain ⟨hf, hlen, hstrip, hp⟩ := hwuc_preserves E E' hnum hE'
  obtain ⟨f1, f2, f3, f4, f5, -⟩ := frame_cursor_eq E E' hf
  have hm := refresh_hasMatch E E' hnum hE'
  refine ⟨E', hE', ⟨⟨by rw [f5, hlen]; exact hnum, ?_, ?_⟩, by rw [f3, f2]; exact c1,
    by rw [f4, f1]; exact c2, m1, by rw [f5]; exact m2, fn⟩, f1, f2, f3, f4⟩
  · exact hlInv_of_strip E E' f5 hstrip (fun i => (hp i).1) hinv
  · rcases hov with ⟨h1, h2⟩ | ⟨s, h1, h2, h3, h4, h5, h6⟩
    · left
      refine ⟨h1, fun i hi => ?_⟩
      rw [hm i]
      exact h2 i (by rw [← f5]; exact hi)
    · right
      refine ⟨s, h1, h2, by rw [f5]; exact h3, ?_, h5, fun i hi hne => ?_⟩
      · rw [h4]
        exact (strip_rsize _ _ (strip_getD_eq E.row E'.row hstrip _)).symm
      · rw [hm i]
        exact h6 i (by rw [← f5]; exact hi) hne

/-- The block `FIND_RESTORE_HL` under the invariant: it returns, and
afterwards nothing is saved and no row carries `HL_MATCH`. -/
theorem restore_inv (fs : findState) (E : editorConfig) (h : overlayInv fs E) :
    ∃ E3, FIND_RESTORE_HL fs E = some ({ fs with saved_hl := none }, E3) ∧
      E3.cx = E.cx ∧ E3.cy = E.cy ∧ E3.rowoff = E.rowoff ∧ E3.coloff = E.coloff ∧
      E3.numrows = E.numrows ∧ E3.row.length = E.row.length ∧
      E3.screencols = E.screencols ∧ hlInv E3 ∧ noMatchRows E3 := by
  obtain ⟨hnum, hinv, hov⟩ := h
  have hsaved : savedOK fs E := by
    rcases hov with ⟨h1, -⟩ | ⟨s, h1, h2, h3, -⟩
    · exact Or.inl h1
    · exact Or.inr ⟨h2, by omega⟩
  obtain ⟨E3, hE3, c1, c2, c3, c4, c5, c6, c7, -, hnone, hsome⟩ :=
    FIND_RESTORE_HL_spec fs E hsaved
  refine ⟨E3, hE3, c1, c2, c3, c4, c5, c6, c7, ?_⟩
  rcases hov with ⟨h1, h2⟩ | ⟨s, h1, h2, h3, h4, h5, h6⟩
  · rw [hnone h1]
    exact ⟨hinv, h2⟩
  · have hE := hsome s h1
    have hok := (hinv _ h3).1
    unfold hlOK at hok
    rw [memcpy_restore _ _ _ hok h4] at hE
    have hrow : ∀ i, E3.row.getD i default =
        if i = fs.saved_hl_line.toNat then
          { E.row.getD fs.saved_hl_line.toNat default with hl := s }
        else E.row.getD i default := by
      intro i
      rw [hE]
      show (E.row.set _ _).getD i default = _
      by_cases hi : i = fs.saved_hl_line.toNat
      · rw [if_pos hi, hi, getD_set_self _ _ _ (by omega)]
      · rw [if_neg hi, getD_set_ne _ _ _ _ (fun h => hi h.symm)]
    constructor
    · intro i hi
      rw [c5] at hi
      rw [hrow i]
      split
      · next he =>
        exact ⟨h4, (hinv _ h3).2⟩
      · exact hinv i hi
    · intro i hi
      rw [c5] at hi
      rw [hrow i]
      split
      · exact h5
      · next hne => exact h6 i hi hne

theorem findSearch_idle (fs : findState) (E : editorConfig) (h1 : fs.last_match ≠ -1)
    (h2 : fs.find_next = 0) : findSearch fs E = some (fs, E) := by
  unfold findSearch
  simp only [if_neg h1, h2, ne_eq, not_true_eq_false, if_false]

theorem noMatch_of_nil (row : erow) (h : row.hl = []) : ¬ hasMatch row := by
  unfold hasMatch
  rw [h]
  exact List.not_mem_nil _

/-- The part `Search occurrence` of the loop keeps the invariant. -/
theorem findSearch_inv (fs : findState) (E : editorConfig) (hJ : findInv fs E) :
    ∃ fs' E', findSearch fs E = some (fs', E') ∧ findInv fs' E' ∧
      fs'.saved_cx = fs.saved_cx ∧ fs'.saved_cy = fs.saved_cy ∧
      fs'.saved_coloff = fs.saved_coloff ∧ fs'.saved_rowoff = fs.saved_rowoff := by
  by_cases hidle : fs.last_match ≠ -1 ∧ fs.find_next = 0
  · exact ⟨fs, E, findSearch_idle fs E hidle.1 hidle.2, hJ, rfl, rfl, rfl, rfl⟩
  · obtain ⟨hov, c1, c2, m1, m2, fn⟩ := hJ
    have hnum := hov.1
    have hdir : searchDir fs = 1 ∨ searchDir fs = -1 := by
      unfold searchDir
      by_cases hm : fs.last_match = -1
      · rw [if_pos hm]
        exact Or.inl rfl
      · rw [if_neg hm]
        rcases fn with h | h | h
        · exact absurd ⟨hm, h⟩ hidle
        · exact Or.inl h
        · exact Or.inr h
    have hsaved : savedOK fs E := by
      rcases hov.2.2 with ⟨h1, -⟩ | ⟨s, h1, h2, h3, -⟩
      · exact Or.inl h1
      · exact Or.inr ⟨h2, by omega⟩
    obtain ⟨E3, hE3, -, hsearch⟩ := findSearch_eq fs E hnum m1 m2 hdir hsaved
    obtain ⟨E3', hE3', d1, d2, d3, d4, d5, d6, d7, hinv3, hno3⟩ := restore_inv fs E hov
    have hEE : E3' = E3 := by
      rw [hE3] at hE3'
      simp only [Option.some.injEq, Prod.mk.injEq, true_and] at hE3'
      exact hE3'.symm
    subst hEE
    rw [hsearch]
    cases hfh : firstHit E fs.query (scanOrder E.numrows fs.last_match (searchDir fs)) with
    | none =>
      simp only
      refine ⟨_, _, rfl, ⟨⟨⟨by rw [d5, d6]; exact hnum, hinv3, Or.inl ⟨rfl, hno3⟩⟩,
        by rw [d3, d2]; exact c1, by rw [d4, d1]; exact c2, m1, by rw [d5]; exact m2,
        Or.inl rfl⟩, rfl, rfl, rfl, rfl⟩⟩
    | some hit =>
      obtain ⟨r, off⟩ := hit
      simp only
      obtain ⟨pre, post, hord, -, -⟩ := firstHit_first E fs.query _ r off hfh
      have hr : r < E.numrows := by
        apply scanOrder_lt E.numrows fs.last_match (searchDir fs) r
        rw [hord]
        exact List.mem_append_right _ (List.mem_cons_self _ _)
      obtain ⟨fs', E', hhit, e1, -, e3, e4, e5, e6, e7, e8, e9, e10, e11, e12, -, -, hnil, hcons⟩ :=
        findHit_spec { fs with find_next := 0, saved_hl := none } E3' fs.query.length r off
          (by rw [d6]; omega)
      refine ⟨fs', E', hhit, ⟨⟨⟨by rw [e11, e12, d5, d6]; exact hnum, ?_, ?_⟩,
        by rw [e8, e9]; omega, by rw [e10]; omega, by rw [e1]; omega,
        by rw [e1, e11, d5]; omega, Or.inl e3⟩, e4, e5, e6, e7⟩⟩
      · -- the highlight arrays keep their lengths
        by_cases hhl : (E3'.row.getD r default).hl = []
        · obtain ⟨-, -, hrows⟩ := hnil hhl
          intro i hi
          rw [hrows]
          exact hinv3 i (by rw [← e11]; exact hi)
        · obtain ⟨-, -, hrows⟩ := hcons hhl
          intro i hi
          rw [hrows]
          by_cases hir : i = r
          · subst hir
            rw [getD_set_self _ _ _ (by rw [d6]; omega)]
            have := hinv3 i (by rw [← e11]; exact hi)
            refine ⟨?_, this.2⟩
            show (memset _ _ _ _).length = _
            rw [memset_length]
            exact this.1
          · rw [getD_set_ne _ _ _ _ (fun h => hir h.symm)]
            exact hinv3 i (by rw [← e11]; exact hi)
      · by_cases hhl : (E3'.row.getD r default).hl = []
        · obtain ⟨hs1, -, hrows⟩ := hnil hhl
          left
          refine ⟨hs1, fun i hi => ?_⟩
          rw [hrows]
          exact hno3 i (by rw [← e11]; exact hi)
        · obtain ⟨hs1, hs2, hrows⟩ := hcons hhl
          right
          have hok := (hinv3 r (by rw [d5]; exact hr)).1
          unfold hlOK at hok
          rw [memcpy_save _ _ hok] at hs1
          refine ⟨_, hs1, by rw [hs2]; omega, by rw [hs2, e11, d5]; exact hr, ?_, ?_, ?_⟩
          · rw [hs2, hrows]
            simp only [Int.toNat_ofNat]
            rw [getD_set_self _ _ _ (by rw [d6]; omega)]
            exact hok
          · exact hno3 r (by rw [d5]; exact hr)
          · intro i hi hne
            rw [hs2] at hne
            simp only [Int.toNat_ofNat] at hne
            rw [hrows, getD_set_ne _ _ _ _ (fun h => hne h.symm)]
            exact hno3 i (by rw [← e11]; exact hi)

theorem findInv_update (fs fs1 : findState) (E : editorConfig) (hJ : findInv fs E)
    (hs : fs1.saved_hl = fs.saved_hl) (hl : fs1.saved_hl_line = fs.saved_hl_line)
    (hm : fs1.last_match = fs.last_match ∨ fs1.last_match = -1)
    (hf : fs1.find_next = 0 ∨ fs1.find_next = 1 ∨ fs1.find_next = -1) : findInv fs1 E := by
  obtain ⟨⟨hnum, hinv, hov⟩, c1, c2, m1, m2, -⟩ := hJ
  refine ⟨⟨hnum, hinv, ?_⟩, c1, c2, ?_, ?_, hf⟩
  · rw [hs, hl]
    exact hov
  · rcases hm with h | h
    · rw [h]
      exact m1
    · rw [h]
  · rcases hm with h | h
    · rw [h]
      exact m2
    · rw [h]
      omega

theorem overlayInv_of_rows (fs : findState) (E E' : editorConfig)
    (hn : E'.numrows = E.numrows) (hr : E'.row = E.row) (h : overlayInv fs E) :
    overlayInv fs E' := by
  unfold overlayInv hlInv noMatchRows at h ⊢
  rw [hn, hr]
  exact h

theorem atMostOne_of_overlayInv (fs : findState) (E : editorConfig) (h : overlayInv fs E) :
    atMostOneMatchRow E := by
  intro i hi j hj h1 h2
  rcases h.2.2 with ⟨-, hno⟩ | ⟨s, -, -, -, -, -, hother⟩
  · exact absurd h1 (hno i hi)
  · have e1 : i = fs.saved_hl_line.toNat := by
      by_contra hne
      exact hother i hi hne h1
    have e2 : j = fs.saved_hl_line.toNat := by
      by_contra hne
      exact hother j hj hne h2
    rw [e1, e2]

/-- A key other than `ESC` and `ENTER`: the loop goes on and its invariant
holds again. -/
theorem editorFindKey_running (fs : findState) (E : editorConfig) (c : Int)
    (hJ : findInv fs E) (h1 : c ≠ ESC) (h2 : c ≠ ENTER) :
    ∃ fs' E', editorFindKey fs E c = some (findStep.running fs' E') ∧ findInv fs' E' ∧
      fs'.saved_cx = fs.saved_cx ∧ fs'.saved_cy = fs.saved_cy ∧
      fs'.saved_coloff = fs.saved_coloff ∧ fs'.saved_rowoff = fs.saved_rowoff := by
  have hJ1 : findInv fs (editorSetStatusMessage E
      (bytes "Search: " ++ fs.query ++ bytes " (Use ESC/Arrows/Enter)")) := hJ
  obtain ⟨E2, hE2, hJ2, -⟩ := refresh_inv fs _ hJ1
  have key : ∀ fs1 : findState, fs1.saved_hl = fs.saved_hl →
      fs1.saved_hl_line = fs.saved_hl_line →
      (fs1.last_match = fs.last_match ∨ fs1.last_match = -1) →
      (fs1.find_next = 0 ∨ fs1.find_next = 1 ∨ fs1.find_next = -1) →
      fs1.saved_cx = fs.saved_cx → fs1.saved_cy = fs.saved_cy →
      fs1.saved_coloff = fs.saved_coloff → fs1.saved_rowoff = fs.saved_rowoff →
      ∃ fs' E', (match findSearch fs1 E2 with
          | none => none
          | some (fs2, E3) => some (findStep.running fs2 E3))
            = some (findStep.running fs' E') ∧ findInv fs' E' ∧
        fs'.saved_cx = fs.saved_cx ∧ fs'.saved_cy = fs.saved_cy ∧
        fs'.saved_coloff = fs.saved_coloff ∧ fs'.saved_rowoff = fs.saved_rowoff := by
    intro fs1 a1 a2 a3 a4 a5 a6 a7 a8
    obtain ⟨fs', E', hs, hJ', b1, b2, b3, b4⟩ :=
      findSearch_inv fs1 E2 (findInv_update fs fs1 E2 hJ2 a1 a2 a3 a4)
    refine ⟨fs', E', ?_, hJ', by rw [b1, a5], by rw [b2, a6], by rw [b3, a7], by rw [b4, a8]⟩
    rw [hs]
  unfold editorFindKey
  simp only
  rw [hE2]
  simp only
  have hfn := hJ.2.2.2.2.2
  by_cases hdel : c = DEL_KEY ∨ c = CTRL_H ∨ c = BACKSPACE
  · rw [if_pos hdel]
    exact key _ rfl rfl (Or.inr rfl) hfn rfl rfl rfl rfl
  · rw [if_neg hdel, if_neg (by
      intro h
      rcases h with h | h
      · exact h1 h
      · exact h2 h)]
    by_cases hr : c = ARROW_RIGHT ∨ c = ARROW_DOWN
    · rw [if_pos hr]
      exact key _ rfl rfl (Or.inl rfl) (Or.inr (Or.inl rfl)) rfl rfl rfl rfl
    · rw [if_neg hr]
      by_cases hl : c = ARROW_LEFT ∨ c = ARROW_UP
      · rw [if_pos hl]
        exact key _ rfl rfl (Or.inl rfl) (Or.inr (Or.inr rfl)) rfl rfl rfl rfl
      · rw [if_neg hl]
        by_cases hp : 32 ≤ c ∧ c ≤ 126
        · rw [if_pos hp]
          by_cases hq : fs.query.length < KILO_QUERY_LEN
          · rw [if_pos hq]
            exact key _ rfl rfl (Or.inr rfl) hfn rfl rfl rfl rfl
          · rw [if_neg hq]
            exact key _ rfl rfl (Or.inl rfl) hfn rfl rfl rfl rfl
        · rw [if_neg hp]
          exact key _ rfl rfl (Or.inl rfl) hfn rfl rfl rfl rfl

/-- The key `ESC` or `ENTER`: the function returns, no row carries `HL_MATCH`,
and after `ESC` the cursor is the saved one. -/
theorem editorFindKey_done (fs : findState) (E : editorConfig) (c : Int)
    (hJ : findInv fs E) (hc : c = ESC ∨ c = ENTER) :
    ∃ E', editorFindKey fs E c = some (findStep.done E') ∧ noMatchRows E' ∧
      (c = ESC → E'.cx = fs.saved_cx ∧ E'.cy = fs.saved_cy ∧
        E'.rowoff = fs.saved_rowoff ∧ E'.coloff = fs.saved_coloff) := by
  have hJ1 : findInv fs (editorSetStatusMessage E
      (bytes "Search: " ++ fs.query ++ bytes " (Use ESC/Arrows/Enter)")) := hJ
  obtain ⟨E2, hE2, hJ2, -⟩ := refresh_inv fs _ hJ1
  unfold editorFindKey
  simp only
  rw [hE2]
  simp only
  rw [if_neg (by
    rcases hc with h | h <;> rw [h] <;> decide), if_pos hc]
  by_cases hesc : c = ESC
  · rw [if_pos hesc]
    obtain ⟨E4, hE4, d1, d2, d3, d4, -, -, -, -, hno⟩ := restore_inv fs
      { E2 with cx := fs.saved_cx, cy := fs.saved_cy, coloff := fs.saved_coloff, rowoff := fs.saved_rowoff }
      (overlayInv_of_rows fs E2 _ rfl rfl hJ2.1)
    rw [hE4]
    exact ⟨_, rfl, hno, fun _ => ⟨d1, d2, d3, d4⟩⟩
  · rw [if_neg hesc]
    obtain ⟨E4, hE4, -, -, -, -, -, -, -, -, hno⟩ := restore_inv fs E2 hJ2.1
    rw [hE4]
    exact ⟨_, rfl, hno, fun h => absurd h hesc⟩

/-- The loop of `editorFind` on a list of keys, from a state in which its
invariant holds. -/
theorem editorFindKeys_spec :
    ∀ (keys : List Int) (fs : findState) (E : editorConfig), findInv fs E →
      ∃ st, editorFindKeys fs E keys = some st ∧
        (∀ fs' E', st = findStep.running fs' E' → findInv fs' E') ∧
        (∀ E', st = findStep.done E' → noMatchRows E') ∧
        (∀ pre post, keys = pre ++ ESC :: post → (∀ k, k ∈ pre → k ≠ ESC ∧ k ≠ ENTER) →
          ∃ E', st = findStep.done E' ∧ E'.cx = fs.saved_cx ∧ E'.cy = fs.saved_cy ∧
            E'.rowoff = fs.saved_rowoff ∧ E'.coloff = fs.saved_coloff) ∧
        (∀ pre post, keys = pre ++ ENTER :: post → (∀ k, k ∈ pre → k ≠ ESC ∧ k ≠ ENTER) →
          ∃ E', st = findStep.done E') ∧
        ((∀ k, k ∈ keys → k ≠ ESC ∧ k ≠ ENTER) → ∃ fs' E', st = findStep.running fs' E')
  | [], fs, E, hJ => by
    refine ⟨findStep.running fs E, rfl, ?_, ?_, ?_, ?_, fun _ => ⟨fs, E, rfl⟩⟩
    · intro fs' E' h
      simp only [findStep.running.injEq] at h
      rw [← h.1, ← h.2]
      exact hJ
    · intro E' h
      exact findStep.noConfusion h
    · intro pre post h
      cases pre <;> exact List.noConfusion h
    · intro pre post h
      cases pre <;> exact List.noConfusion h
  | c :: cs, fs, E, hJ => by
    by_cases hc : c = ESC ∨ c = ENTER
    · obtain ⟨E', hE', hno, hcur⟩ := editorFindKey_done fs E c hJ hc
      have hst : editorFindKeys fs E (c :: cs) = some (findStep.done E') := by
        unfold editorFindKeys
        rw [hE']
      refine ⟨_, hst, ?_, ?_, ?_, ?_, ?_⟩
      · intro fs' E'' h
        exact findStep.noConfusion h
      · intro E'' h
        simp only [findStep.done.injEq] at h
        rw [← h]
        exact hno
      · intro pre post h hpre
        cases pre with
        | nil =>
          simp only [List.nil_append, List.cons.injEq] at h
          exact ⟨E', rfl, hcur h.1⟩
        | cons a t =>
          simp only [List.cons_append, List.cons.injEq] at h
          have := hpre a (List.mem_cons_self _ _)
          rw [← h.1] at this
          rcases hc with hc | hc
          · exact absurd hc this.1
          · exact absurd hc this.2
      · intro pre post h hpre
        exact ⟨E', rfl⟩
      · intro h
        have := h c (List.mem_cons_self _ _)
        rcases hc with hc | hc
        · exact absurd hc this.1
        · exact absurd hc this.2
    · have h1 : c ≠ ESC := fun h => hc (Or.inl h)
      have h2 : c ≠ ENTER := fun h => hc (Or.inr h)
      obtain ⟨fs1, E1, hE1, hJ1, s1, s2, s3, s4⟩ := editorFindKey_running fs E c hJ h1 h2
      obtain ⟨st, hst, r1, r2, r3, r4, r5⟩ := editorFindKeys_spec cs fs1 E1 hJ1
      have hst2 : editorFindKeys fs E (c :: cs) = some st := by
        rw [← hst]
        conv => lhs; unfold editorFindKeys
        rw [hE1]
      refine ⟨st, hst2, r1, r2, ?_, ?_, ?_⟩
      · intro pre post h hpre
        cases pre with
        | nil =>
          simp only [List.nil_append, List.cons.injEq] at h
          exact absurd h.1 h1
        | cons a t =>
          simp only [List.cons_append, List.cons.injEq] at h
          obtain ⟨E', e1, e2, e3, e4, e5⟩ :=
            r3 t post h.2 (fun k hk => hpre k (List.mem_cons_of_mem _ hk))
          exact ⟨E', e1, by rw [e2, s1], by rw [e3, s2], by rw [e4, s4], by rw [e5, s3]⟩
      · intro pre post h hpre
        cases pre with
        | nil =>
          simp only [List.nil_append, List.cons.injEq] at h
          exact absurd h.1 h2
        | cons a t =>
          simp only [List.cons_append, List.cons.injEq] at h
          exact r4 t post h.2 (fun k hk => hpre k (List.mem_cons_of_mem _ hk))
      · intro h
        exact r5 (fun k hk => h k (List.mem_cons_of_mem _ hk))

/-- C29: when no byte of any row is `HL_MATCH` at the entry of `editorFind`,
then for every list of keys the function handles them all; while it is still
in its loop at most one row carries `HL_MATCH` bytes; when it has returned
(after `ESC` or `ENTER`) no byte of any row is `HL_MATCH`; after `ESC` the
fields `cx`, `cy`, `rowoff` and `coloff` have the values of the entry; and the
function returns exactly at the first `ESC` or `ENTER`. -/
theorem C29_search_overlay_is_transient (E : editorConfig) (keys : List Int)
    (hnum : E.numrows ≤ E.row.length) (hinv : hlInv E) (hrow : 0 ≤ E.rowoff + E.cy)
    (hcol : 0 ≤ E.coloff + E.cx) (hno : noMatchRows E) :
    ∃ st, editorFind E keys = some st ∧
      (∀ fs' E', st = findStep.running fs' E' → atMostOneMatchRow E') ∧
      (∀ E', st = findStep.done E' → noMatchRows E') ∧
      (∀ pre post, keys = pre ++ ESC :: post → (∀ k, k ∈ pre → k ≠ ESC ∧ k ≠ ENTER) →
        ∃ E', st = findStep.done E' ∧ E'.cx = E.cx ∧ E'.cy = E.cy ∧
          E'.rowoff = E.rowoff ∧ E'.coloff = E.coloff) ∧
      (∀ pre post, keys = pre ++ ENTER :: post → (∀ k, k ∈ pre → k ≠ ESC ∧ k ≠ ENTER) →
        ∃ E', st = findStep.done E') ∧
      ((∀ k, k ∈ keys → k ≠ ESC ∧ k ≠ ENTER) → ∃ fs' E', st = findStep.running fs' E') := by
  have hJ : findInv
      { saved_cx := E.cx, saved_cy := E.cy, saved_coloff := E.coloff, saved_rowoff := E.rowoff }
      E :=
    ⟨⟨hnum, hinv, Or.inl ⟨rfl, hno⟩⟩, hrow, hcol, Int.le_refl _, by
      show (-1 : Int) < E.numrows
      omega, Or.inl rfl⟩
  obtain ⟨st, hst, r1, r2, r3, r4, r5⟩ := editorFindKeys_spec keys _ E hJ
  refine ⟨st, hst, fun fs' E' h => ?_, r2, r3, r4, r5⟩
  exact atMostOne_of_overlayInv fs' E' (r1 fs' E' h).1

/-- C29 at the document `x`, `a`, `x` with the keys `x`, `ARROW_DOWN` and
`ESC`. -/
theorem C29_witness :
    ∃ st, editorFind exFindDoc [120, ARROW_DOWN, ESC] = some st ∧
      (∀ fs' E', st = findStep.running fs' E' → atMostOneMatchRow E') ∧
      (∀ E', st = findStep.done E' → noMatchRows E') ∧
      (∀ pre post, [120, ARROW_DOWN, ESC] = pre ++ ESC :: post →
        (∀ k, k ∈ pre → k ≠ ESC ∧ k ≠ ENTER) →
        ∃ E', st = findStep.done E' ∧ E'.cx = exFindDoc.cx ∧ E'.cy = exFindDoc.cy ∧
          E'.rowoff = exFindDoc.rowoff ∧ E'.coloff = exFindDoc.coloff) ∧
      (∀ pre post, [120, ARROW_DOWN, ESC] = pre ++ ENTER :: post →
        (∀ k, k ∈ pre → k ≠ ESC ∧ k ≠ ENTER) → ∃ E', st = findStep.done E') ∧
      ((∀ k, k ∈ [120, ARROW_DOWN, ESC] → k ≠ ESC ∧ k ≠ ENTER) →
        ∃ fs' E', st = findStep.running fs' E') :=
  C29_search_overlay_is_transient exFindDoc [120, ARROW_DOWN, ESC] (by decide) (by decide)
    (by decide) (by decide) (by decide)

/-- The overlay at the document `x`, `a`, `x`: after the key `x` the first row
carries `HL_MATCH`, after `ARROW_DOWN` only the third row does, and after `ESC`
or `ENTER` no row does; `ESC` puts the cursor back on the second row, `ENTER`
leaves it on the match. -/
theorem find_overlay_example :
    (editorFind exFindDoc [120]).map
        (fun st => (st.returned, st.state.row.map (fun r => r.hl)))
      = some (false, [[8], [9], [0]]) ∧
    (editorFind exFindDoc [120, ARROW_DOWN]).map
        (fun st => (st.returned, st.state.row.map (fun r => r.hl)))
      = some (false, [[0], [0], [8]]) ∧
    (editorFind exFindDoc [120, ARROW_DOWN, ESC]).map
        (fun st => (st.returned, st.state.row.map (fun r => r.hl), st.state.cx, st.state.cy,
          st.state.rowoff, st.state.coloff))
      = some (true, [[9], [0], [9]], 0, 1, 0, 0) ∧
    (editorFind exFindDoc [120, ARROW_DOWN, ENTER]).map
        (fun st => (st.returned, st.state.row.map (fun r => r.hl), st.state.cx, st.state.cy,
          st.state.rowoff, st.state.coloff))
      = some (true, [[9], [0], [9]], 0, 0, 2, 0) := by
  refine ⟨?_, ?_, ?_, ?_⟩
  · decide!
  · decide!
  · decide!
  · decide!

/-! ## Colours, tab rendering, profile selection -/

/-- C36: `editorSyntaxToColor` gives 37 for `HL_NORMAL`, 36 for `HL_COMMENT`
and `HL_MLCOMMENT`, 33 for `HL_KEYWORD1`, 32 for `HL_KEYWORD2`, 35 for
`HL_STRING`, 31 for `HL_NUMBER`, 34 for `HL_MATCH`, and 37 for every other
value, `HL_NONPRINT` and `HL_UNDERLINE` among them. -/
theorem C36_syntax_to_color :
    editorSyntaxToColor HL_NORMAL = 37 ∧ editorSyntaxToColor HL_COMMENT = 36 ∧
      editorSyntaxToColor HL_MLCOMMENT = 36 ∧ editorSyntaxToColor HL_KEYWORD1 = 33 ∧
      editorSyntaxToColor HL_KEYWORD2 = 32 ∧ editorSyntaxToColor HL_STRING = 35 ∧
      editorSyntaxToColor HL_NUMBER = 31 ∧ editorSyntaxToColor HL_MATCH = 34 ∧
      editorSyntaxToColor HL_NONPRINT = 37 ∧ editorSyntaxToColor HL_UNDERLINE = 37 ∧
      ∀ hl : Int, hl ≠ HL_COMMENT → hl ≠ HL_MLCOMMENT → hl ≠ HL_KEYWORD1 → hl ≠ HL_KEYWORD2 →
        hl ≠ HL_STRING → hl ≠ HL_NUMBER → hl ≠ HL_MATCH → editorSyntaxToColor hl = 37 := by
  refine ⟨by decide, by decide, by decide, by decide, by decide, by decide, by decide,
    by decide, by decide, by decide, ?_⟩
  intro hl h2 h3 h4 h5 h6 h7 h8
  unfold editorSyntaxToColor
  rw [if_neg (by
    intro h
    rcases h with h | h
    · exact h2 h
    · exact h3 h), if_neg h4, if_neg h5, if_neg h6, if_neg h7, if_neg h8]
  split <;> rfl

/-- C35: with no profile active, `editorUpdateRow` on the row of the test
`test_editorUpdateRow_tab_expansion` (raw content one tab) gives a rendered
form of 7 spaces and `rsize == 7`, not `TAB_SIZE`. -/
theorem C35_tab_row_renders_seven_not_tab_size :
    exTabRow.esyntax = none ∧ (exTabRow.row.getD 0 default).raw = [TAB] ∧
      (editorUpdateRow exTabRow 0).map
          (fun E => ((E.row.getD 0 default).rsize, (E.row.getD 0 default).render))
        = some (7, List.replicate 7 32) ∧
      (7 : Nat) ≠ TAB_SIZE := by
  refine ⟨rfl, by decide, by decide, by decide⟩

/-- A pattern that does not start with a dot selects the profile exactly when
it occurs in the file name. -/
theorem patternSelects_plain (filename pat : List Nat) (h : pat.getD 0 0 ≠ 46) :
    patternSelects filename pat = true ↔ cstr pat <:+: cstr filename := by
  rw [← strstr_isSome_iff]
  unfold patternSelects
  cases hs : strstr filename pat with
  | none => simp
  | some off =>
    simp only [Option.isSome_some, iff_true, Bool.or_eq_true, bne_iff_ne, ne_eq]
    exact Or.inl h

/-- A pattern that starts with a dot selects the profile exactly when its
first occurrence in the file name ends the file name. -/
theorem patternSelects_dot (filename pat : List Nat) (h : pat.getD 0 0 = 46)
    (hf : ∀ c, c ∈ filename → c ≠ 0) (hp : ∀ c, c ∈ pat → c ≠ 0) :
    patternSelects filename pat = true ↔
      ∃ off, strstrFrom pat filename = some off ∧ off + pat.length = filename.length := by
  unfold patternSelects strstr
  rw [cstr_of_text _ hf, cstr_of_text _ hp]
  cases hs : strstrFrom pat filename with
  | none => simp
  | some off =>
    obtain ⟨hpre, -, -⟩ := strstrFrom_some pat filename off hs
    have hlen := hpre.length_le
    rw [List.length_drop] at hlen
    have hpos : 0 < pat.length := by
      by_contra hn
      have : pat = [] := List.length_eq_zero.mp (by omega)
      rw [this] at h
      exact absurd h (by decide)
    simp only [Bool.or_eq_true, bne_iff_ne, ne_eq, beq_iff_eq, Option.some.injEq,
      exists_eq_left', h, not_true_eq_false, false_or]
    constructor
    · intro hz
      by_contra hne
      have hlt : off + pat.length < filename.length := by omega
      rw [List.getD_eq_getElem _ _ hlt] at hz
      exact hf _ (List.getElem_mem _) hz
    · intro he
      exact List.getD_eq_default _ _ (by omega)

/-- C34: a pattern that starts with a dot is tested at its first occurrence
only.  The file name `foo.config.c` ends with `.c`, the first pattern of the C
profile, yet `editorSelectSyntaxHighlight` selects no profile for it, because
the first `.c` in the name is the one of `.config`; for `foo.c` it selects the
C profile. -/
theorem C34_dot_pattern_tested_at_first_occurrence :
    bytes ".c" ∈ HLDB_C.filematch ∧ bytes ".c" <:+ bytes "foo.config.c" ∧
      editorConfig.esyntax (editorSelectSyntaxHighlight exInit (bytes "foo.config.c")) = none ∧
      editorConfig.esyntax (editorSelectSyntaxHighlight exInit (bytes "foo.c")) = some HLDB_C := by
  refine ⟨by decide, by decide, by decide, by decide⟩

/-! ## Key decoding -/

theorem readFirst_timeouts (n : Nat) (l : List readResult) :
    readFirst (List.replicate n readResult.timeout ++ l) = readFirst l := by
  induction n with
  | zero => rfl
  | succ n ih =>
    rw [List.replicate_succ, List.cons_append, readFirst]
    exact ih

theorem editorReadKey_byte (signedChar : Bool) (n b : Nat) (rest : List readResult)
    (hb : b ≠ 27) :
    editorReadKey signedChar (List.replicate n readResult.timeout ++ readResult.byte b :: rest)
      = some (charValue signedChar b, rest) := by
  unfold editorReadKey
  rw [readFirst_timeouts]
  simp [readFirst, hb]

theorem editorReadKey_escape (signedChar : Bool) (n : Nat) (rest : List readResult) :
    editorReadKey signedChar (List.replicate n readResult.timeout ++ readResult.byte 27 :: rest)
      = readEscape rest := by
  unfold editorReadKey
  rw [readFirst_timeouts]
  simp [readFirst]

theorem charValue_ascii (signedChar : Bool) (b : Nat) (h : b < 128) :
    charValue signedChar b = (b : Int) := by
  unfold charValue
  rw [if_neg]
  simp only [Bool.and_eq_true, decide_eq_true_eq, not_and]
  intro _
  omega

/-- C31: `editorReadKey` skips the timeouts before the first byte; a first
byte other than `ESC` is returned as the value of that byte in a `char` (the
byte itself when it is below 128 or `char` is unsigned); `ESC` and a timeout
give `ESC`, also when the timeout comes after the second byte; `ESC u` gives
`UNDO_KEY`; `ESC [` and one of `A B C D H F` give `ARROW_UP`, `ARROW_DOWN`,
`ARROW_RIGHT`, `ARROW_LEFT`, `HOME_KEY`, `END_KEY`; `ESC [ d ~` with `d` one
of 1, 3, 4, 5, 6, 7, 8 gives `HOME_KEY`, `DEL_KEY`, `END_KEY`, `PAGE_UP`,
`PAGE_DOWN`, `HOME_KEY`, `END_KEY`; `ESC O H` and `ESC O F` give `HOME_KEY` and
`END_KEY`.  In each case the bytes after the sequence are left for the next
call. -/
theorem C31_key_decoding (signedChar : Bool) (n : Nat) (rest : List readResult) :
    (∀ b, b ≠ 27 →
      editorReadKey signedChar (List.replicate n readResult.timeout ++ readResult.byte b :: rest)
        = some (charValue signedChar b, rest)) ∧
    (∀ b, b < 128 → charValue signedChar b = (b : Int)) ∧
    (∀ b, charValue false b = (b : Int)) ∧
    (∀ seq key, (seq, key) ∈
        [([readResult.timeout], ESC),
         ([readResult.byte 117], UNDO_KEY),
         ([readResult.byte 91, readResult.timeout], ESC),
         ([readResult.byte 79, readResult.timeout], ESC),
         ([readResult.byte 91, readResult.byte 49, readResult.timeout], ESC),
         ([readResult.byte 91, readResult.byte 65], ARROW_UP),
         ([readResult.byte 91, readResult.byte 66], ARROW_DOWN),
         ([readResult.byte 91, readResult.byte 67], ARROW_RIGHT),
         ([readResult.byte 91, readResult.byte 68], ARROW_LEFT),
         ([readResult.byte 91, readResult.byte 72], HOME_KEY),
         ([readResult.byte 91, readResult.byte 70], END_KEY),
         ([readResult.byte 91, readResult.byte 49, readResult.byte 126], HOME_KEY),
         ([readResult.byte 91, readResult.byte 51, readResult.byte 126], DEL_KEY),
         ([readResult.byte 91, readResult.byte 52, readResult.byte 126], END_KEY),
         ([readResult.byte 91, readResult.byte 53, readResult.byte 126], PAGE_UP),
         ([readResult.byte 91, readResult.byte 54, readResult.byte 126], PAGE_DOWN),
         ([readResult.byte 91, readResult.byte 55, readResult.byte 126], HOME_KEY),
         ([readResult.byte 91, readResult.byte 56, readResult.byte 126], END_KEY),
         ([readResult.byte 79, readResult.byte 72], HOME_KEY),
         ([readResult.byte 79, readResult.byte 70], END_KEY)] →
      editorReadKey signedChar
          (List.replicate n readResult.timeout ++ readResult.byte 27 :: (seq ++ rest))
        = some (key, rest)) ∧
    (∀ s0, s0 ≠ 117 →
      editorReadKey signedChar
          (List.replicate n readResult.timeout ++
            readResult.byte 27 :: readResult.byte s0 :: readResult.timeout :: rest)
        = some (ESC, rest)) := by
  refine ⟨fun b hb => editorReadKey_byte signedChar n b rest hb,
    fun b hb => charValue_ascii signedChar b hb, fun b => rfl, ?_, ?_⟩
  · intro seq key hmem
    rw [editorReadKey_escape]
    simp only [List.mem_cons, Prod.mk.injEq, List.mem_singleton, List.not_mem_nil, or_false] at hmem
    rcases hmem with h | h | h | h | h | h | h | h | h | h | h | h | h | h | h | h | h | h | h | h
    all_goals
      obtain ⟨h1, h2⟩ := h
      subst h1
      subst h2
      simp only [List.cons_append, List.nil_append]
      unfold readEscape
      simp
  · intro s0 hs
    rw [editorReadKey_escape]
    unfold readEscape
    simp [hs]

/-! ## The key dispatcher -/

/-- C31 at the input of one timeout, then `ESC [ A`, then `x`: the key is
`ARROW_UP` and `x` is left for the next call. -/
theorem C31_witness :
    editorReadKey true
        (List.replicate 1 readResult.timeout ++
          readResult.byte 27 :: ([readResult.byte 91, readResult.byte 65] ++ [readResult.byte 120]))
      = some (ARROW_UP, [readResult.byte 120]) :=
  (C31_key_decoding true 1 [readResult.byte 120]).2.2.2.1 _ _ (by simp)

/-- A sequence that no case handles is dropped and the bytes after it are read
as the continuation of an escape sequence: after `ESC [ Z` the bytes `[ A` give
`ARROW_UP`, and the byte `u` gives `UNDO_KEY`. -/
theorem unknown_sequence_restarts_escape :
    editorReadKey true
        [readResult.byte 27, readResult.byte 91, readResult.byte 90, readResult.byte 91,
          readResult.byte 65] = some (ARROW_UP, []) ∧
      editorReadKey true
        [readResult.byte 27, readResult.byte 91, readResult.byte 90, readResult.byte 117]
          = some (UNDO_KEY, []) := by
  constructor <;> decide

theorem editorProcessKeypress_quit (env : keypressEnv) (st : keypressState)
    (hd : st.E.dirty ≠ 0) (hq : st.quit_times ≠ 0) :
    ∃ msg, editorProcessKeypress env st CTRL_Q = some (keypressResult.returned
      { st with E := editorSetStatusMessage st.E msg, quit_times := st.quit_times - 1 }) := by
  unfold editorProcessKeypress
  rw [if_pos rfl, if_pos ⟨hd, hq⟩]
  exact ⟨_, rfl⟩

theorem editorProcessKeypress_exit (env : keypressEnv) (st : keypressState)
    (h : st.E.dirty = 0 ∨ st.quit_times = 0) :
    editorProcessKeypress env st CTRL_Q = some (keypressResult.exited 0) := by
  unfold editorProcessKeypress
  rw [if_pos rfl, if_neg]
  rintro ⟨h1, h2⟩
  rcases h with h | h
  · exact h1 h
  · exact h2 h

/-- C33: with a modified document and the counter at `KILO_QUIT_TIMES`, three
calls of `editorProcessKeypress` with `CTRL_Q` return, each with the counter
one lower and nothing changed but the status message, and the fourth call ends
the process with `exit(0)`; with an unmodified document the first call with
`CTRL_Q` ends the process with `exit(0)`; a call with any other key does not
end the process, returns exactly when the handler of the key returns, and then
the counter is `KILO_QUIT_TIMES` again; the keys `CTRL_C`, `CTRL_L` and `ESC`
return with nothing changed but the counter. -/
theorem C33_quit_needs_repeated_ctrl_q (env : keypressEnv) (st : keypressState) :
    (st.E.dirty ≠ 0 → st.quit_times = KILO_QUIT_TIMES →
      ∃ m1 m2 m3,
        editorProcessKeypress env st CTRL_Q = some (keypressResult.returned
          { st with E := editorSetStatusMessage st.E m1, quit_times := 2 }) ∧
        editorProcessKeypress env
            { st with E := editorSetStatusMessage st.E m1, quit_times := 2 } CTRL_Q
          = some (keypressResult.returned
            { st with E := editorSetStatusMessage st.E m2, quit_times := 1 }) ∧
        editorProcessKeypress env
            { st with E := editorSetStatusMessage st.E m2, quit_times := 1 } CTRL_Q
          = some (keypressResult.returned
            { st with E := editorSetStatusMessage st.E m3, quit_times := 0 }) ∧
        editorProcessKeypress env
            { st with E := editorSetStatusMessage st.E m3, quit_times := 0 } CTRL_Q
          = some (keypressResult.exited 0)) ∧
    (st.E.dirty = 0 → editorProcessKeypress env st CTRL_Q = some (keypressResult.exited 0)) ∧
    (∀ c, c ≠ CTRL_Q →
      (∀ code, editorProcessKeypress env st c ≠ some (keypressResult.exited code)) ∧
      (∀ st1, editorProcessKeypress env st c = some (keypressResult.returned st1) →
        st1.quit_times = KILO_QUIT_TIMES) ∧
      ((editorProcessKeypress env st c).isSome = (keyHandler env st c).isSome)) ∧
    (∀ c, c = CTRL_C ∨ c = CTRL_L ∨ c = ESC →
      editorProcessKeypress env st c
        = some (keypressResult.returned { st with quit_times := KILO_QUIT_TIMES })) := by
  refine ⟨fun hd hq => ?_, fun hd => editorProcessKeypress_exit env st (Or.inl hd), ?_, ?_⟩
  · obtain ⟨m1, h1⟩ := editorProcessKeypress_quit env st hd (by rw [hq]; decide)
    obtain ⟨m2, h2⟩ := editorProcessKeypress_quit env
      { st with E := editorSetStatusMessage st.E m1, quit_times := 2 } hd
      (by show (2 : Int) ≠ 0; decide)
    obtain ⟨m3, h3⟩ := editorProcessKeypress_quit env
      { st with E := editorSetStatusMessage st.E m2, quit_times := 1 } hd
      (by show (1 : Int) ≠ 0; decide)
    rw [hq] at h1
    exact ⟨m1, m2, m3, h1, h2, h3, editorProcessKeypress_exit env _ (Or.inr rfl)⟩
  · intro c hc
    unfold editorProcessKeypress
    rw [if_neg hc]
    cases keyHandler env st c with
    | none =>
      refine ⟨fun code h => Option.noConfusion h, fun st1 h => Option.noConfusion h, rfl⟩
    | some st0 =>
      refine ⟨fun code h => ?_, fun st1 h => ?_, rfl⟩
      · simp only [Option.map_some', Option.some.injEq] at h
        exact keypressResult.noConfusion h
      · simp only [Option.map_some', Option.some.injEq, keypressResult.returned.injEq] at h
        rw [← h]
  · intro c hc
    unfold editorProcessKeypress keyHandler
    rcases hc with h | h | h <;> subst h <;> rfl

/-- C33 at a state with `dirty == 1` and the counter at its reset value. -/
theorem C33_witness :
    ∃ m1 m2 m3,
      editorProcessKeypress {} { E := exTabX } CTRL_Q = some (keypressResult.returned
        { E := editorSetStatusMessage exTabX m1, quit_times := 2 }) ∧
      editorProcessKeypress {} { E := editorSetStatusMessage exTabX m1, quit_times := 2 } CTRL_Q
        = some (keypressResult.returned
          { E := editorSetStatusMessage exTabX m2, quit_times := 1 }) ∧
      editorProcessKeypress {} { E := editorSetStatusMessage exTabX m2, quit_times := 1 } CTRL_Q
        = some (keypressResult.returned
          { E := editorSetStatusMessage exTabX m3, quit_times := 0 }) ∧
      editorProcessKeypress {} { E := editorSetStatusMessage exTabX m3, quit_times := 0 } CTRL_Q
        = some (keypressResult.exited 0) :=
  (C33_quit_needs_repeated_ctrl_q {} { E := exTabX }).1 (by decide) rfl

/-- The case `END_KEY` puts the cursor at the rendered size of the row, or at
column 0 when the rendered size is left of the window. -/
theorem keyEnd_cursor (E : editorConfig) (r : Nat) (hnum : E.numrows ≤ E.row.length)
    (hr : r < E.numrows) (hrow : E.rowoff + E.cy = (r : Int)) :
    ∃ E', keyEnd E = some E' ∧ E'.row = E.row ∧ E'.numrows = E.numrows ∧
      E'.rowoff + E'.cy = (r : Int) ∧
      ((E'.coloff + E'.cx = ((E.row.getD r default).rsize : Int)) ∨
        ((((E.row.getD r default).rsize : Int) < E.coloff) ∧ E'.coloff + E'.cx = 0)) := by
  unfold keyEnd
  simp only [hrow]
  rw [if_pos (by omega), if_neg (by omega)]
  simp only [Int.toNat_ofNat]
  rw [getElem?_of_lt E.row r (by omega)]
  simp only
  split
  · next h => exact ⟨_, rfl, rfl, rfl, hrow, Or.inr ⟨h, rfl⟩⟩
  · split
    · exact ⟨_, rfl, rfl, rfl, hrow, Or.inl (by simp only; omega)⟩
    · exact ⟨_, rfl, rfl, rfl, hrow, Or.inl (by simp only; omega)⟩

/-- C38: `END_KEY` uses the rendered size of the row as the cursor column.  In
the row that holds a tab and `x` (raw length 2, rendered length 8) the call
of `editorProcessKeypress` with `END_KEY` leaves `coloff + cx == 8`, beyond the
raw length of the row. -/
theorem C38_end_key_uses_rendered_size :
    (exTabX.row.getD 0 default).raw = [TAB, 120] ∧ (exTabX.row.getD 0 default).size = 2 ∧
      (editorProcessKeypress {} { E := exTabX } END_KEY).map
          (fun res => match res with
            | keypressResult.returned st =>
              some (st.E.rowoff + st.E.cy, st.E.coloff + st.E.cx, st.E.row == exTabX.row)
            | keypressResult.exited _ => none)
        = some (some (0, 8, true)) := by
  refine ⟨by decide, by decide, by decide⟩

/-- The example row of the tab claims is what file loading builds from the
initial editor. -/
theorem tab_example_reachable :
    insertLines exInit [[9, 120]] = some exTabX := by
  decide!

/-! ## Cursor movement -/

theorem editorMoveCursor_unfold (E : editorConfig) (key : Int) :
    editorMoveCursor E key =
      if E.rowoff + E.cy < 0 then none
      else if E.rowoff + E.cy < E.numrows ∧
          (if E.rowoff + E.cy ≥ E.numrows then none
            else E.row[(E.rowoff + E.cy).toNat]?).isNone = true then none
      else
        match moveStep E key with
        | none => none
        | some E1 => fixCx E1 := rfl

theorem editorMoveCursor_eq (E : editorConfig) (key : Int) (h0 : 0 ≤ E.rowoff + E.cy)
    (hnum : E.numrows ≤ E.row.length) :
    editorMoveCursor E key = (moveStep E key).bind fixCx := by
  rw [editorMoveCursor_unfold, if_neg (by omega)]
  have hrow : ¬ (E.rowoff + E.cy < E.numrows ∧
      (if E.rowoff + E.cy ≥ E.numrows then none else E.row[(E.rowoff + E.cy).toNat]?).isNone
        = true) := by
    rintro ⟨h1, h2⟩
    rw [if_neg (by omega), getElem?_of_lt E.row _ (by omega)] at h2
    exact Bool.noConfusion h2
  rw [if_neg hrow]
  cases moveStep E key <;> rfl

/-- The last part of `editorMoveCursor` returns with the cursor on a valid
position, and moves `cx` only to the left, not below 0. -/
theorem fixCx_spec (E1 : editorConfig) (hnum : E1.numrows ≤ E1.row.length)
    (h0 : 0 ≤ E1.rowoff + E1.cy) (h1 : E1.rowoff + E1.cy ≤ E1.numrows)
    (h2 : 0 ≤ E1.coloff + E1.cx) :
    ∃ E', fixCx E1 = some E' ∧ cursorValid E' ∧ E'.row = E1.row ∧ E'.numrows = E1.numrows ∧
      E'.rowoff = E1.rowoff ∧ E'.cy = E1.cy ∧ E'.screenrows = E1.screenrows ∧
      E'.screencols = E1.screencols ∧
      (0 ≤ E1.cx → 0 ≤ E1.coloff → 0 ≤ E'.cx ∧ E'.cx ≤ E1.cx ∧ 0 ≤ E'.coloff) := by
  unfold fixCx
  simp only
  rw [if_neg (by omega)]
  by_cases hlt : E1.rowoff + E1.cy < E1.numrows
  · have hr : (if E1.rowoff + E1.cy ≥ E1.numrows then none
        else E1.row[(E1.rowoff + E1.cy).toNat]?)
          = some (E1.row.getD (E1.rowoff + E1.cy).toNat default) := by
      rw [if_neg (by omega), getElem?_of_lt E1.row _ (by omega)]
    rw [hr]
    simp only [Option.isNone_some, Bool.false_eq_true, and_false, if_false]
    by_cases hc : E1.coloff + E1.cx > ((E1.row.getD (E1.rowoff + E1.cy).toNat default).size : Int)
    · rw [if_pos hc]
      by_cases hneg : E1.cx - (E1.coloff + E1.cx -
          ((E1.row.getD (E1.rowoff + E1.cy).toNat default).size : Int)) < 0
      · rw [if_pos hneg]
        refine ⟨_, rfl, ?_, rfl, rfl, rfl, rfl, rfl, rfl, ?_⟩
        · unfold cursorValid
          simp only
          exact ⟨h0, Or.inl ⟨hlt, by omega, by omega⟩⟩
        · intro a b
          simp only
          omega
      · rw [if_neg hneg]
        refine ⟨_, rfl, ?_, rfl, rfl, rfl, rfl, rfl, rfl, ?_⟩
        · unfold cursorValid
          simp only
          exact ⟨h0, Or.inl ⟨hlt, by omega, by omega⟩⟩
        · intro a b
          simp only
          omega
    · rw [if_neg hc]
      refine ⟨_, rfl, ?_, rfl, rfl, rfl, rfl, rfl, rfl, ?_⟩
      · unfold cursorValid
        exact ⟨h0, Or.inl ⟨hlt, h2, by omega⟩⟩
      · intro a b
        omega
  · have hr : (if E1.rowoff + E1.cy ≥ E1.numrows then none
        else E1.row[(E1.rowoff + E1.cy).toNat]?) = none := by
      rw [if_pos (by omega)]
    rw [hr]
    simp only [Option.isNone_none, and_true]
    rw [if_neg hlt]
    by_cases hc : E1.coloff + E1.cx > 0
    · rw [if_pos hc]
      by_cases hneg : E1.cx - (E1.coloff + E1.cx - 0) < 0
      · rw [if_pos hneg]
        refine ⟨_, rfl, ?_, rfl, rfl, rfl, rfl, rfl, rfl, ?_⟩
        · unfold cursorValid
          simp only
          exact ⟨h0, Or.inr ⟨by omega, by omega⟩⟩
        · intro a b
          simp only
          omega
      · rw [if_neg hneg]
        refine ⟨_, rfl, ?_, rfl, rfl, rfl, rfl, rfl, rfl, ?_⟩
        · unfold cursorValid
          simp only
          exact ⟨h0, Or.inr ⟨by omega, by omega⟩⟩
        · intro a b
          simp only
          omega
    · rw [if_neg hc]
      refine ⟨_, rfl, ?_, rfl, rfl, rfl, rfl, rfl, rfl, ?_⟩
      · unfold cursorValid
        exact ⟨h0, Or.inr ⟨by omega, by omega⟩⟩
      · intro a b
        omega

/-- The `switch` of `editorMoveCursor` from a valid cursor position with
non-negative cursor fields: it returns, changes nothing but the cursor fields,
and leaves the cursor row within `0 .. numrows` and the cursor column not
negative.  From a cursor inside the window the cursor fields stay inside the
window, except that `ARROW_LEFT` at the start of the first row of the window,
with rows above the window, makes `cy` negative. -/
theorem moveStep_spec (E : editorConfig) (key : Int) (hnum : E.numrows ≤ E.row.length)
    (hv : cursorValid E) (hcx : 0 ≤ E.cx) (hcy : 0 ≤ E.cy) (hro : 0 ≤ E.rowoff)
    (hco : 0 ≤ E.coloff) :
    ∃ E1, moveStep E key = some E1 ∧ E1.row = E.row ∧ E1.numrows = E.numrows ∧
      E1.screenrows = E.screenrows ∧ E1.screencols = E.screencols ∧
      0 ≤ E1.rowoff + E1.cy ∧ E1.rowoff + E1.cy ≤ E1.numrows ∧ 0 ≤ E1.coloff + E1.cx ∧
      (inWindow E →
        ¬ (key = ARROW_LEFT ∧ E.cx = 0 ∧ E.coloff = 0 ∧ E.cy = 0 ∧ 0 < E.rowoff) →
        inWindow E1) := by
  obtain ⟨hv0, hv1⟩ := hv
  have hle : E.rowoff + E.cy ≤ E.numrows := by
    rcases hv1 with h | h <;> omega
  unfold moveStep
  simp only
  by_cases kl : key = ARROW_LEFT
  · rw [if_pos kl]
    by_cases c0 : E.cx = 0
    · rw [if_pos c0]
      by_cases co : E.coloff ≠ 0
      · rw [if_pos co]
        refine ⟨_, rfl, rfl, rfl, rfl, rfl, hv0, hle, by simp only; omega, ?_⟩
        intro hw _
        unfold inWindow at hw ⊢
        simp only
        omega
      · rw [if_neg co]
        by_cases fr : E.rowoff + E.cy > 0
        · rw [if_pos fr, getElem?_of_lt E.row _ (by omega)]
          simp only
          by_cases hs : ((E.row.getD ((E.rowoff + E.cy).toNat - 1) default).size : Int)
              > E.screencols - 1
          · rw [if_pos hs]
            refine ⟨_, rfl, rfl, rfl, rfl, rfl, by simp only; omega, by simp only; omega,
              by simp only; omega, ?_⟩
            intro hw hex
            unfold inWindow at hw ⊢
            simp only
            omega
          · rw [if_neg hs]
            refine ⟨_, rfl, rfl, rfl, rfl, rfl, by simp only; omega, by simp only; omega,
              by simp only; omega, ?_⟩
            intro hw hex
            unfold inWindow at hw ⊢
            simp only
            omega
        · rw [if_neg fr]
          refine ⟨_, rfl, rfl, rfl, rfl, rfl, hv0, hle, by omega, fun hw _ => hw⟩
    · rw [if_neg c0]
      refine ⟨_, rfl, rfl, rfl, rfl, rfl, hv0, hle, by simp only; omega, ?_⟩
      intro hw _
      unfold inWindow at hw ⊢
      simp only
      omega
  · rw [if_neg kl]
    by_cases kr : key = ARROW_RIGHT
    · rw [if_pos kr]
      by_cases hlt : E.rowoff + E.cy < E.numrows
      · have hr : (if E.rowoff + E.cy ≥ E.numrows then none
            else E.row[(E.rowoff + E.cy).toNat]?)
              = some (E.row.getD (E.rowoff + E.cy).toNat default) := by
          rw [if_neg (by omega), getElem?_of_lt E.row _ (by omega)]
        rw [hr]
        simp only
        by_cases h1 : E.coloff + E.cx
            < ((E.row.getD (E.rowoff + E.cy).toNat default).size : Int)
        · rw [if_pos h1]
          by_cases h2 : E.cx = E.screencols - 1
          · rw [if_pos h2]
            refine ⟨_, rfl, rfl, rfl, rfl, rfl, hv0, hle, by simp only; omega, ?_⟩
            intro hw _
            unfold inWindow at hw ⊢
            simp only
            omega
          · rw [if_neg h2]
            refine ⟨_, rfl, rfl, rfl, rfl, rfl, hv0, hle, by simp only; omega, ?_⟩
            intro hw _
            unfold inWindow at hw ⊢
            simp only
            omega
        · rw [if_neg h1]
          by_cases h3 : E.coloff + E.cx
              = ((E.row.getD (E.rowoff + E.cy).toNat default).size : Int)
          · rw [if_pos h3]
            by_cases h4 : E.cy = E.screenrows - 1
            · rw [if_pos h4]
              refine ⟨_, rfl, rfl, rfl, rfl, rfl, by simp only; omega, by simp only; omega,
                by simp only; omega, ?_⟩
              intro hw _
              unfold inWindow at hw ⊢
              simp only
              omega
            · rw [if_neg h4]
              refine ⟨_, rfl, rfl, rfl, rfl, rfl, by simp only; omega, by simp only; omega,
                by simp only; omega, ?_⟩
              intro hw _
              unfold inWindow at hw ⊢
              simp only
              omega
          · rw [if_neg h3]
            refine ⟨_, rfl, rfl, rfl, rfl, rfl, hv0, hle, by omega, fun hw _ => hw⟩
      · have hr : (if E.rowoff + E.cy ≥ E.numrows then none
            else E.row[(E.rowoff + E.cy).toNat]?) = none := by
          rw [if_pos (by omega)]
        rw [hr]
        refine ⟨_, rfl, rfl, rfl, rfl, rfl, hv0, hle, by omega, fun hw _ => hw⟩
    · rw [if_neg kr]
      by_cases ku : key = ARROW_UP
      · rw [if_pos ku]
        by_cases h1 : E.cy = 0
        · rw [if_pos h1]
          by_cases h2 : E.rowoff ≠ 0
          · rw [if_pos h2]
            refine ⟨_, rfl, rfl, rfl, rfl, rfl, by simp only; omega, by simp only; omega,
              by simp only; omega, ?_⟩
            intro hw _
            unfold inWindow at hw ⊢
            simp only
            omega
          · rw [if_neg h2]
            refine ⟨_, rfl, rfl, rfl, rfl, rfl, hv0, hle, by omega, fun hw _ => hw⟩
        · rw [if_neg h1]
          refine ⟨_, rfl, rfl, rfl, rfl, rfl, by simp only; omega, by simp only; omega,
            by simp only; omega, ?_⟩
          intro hw _
          unfold inWindow at hw ⊢
          simp only
          omega
      · rw [if_neg ku]
        by_cases kd : key = ARROW_DOWN
        · rw [if_pos kd]
          by_cases h1 : E.rowoff + E.cy < E.numrows
          · rw [if_pos h1]
            by_cases h2 : E.cy = E.screenrows - 1
            · rw [if_pos h2]
              refine ⟨_, rfl, rfl, rfl, rfl, rfl, by simp only; omega, by simp only; omega,
                by simp only; omega, ?_⟩
              intro hw _
              unfold inWindow at hw ⊢
              simp only
              omega
            · rw [if_neg h2]
              refine ⟨_, rfl, rfl, rfl, rfl, rfl, by simp only; omega, by simp only; omega,
                by simp only; omega, ?_⟩
              intro hw _
              unfold inWindow at hw ⊢
              simp only
              omega
          · rw [if_neg h1]
            refine ⟨_, rfl, rfl, rfl, rfl, rfl, hv0, hle, by omega, fun hw _ => hw⟩
        · rw [if_neg kd]
          refine ⟨_, rfl, rfl, rfl, rfl, rfl, hv0, hle, by omega, fun hw _ => hw⟩

/-- The function `editorMoveCursor` from a valid cursor position with
non-negative cursor fields. -/
theorem editorMoveCursor_spec (E : editorConfig) (key : Int) (hnum : E.numrows ≤ E.row.length)
    (hv : cursorValid E) (hcx : 0 ≤ E.cx) (hcy : 0 ≤ E.cy) (hro : 0 ≤ E.rowoff)
    (hco : 0 ≤ E.coloff) :
    ∃ E', editorMoveCursor E key = some E' ∧ cursorValid E' ∧ E'.row = E.row ∧
      E'.numrows = E.numrows ∧ E'.screenrows = E.screenrows ∧ E'.screencols = E.screencols ∧
      (inWindow E →
        ¬ (key = ARROW_LEFT ∧ E.cx = 0 ∧ E.coloff = 0 ∧ E.cy = 0 ∧ 0 < E.rowoff) →
        inWindow E') := by
  obtain ⟨E1, hE1, r1, r2, r3, r4, a1, a2, a3, hw1⟩ := moveStep_spec E key hnum hv hcx hcy hro hco
  obtain ⟨E', hE', v, s1, s2, s3, s4, s5, s6, hw2⟩ :=
    fixCx_spec E1 (by rw [r1, r2]; exact hnum) a1 a2 a3
  refine ⟨E', ?_, v, by rw [s1, r1], by rw [s2, r2], by rw [s5, r3], by rw [s6, r4], ?_⟩
  · rw [editorMoveCursor_eq E key hv.1 hnum, hE1]
    exact hE'
  · intro hw hex
    have h1 := hw1 hw hex
    unfold inWindow at h1 ⊢
    obtain ⟨b1, b2, b3⟩ := hw2 h1.1 h1.2.2.2.2.2
    rw [s3, s4, s5, s6]
    omega

/-- C32: from a state in which `cx`, `cy`, `rowoff` and `coloff` are not
negative and `(rowoff + cy, coloff + cx)` addresses a row of the document at a
raw column from 0 to its length, or the row after the last one at column 0,
`editorMoveCursor` returns for every key, the four arrow keys among them,
leaves the document as it is, and `(rowoff + cy, coloff + cx)` again addresses
a row of the document at a raw column from 0 to its length, or the row after
the last one at column 0. -/
theorem C32_move_cursor_keeps_position_valid (E : editorConfig) (key : Int)
    (hnum : E.numrows ≤ E.row.length) (hv : cursorValid E) (hcx : 0 ≤ E.cx) (hcy : 0 ≤ E.cy)
    (hro : 0 ≤ E.rowoff) (hco : 0 ≤ E.coloff) :
    ∃ E', editorMoveCursor E key = some E' ∧ cursorValid E' ∧ E'.row = E.row ∧
      E'.numrows = E.numrows := by
  obtain ⟨E', h1, h2, h3, h4, -⟩ := editorMoveCursor_spec E key hnum hv hcx hcy hro hco
  exact ⟨E', h1, h2, h3, h4⟩

/-- C32 at the document `x`, `a`, `x` with the cursor on the second row and the
key `ARROW_LEFT`. -/
theorem C32_witness :
    ∃ E', editorMoveCursor exFindDoc ARROW_LEFT = some E' ∧ cursorValid E' ∧
      E'.row = exFindDoc.row ∧ E'.numrows = exFindDoc.numrows :=
  C32_move_cursor_keeps_position_valid exFindDoc ARROW_LEFT (by decide) (by decide) (by decide)
    (by decide) (by decide) (by decide)

/-- From a cursor inside the window on a valid position, `ARROW_UP`,
`ARROW_DOWN` and `ARROW_RIGHT` leave the cursor inside the window, and so does
`ARROW_LEFT` unless the cursor is at the start of the first line of a window
that has rows above it. -/
theorem arrow_keys_keep_window (E : editorConfig) (key : Int)
    (hnum : E.numrows ≤ E.row.length) (hv : cursorValid E) (hw : inWindow E)
    (hex : ¬ (key = ARROW_LEFT ∧ E.cx = 0 ∧ E.coloff = 0 ∧ E.cy = 0 ∧ 0 < E.rowoff)) :
    ∃ E', editorMoveCursor E key = some E' ∧ cursorValid E' ∧ inWindow E' := by
  have hw0 := hw
  unfold inWindow at hw0
  obtain ⟨E', h1, h2, -, -, -, -, h3⟩ :=
    editorMoveCursor_spec E key hnum hv hw0.1 hw0.2.2.1 hw0.2.2.2.2.1 hw0.2.2.2.2.2
  exact ⟨E', h1, h2, h3 hw hex⟩

/-- C37: the cursor does not always stay inside the window.  With the window
scrolled down by one row and the cursor at the start of its first line (a valid
position inside the window), `ARROW_LEFT` moves to the end of the row above by
`cy--` and leaves `cy == -1`.  With the cursor at the start of a row that
follows a row of 82 bytes, in a window of 80 columns, `editorDelChar` joins the
rows and leaves `cx == 83` and `coloff == -1`. -/
theorem C37_cursor_leaves_window :
    exScrolled.map (fun E => (decide (inWindow E), decide (cursorValid E), E.cx, E.cy,
        E.rowoff, E.coloff)) = some (true, true, 0, 0, 1, 0) ∧
    (exScrolled.bind (fun E => editorMoveCursor E ARROW_LEFT)).map
        (fun E => (E.cx, E.cy, E.rowoff, E.coloff)) = some (1, -1, 1, 0) ∧
    exLongPair.map (fun E => (decide (inWindow E), decide (cursorValid E), E.cx, E.cy,
        E.rowoff, E.coloff)) = some (true, true, 0, 1, 0, 0) ∧
    (exLongPair.bind editorDelChar).map
        (fun E => (E.cx, E.cy, E.rowoff, E.coloff)) = some (83, 0, 0, -1) := by
  refine ⟨?_, ?_, ?_, ?_⟩
  · decide!
  · decide!
  · decide!
  · decide!

/-! ## The cursor column of the frame -/

/-- Without a tab between the left edge of the window and the cursor, the
cursor loop adds one column for each byte. -/
theorem cursorLoop_no_tab (row : erow) :
    ∀ (n j : Nat) (cx : Int),
      (∀ k, j ≤ k → k < j + n → ¬ (k < row.size ∧ row.chars.getD k 0 = TAB)) →
      cursorLoop row n j cx = cx + n
  | 0, j, cx, _ => by
    unfold cursorLoop
    simp
  | n + 1, j, cx, h => by
    unfold cursorLoop
    simp only
    rw [if_neg (h j (Nat.le_refl _) (by omega)),
      cursorLoop_no_tab row n (j + 1) (cx + 1) (fun k h1 h2 => h k (by omega) (by omega))]
    push_cast
    omega

/-- The column of the cursor escape when no tab stands left of the cursor in
its row and the window is not scrolled sideways: the margin width, plus one,
plus `cx`. -/
theorem cursorColumn_no_tab (E : editorConfig) (r : Nat) (hnum : E.numrows ≤ E.row.length)
    (hr : r < E.numrows) (hrow : E.rowoff + E.cy = (r : Int)) (hco : E.coloff = 0)
    (hcx : 0 ≤ E.cx)
    (hnt : ∀ k, k < E.cx.toNat →
      ¬ (k < (E.row.getD r default).size ∧ (E.row.getD r default).chars.getD k 0 = TAB)) :
    cursorColumn E = some ((linenoWidth E : Int) + 1 + E.cx) := by
  unfold cursorColumn
  simp only [hrow, hco]
  rw [if_neg (by omega), if_neg (by omega)]
  simp only [Int.toNat_ofNat, Int.toNat_zero]
  rw [getElem?_of_lt E.row r (by omega)]
  simp only
  rw [cursorLoop_no_tab _ _ _ _ (fun k _ h2 => hnt k (by omega))]
  congr 1
  omega

/-- C39: the cursor escape does not point at the byte under the cursor when a
tab stands left of it.  In the one-row document that holds a tab and `x`, with
the cursor on `x` (raw column 1, rendered offset 7, `coloff == 0`), the margin
is 3 columns wide and the frame draws `x` at column 3 + 1 + 7 = 11, but the
column of the cursor escape is 8: the tab stop arithmetic `7 - cx % 8` is
applied to the screen column, margin included. -/
theorem C39_cursor_escape_misses_byte_after_tab :
    editorMoveCursor exTabX ARROW_RIGHT = some { exTabX with cx := 1 } ∧
      (renderLoop ((exTabX.row.getD 0 default).raw.take 1) []).length = 7 ∧
      linenoWidth exTabX = 3 ∧
      drawnColumn { exTabX with cx := 1 } 0 7 = some 11 ∧
      cursorColumn { exTabX with cx := 1 } = some 8 := by
  refine ⟨?_, ?_, ?_, ?_, ?_⟩
  · decide!
  · decide!
  · decide!
  · decide!
  · decide!

/-! ## The scan positions and stores of `editorUpdateSyntax` -/

/-- C40: the scan leaves the row in two ways.  In the row that holds a double
quote and a backslash (`rsize == 2`) the turn for the backslash inside the
string stores to `hl[2]`, an index that is not below `rsize`, and moves the
scan position to 3, past the terminator at index 2, where the loop then tests
`*p`.  In the row that holds a tab and `//` (`size == 3`, `rsize == 9`) the
line comment starts at position 7 and the length of its `memset` is
`size - i == -4` converted to `size_t`, so that the store runs far past the end
of the highlight array.  Both rows are what file loading makes of these lines,
up to the highlight fields, and the scan starts at the first byte that is not
white space, outside a comment; file loading under the C profile does not
return normally for either line. -/
theorem C40_scan_leaves_the_row :
    (insertLines exInit [[34, 92]]).map (fun E => E.row.map erow.strip)
        = some [exEscapeRow.strip] ∧
      insertLines exInitC [[34, 92]] = none ∧
      exEscapeRow.rsize = 2 ∧
      scanTrace HLDB_C exEscapeRow (2 * exEscapeRow.render.length + 2)
          { i := skipSpaces exEscapeRow.render, prev_sep := true, in_string := 0,
            in_comment := false, hl := List.replicate 2 HL_NORMAL }
        = ([0, 1, 3], [(0, 1), (1, 1), (2, 1)]) ∧
      (insertLines exInit [[9, 47, 47]]).map (fun E => E.row.map erow.strip)
        = some [exTabCommentRow.strip] ∧
      insertLines exInitC [[9, 47, 47]] = none ∧
      exTabCommentRow.rsize = 9 ∧
      scanTrace HLDB_C exTabCommentRow (2 * exTabCommentRow.render.length + 2)
          { i := skipSpaces exTabCommentRow.render, prev_sep := true, in_string := 0,
            in_comment := false, hl := List.replicate 9 HL_NORMAL }
        = ([7], [(7, 18446744073709551612)]) := by
  refine ⟨?_, ?_, rfl, ?_, ?_, ?_, rfl, ?_⟩
  · decide!
  · decide!
  · decide!
  · decide!
  · decide!
  · decide!


/-- C36 at a value that is no highlight class. -/
theorem C36_witness : editorSyntaxToColor 100 = 37 :=
  C36_syntax_to_color.2.2.2.2.2.2.2.2.2.2 100 (by decide) (by decide) (by decide) (by decide)
    (by decide) (by decide) (by decide)

/-- The states of the window claims are inside the model: the scrolled window
and the long pair of rows are built by file loading and arrow keys. -/
theorem window_examples_reachable :
    exScrolled.isSome = true ∧ exLongPair.isSome = true := by
  constructor <;> decide!

/-! ## Arrow keys in the key dispatcher -/

/-- An arrow key between two presses of `CTRL_Q`: from a valid cursor position
with non-negative cursor fields the call of `editorProcessKeypress` returns,
the cursor position is valid again, the document is unchanged and the quit
counter is back at `KILO_QUIT_TIMES`. -/
theorem arrow_key_resets_quit_counter (env : keypressEnv) (st : keypressState) (c : Int)
    (hc : c = ARROW_UP ∨ c = ARROW_DOWN ∨ c = ARROW_LEFT ∨ c = ARROW_RIGHT)
    (hnum : st.E.numrows ≤ st.E.row.length) (hv : cursorValid st.E) (hcx : 0 ≤ st.E.cx)
    (hcy : 0 ≤ st.E.cy) (hro : 0 ≤ st.E.rowoff) (hco : 0 ≤ st.E.coloff) :
    ∃ st1, editorProcessKeypress env st c = some (keypressResult.returned st1) ∧
      st1.quit_times = KILO_QUIT_TIMES ∧ cursorValid st1.E ∧ st1.E.row = st.E.row ∧
      st1.E.numrows = st.E.numrows := by
  obtain ⟨E1, h1, h2, h3, h4, -⟩ := editorMoveCursor_spec st.E c hnum hv hcx hcy hro hco
  have hk : keyHandler env st c = some { st with E := E1, d_pressed := 0 } := by
    unfold keyHandler
    rw [if_neg (by rcases hc with h | h | h | h <;> rw [h] <;> decide),
      if_neg (by rcases hc with h | h | h | h <;> rw [h] <;> decide),
      if_neg (by rcases hc with h | h | h | h <;> rw [h] <;> decide),
      if_neg (by rcases hc with h | h | h | h <;> rw [h] <;> decide),
      if_neg (by rcases hc with h | h | h | h <;> rw [h] <;> decide),
      if_neg (by rcases hc with h | h | h | h <;> rw [h] <;> decide),
      if_pos hc, h1]
    rfl
  refine ⟨{ st with E := E1, d_pressed := 0, quit_times := KILO_QUIT_TIMES }, ?_, rfl, h2, h3,
    h4⟩
  unfold editorProcessKeypress
  rw [if_neg (by rcases hc with h | h | h | h <;> rw [h] <;> decide), hk]
  rfl

/-! ## Calls in which the scan leaves the highlight array -/

/-- C2 fails for a line with a tab before `//`.  Under the C profile the call
`editorInsertRow(0, s, 3)` with the line of a tab and `//` in the empty
document renders the row as seven spaces and `//` (`rsize == 9`), and the scan
of `editorUpdateSyntax` finds the line comment at rendered offset 7 and stores
`size - i == 3 - 7` entries, converted to `size_t`, from `hl[7]` on: the store
leaves the 9 entries of the highlight array and the call does not return
normally.  Without profile the same call gives the document of the claim. -/
theorem C2_insert_row_leaves_highlight_array :
    editorInsertRow (exInitWith (some HLDB_C)) 0 [9, 47, 47, 0] 3 = none ∧
      (rendered (freshRow 0 [9, 47, 47, 0] 3)).render = [32, 32, 32, 32, 32, 32, 32, 47, 47] ∧
      (rendered (freshRow 0 [9, 47, 47, 0] 3)).size = 3 ∧
      scanTrace HLDB_C (rendered (freshRow 0 [9, 47, 47, 0] 3)) (2 * 9 + 2)
          (scanStart (rendered (freshRow 0 [9, 47, 47, 0] 3)) false)
        = ([7], [(7, 18446744073709551612)]) ∧
      (editorInsertRow (exInitWith none) 0 [9, 47, 47, 0] 3).map
          (fun E => (E.rows.map erow.raw, E.numrows)) = some ([[9, 47, 47]], 1) := by
  refine ⟨?_, ?_, ?_, ?_, ?_⟩
  · decide!
  · decide!
  · decide!
  · decide!
  · decide!

/-- C5 fails for a slash typed behind a tab and a slash.  Under the C profile,
in the document with the one row of a tab and a slash, the call
`editorRowInsertChar(row, 2, '/')` makes the raw content a tab and `//`; the
scan of the re-rendered row (`rsize == 9`, `size == 3`) stores `3 - 7` entries,
converted to `size_t`, from `hl[7]` on and the call does not return normally.
Without profile the same call gives the raw content of the claim. -/
theorem C5_insert_char_leaves_highlight_array :
    (exTabSlash (some HLDB_C)).map (fun E => E.rows.map erow.raw) = some [[9, 47]] ∧
      (exTabSlash (some HLDB_C)).bind (fun E => editorRowInsertChar E (some 0) 2 47) = none ∧
      (exTabSlash (some HLDB_C)).map
          (fun E =>
            ((rendered (insertedRow (E.row.getD 0 default) 2 47)).size,
              (rendered (insertedRow (E.row.getD 0 default) 2 47)).rsize,
              scanTrace HLDB_C (rendered (insertedRow (E.row.getD 0 default) 2 47)) (2 * 9 + 2)
                (scanStart (rendered (insertedRow (E.row.getD 0 default) 2 47)) false)))
        = some (3, 9, [7], [(7, 18446744073709551612)]) ∧
      ((exTabSlash none).bind (fun E => editorRowInsertChar E (some 0) 2 47)).map
          (fun E => E.rows.map (fun r => (r.raw, r.size))) = some [([9, 47, 47], 3)] := by
  refine ⟨?_, ?_, ?_, ?_⟩
  · decide!
  · decide!
  · decide!
  · decide!

/-- C1 fails for a slash inserted behind a tab and a slash.  Under the C
profile, in the document with the one row of a tab and a slash, the call
`editorRowInsertChar(row, 2, '/')` does not return normally, because the scan
of the row with a tab and `//` leaves the highlight array, so that the
following `editorRowDelChar(row, 2)` restores nothing.  Without profile the
two calls restore the raw content and the size. -/
theorem C1_insert_then_delete_leaves_highlight_array :
    (exTabSlash (some HLDB_C)).map (fun E => E.rows.map (fun r => (r.raw, r.size)))
        = some [([9, 47], 2)] ∧
      (exTabSlash (some HLDB_C)).bind
          (fun E => (editorRowInsertChar E (some 0) 2 47).bind
            (fun E1 => editorRowDelChar E1 0 2)) = none ∧
      ((exTabSlash none).bind
          (fun E => (editorRowInsertChar E (some 0) 2 47).bind
            (fun E1 => editorRowDelChar E1 0 2))).map
          (fun E => E.rows.map (fun r => (r.raw, r.size))) = some [([9, 47], 2)] := by
  refine ⟨?_, ?_, ?_⟩
  · decide!
  · decide!
  · decide!

/-- C6 fails for the row of a tab and `/x/ab`.  Under the C profile the call
`editorRowDelChar(row, 2)` shifts the bytes and renders the row before it
decrements `size`: the scan sees seven spaces, `//ab` and the old terminator
(`rsize == 12`) with `size == 6`, finds the line comment at rendered offset 7
and stores `6 - 7` entries, converted to `size_t`, from `hl[7]` on, so that
the call does not return normally.  Without profile the same call gives the
raw content of the claim. -/
theorem C6_delete_char_leaves_highlight_array :
    (exTabSlashX (some HLDB_C)).map (fun E => E.rows.map erow.raw)
        = some [[9, 47, 120, 47, 97, 98]] ∧
      (exTabSlashX (some HLDB_C)).bind (fun E => editorRowDelChar E 0 2) = none ∧
      (exTabSlashX (some HLDB_C)).map
          (fun E =>
            ((rendered { E.row.getD 0 default with
                chars := memmove (E.row.getD 0 default).chars 2 3 4 }).size,
              (rendered { E.row.getD 0 default with
                chars := memmove (E.row.getD 0 default).chars 2 3 4 }).rsize,
              scanTrace HLDB_C
                (rendered { E.row.getD 0 default with
                  chars := memmove (E.row.getD 0 default).chars 2 3 4 }) (2 * 12 + 2)
                (scanStart
                  (rendered { E.row.getD 0 default with
                    chars := memmove (E.row.getD 0 default).chars 2 3 4 }) false)))
        = some (6, 12, [7], [(7, 18446744073709551615)]) ∧
      ((exTabSlashX none).bind (fun E => editorRowDelChar E 0 2)).map
          (fun E => E.rows.map (fun r => (r.raw, r.size))) = some [([9, 47, 47, 97, 98], 5)] := by
  refine ⟨?_, ?_, ?_, ?_⟩
  · decide!
  · decide!
  · decide!
  · decide!

/-- C9 fails when a backslash is appended to a row that ends inside a string.
Under the C profile, in the document with the rows of a double quote and of a
backslash, the call `editorRowAppendString(row 0, "\\", 1)`, which joins the
two rows, renders the first row as the quote and the backslash
(`rsize == 2`); the turn of the scan for the backslash stores to `hl[2]`, an
entry that the array of `rsize` entries does not have, and moves the scan
position to 3, past the terminator, so that the call does not return normally.
Without profile the call returns and every row has `rsize` highlight
entries. -/
theorem C9_append_stores_past_highlight_array :
    (exQuoteBackslash (some HLDB_C)).map
        (fun E => E.rows.map (fun r => (r.raw, r.hl.length, r.rsize)))
        = some [([34], 1, 1), ([92], 1, 1)] ∧
      (exQuoteBackslash (some HLDB_C)).bind (fun E => editorRowAppendString E 0 [92, 0] 1)
        = none ∧
      (exQuoteBackslash (some HLDB_C)).map
          (fun E =>
            ((rendered (appendedRow (E.row.getD 0 default) [92, 0] 1)).rsize,
              scanTrace HLDB_C (rendered (appendedRow (E.row.getD 0 default) [92, 0] 1))
                (2 * 2 + 2)
                (scanStart (rendered (appendedRow (E.row.getD 0 default) [92, 0] 1)) false)))
        = some (2, [0, 1, 3], [(0, 1), (1, 1), (2, 1)]) ∧
      ((exQuoteBackslash none).bind (fun E => editorRowAppendString E 0 [92, 0] 1)).map
          (fun E => E.rows.map (fun r => (r.raw, r.hl.length, r.rsize)))
        = some [([34, 92], 2, 2), ([92], 1, 1)] := by
  refine ⟨?_, ?_, ?_, ?_⟩
  · decide!
  · decide!
  · decide!
  · decide!

/-- C11 fails when the part of the line behind the cursor starts with a tab
before `//`.  Under the C profile, in the document with the one row `ab`, a tab
and `//cde` and the cursor behind `ab`, `editorInsertNewline` calls
`editorInsertRow` with the tab and `//cde`; the new row is rendered as seven
spaces and `//cde` (`rsize == 12`, `size == 6`), the scan finds the line
comment at rendered offset 7 and stores `6 - 7` entries, converted to
`size_t`, from `hl[7]` on, so that the call does not return normally.  Without
profile the call splits the row as the claim says. -/
theorem C11_newline_leaves_highlight_array :
    (exTabbedComment (some HLDB_C)).map
        (fun E => (E.rows.map erow.raw, E.rowoff + E.cy, E.coloff + E.cx))
        = some ([[97, 98, 9, 47, 47, 99, 100, 101]], 0, 2) ∧
      (exTabbedComment (some HLDB_C)).bind editorInsertNewline = none ∧
      (rendered (freshRow 1 [9, 47, 47, 99, 100, 101, 0] 6)).rsize = 12 ∧
      scanTrace HLDB_C (rendered (freshRow 1 [9, 47, 47, 99, 100, 101, 0] 6)) (2 * 12 + 2)
          (scanStart (rendered (freshRow 1 [9, 47, 47, 99, 100, 101, 0] 6)) false)
        = ([7], [(7, 18446744073709551615)]) ∧
      ((exTabbedComment none).bind editorInsertNewline).map (fun E => E.rows.map erow.raw)
        = some [[97, 98], [9, 47, 47, 99, 100, 101]] := by
  refine ⟨?_, ?_, ?_, ?_, ?_⟩
  · decide!
  · decide!
  · decide!
  · decide!
  · decide!

/-- C24 fails for a slash typed behind a tab and a slash.  Under the C profile,
in the document with the one row of a tab and a slash and the cursor at the
end of the row, `editorInsertChar('/')` does not return normally, because the
scan of the row with a tab and `//` leaves the highlight array; `executeUndo`
is not reached.  Without profile the call and the undo after it give the rows
of the start. -/
theorem C24_insert_char_leaves_highlight_array :
    (exTabSlashEnd (some HLDB_C)).map
        (fun E => (E.rows.map erow.raw, E.rowoff + E.cy, E.coloff + E.cx))
        = some ([[9, 47]], 0, 2) ∧
      (exTabSlashEnd (some HLDB_C)).bind (fun E => editorInsertChar E 47) = none ∧
      ((exTabSlashEnd none).bind (fun E => editorInsertChar E 47)).map
          (fun E => E.rows.map erow.raw) = some [[9, 47, 47]] ∧
      ((exTabSlashEnd none).bind
          (fun E => (editorInsertChar E 47).bind executeUndo)).map
          (fun E => E.rows.map erow.raw) = some [[9, 47]] := by
  refine ⟨?_, ?_, ?_, ?_⟩
  · decide!
  · decide!
  · decide!
  · decide!

/-- C26 fails for the undo of a deleted line with a tab before `//`.  Under the
C profile the rows `/*` and a tab with `ab //` are loaded, the second row is
deleted with `editorDeleteCurrentLine` and an empty row is entered before the
first: the rows are the empty row and `/*`, and the undo stack holds the
deleted line.  `executeUndo` inserts the line again at position 1, now behind
the empty row and so outside the comment; the scan finds the line comment at
rendered offset 10 of the row with `size == 6` and stores `6 - 10` entries,
converted to `size_t`, from `hl[10]` on, so that the call does not return
normally.  Without profile the call pops the entry. -/
theorem C26_undo_leaves_highlight_array :
    (exPendingLine (some HLDB_C)).map
        (fun E => (E.rows.map erow.raw, E.undo_stack, E.undo_count))
        = some ([[], [47, 42]],
            [{ type := undo_type.UNDO_DELETE_LINE, row := 1, col := 0,
               data := some [9, 97, 98, 32, 47, 47, 0], data_len := 6 }], 1) ∧
      (exPendingLine (some HLDB_C)).bind executeUndo = none ∧
      (rendered (freshRow 1 [9, 97, 98, 32, 47, 47, 0] 6)).rsize = 12 ∧
      scanTrace HLDB_C (rendered (freshRow 1 [9, 97, 98, 32, 47, 47, 0] 6)) (2 * 12 + 2)
          (scanStart (rendered (freshRow 1 [9, 97, 98, 32, 47, 47, 0] 6)) false)
        = ([7, 8, 9, 10], [(10, 18446744073709551612)]) ∧
      ((exPendingLine none).bind executeUndo).map
          (fun E => (E.rows.map erow.raw, E.undo_stack, E.undo_count))
        = some ([[], [9, 97, 98, 32, 47, 47], [47, 42]], [], 0) := by
  refine ⟨?_, ?_, ?_, ?_, ?_⟩
  · decide!
  · decide!
  · decide!
  · decide!
  · decide!

end Kilo
